import Mathlib

/-!
# Verification of `src/arch/sse2_expf.h` (vectorised `exp`)

The SSE2 registers are embedded lane by lane.  A lane is the bit pattern of an
IEEE-754 binary32 / binary64 number or of a 32-bit two's complement integer,
held in a `Nat`.  The SSE2 instructions used by the source are embedded with the
semantics of the instruction set under the default control word (round to
nearest even, denormals kept).  The scalar routines of the C library used by the
fallback paths (`expf`, `exp`, `floor`) are arguments of the embedded functions.
-/

namespace ML
namespace SIMD

/-! ## Binary floating-point formats -/

/-- A binary interchange format: `mb` stored significand bits and `eb` exponent bits. -/
structure Fmt where
  mb : Nat
  eb : Nat

/-- IEEE-754 binary32 (`float`). -/
def binary32 : Fmt := ⟨23, 8⟩

/-- IEEE-754 binary64 (`double`). -/
def binary64 : Fmt := ⟨52, 11⟩

namespace Fmt

/-- Number of bits of a lane. -/
def width (f : Fmt) : Nat := f.mb + f.eb + 1

/-- The sign bit. -/
def signBit (f : Fmt) : Nat := 2 ^ (f.mb + f.eb)

/-- A lane with every bit set (a true comparison result). -/
def allOnes (f : Fmt) : Nat := 2 ^ f.width - 1

/-- Magnitude field pattern of infinity. -/
def infMag (f : Fmt) : Nat := (2 ^ f.eb - 1) * 2 ^ f.mb

/-- Exponent bias. -/
def bias (f : Fmt) : Nat := 2 ^ (f.eb - 1) - 1

/-- The smallest positive denormal is `2 ^ (-scale)`; every finite number of the
format is an integer multiple of it. -/
def scale (f : Fmt) : Nat := f.bias - 1 + f.mb

/-- Sign of a bit pattern (0 or 1). -/
def sign (f : Fmt) (a : Nat) : Nat := a / f.signBit % 2

/-- Exponent and significand fields of a bit pattern. -/
def mag (f : Fmt) (a : Nat) : Nat := a % f.signBit

/-- Biased exponent field. -/
def expField (f : Fmt) (a : Nat) : Nat := f.mag a / 2 ^ f.mb

/-- Stored significand field. -/
def manField (f : Fmt) (a : Nat) : Nat := a % 2 ^ f.mb

def isNaN (f : Fmt) (a : Nat) : Prop := f.infMag < f.mag a

instance (f : Fmt) (a : Nat) : Decidable (f.isNaN a) :=
  inferInstanceAs (Decidable (f.infMag < f.mag a))

def isInf (f : Fmt) (a : Nat) : Prop := f.mag a = f.infMag

instance (f : Fmt) (a : Nat) : Decidable (f.isInf a) :=
  inferInstanceAs (Decidable (f.mag a = f.infMag))

def isZero (f : Fmt) (a : Nat) : Prop := f.mag a = 0

instance (f : Fmt) (a : Nat) : Decidable (f.isZero a) :=
  inferInstanceAs (Decidable (f.mag a = 0))

def isFinite (f : Fmt) (a : Nat) : Prop := f.mag a < f.infMag

instance (f : Fmt) (a : Nat) : Decidable (f.isFinite a) :=
  inferInstanceAs (Decidable (f.mag a < f.infMag))

/-- Magnitude of a number as a multiple of the smallest denormal
`2 ^ (-scale)`.  On the pattern of infinity this is `2 ^ (emax + 1 + scale)`, above
every finite magnitude. -/
def units (f : Fmt) (a : Nat) : Nat :=
  if f.expField a = 0 then f.manField a
  else (2 ^ f.mb + f.manField a) * 2 ^ (f.expField a - 1)

/-- Signed magnitude in multiples of the smallest denormal. -/
def sval (f : Fmt) (a : Nat) : Int :=
  if f.sign a = 1 then -(f.units a : Int) else (f.units a : Int)

/-- The rational number a finite bit pattern stands for. -/
def toRat (f : Fmt) (a : Nat) : ℚ := (f.sval a : ℚ) / 2 ^ f.scale

/-- Quotient `n / d` rounded to the nearest integer, ties to even. -/
def rneDiv (n d : Nat) : Nat :=
  if d < 2 * (n % d) ∨ (2 * (n % d) = d ∧ n / d % 2 = 1) then n / d + 1 else n / d

/-- One step of the binary search for the leading bit: `p.1` is shifted right by `k`
when it has at least `k + 1` bits, and `k` is added to the count `p.2`. -/
def ilog2Step (p : Nat × Nat) (k : Nat) : Nat × Nat :=
  if 2 ^ k ≤ p.1 then (p.1 / 2 ^ k, p.2 + k) else p

/-- Position of the leading bit of `n` (`0` for `n = 0`), found by binary search; exact
for `n < 2 ^ 8192`, which covers every intermediate result of both formats. -/
def ilog2 (n : Nat) : Nat :=
  ([4096, 2048, 1024, 512, 256, 128, 64, 32, 16, 8, 4, 2, 1].foldl ilog2Step (n, 0)).2

/-- Magnitude field pattern of the number `n / d * 2 ^ (-scale)` rounded to nearest
even; overflow gives infinity. -/
def roundUnits (f : Fmt) (n d : Nat) : Nat :=
  let s := ilog2 (n / d) - f.mb
  min (s * 2 ^ f.mb + rneDiv n (d * 2 ^ s)) f.infMag

/-- Assemble a sign and a magnitude field pattern. -/
def withSign (f : Fmt) (s : Nat) (m : Nat) : Nat := s * f.signBit + m

/-- The decimal literal `n / d` (sign `s`) rounded to the format, as the compiler
does for a floating-point constant. -/
def lit (f : Fmt) (s : Nat) (n d : Nat) : Nat :=
  f.withSign s (f.roundUnits (n * 2 ^ f.scale) d)

/-- The default NaN of SSE ("real indefinite"): sign set, quiet bit set. -/
def defaultNaN (f : Fmt) : Nat := f.signBit + f.infMag + 2 ^ (f.mb - 1)

/-- A NaN operand as it is returned by an arithmetic instruction: quiet bit set. -/
def quiet (f : Fmt) (a : Nat) : Nat := a ||| 2 ^ (f.mb - 1)

/-- Flip the sign bit. -/
def neg (f : Fmt) (a : Nat) : Nat := a ^^^ f.signBit

/-- Multiplication (`mulps`, `mulpd`, scalar `*`). -/
def mul (f : Fmt) (a b : Nat) : Nat :=
  if f.isNaN a then f.quiet a
  else if f.isNaN b then f.quiet b
  else if (f.isInf a ∧ f.isZero b) ∨ (f.isZero a ∧ f.isInf b) then f.defaultNaN
  else if f.isInf a ∨ f.isInf b then f.withSign ((f.sign a + f.sign b) % 2) f.infMag
  else f.withSign ((f.sign a + f.sign b) % 2)
         (f.roundUnits (f.units a * f.units b) (2 ^ f.scale))

/-- Addition (`addps`, `addpd`, scalar `+`). -/
def add (f : Fmt) (a b : Nat) : Nat :=
  if f.isNaN a then f.quiet a
  else if f.isNaN b then f.quiet b
  else if f.isInf a then
    (if f.isInf b ∧ f.sign a ≠ f.sign b then f.defaultNaN else a)
  else if f.isInf b then b
  else
    let t : Int := f.sval a + f.sval b
    if t = 0 then f.withSign (if f.sign a = 1 ∧ f.sign b = 1 then 1 else 0) 0
    else f.withSign (if t < 0 then 1 else 0) (f.roundUnits t.natAbs 1)

/-- Subtraction (`subps`, `subpd`, scalar `-`). -/
def sub (f : Fmt) (a b : Nat) : Nat :=
  if f.isNaN a then f.quiet a
  else if f.isNaN b then f.quiet b
  else f.add a (f.neg b)

/-- Division (`divpd`, scalar `/`). -/
def div (f : Fmt) (a b : Nat) : Nat :=
  if f.isNaN a then f.quiet a
  else if f.isNaN b then f.quiet b
  else if (f.isInf a ∧ f.isInf b) ∨ (f.isZero a ∧ f.isZero b) then f.defaultNaN
  else if f.isInf a ∨ f.isZero b then f.withSign ((f.sign a + f.sign b) % 2) f.infMag
  else if f.isInf b ∨ f.isZero a then f.withSign ((f.sign a + f.sign b) % 2) 0
  else f.withSign ((f.sign a + f.sign b) % 2)
         (f.roundUnits (f.units a * 2 ^ f.scale) (f.units b))

/-- Ordered comparison `a < b` of two lanes. -/
def lt (f : Fmt) (a b : Nat) : Prop := ¬ f.isNaN a ∧ ¬ f.isNaN b ∧ f.sval a < f.sval b

instance (f : Fmt) (a b : Nat) : Decidable (f.lt a b) :=
  inferInstanceAs (Decidable (¬ f.isNaN a ∧ ¬ f.isNaN b ∧ f.sval a < f.sval b))

/-- Ordered comparison `a ≤ b` of two lanes. -/
def le (f : Fmt) (a b : Nat) : Prop := ¬ f.isNaN a ∧ ¬ f.isNaN b ∧ f.sval a ≤ f.sval b

instance (f : Fmt) (a b : Nat) : Decidable (f.le a b) :=
  inferInstanceAs (Decidable (¬ f.isNaN a ∧ ¬ f.isNaN b ∧ f.sval a ≤ f.sval b))

/-- Ordered equality of two lanes (`+0 = -0`, a NaN equals nothing). -/
def feq (f : Fmt) (a b : Nat) : Prop := ¬ f.isNaN a ∧ ¬ f.isNaN b ∧ f.sval a = f.sval b

instance (f : Fmt) (a b : Nat) : Decidable (f.feq a b) :=
  inferInstanceAs (Decidable (¬ f.isNaN a ∧ ¬ f.isNaN b ∧ f.sval a = f.sval b))

/-- A comparison result lane: all ones when the predicate holds, else zero. -/
def maskOf (f : Fmt) (p : Prop) [Decidable p] : Nat := if p then f.allOnes else 0

/-- Lane of `cmpunordps` / `cmpunordpd`. -/
def cmpunord (f : Fmt) (a b : Nat) : Nat := f.maskOf (f.isNaN a ∨ f.isNaN b)

/-- Lane of `cmpltps` / `cmpltpd`. -/
def cmplt (f : Fmt) (a b : Nat) : Nat := f.maskOf (f.lt a b)

/-- Lane of `cmpgtps` / `cmpgtpd` (the compiler emits `cmplt` with swapped operands). -/
def cmpgt (f : Fmt) (a b : Nat) : Nat := f.maskOf (f.lt b a)

/-- Lane of `cmpeqps` / `cmpeqpd`. -/
def cmpeq (f : Fmt) (a b : Nat) : Nat := f.maskOf (f.feq a b)

/-- Lane of `andps` / `andpd`. -/
def and (_f : Fmt) (a b : Nat) : Nat := a &&& b

/-- Lane of `andnps` / `andnpd`: `(~a) & b`. -/
def andn (f : Fmt) (a b : Nat) : Nat := (f.allOnes ^^^ a) &&& b

/-- Lane of `orps` / `orpd`. -/
def or (_f : Fmt) (a b : Nat) : Nat := a ||| b

/-- Lane of `maxps`: `a > b ? a : b`, the second operand when a NaN is involved. -/
def max (f : Fmt) (a b : Nat) : Nat := if f.lt b a then a else b

/-- Two's complement reading of a 32-bit integer lane. -/
def toInt32 (n : Nat) : Int := if n % 2 ^ 32 < 2 ^ 31 then (n % 2 ^ 32 : Nat) else (n % 2 ^ 32 : Nat) - 2 ^ 32

/-- The 32-bit lane of an integer (wrapping). -/
def ofInt32 (z : Int) : Nat := (z % 2 ^ 32).toNat

/-- The "integer indefinite" value returned by a conversion that does not fit. -/
def intIndefinite : Nat := 2 ^ 31

/-- Signed integer to 32-bit lane, integer indefinite when out of range. -/
def fitInt32 (z : Int) : Nat :=
  if -(2 ^ 31) ≤ z ∧ z < 2 ^ 31 then ofInt32 z else intIndefinite

/-- Lane of `cvtps2dq` / `cvtpd2dq`: convert to a 32-bit integer, rounding to nearest
even. -/
def cvt2dq (f : Fmt) (a : Nat) : Nat :=
  if f.isFinite a then
    let n : Int := rneDiv (f.units a) (2 ^ f.scale)
    fitInt32 (if f.sign a = 1 then -n else n)
  else intIndefinite

/-- Lane of `cvttps2dq`: convert to a 32-bit integer, truncating. -/
def cvtt2dq (f : Fmt) (a : Nat) : Nat :=
  if f.isFinite a then
    let n : Int := (f.units a / 2 ^ f.scale : Nat)
    fitInt32 (if f.sign a = 1 then -n else n)
  else intIndefinite

/-- Lane of `cvtdq2ps` / `cvtdq2pd`: convert a 32-bit integer to the format. -/
def cvtdq2 (f : Fmt) (n : Nat) : Nat :=
  let z := toInt32 n
  if z = 0 then 0
  else f.withSign (if z < 0 then 1 else 0) (f.roundUnits (z.natAbs * 2 ^ f.scale) 1)

end Fmt

/-! ## Registers -/

/-- An SSE register seen as four 32-bit lanes. -/
structure Vec4 where
  l0 : Nat
  l1 : Nat
  l2 : Nat
  l3 : Nat

/-- An SSE register seen as two 64-bit lanes. -/
structure Vec2 where
  d0 : Nat
  d1 : Nat

/-- Modelled from the spec: the type `v4sf` of `sse2.h` (not under `src/`), a register
holding 4 single-precision lanes. -/
abbrev v4sf := Vec4

/-- Modelled from the spec: the type `v4si` of `sse2.h` (not under `src/`), a register
holding 4 packed 32-bit integers. -/
abbrev v4si := Vec4

/-- Modelled from the spec: the type `v2df` of `sse2.h` (not under `src/`), a register
holding 2 double-precision lanes. -/
abbrev v2df := Vec2

/-- Modelled from the spec: the type `v2di` of `sse2.h` (not under `src/`), the same
register seen as 2 packed 64-bit integers. -/
abbrev v2di := Vec2

namespace Vec4

def get (v : Vec4) (i : Fin 4) : Nat :=
  match i with
  | 0 => v.l0
  | 1 => v.l1
  | 2 => v.l2
  | 3 => v.l3

def map (g : Nat → Nat) (v : Vec4) : Vec4 := ⟨g v.l0, g v.l1, g v.l2, g v.l3⟩

def map2 (g : Nat → Nat → Nat) (v w : Vec4) : Vec4 :=
  ⟨g v.l0 w.l0, g v.l1 w.l1, g v.l2 w.l2, g v.l3 w.l3⟩

/-- The cast `(v2di)` of a four-lane register: lanes 0,1 and 2,3 joined, low lane first. -/
def toVec2 (v : Vec4) : Vec2 := ⟨v.l0 + v.l1 * 2 ^ 32, v.l2 + v.l3 * 2 ^ 32⟩

end Vec4

namespace Vec2

def get (v : Vec2) (i : Fin 2) : Nat :=
  match i with
  | 0 => v.d0
  | 1 => v.d1

def map (g : Nat → Nat) (v : Vec2) : Vec2 := ⟨g v.d0, g v.d1⟩

def map2 (g : Nat → Nat → Nat) (v w : Vec2) : Vec2 := ⟨g v.d0 w.d0, g v.d1 w.d1⟩

/-- The cast `(v4sf)` / `(v4si)` of a two-lane register. -/
def toVec4 (v : Vec2) : Vec4 :=
  ⟨v.d0 % 2 ^ 32, v.d0 / 2 ^ 32 % 2 ^ 32, v.d1 % 2 ^ 32, v.d1 / 2 ^ 32 % 2 ^ 32⟩

end Vec2

/-- Modelled from the spec: `vec_splat` of `sse2.h` (not under `src/`), which broadcasts
one value to every lane; here for four lanes. -/
def vec_splat (a : Nat) : Vec4 := ⟨a, a, a, a⟩

/-- Modelled from the spec: `vec_splat` of `sse2.h` (not under `src/`), which broadcasts
one value to every lane; here for two lanes. -/
def vec_splat2 (a : Nat) : Vec2 := ⟨a, a⟩

/-! ## The SSE2 instructions used by the source -/

def cmpunordps (a b : v4sf) : v4sf := Vec4.map2 binary32.cmpunord a b
def cmpeqps (a b : v4sf) : v4sf := Vec4.map2 binary32.cmpeq a b
def cmpltps (a b : v4sf) : v4sf := Vec4.map2 binary32.cmplt a b
def cmpgtps (a b : v4sf) : v4sf := Vec4.map2 binary32.cmpgt a b
def andps (a b : v4sf) : v4sf := Vec4.map2 binary32.and a b
def andnps (a b : v4sf) : v4sf := Vec4.map2 binary32.andn a b
def orps (a b : v4sf) : v4sf := Vec4.map2 binary32.or a b
def maxps (a b : v4sf) : v4sf := Vec4.map2 binary32.max a b
def mulps (a b : v4sf) : v4sf := Vec4.map2 binary32.mul a b
def addps (a b : v4sf) : v4sf := Vec4.map2 binary32.add a b
def subps (a b : v4sf) : v4sf := Vec4.map2 binary32.sub a b
def cvtps2dq (a : v4sf) : v4si := Vec4.map binary32.cvt2dq a
def cvttps2dq (a : v4sf) : v4si := Vec4.map binary32.cvtt2dq a
def cvtdq2ps (a : v4si) : v4sf := Vec4.map binary32.cvtdq2 a

/-- Wrapping addition of 32-bit integer lanes (`paddd`, `+` on `v4si`). -/
def paddd (a b : v4si) : v4si := Vec4.map2 (fun p q => (p + q) % 2 ^ 32) a b

/-- Left shift of every 32-bit lane (`pslld`). -/
def pslldi128 (a : v4si) (k : Nat) : v4si := Vec4.map (fun p => p <<< k % 2 ^ 32) a

/-- Left shift of every 64-bit lane (`psllq`). -/
def psllqi128 (a : v2di) (k : Nat) : v2di := Vec2.map (fun p => p <<< k % 2 ^ 64) a

/-- Interleave of the two low 32-bit lanes of `a` and `b`. -/
def unpcklps (a b : v4sf) : v4sf := ⟨a.l0, b.l0, a.l1, b.l1⟩

/-- Sign bits of the four lanes, lane `i` in bit `i`. -/
def movmskps (a : v4sf) : Nat :=
  a.l0 / 2 ^ 31 % 2 + 2 * (a.l1 / 2 ^ 31 % 2) + 4 * (a.l2 / 2 ^ 31 % 2)
    + 8 * (a.l3 / 2 ^ 31 % 2)

def cmpunordpd (a b : v2df) : v2df := Vec2.map2 binary64.cmpunord a b
def cmpeqpd (a b : v2df) : v2df := Vec2.map2 binary64.cmpeq a b
def cmpltpd (a b : v2df) : v2df := Vec2.map2 binary64.cmplt a b
def cmpgtpd (a b : v2df) : v2df := Vec2.map2 binary64.cmpgt a b
def andpd (a b : v2df) : v2df := Vec2.map2 binary64.and a b
def andnpd (a b : v2df) : v2df := Vec2.map2 binary64.andn a b
def orpd (a b : v2df) : v2df := Vec2.map2 binary64.or a b
def mulpd (a b : v2df) : v2df := Vec2.map2 binary64.mul a b
def addpd (a b : v2df) : v2df := Vec2.map2 binary64.add a b
def subpd (a b : v2df) : v2df := Vec2.map2 binary64.sub a b
def divpd (a b : v2df) : v2df := Vec2.map2 binary64.div a b

/-- Sign bits of the two lanes, lane `i` in bit `i`. -/
def movmskpd (a : v2df) : Nat := a.d0 / 2 ^ 63 % 2 + 2 * (a.d1 / 2 ^ 63 % 2)

/-- Two doubles to two 32-bit integers in lanes 0 and 1; lanes 2 and 3 are zero. -/
def cvtpd2dq (a : v2df) : v4si := ⟨binary64.cvt2dq a.d0, binary64.cvt2dq a.d1, 0, 0⟩

/-- The 32-bit integers of lanes 0 and 1 to two doubles. -/
def cvtdq2pd (a : v4si) : v2df := ⟨binary64.cvtdq2 a.l0, binary64.cvtdq2 a.l1⟩

/-! ## Source: single precision -/

namespace v4sf

/-- Source lines 42-50. -/
def pass_nan (input result : v4sf) : v4sf :=
  let mask_nan := cmpunordps input input
  let input := andps mask_nan input
  let result := andnps mask_nan result
  let result := orps result input
  result

/-- The float `INFINITY`. -/
def INFINITY : Nat := binary32.infMag

/-- Source lines 52-62. -/
def pass_nan_inf (input result : v4sf) : v4sf :=
  let mask := cmpunordps input input
  let mask := orps mask (cmpeqps input (vec_splat (binary32.neg INFINITY)))
  let mask := orps mask (cmpeqps input (vec_splat INFINITY))
  let input := andps mask input
  let result := andnps mask result
  let result := orps result input
  result

/-- Source lines 64-75. -/
def pass_nan_inf_zero (input result : v4sf) : v4sf :=
  let mask := cmpunordps input input
  let mask := orps mask (cmpeqps input (vec_splat (binary32.neg INFINITY)))
  let mask := orps mask (cmpeqps input (vec_splat INFINITY))
  let mask := orps mask (cmpeqps input (vec_splat 0))
  let input := andps mask input
  let result := andnps mask result
  let result := orps result input
  result

/-- Source lines 77-80. -/
def sse2_trunc_unsafe (x : v4sf) : v4sf := cvtdq2ps (cvttps2dq x)

/-- Source lines 82-85. -/
def sse2_floor_unsafe (x : v4sf) : v4sf := cvtdq2ps (cvtps2dq x)

/-- Source lines 87-90. -/
def sse2_floor (x : v4sf) : v4sf := pass_nan_inf_zero x ( sse2_floor_unsafe x)

/-- Source lines 92-95. -/
def sse2_trunc (x : v4sf) : v4sf := pass_nan_inf_zero x ( sse2_trunc_unsafe x)

/-- Source lines 195-202 (the overload of lines 186-193 has the same body). -/
def out_of_range_mask (input : v4sf) (min_val max_val : Nat) : Nat :=
  let mask_too_low := cmpltps input (vec_splat min_val)
  let mask_too_high := cmpgtps input (vec_splat max_val)
  movmskps (orps mask_too_low mask_too_high)

/-- Source lines 204-207: the register is stored to a `float[4]`. -/
def unpack (val : v4sf) : List Nat := [val.l0, val.l1, val.l2, val.l3]

/-- Source lines 209-212: a `float[4]` is loaded to a register. -/
def pack (arr : List Nat) : v4sf := ⟨arr.getD 0 0, arr.getD 1 0, arr.getD 2 0, arr.getD 3 0⟩

end v4sf

namespace v4si

/-- Source lines 214-217: the register is stored to an `int[4]`. -/
def unpack (val : v4si) : List Nat := [val.l0, val.l1, val.l2, val.l3]

/-- Source lines 219-222: an `int[4]` is loaded to a register. -/
def pack (arr : List Nat) : v4si := ⟨arr.getD 0 0, arr.getD 1 0, arr.getD 2 0, arr.getD 3 0⟩

end v4si

def float_1 : v4sf := vec_splat (binary32.lit 0 1 1)
def float_0p5 : v4sf := vec_splat (binary32.lit 0 5 10)
def int_0x7f : v4si := vec_splat 0x7f

def float_exp_hi : v4sf := vec_splat (binary32.lit 0 883762626647949 (10 ^ 13))
def float_exp_lo : v4sf := vec_splat (binary32.lit 1 883762626647949 (10 ^ 13))

def float_cephes_LOG2EF : v4sf := vec_splat (binary32.lit 0 144269504088896341 (10 ^ 17))
def float_cephes_exp_C1 : v4sf := vec_splat (binary32.lit 0 693359375 (10 ^ 9))
def float_cephes_exp_C2 : v4sf := vec_splat (binary32.lit 1 212194440 (10 ^ 12))

def float_cephes_exp_p0 : v4sf := vec_splat (binary32.lit 0 19875691500 (10 ^ 14))
def float_cephes_exp_p1 : v4sf := vec_splat (binary32.lit 0 13981999507 (10 ^ 13))
def float_cephes_exp_p2 : v4sf := vec_splat (binary32.lit 0 83334519073 (10 ^ 13))
def float_cephes_exp_p3 : v4sf := vec_splat (binary32.lit 0 41665795894 (10 ^ 12))
def float_cephes_exp_p4 : v4sf := vec_splat (binary32.lit 0 16666665459 (10 ^ 11))
def float_cephes_exp_p5 : v4sf := vec_splat (binary32.lit 0 50000001201 (10 ^ 11))

def MAXLOGF : Nat := binary32.lit 0 883762626647949 (10 ^ 13)
def MINLOGF : Nat := binary32.lit 1 875 10

/-- Source lines 132-184. -/
def sse2_expf_unsafe (x : v4sf) : v4sf :=
  let one := float_1
  let x := maxps x float_exp_lo
  let fx := mulps x float_cephes_LOG2EF
  let fx := addps fx float_0p5
  let tmp := v4sf.sse2_floor_unsafe fx
  let mask := cmpgtps tmp fx
  let mask := andps mask one
  let fx := subps tmp mask
  let tmp := mulps fx float_cephes_exp_C1
  let z := mulps fx float_cephes_exp_C2
  let x := subps x tmp
  let x := subps x z
  let z := mulps x x
  let y := float_cephes_exp_p0
  let y := mulps y x
  let y := addps y float_cephes_exp_p1
  let y := mulps y x
  let y := addps y float_cephes_exp_p2
  let y := mulps y x
  let y := addps y float_cephes_exp_p3
  let y := mulps y x
  let y := addps y float_cephes_exp_p4
  let y := mulps y x
  let y := addps y float_cephes_exp_p5
  let y := mulps y z
  let y := addps y x
  let y := addps y one
  let emm0 := cvttps2dq fx
  let emm0 := paddd emm0 int_0x7f
  let emm0 := pslldi128 emm0 23
  let pow2n := emm0
  let y := mulps y pow2n
  y

/-- Source lines 224-250; `expf` is the scalar routine of the C library, and the branch
hint `JML_UNLIKELY` (a macro that is not under `src/`) leaves its condition unchanged. -/
def sse2_expf (expf : Nat → Nat) (x : v4sf) : v4sf :=
  let mask := v4sf.out_of_range_mask x MINLOGF MAXLOGF
  if mask ≠ 0 then
    let unsafe_result := if mask ≠ 15 then sse2_expf_unsafe x else vec_splat 0
    let xin := v4sf.unpack x
    let xout := v4sf.unpack unsafe_result
    let xout := (List.range 4).foldl
      (fun xout i => if mask &&& (1 <<< i) ≠ 0 then xout.set i (expf (xin.getD i 0)) else xout)
      xout
    v4sf.pass_nan x (v4sf.pack xout)
  else
    v4sf.pass_nan x ( sse2_expf_unsafe x)

/-! ## Source: double precision -/

def P : List Nat :=
  [binary64.lit 0 126177193074810590878 (10 ^ 24),
   binary64.lit 0 302994407707441961300 (10 ^ 22),
   binary64.lit 0 999999999999999999910 (10 ^ 21)]

def Q : List Nat :=
  [binary64.lit 0 300198505138664455042 (10 ^ 26),
   binary64.lit 0 252448340349684104192 (10 ^ 23),
   binary64.lit 0 227265548208155028766 (10 ^ 21),
   binary64.lit 0 200000000000000000009 (10 ^ 20)]

def C1 : Nat := binary64.lit 0 693145751953125 (10 ^ 15)
def C2 : Nat := binary64.lit 0 142860682030941723212 (10 ^ 26)
def LOG2E : Nat := binary64.lit 0 14426950408889634073599 (10 ^ 22)

/-- Source line 272 (`DENORMAL` is not defined). -/
def MAXLOG : Nat := binary64.lit 0 708396418532264106224 (10 ^ 18)

/-- Source line 273 (`DENORMAL` is not defined). -/
def MINLOG : Nat := binary64.lit 1 708396418532264106224 (10 ^ 18)

/-- The C library's `floor` on doubles: the largest integral value not above the
argument; NaN, infinities and zeros are returned as they are (a NaN quieted). -/
def c_floor (a : Nat) : Nat :=
  if binary64.isNaN a then binary64.quiet a
  else if binary64.isInf a ∨ binary64.isZero a then a
  else
    let q := binary64.units a / 2 ^ binary64.scale
    let r := binary64.units a % 2 ^ binary64.scale
    if binary64.sign a = 1 then
      binary64.withSign 1
        (binary64.roundUnits ((if r = 0 then q else q + 1) * 2 ^ binary64.scale) 1)
    else if q = 0 then 0
    else binary64.roundUnits (q * 2 ^ binary64.scale) 1

namespace v2df

/-- Source lines 276-279: the register is stored to a `double[2]`. -/
def unpack (val : v2df) : List Nat := [val.d0, val.d1]

/-- Source lines 281-284: a `double[2]` is loaded to a register. -/
def pack (arr : List Nat) : v2df := ⟨arr.getD 0 0, arr.getD 1 0⟩

/-- The loop `do ans = ans * x + vec_splat(*p++); while (--i);` of source lines
292-293, entered with `i = k + 1`; returns `ans` and the read position `p`. -/
def polevl_loop (x : v2df) (coef : List Nat) : Nat → Nat → v2df → v2df × Nat
  | 0, p, ans => (addpd (mulpd ans x) (vec_splat2 (coef.getD p 0)), p + 1)
  | k + 1, p, ans =>
      polevl_loop x coef k (p + 1) (addpd (mulpd ans x) (vec_splat2 (coef.getD p 0)))

/-- Source lines 286-296, for a degree `N ≥ 1`. -/
def polevl (x : v2df) (coef : List Nat) (N : Nat) : v2df :=
  (polevl_loop x coef (N - 1) 1 (vec_splat2 (coef.getD 0 0))).1

/-- Source lines 310-317. -/
def pass_nan (input result : v2df) : v2df :=
  let mask_nan := cmpunordpd input input
  let input := andpd mask_nan input
  let result := andnpd mask_nan result
  let result := orpd result input
  result

/-- The double `INFINITY`. -/
def INFINITY : Nat := binary64.infMag

/-- Source lines 319-330. -/
def pass_nan_inf_zero (input result : v2df) : v2df :=
  let mask := cmpunordpd input input
  let mask := orpd mask (cmpeqpd input (vec_splat2 (binary64.neg INFINITY)))
  let mask := orpd mask (cmpeqpd input (vec_splat2 INFINITY))
  let mask := orpd mask (cmpeqpd input (vec_splat2 0))
  let input := andpd mask input
  let result := andnpd mask result
  let result := orpd result input
  result

/-- Source lines 444-447. -/
def sse2_floor_unsafe2 (x : v2df) : v2df := cvtdq2pd (cvtpd2dq x)

/-- Source lines 449-459; `floor` is the scalar routine of the C library. -/
def sse2_floor_unsafe (floor : Nat → Nat) (x : v2df) : v2df :=
  let vals := unpack x
  let vals := vals.set 0 (floor (vals.getD 0 0))
  let vals := vals.set 1 (floor (vals.getD 1 0))
  pack vals

/-- Source lines 461-464. -/
def sse2_floor (floor : Nat → Nat) (x : v2df) : v2df :=
  pass_nan x ( sse2_floor_unsafe floor x)

/-- Source lines 466-478. -/
def out_of_range_mask (input : v2df) (min_val max_val : Nat) : Nat :=
  let mask_too_low := cmpltpd input (vec_splat2 min_val)
  let mask_too_high := cmpgtpd input (vec_splat2 max_val)
  movmskpd (orpd mask_too_low mask_too_high)

end v2df

namespace double

/-- The loop `do ans = ans * x + *p++; while (--i);` of source lines 304-305,
entered with `i = k + 1`; returns `ans` and the read position `p`. -/
def polevl_loop (x : Nat) (coef : List Nat) : Nat → Nat → Nat → Nat × Nat
  | 0, p, ans => (binary64.add (binary64.mul ans x) (coef.getD p 0), p + 1)
  | k + 1, p, ans =>
      polevl_loop x coef k (p + 1) (binary64.add (binary64.mul ans x) (coef.getD p 0))

/-- Source lines 298-308, for a degree `N ≥ 1`. -/
def polevl (x : Nat) (coef : List Nat) (N : Nat) : Nat :=
  (polevl_loop x coef (N - 1) 1 (coef.getD 0 0)).1

end double

/-- Source lines 332-337. -/
def pow2f_unsafe (n : v4si) : v4sf :=
  let n := paddd n (vec_splat 127)
  let res := pslldi128 n 23
  res

/-- Source lines 339-349. -/
def pow2_unsafe (n : v4si) : v2df :=
  let result : v2di := ⟨0, 0⟩
  let n := paddd n (vec_splat 1023)
  let result := (unpcklps result.toVec4 n).toVec2
  let result := psllqi128 result 20
  result

/-- Source lines 351-354. -/
def sse2_pow2 (n : v4si) : v2df := pow2_unsafe n

/-- Source lines 365-374. -/
def ldexp (x : v2df) (n : v4si) : v2df := mulpd x ( pow2_unsafe n)

/-- Source lines 493-590, without the diagnostic scalar recomputation (`CHECK_EQUAL`
only prints). -/
def sse2_exp_unsafe (floor : Nat → Nat) (x : v2df) : v2df :=
  let px := v2df.sse2_floor_unsafe floor
    (addpd (mulpd (vec_splat2 LOG2E) x) (vec_splat2 (binary64.lit 0 5 10)))
  let n := cvtpd2dq px
  let x := subpd x (mulpd px (vec_splat2 C1))
  let x := subpd x (mulpd px (vec_splat2 C2))
  let xx := mulpd x x
  let px := mulpd x (v2df.polevl xx P 2)
  let x := divpd px (subpd (v2df.polevl xx Q 3) px)
  let x := addpd (vec_splat2 (binary64.lit 0 1 1)) (addpd x x)
  let x := ldexp x n
  x

/-- Source lines 592-617; `exp` and `floor` are the scalar routines of the C library, and
the branch hint `JML_UNLIKELY` leaves its condition unchanged. -/
def sse2_exp (exp floor : Nat → Nat) (x : v2df) : v2df :=
  let mask := v2df.out_of_range_mask x MINLOG MAXLOG
  if mask ≠ 0 then
    let unsafe_result := if mask ≠ 3 then sse2_exp_unsafe floor x else vec_splat2 0
    let xin := v2df.unpack x
    let xout := v2df.unpack unsafe_result
    let xout := if mask &&& 1 ≠ 0 then xout.set 0 (exp (xin.getD 0 0)) else xout
    let xout := if mask &&& 2 ≠ 0 then xout.set 1 (exp (xin.getD 1 0)) else xout
    v2df.pass_nan x (v2df.pack xout)
  else
    v2df.pass_nan x ( sse2_exp_unsafe floor x)

/-! ## Lane-wise description of the safe entry points -/

/-- One lane of `pass_nan`. -/
def pass_nan_lane (f : Fmt) (a r : Nat) : Nat :=
  f.or (f.andn (f.cmpunord a a) r) (f.and (f.cmpunord a a) a)

/-- A float lane is outside `[MINLOGF, MAXLOGF]`. -/
def oorf (a : Nat) : Prop := binary32.lt a MINLOGF ∨ binary32.lt MAXLOGF a

instance (a : Nat) : Decidable (oorf a) :=
  inferInstanceAs (Decidable (binary32.lt a MINLOGF ∨ binary32.lt MAXLOGF a))

/-- A double lane is outside `[MINLOG, MAXLOG]`. -/
def oord (a : Nat) : Prop := binary64.lt a MINLOG ∨ binary64.lt MAXLOG a

instance (a : Nat) : Decidable (oord a) :=
  inferInstanceAs (Decidable (binary64.lt a MINLOG ∨ binary64.lt MAXLOG a))

/-- Lane selection of `sse2_expf`: the scalar value on an out-of-range lane, the
unsafe value `u` otherwise, merged with a NaN input. -/
def expf_sel (expf : Nat → Nat) (a u : Nat) : Nat :=
  pass_nan_lane binary32 a (if oorf a then expf a else u)

/-- Lane selection of `sse2_exp`. -/
def exp_sel (exp : Nat → Nat) (a u : Nat) : Nat :=
  pass_nan_lane binary64 a (if oord a then exp a else u)

/-- One lane of `sse2_expf_unsafe`. -/
def expf_unsafe_lane (a : Nat) : Nat := ( sse2_expf_unsafe (vec_splat a)).l0

/-- One lane of `sse2_exp_unsafe`. -/
def exp_unsafe_lane (floor : Nat → Nat) (a : Nat) : Nat :=
  ( sse2_exp_unsafe floor (vec_splat2 a)).d0

/-- A scalar routine with the special values of `exp` (`+inf ↦ +inf`, every other
argument `↦ 0`), to instantiate statements that quantify over the scalar routine. -/
def exp_special (inf : Nat) (a : Nat) : Nat := if a = inf then inf else 0

/-- One lane of `pass_nan_inf_zero`. -/
def pass_nan_inf_zero_lane (f : Fmt) (a r : Nat) : Nat :=
  let mask := f.or (f.or (f.or (f.cmpunord a a) (f.cmpeq a (f.neg f.infMag)))
    (f.cmpeq a f.infMag)) (f.cmpeq a 0)
  f.or (f.andn mask r) (f.and mask a)

/-- A lane that `pass_nan_inf_zero` passes through: NaN, an infinity or a zero. -/
def isSpecial (f : Fmt) (a : Nat) : Prop :=
  f.isNaN a ∨ f.feq a (f.neg f.infMag) ∨ f.feq a f.infMag ∨ f.feq a 0

instance (f : Fmt) (a : Nat) : Decidable (isSpecial f a) :=
  inferInstanceAs
    (Decidable (f.isNaN a ∨ f.feq a (f.neg f.infMag) ∨ f.feq a f.infMag ∨ f.feq a 0))

/-- `z` is the integer nearest to `q`, and the even one of the two when `q` lies
halfway between two integers. -/
def IsNearestEven (q : ℚ) (z : ℤ) : Prop :=
  |q - z| < 1 / 2 ∨ (|q - z| = 1 / 2 ∧ Even z)

/-- The rational `q` rounded toward zero. -/
def towardZero (q : ℚ) : ℤ := if 0 ≤ q then ⌊q⌋ else ⌈q⌉

/-- Side conditions on a format used by the exactness lemmas; both `binary32` and
`binary64` satisfy them. -/
def Fmt.Std (f : Fmt) : Prop :=
  2 ≤ f.eb ∧ f.scale + 2 < 2 ^ f.eb ∧ f.mb + 2 ^ f.eb ≤ 8192 ∧ f.mb + f.scale < 8192

instance (f : Fmt) : Decidable f.Std :=
  inferInstanceAs (Decidable
    (2 ≤ f.eb ∧ f.scale + 2 < 2 ^ f.eb ∧ f.mb + 2 ^ f.eb ≤ 8192 ∧ f.mb + f.scale < 8192))

/-! ## The helper `polevl` over an arbitrary arithmetic -/

namespace generic

/-- The loop `do ans = ans * x + *p++; while (--i);` of source lines 292-293 and
304-305 over an arbitrary arithmetic (`mul`, `add`), entered with `i = k + 1`; a read
outside `coef` gives `zero`.  Returns `ans` and the read position `p`. -/
def polevl_loop {α : Type} (mul add : α → α → α) (zero : α) (x : α) (coef : List α) :
    Nat → Nat → α → α × Nat
  | 0, p, ans => (add (mul ans x) (coef.getD p zero), p + 1)
  | k + 1, p, ans =>
      polevl_loop mul add zero x coef k (p + 1) (add (mul ans x) (coef.getD p zero))

/-- Source lines 286-296 and 298-308 over an arbitrary arithmetic, for a degree
`N ≥ 1`. -/
def polevl {α : Type} (mul add : α → α → α) (zero : α) (x : α) (coef : List α) (N : Nat) : α :=
  (polevl_loop mul add zero x coef (N - 1) 1 (coef.getD 0 zero)).1

end generic

/-- State of the loop of `polevl`: the accumulator `ans`, the read position `p` (an
index into `coef`), the counter `i`, and two ghost fields, the number of multiply-add
steps done and the indices of `coef` read so far. -/
structure PolevlState (α : Type) where
  ans : α
  p : Nat
  i : Int
  steps : Nat
  reads : List Nat

/-- Source lines 300-302: `p = coef; ans = *p++; i = N`. -/
def polevl_init {α : Type} (zero : α) (coef : List α) (N : Int) : PolevlState α :=
  ⟨coef.getD 0 zero, 1, N, 0, [0]⟩

/-- One pass through the loop body `ans = ans * x + *p++` and the decrement `--i`. -/
def polevl_step {α : Type} (mul add : α → α → α) (zero : α) (x : α) (coef : List α)
    (s : PolevlState α) : PolevlState α :=
  ⟨add (mul s.ans x) (coef.getD s.p zero), s.p + 1, s.i - 1, s.steps + 1, s.reads ++ [s.p]⟩

/-- The loop `do ... while (--i);` of source lines 304-305, run for at most `fuel`
passes: `none` when the loop has not been left after `fuel` passes. -/
def polevl_run {α : Type} (mul add : α → α → α) (zero : α) (x : α) (coef : List α) :
    Nat → PolevlState α → Option (PolevlState α)
  | 0, _ => none
  | fuel + 1, s =>
      if (polevl_step mul add zero x coef s).i ≠ 0 then
        polevl_run mul add zero x coef fuel (polevl_step mul add zero x coef s)
      else some (polevl_step mul add zero x coef s)
namespace generic

/-- Source lines 539-565 over an arbitrary arithmetic: the approximation stage of
`sse2_exp_unsafe`, from the reduced argument `x` to the value that is then scaled by the
power of two. -/
def exp_approx {α : Type} (mul add sub div : α → α → α) (zero one : α) (P Q : List α)
    (x : α) : α :=
  let xx := mul x x
  let px := mul x (polevl mul add zero xx P 2)
  let x := div px (sub (polevl mul add zero xx Q 3) px)
  let x := add one (add x x)
  x

end generic

/-! ## Stages of `sse2_exp_unsafe`, one lane -/

/-- One lane of `px` of source line 509: `floor (LOG2E * x + 0.5)`. -/
def exp_px_lane (floor : Nat → Nat) (a : Nat) : Nat :=
  floor (binary64.add (binary64.mul LOG2E a) (binary64.lit 0 5 10))

/-- One lane of the reduced argument of source lines 525 and 532. -/
def exp_reduce_lane (px a : Nat) : Nat :=
  binary64.sub (binary64.sub a (binary64.mul px C1)) (binary64.mul px C2)

/-- Lane 0 of the power of two that `ldexp` multiplies by (source lines 513 and 568). -/
def exp_pow2_lane (px : Nat) : Nat := ( pow2_unsafe (cvtpd2dq (vec_splat2 px))).d0

/-- The approximation stage of `sse2_exp_unsafe` in exact arithmetic: the operations of
source lines 539-565 on rational numbers, with the values of the coefficients `P` and `Q`
of the program. -/
def exp_approx_exact (r : ℚ) : ℚ :=
  generic.exp_approx (fun a b => a * b) (fun a b => a + b) (fun a b => a - b)
    (fun a b => a / b) 0 1 (P.map binary64.toRat) (Q.map binary64.toRat) r

/-- The polynomial `P(t) = P[0] * t ^ 2 + P[1] * t + P[2]` of the specification. -/
def spec_P (t : ℚ) : ℚ :=
  binary64.toRat (P.getD 0 0) * t ^ 2 + binary64.toRat (P.getD 1 0) * t
    + binary64.toRat (P.getD 2 0)

/-- The polynomial `Q(t) = Q[0] * t ^ 3 + Q[1] * t ^ 2 + Q[2] * t + Q[3]` of the
specification. -/
def spec_Q (t : ℚ) : ℚ :=
  binary64.toRat (Q.getD 0 0) * t ^ 3 + binary64.toRat (Q.getD 1 0) * t ^ 2
    + binary64.toRat (Q.getD 2 0) * t + binary64.toRat (Q.getD 3 0)

/-- The rational form as the specification words it:
`1 + 2r * P(r^2) / (Q(r^2) - P(r^2))`. -/
def spec_exp_rational (r : ℚ) : ℚ :=
  1 + 2 * r * spec_P (r ^ 2) / (spec_Q (r ^ 2) - spec_P (r ^ 2))
namespace generic

/-- Source lines 158-173 over an arbitrary arithmetic: the polynomial stage of
`sse2_expf_unsafe`, from the reduced argument `x` to the value `y` that is then scaled by
the power of two. -/
def expf_poly {α : Type} (mul add : α → α → α) (p0 p1 p2 p3 p4 p5 one : α) (x : α) : α :=
  let z := mul x x
  let y := p0
  let y := mul y x
  let y := add y p1
  let y := mul y x
  let y := add y p2
  let y := mul y x
  let y := add y p3
  let y := mul y x
  let y := add y p4
  let y := mul y x
  let y := add y p5
  let y := mul y z
  let y := add y x
  let y := add y one
  y

end generic

/-! ## Stages of `sse2_expf_unsafe`, one lane -/

/-- Source line 139: the lane after the lower clamp `_mm_max_ps(x, float_exp_lo)`. -/
def expf_clamp_lane (a : Nat) : Nat := binary32.max a float_exp_lo.l0

/-- Source lines 142-143: `fx = x * LOG2EF + 0.5`. -/
def expf_fx_lane (x : Nat) : Nat :=
  binary32.add (binary32.mul x float_cephes_LOG2EF.l0) float_0p5.l0

/-- Source lines 146-151, the floor idiom: `tmp = sse2_floor_unsafe(fx)`, less one
where `tmp > fx`. -/
def expf_floor_lane (fx : Nat) : Nat :=
  let tmp := binary32.cvtdq2 (binary32.cvt2dq fx)
  let mask := binary32.cmpgt tmp fx
  let mask := binary32.and mask float_1.l0
  binary32.sub tmp mask

/-- Source lines 153-156: the reduced argument `x - fx * C1 - fx * C2`. -/
def expf_reduce_lane (x fx : Nat) : Nat :=
  let tmp := binary32.mul fx float_cephes_exp_C1.l0
  let z := binary32.mul fx float_cephes_exp_C2.l0
  let x := binary32.sub x tmp
  binary32.sub x z

/-- Source line 176: the integer lane `emm0 = _mm_cvttps_epi32(fx)`. -/
def expf_emm0_lane (fx : Nat) : Nat := binary32.cvtt2dq fx

/-- Source lines 177-179: `(emm0 + 0x7f) << 23`, read as a float lane. -/
def expf_pow2n_lane (emm0 : Nat) : Nat :=
  let emm0 := (emm0 + int_0x7f.l0) % 2 ^ 32
  emm0 <<< 23 % 2 ^ 32

/-- The float `k` that `sse2_expf_unsafe` derives from the input lane `a` (the value of
`fx` after source line 151). -/
def expf_kf_lane (a : Nat) : Nat := expf_floor_lane (expf_fx_lane (expf_clamp_lane a))

/-- The integer `n` that `sse2_expf_unsafe` biases by 127 and shifts into the exponent
field, for the input lane `a`. -/
def expf_n_lane (a : Nat) : Int := Fmt.toInt32 (expf_emm0_lane (expf_kf_lane a))

/-- A finite lane of magnitude at most `2 ^ p`. -/
def Fmt.Within (f : Fmt) (a : Nat) (p : Nat) : Prop := f.isFinite a ∧ |f.toRat a| ≤ 2 ^ p

/-- The lane `a` is finite and holds the exact value `v` up to `e`, where `|v| ≤ m`. -/
def Fmt.Near (f : Fmt) (a : Nat) (v e m : ℚ) : Prop :=
  f.isFinite a ∧ |f.toRat a - v| ≤ e ∧ |v| ≤ m

/-- The parameters of the rounding-error model of a format: a unit roundoff `u`, half
the smallest denormal `h`, and a magnitude `B` that a finite number of the format
reaches. -/
def Fmt.Prec (f : Fmt) (u h B : ℚ) : Prop :=
  f.Std ∧ 1 / 2 ^ (f.mb + 1) ≤ u ∧ 1 / 2 / 2 ^ f.scale ≤ h ∧
    ∃ c, f.isFinite c ∧ B ≤ |f.toRat c|

/-! # Theorems -/

/-! ## Format constants -/

theorem width32 : binary32.width = 32 := rfl
theorem width64 : binary64.width = 64 := rfl
theorem signBit32 : binary32.signBit = 2 ^ 31 := rfl
theorem signBit64 : binary64.signBit = 2 ^ 63 := rfl
theorem allOnes32 : binary32.allOnes = 2 ^ 32 - 1 := rfl
theorem allOnes64 : binary64.allOnes = 2 ^ 64 - 1 := rfl
theorem infMag32 : binary32.infMag = 2139095040 := by decide
theorem infMag64 : binary64.infMag = 9218868437227405312 := by decide

/-! ## Bit-level facts about the merge `pass_nan` -/

theorem pass_nan_lane_nan (f : Fmt) (a r : Nat) (ha : a < 2 ^ f.width) (hn : f.isNaN a) :
    pass_nan_lane f a r = a := by
  simp only [pass_nan_lane, Fmt.or, Fmt.andn, Fmt.and, Fmt.cmpunord, Fmt.maskOf, hn, or_self,
    if_true, Nat.xor_self, Nat.zero_and, Nat.zero_or, Fmt.allOnes]
  rw [Nat.and_comm, Nat.and_pow_two_sub_one_eq_mod, Nat.mod_eq_of_lt ha]

theorem pass_nan_lane_not_nan (f : Fmt) (a r : Nat) (hr : r < 2 ^ f.width)
    (hn : ¬ f.isNaN a) : pass_nan_lane f a r = r := by
  simp only [pass_nan_lane, Fmt.or, Fmt.andn, Fmt.and, Fmt.cmpunord, Fmt.maskOf, hn, or_self,
    if_false, Nat.xor_zero, Nat.zero_and, Nat.or_zero, Fmt.allOnes]
  rw [Nat.and_comm, Nat.and_pow_two_sub_one_eq_mod, Nat.mod_eq_of_lt hr]

/-! ## The mask of out-of-range lanes -/

theorem oor_bit32 (p q : Prop) [Decidable p] [Decidable q] :
    binary32.or (binary32.maskOf p) (binary32.maskOf q) / 2 ^ 31 % 2
      = if p ∨ q then 1 else 0 := by
  by_cases hp : p <;> by_cases hq : q <;>
    simp only [Fmt.or, Fmt.maskOf, hp, hq, allOnes32, if_true, if_false, or_self, or_true,
      true_or] <;> decide

theorem oor_bit64 (p q : Prop) [Decidable p] [Decidable q] :
    binary64.or (binary64.maskOf p) (binary64.maskOf q) / 2 ^ 63 % 2
      = if p ∨ q then 1 else 0 := by
  by_cases hp : p <;> by_cases hq : q <;>
    simp only [Fmt.or, Fmt.maskOf, hp, hq, allOnes64, if_true, if_false, or_self, or_true,
      true_or] <;> decide

theorem out_of_range_mask_v4sf (x : v4sf) :
    v4sf.out_of_range_mask x MINLOGF MAXLOGF
      = (if oorf x.l0 then 1 else 0) + 2 * (if oorf x.l1 then 1 else 0)
        + 4 * (if oorf x.l2 then 1 else 0) + 8 * (if oorf x.l3 then 1 else 0) := by
  simp only [v4sf.out_of_range_mask, movmskps, orps, cmpltps, cmpgtps, Vec4.map2, vec_splat,
    Fmt.cmplt, Fmt.cmpgt, oor_bit32, oorf]

theorem out_of_range_mask_v2df (x : v2df) :
    v2df.out_of_range_mask x MINLOG MAXLOG
      = (if oord x.d0 then 1 else 0) + 2 * (if oord x.d1 then 1 else 0) := by
  simp only [v2df.out_of_range_mask, movmskpd, orpd, cmpltpd, cmpgtpd, Vec2.map2, vec_splat2,
    Fmt.cmplt, Fmt.cmpgt, oor_bit64, oord]

theorem mask_bits4 (c0 c1 c2 c3 : Nat) (h0 : c0 ≤ 1) (h1 : c1 ≤ 1) (h2 : c2 ≤ 1)
    (h3 : c3 ≤ 1) :
    (((c0 + 2 * c1 + 4 * c2 + 8 * c3) &&& (1 <<< 0) ≠ 0) ↔ c0 = 1) ∧
    (((c0 + 2 * c1 + 4 * c2 + 8 * c3) &&& (1 <<< 1) ≠ 0) ↔ c1 = 1) ∧
    (((c0 + 2 * c1 + 4 * c2 + 8 * c3) &&& (1 <<< 2) ≠ 0) ↔ c2 = 1) ∧
    (((c0 + 2 * c1 + 4 * c2 + 8 * c3) &&& (1 <<< 3) ≠ 0) ↔ c3 = 1) ∧
    ((c0 + 2 * c1 + 4 * c2 + 8 * c3 ≠ 0) ↔ (c0 = 1 ∨ c1 = 1 ∨ c2 = 1 ∨ c3 = 1)) ∧
    ((c0 + 2 * c1 + 4 * c2 + 8 * c3 ≠ 15) ↔ ¬ (c0 = 1 ∧ c1 = 1 ∧ c2 = 1 ∧ c3 = 1)) := by
  interval_cases c0 <;> interval_cases c1 <;> interval_cases c2 <;> interval_cases c3 <;>
    decide

theorem mask_bits2 (c0 c1 : Nat) (h0 : c0 ≤ 1) (h1 : c1 ≤ 1) :
    (((c0 + 2 * c1) &&& 1 ≠ 0) ↔ c0 = 1) ∧
    (((c0 + 2 * c1) &&& 2 ≠ 0) ↔ c1 = 1) ∧
    ((c0 + 2 * c1 ≠ 0) ↔ (c0 = 1 ∨ c1 = 1)) ∧
    ((c0 + 2 * c1 ≠ 3) ↔ ¬ (c0 = 1 ∧ c1 = 1)) := by
  interval_cases c0 <;> interval_cases c1 <;> decide

theorem ite_one_zero_le (p : Prop) [Decidable p] : (if p then 1 else 0) ≤ 1 := by
  split <;> omega

theorem ite_one_zero_eq (p : Prop) [Decidable p] : ((if p then 1 else 0) = 1) ↔ p := by
  split <;> simp [*]

/-- The fallback loop of `sse2_expf` (source lines 242-244), unrolled. -/
theorem fallback_loop (expf : Nat → Nat) (mask a0 a1 a2 a3 o0 o1 o2 o3 : Nat) :
    (List.range 4).foldl
      (fun xout i =>
        if mask &&& (1 <<< i) ≠ 0 then xout.set i (expf ([a0, a1, a2, a3].getD i 0)) else xout)
      [o0, o1, o2, o3]
    = [if mask &&& (1 <<< 0) ≠ 0 then expf a0 else o0,
       if mask &&& (1 <<< 1) ≠ 0 then expf a1 else o1,
       if mask &&& (1 <<< 2) ≠ 0 then expf a2 else o2,
       if mask &&& (1 <<< 3) ≠ 0 then expf a3 else o3] := by
  have hr : List.range 4 = [0, 1, 2, 3] := by decide
  rw [hr]
  simp only [List.foldl]
  split_ifs <;> simp

theorem sse2_expf_step (expf : Nat → Nat) (x : v4sf) :
    sse2_expf expf x =
      if oorf x.l0 ∨ oorf x.l1 ∨ oorf x.l2 ∨ oorf x.l3 then
        v4sf.pass_nan x (v4sf.pack
          [if oorf x.l0 then expf x.l0 else
             (if ¬ (oorf x.l0 ∧ oorf x.l1 ∧ oorf x.l2 ∧ oorf x.l3) then sse2_expf_unsafe x
              else vec_splat 0).l0,
           if oorf x.l1 then expf x.l1 else
             (if ¬ (oorf x.l0 ∧ oorf x.l1 ∧ oorf x.l2 ∧ oorf x.l3) then sse2_expf_unsafe x
              else vec_splat 0).l1,
           if oorf x.l2 then expf x.l2 else
             (if ¬ (oorf x.l0 ∧ oorf x.l1 ∧ oorf x.l2 ∧ oorf x.l3) then sse2_expf_unsafe x
              else vec_splat 0).l2,
           if oorf x.l3 then expf x.l3 else
             (if ¬ (oorf x.l0 ∧ oorf x.l1 ∧ oorf x.l2 ∧ oorf x.l3) then sse2_expf_unsafe x
              else vec_splat 0).l3])
      else v4sf.pass_nan x ( sse2_expf_unsafe x) := by
  obtain ⟨m0, m1, m2, m3, mz, mf⟩ := mask_bits4
    (if oorf x.l0 then 1 else 0) (if oorf x.l1 then 1 else 0)
    (if oorf x.l2 then 1 else 0) (if oorf x.l3 then 1 else 0)
    (ite_one_zero_le _) (ite_one_zero_le _) (ite_one_zero_le _) (ite_one_zero_le _)
  simp only [ite_one_zero_eq] at m0 m1 m2 m3 mz mf
  unfold sse2_expf
  generalize sse2_expf_unsafe x = U
  simp only [out_of_range_mask_v4sf, v4sf.unpack, fallback_loop, m0, m1, m2, m3, mz, mf]

theorem fallback_select4 (p0 p1 p2 p3 : Prop) [Decidable p0] [Decidable p1] [Decidable p2]
    [Decidable p3] (e0 e1 e2 e3 : Nat) (x U Z : Vec4) :
    (if p0 ∨ p1 ∨ p2 ∨ p3 then
        v4sf.pass_nan x (v4sf.pack
          [if p0 then e0 else (if ¬ (p0 ∧ p1 ∧ p2 ∧ p3) then U else Z).l0,
           if p1 then e1 else (if ¬ (p0 ∧ p1 ∧ p2 ∧ p3) then U else Z).l1,
           if p2 then e2 else (if ¬ (p0 ∧ p1 ∧ p2 ∧ p3) then U else Z).l2,
           if p3 then e3 else (if ¬ (p0 ∧ p1 ∧ p2 ∧ p3) then U else Z).l3])
      else v4sf.pass_nan x U)
    = v4sf.pass_nan x ⟨if p0 then e0 else U.l0, if p1 then e1 else U.l1,
        if p2 then e2 else U.l2, if p3 then e3 else U.l3⟩ := by
  by_cases h0 : p0 <;> by_cases h1 : p1 <;> by_cases h2 : p2 <;> by_cases h3 : p3 <;>
    simp [h0, h1, h2, h3, v4sf.pack]

/-- `sse2_expf` lane by lane: each output lane is selected from the scalar value and
the unsafe vector value of the same lane. -/
theorem sse2_expf_eq_map2 (expf : Nat → Nat) (x : v4sf) :
    sse2_expf expf x = Vec4.map2 (expf_sel expf) x ( sse2_expf_unsafe x) := by
  rw [sse2_expf_step, fallback_select4]
  generalize sse2_expf_unsafe x = U
  simp only [v4sf.pass_nan, cmpunordps, andps, andnps, orps, Vec4.map2, expf_sel, pass_nan_lane]

theorem sse2_exp_step (exp floor : Nat → Nat) (x : v2df) :
    sse2_exp exp floor x =
      if oord x.d0 ∨ oord x.d1 then
        v2df.pass_nan x (v2df.pack
          [if oord x.d0 then exp x.d0 else
             (if ¬ (oord x.d0 ∧ oord x.d1) then sse2_exp_unsafe floor x else vec_splat2 0).d0,
           if oord x.d1 then exp x.d1 else
             (if ¬ (oord x.d0 ∧ oord x.d1) then sse2_exp_unsafe floor x else vec_splat2 0).d1])
      else v2df.pass_nan x ( sse2_exp_unsafe floor x) := by
  obtain ⟨m0, m1, mz, mf⟩ := mask_bits2
    (if oord x.d0 then 1 else 0) (if oord x.d1 then 1 else 0)
    (ite_one_zero_le _) (ite_one_zero_le _)
  simp only [ite_one_zero_eq] at m0 m1 mz mf
  unfold sse2_exp
  generalize sse2_exp_unsafe floor x = U
  simp only [out_of_range_mask_v2df, v2df.unpack, m0, m1, mz, mf]
  by_cases h0 : oord x.d0 <;> by_cases h1 : oord x.d1 <;>
    simp [h0, h1]

theorem fallback_select2 (p0 p1 : Prop) [Decidable p0] [Decidable p1]
    (e0 e1 : Nat) (x U Z : Vec2) :
    (if p0 ∨ p1 then
        v2df.pass_nan x (v2df.pack
          [if p0 then e0 else (if ¬ (p0 ∧ p1) then U else Z).d0,
           if p1 then e1 else (if ¬ (p0 ∧ p1) then U else Z).d1])
      else v2df.pass_nan x U)
    = v2df.pass_nan x ⟨if p0 then e0 else U.d0, if p1 then e1 else U.d1⟩ := by
  by_cases h0 : p0 <;> by_cases h1 : p1 <;> simp [h0, h1, v2df.pack]

/-- `sse2_exp` lane by lane. -/
theorem sse2_exp_eq_map2 (exp floor : Nat → Nat) (x : v2df) :
    sse2_exp exp floor x = Vec2.map2 (exp_sel exp) x ( sse2_exp_unsafe floor x) := by
  rw [sse2_exp_step, fallback_select2]
  generalize sse2_exp_unsafe floor x = U
  simp only [v2df.pass_nan, cmpunordpd, andpd, andnpd, orpd, Vec2.map2, exp_sel, pass_nan_lane]

theorem Vec4.get_map_v4 (g : Nat → Nat) (v : Vec4) (i : Fin 4) :
    (Vec4.map g v).get i = g (v.get i) := by
  fin_cases i <;> rfl

theorem Vec4.get_map2_v4 (g : Nat → Nat → Nat) (v w : Vec4) (i : Fin 4) :
    (Vec4.map2 g v w).get i = g (v.get i) (w.get i) := by
  fin_cases i <;> rfl

theorem Vec2.get_map_v2 (g : Nat → Nat) (v : Vec2) (i : Fin 2) :
    (Vec2.map g v).get i = g (v.get i) := by
  fin_cases i <;> rfl

theorem Vec2.get_map2_v2 (g : Nat → Nat → Nat) (v w : Vec2) (i : Fin 2) :
    (Vec2.map2 g v w).get i = g (v.get i) (w.get i) := by
  fin_cases i <;> rfl

/-- `sse2_expf_unsafe` is computed lane by lane. -/
theorem sse2_expf_unsafe_eq_map (x : v4sf) :
    sse2_expf_unsafe x = Vec4.map expf_unsafe_lane x := by
  simp only [ sse2_expf_unsafe, expf_unsafe_lane, Vec4.map, Vec4.map2, vec_splat, maxps, mulps,
    addps, subps, cmpgtps, andps, v4sf.sse2_floor_unsafe, cvtdq2ps, cvtps2dq, cvttps2dq, paddd,
    pslldi128, float_1, float_exp_lo, float_cephes_LOG2EF, float_0p5, float_cephes_exp_C1,
    float_cephes_exp_C2, float_cephes_exp_p0, float_cephes_exp_p1, float_cephes_exp_p2,
    float_cephes_exp_p3, float_cephes_exp_p4, float_cephes_exp_p5, int_0x7f]

/-- Lane `i` of `sse2_expf`. -/
theorem sse2_expf_get (expf : Nat → Nat) (x : v4sf) (i : Fin 4) :
    (sse2_expf expf x).get i = expf_sel expf (x.get i) (( sse2_expf_unsafe x).get i) := by
  rw [sse2_expf_eq_map2, Vec4.get_map2_v4]

/-- Lane `i` of `sse2_exp`. -/
theorem sse2_exp_get (exp floor : Nat → Nat) (x : v2df) (i : Fin 2) :
    (sse2_exp exp floor x).get i
      = exp_sel exp (x.get i) (( sse2_exp_unsafe floor x).get i) := by
  rw [sse2_exp_eq_map2, Vec2.get_map2_v2]

/-- `sse2_exp_unsafe` is computed lane by lane. -/
theorem sse2_exp_unsafe_eq_map (floor : Nat → Nat) (x : v2df) :
    sse2_exp_unsafe floor x = Vec2.map (exp_unsafe_lane floor) x := by
  simp only [ sse2_exp_unsafe, exp_unsafe_lane, Vec2.map, Vec2.map2, vec_splat2, vec_splat,
    mulpd, addpd, subpd, divpd, v2df.sse2_floor_unsafe, v2df.unpack, v2df.pack, cvtpd2dq,
    ldexp, pow2_unsafe, paddd, unpcklps, psllqi128, Vec2.toVec4, Vec4.toVec2, Vec4.map2,
    v2df.polevl, v2df.polevl_loop, List.set_cons_zero, List.set_cons_succ,
    List.getD_cons_zero, List.getD_cons_succ, Nat.zero_mod, Nat.zero_div]

/-! ## Every operation returns a lane of the format's width -/

theorem Fmt.two_pow_width (f : Fmt) : 2 ^ f.width = 2 * f.signBit := by
  unfold Fmt.width Fmt.signBit
  rw [pow_succ]; ring

theorem Fmt.signBit_pos (f : Fmt) : 0 < f.signBit := by
  unfold Fmt.signBit; positivity

theorem Fmt.infMag_lt_signBit (f : Fmt) : f.infMag < f.signBit := by
  unfold Fmt.infMag Fmt.signBit
  have h1 : 0 < 2 ^ f.eb := by positivity
  have h2 : 0 < 2 ^ f.mb := by positivity
  rw [pow_add, mul_comm (2 ^ f.mb)]
  exact Nat.mul_lt_mul_of_pos_right (by omega) h2

theorem Fmt.withSign_lt (f : Fmt) (s m : Nat) (hs : s ≤ 1) (hm : m ≤ f.infMag) :
    f.withSign s m < 2 ^ f.width := by
  have h := f.infMag_lt_signBit
  rw [f.two_pow_width]
  unfold Fmt.withSign
  have : s * f.signBit ≤ 1 * f.signBit := Nat.mul_le_mul_right _ hs
  omega

theorem Fmt.roundUnits_le (f : Fmt) (n d : Nat) : f.roundUnits n d ≤ f.infMag := by
  unfold Fmt.roundUnits
  exact Nat.min_le_right _ _

theorem Fmt.lit_lt (f : Fmt) (s n d : Nat) (hs : s ≤ 1) : f.lit s n d < 2 ^ f.width :=
  f.withSign_lt s _ hs (f.roundUnits_le _ _)

theorem Fmt.quiet_lt (f : Fmt) (a : Nat) (ha : a < 2 ^ f.width) : f.quiet a < 2 ^ f.width := by
  unfold Fmt.quiet
  apply Nat.or_lt_two_pow ha
  apply Nat.pow_lt_pow_right (by decide)
  unfold Fmt.width; omega

theorem Fmt.defaultNaN_lt (f : Fmt) (h : 1 ≤ f.mb) : f.defaultNaN < 2 ^ f.width := by
  rw [f.two_pow_width]
  unfold Fmt.defaultNaN
  have h1 : f.infMag + 2 ^ (f.mb - 1) < f.signBit := by
    unfold Fmt.infMag Fmt.signBit
    have e1 : 2 ^ f.mb = 2 * 2 ^ (f.mb - 1) := by
      rw [← pow_succ']; congr 1; omega
    have h2 : 0 < 2 ^ (f.mb - 1) := by positivity
    have h3 : 0 < 2 ^ f.eb := by positivity
    rw [pow_add, e1]
    obtain ⟨k, hk⟩ : ∃ k, 2 ^ f.eb = k + 1 := ⟨2 ^ f.eb - 1, by omega⟩
    rw [hk, Nat.add_sub_cancel]
    nlinarith
  omega

theorem Fmt.neg_lt (f : Fmt) (a : Nat) (ha : a < 2 ^ f.width) : f.neg a < 2 ^ f.width := by
  unfold Fmt.neg
  apply Nat.xor_lt_two_pow ha
  rw [f.two_pow_width]
  have := f.signBit_pos
  omega

theorem Fmt.mul_lt (f : Fmt) (a b : Nat) (h : 1 ≤ f.mb) (ha : a < 2 ^ f.width)
    (hb : b < 2 ^ f.width) : f.mul a b < 2 ^ f.width := by
  unfold Fmt.mul
  split_ifs
  · exact f.quiet_lt a ha
  · exact f.quiet_lt b hb
  · exact f.defaultNaN_lt h
  · exact f.withSign_lt _ _ (by omega) le_rfl
  · exact f.withSign_lt _ _ (by omega) (f.roundUnits_le _ _)

theorem Fmt.add_lt (f : Fmt) (a b : Nat) (h : 1 ≤ f.mb) (ha : a < 2 ^ f.width)
    (hb : b < 2 ^ f.width) : f.add a b < 2 ^ f.width := by
  unfold Fmt.add
  simp only []
  split_ifs
  all_goals first
    | exact f.quiet_lt a ha
    | exact f.quiet_lt b hb
    | exact f.defaultNaN_lt h
    | exact ha
    | exact hb
    | exact f.withSign_lt _ _ (by omega) (Nat.zero_le _)
    | exact f.withSign_lt _ _ (by omega) (f.roundUnits_le _ _)

theorem Fmt.sub_lt (f : Fmt) (a b : Nat) (h : 1 ≤ f.mb) (ha : a < 2 ^ f.width)
    (hb : b < 2 ^ f.width) : f.sub a b < 2 ^ f.width := by
  unfold Fmt.sub
  split_ifs
  · exact f.quiet_lt a ha
  · exact f.quiet_lt b hb
  · exact f.add_lt _ _ h ha (f.neg_lt b hb)

theorem Fmt.div_lt (f : Fmt) (a b : Nat) (h : 1 ≤ f.mb) (ha : a < 2 ^ f.width)
    (hb : b < 2 ^ f.width) : f.div a b < 2 ^ f.width := by
  unfold Fmt.div
  split_ifs
  · exact f.quiet_lt a ha
  · exact f.quiet_lt b hb
  · exact f.defaultNaN_lt h
  · exact f.withSign_lt _ _ (by omega) le_rfl
  · exact f.withSign_lt _ _ (by omega) (Nat.zero_le _)
  · exact f.withSign_lt _ _ (by omega) (f.roundUnits_le _ _)

theorem Fmt.max_lt (f : Fmt) (a b : Nat) (ha : a < 2 ^ f.width) (hb : b < 2 ^ f.width) :
    f.max a b < 2 ^ f.width := by
  unfold Fmt.max
  split_ifs <;> assumption

theorem Fmt.and_lt (f : Fmt) (a b : Nat) (hb : b < 2 ^ f.width) : f.and a b < 2 ^ f.width :=
  lt_of_le_of_lt Nat.and_le_right hb

theorem Fmt.cvtdq2_lt (f : Fmt) (n : Nat) : f.cvtdq2 n < 2 ^ f.width := by
  unfold Fmt.cvtdq2
  simp only []
  split_ifs
  · positivity
  · exact f.withSign_lt _ _ (by omega) (f.roundUnits_le _ _)
  · exact f.withSign_lt _ _ (by omega) (f.roundUnits_le _ _)

theorem mb32 : 1 ≤ binary32.mb := by decide

theorem mb64 : 1 ≤ binary64.mb := by decide

/-- The unsafe single-precision result is a 32-bit lane. -/
theorem expf_unsafe_lane_lt (a : Nat) (ha : a < 2 ^ 32) : expf_unsafe_lane a < 2 ^ 32 := by
  have hw : (2 : Nat) ^ 32 = 2 ^ binary32.width := rfl
  simp only [ sse2_expf_unsafe, expf_unsafe_lane, Vec4.map, Vec4.map2, vec_splat, maxps, mulps,
    addps, subps, cmpgtps, andps, v4sf.sse2_floor_unsafe, cvtdq2ps, cvtps2dq, cvttps2dq, paddd,
    pslldi128, float_1, float_exp_lo, float_cephes_LOG2EF, float_0p5, float_cephes_exp_C1,
    float_cephes_exp_C2, float_cephes_exp_p0, float_cephes_exp_p1, float_cephes_exp_p2,
    float_cephes_exp_p3, float_cephes_exp_p4, float_cephes_exp_p5, int_0x7f]
  rw [hw] at ha ⊢
  with_reducible repeat' first
    | exact ha
    | exact Nat.mod_lt _ (Nat.two_pow_pos _)
    | exact Fmt.lit_lt _ _ _ _ (by decide)
    | exact Fmt.cvtdq2_lt _ _
    | apply Fmt.mul_lt _ _ _ mb32
    | apply Fmt.add_lt _ _ _ mb32
    | apply Fmt.sub_lt _ _ _ mb32
    | apply Fmt.max_lt
    | apply Fmt.and_lt

theorem C1_lt : C1 < 2 ^ binary64.width := Fmt.lit_lt _ _ _ _ (by decide)

theorem C2_lt : C2 < 2 ^ binary64.width := Fmt.lit_lt _ _ _ _ (by decide)

theorem LOG2E_lt : LOG2E < 2 ^ binary64.width := Fmt.lit_lt _ _ _ _ (by decide)

/-- The unsafe double-precision result is a 64-bit lane. -/
theorem exp_unsafe_lane_lt (floor : Nat → Nat) (hfloor : ∀ b, b < 2 ^ 64 → floor b < 2 ^ 64)
    (a : Nat)
    (ha : a < 2 ^ 64) : exp_unsafe_lane floor a < 2 ^ 64 := by
  have hw : (2 : Nat) ^ 64 = 2 ^ binary64.width := rfl
  simp only [ sse2_exp_unsafe, exp_unsafe_lane, Vec2.map, Vec2.map2, vec_splat2, vec_splat,
    mulpd, addpd, subpd, divpd, v2df.sse2_floor_unsafe, v2df.unpack, v2df.pack, cvtpd2dq,
    ldexp, pow2_unsafe, paddd, unpcklps, psllqi128, Vec2.toVec4, Vec4.toVec2, Vec4.map2,
    v2df.polevl, v2df.polevl_loop, List.set_cons_zero, List.set_cons_succ,
    List.getD_cons_zero, List.getD_cons_succ, Nat.zero_mod, Nat.zero_div, P, Q]
  rw [hw] at ha hfloor ⊢
  with_reducible repeat' first
    | exact ha
    | apply hfloor
    | exact C1_lt
    | exact C2_lt
    | exact LOG2E_lt
    | exact Nat.mod_lt _ (Nat.two_pow_pos _)
    | exact Fmt.lit_lt _ _ _ _ (by decide)
    | apply Fmt.mul_lt _ _ _ mb64
    | apply Fmt.add_lt _ _ _ mb64
    | apply Fmt.sub_lt _ _ _ mb64
    | apply Fmt.div_lt _ _ _ mb64

/-! ## Special inputs of the safe entry points -/

theorem not_oorf_of_le (a : Nat) (h1 : binary32.le MINLOGF a) (h2 : binary32.le a MAXLOGF) :
    ¬ oorf a := by
  unfold oorf Fmt.lt
  unfold Fmt.le at h1 h2
  omega

theorem not_oord_of_le (a : Nat) (h1 : binary64.le MINLOG a) (h2 : binary64.le a MAXLOG) :
    ¬ oord a := by
  unfold oord Fmt.lt
  unfold Fmt.le at h1 h2
  omega

theorem expf_sel_nan (expf : Nat → Nat) (a u : Nat) (ha : a < 2 ^ 32)
    (hn : binary32.isNaN a) : expf_sel expf a u = a :=
  pass_nan_lane_nan binary32 a _ ha hn

theorem exp_sel_nan (exp : Nat → Nat) (a u : Nat) (ha : a < 2 ^ 64)
    (hn : binary64.isNaN a) : exp_sel exp a u = a :=
  pass_nan_lane_nan binary64 a _ ha hn

theorem expf_sel_oor (expf : Nat → Nat) (a u : Nat) (hr : expf a < 2 ^ 32)
    (hn : ¬ binary32.isNaN a) (ho : oorf a) : expf_sel expf a u = expf a := by
  unfold expf_sel
  rw [if_pos ho]
  exact pass_nan_lane_not_nan binary32 a _ hr hn

theorem exp_sel_oor (exp : Nat → Nat) (a u : Nat) (hr : exp a < 2 ^ 64)
    (hn : ¬ binary64.isNaN a) (ho : oord a) : exp_sel exp a u = exp a := by
  unfold exp_sel
  rw [if_pos ho]
  exact pass_nan_lane_not_nan binary64 a _ hr hn

theorem expf_sel_inr (expf : Nat → Nat) (a u : Nat) (hu : u < 2 ^ 32)
    (hn : ¬ binary32.isNaN a) (ho : ¬ oorf a) : expf_sel expf a u = u := by
  unfold expf_sel
  rw [if_neg ho]
  exact pass_nan_lane_not_nan binary32 a _ hu hn

theorem exp_sel_inr (exp : Nat → Nat) (a u : Nat) (hu : u < 2 ^ 64)
    (hn : ¬ binary64.isNaN a) (ho : ¬ oord a) : exp_sel exp a u = u := by
  unfold exp_sel
  rw [if_neg ho]
  exact pass_nan_lane_not_nan binary64 a _ hu hn

/-- Lane `i` of `sse2_expf_unsafe` is a function of lane `i` of the input. -/
theorem sse2_expf_unsafe_get (x : v4sf) (i : Fin 4) :
    ( sse2_expf_unsafe x).get i = expf_unsafe_lane (x.get i) := by
  rw [sse2_expf_unsafe_eq_map, Vec4.get_map_v4]

/-- Lane `i` of `sse2_exp_unsafe` is a function of lane `i` of the input. -/
theorem sse2_exp_unsafe_get (floor : Nat → Nat) (x : v2df) (i : Fin 2) :
    ( sse2_exp_unsafe floor x).get i = exp_unsafe_lane floor (x.get i) := by
  rw [sse2_exp_unsafe_eq_map, Vec2.get_map_v2]

/-- C1: a NaN input lane comes out of `sse2_expf` (4 float lanes) and of `sse2_exp`
(2 double lanes) with exactly its own bit pattern, sign and payload included, whichever
path is taken (no lane out of range, or the scalar fallback). -/
theorem C1_nan_lane_keeps_its_bits (expf exp floor : Nat → Nat) :
    (∀ (x : v4sf) (i : Fin 4), x.get i < 2 ^ 32 → binary32.isNaN (x.get i) →
      (sse2_expf expf x).get i = x.get i) ∧
    (∀ (x : v2df) (i : Fin 2), x.get i < 2 ^ 64 → binary64.isNaN (x.get i) →
      (sse2_exp exp floor x).get i = x.get i) := by
  constructor
  · intro x i hx hn
    rw [sse2_expf_get]
    exact expf_sel_nan expf _ _ hx hn
  · intro x i hx hn
    rw [sse2_exp_get]
    exact exp_sel_nan exp _ _ hx hn

/-- C1 at concrete inputs: a NaN lane with no lane out of range, a negative NaN lane
beside an infinite lane (scalar fallback), and a NaN double lane beside an infinite lane. -/
theorem C1_nan_lane_keeps_its_bits_witness :
    (Vec4.get ⟨0x7fc00123, 0, 0, 0⟩ 0 < 2 ^ 32 ∧
      binary32.isNaN (Vec4.get ⟨0x7fc00123, 0, 0, 0⟩ 0) ∧
      (sse2_expf (fun _ => 0) ⟨0x7fc00123, 0, 0, 0⟩).get 0
        = Vec4.get ⟨0x7fc00123, 0, 0, 0⟩ 0) ∧
    (Vec4.get ⟨0x7f800000, 0xffa00001, 0, 0⟩ 1 < 2 ^ 32 ∧
      binary32.isNaN (Vec4.get ⟨0x7f800000, 0xffa00001, 0, 0⟩ 1) ∧
      (sse2_expf (fun _ => 0) ⟨0x7f800000, 0xffa00001, 0, 0⟩).get 1
        = Vec4.get ⟨0x7f800000, 0xffa00001, 0, 0⟩ 1) ∧
    (Vec2.get ⟨0x7ff0000000000000, 0x7ff8000000000abc⟩ 1 < 2 ^ 64 ∧
      binary64.isNaN (Vec2.get ⟨0x7ff0000000000000, 0x7ff8000000000abc⟩ 1) ∧
      (sse2_exp (fun _ => 0) c_floor ⟨0x7ff0000000000000, 0x7ff8000000000abc⟩).get 1
        = Vec2.get ⟨0x7ff0000000000000, 0x7ff8000000000abc⟩ 1) :=
  ⟨⟨by decide, by decide,
      (C1_nan_lane_keeps_its_bits (fun _ => 0) (fun _ => 0) c_floor).1 _ 0
        (by decide) (by decide)⟩,
    ⟨by decide, by decide,
      (C1_nan_lane_keeps_its_bits (fun _ => 0) (fun _ => 0) c_floor).1 _ 1
        (by decide) (by decide)⟩,
    ⟨by decide, by decide,
      (C1_nan_lane_keeps_its_bits (fun _ => 0) (fun _ => 0) c_floor).2 _ 1
        (by decide) (by decide)⟩⟩

theorem inf32_not_nan : ¬ binary32.isNaN v4sf.INFINITY := by decide

theorem ninf32_not_nan : ¬ binary32.isNaN (binary32.neg v4sf.INFINITY) := by decide

theorem inf64_not_nan : ¬ binary64.isNaN v2df.INFINITY := by decide

theorem ninf64_not_nan : ¬ binary64.isNaN (binary64.neg v2df.INFINITY) := by decide

theorem inf32_oor : oorf v4sf.INFINITY := Or.inr (by decide!)

theorem ninf32_oor : oorf (binary32.neg v4sf.INFINITY) := Or.inl (by decide!)

theorem inf64_oor : oord v2df.INFINITY := Or.inr (by decide!)

theorem ninf64_oor : oord (binary64.neg v2df.INFINITY) := Or.inl (by decide!)

/-- C2: a lane that is not a NaN and lies below `MINLOGF` or above `MAXLOGF` (the
infinities included) comes out of `sse2_expf` as the scalar `expf` of that lane, whatever
the other lanes hold; likewise `sse2_exp` with `MINLOG`, `MAXLOG` and the scalar `exp`.
Hence `+inf` is mapped to `+inf` and `-inf` to `0` as soon as the scalar routine does so. -/
theorem C2_out_of_range_lane_is_scalar (expf exp floor : Nat → Nat) :
    (∀ (x : v4sf) (i : Fin 4), expf (x.get i) < 2 ^ 32 → ¬ binary32.isNaN (x.get i) →
      (binary32.lt (x.get i) MINLOGF ∨ binary32.lt MAXLOGF (x.get i)) →
      (sse2_expf expf x).get i = expf (x.get i)) ∧
    (∀ (x : v2df) (i : Fin 2), exp (x.get i) < 2 ^ 64 → ¬ binary64.isNaN (x.get i) →
      (binary64.lt (x.get i) MINLOG ∨ binary64.lt MAXLOG (x.get i)) →
      (sse2_exp exp floor x).get i = exp (x.get i)) ∧
    (expf v4sf.INFINITY = v4sf.INFINITY → ∀ (x : v4sf) (i : Fin 4),
      x.get i = v4sf.INFINITY → (sse2_expf expf x).get i = v4sf.INFINITY) ∧
    (expf (binary32.neg v4sf.INFINITY) = 0 → ∀ (x : v4sf) (i : Fin 4),
      x.get i = binary32.neg v4sf.INFINITY → (sse2_expf expf x).get i = 0) ∧
    (exp v2df.INFINITY = v2df.INFINITY → ∀ (x : v2df) (i : Fin 2),
      x.get i = v2df.INFINITY → (sse2_exp exp floor x).get i = v2df.INFINITY) ∧
    (exp (binary64.neg v2df.INFINITY) = 0 → ∀ (x : v2df) (i : Fin 2),
      x.get i = binary64.neg v2df.INFINITY → (sse2_exp exp floor x).get i = 0) := by
  refine ⟨?_, ?_, ?_, ?_, ?_, ?_⟩
  · intro x i hr hn ho
    rw [sse2_expf_get]
    exact expf_sel_oor expf _ _ hr hn ho
  · intro x i hr hn ho
    rw [sse2_exp_get]
    exact exp_sel_oor exp _ _ hr hn ho
  · intro he x i hx
    rw [sse2_expf_get, hx, expf_sel_oor expf _ _ (by rw [he]; decide) inf32_not_nan inf32_oor,
      he]
  · intro he x i hx
    rw [sse2_expf_get, hx, expf_sel_oor expf _ _ (by rw [he]; decide) ninf32_not_nan ninf32_oor,
      he]
  · intro he x i hx
    rw [sse2_exp_get, hx, exp_sel_oor exp _ _ (by rw [he]; decide) inf64_not_nan inf64_oor,
      he]
  · intro he x i hx
    rw [sse2_exp_get, hx, exp_sel_oor exp _ _ (by rw [he]; decide) ninf64_not_nan ninf64_oor,
      he]

/-- C2 at concrete inputs: lane 0 = -100.0 beside in-range lanes, a vector whose four
lanes are all out of range, and the double lanes 800.0, `+inf` and `-inf`. -/
theorem C2_out_of_range_lane_is_scalar_witness :
    (exp_special v4sf.INFINITY (Vec4.get ⟨0xc2c80000, 0, 0, 0⟩ 0) < 2 ^ 32 ∧
      ¬ binary32.isNaN (Vec4.get ⟨0xc2c80000, 0, 0, 0⟩ 0) ∧
      (binary32.lt (Vec4.get ⟨0xc2c80000, 0, 0, 0⟩ 0) MINLOGF ∨
        binary32.lt MAXLOGF (Vec4.get ⟨0xc2c80000, 0, 0, 0⟩ 0)) ∧
      (sse2_expf (exp_special v4sf.INFINITY) ⟨0xc2c80000, 0, 0, 0⟩).get 0
        = exp_special v4sf.INFINITY (Vec4.get ⟨0xc2c80000, 0, 0, 0⟩ 0)) ∧
    (exp_special v2df.INFINITY (Vec2.get ⟨0, 0x4089000000000000⟩ 1) < 2 ^ 64 ∧
      ¬ binary64.isNaN (Vec2.get ⟨0, 0x4089000000000000⟩ 1) ∧
      (binary64.lt (Vec2.get ⟨0, 0x4089000000000000⟩ 1) MINLOG ∨
        binary64.lt MAXLOG (Vec2.get ⟨0, 0x4089000000000000⟩ 1)) ∧
      (sse2_exp (exp_special v2df.INFINITY) c_floor ⟨0, 0x4089000000000000⟩).get 1
        = exp_special v2df.INFINITY (Vec2.get ⟨0, 0x4089000000000000⟩ 1)) ∧
    (exp_special v4sf.INFINITY v4sf.INFINITY = v4sf.INFINITY ∧
      Vec4.get ⟨0xff800000, 0xc2c80000, 0x7f800000, 0x7f800000⟩ 3 = v4sf.INFINITY ∧
      (sse2_expf (exp_special v4sf.INFINITY)
        ⟨0xff800000, 0xc2c80000, 0x7f800000, 0x7f800000⟩).get 3 = v4sf.INFINITY) ∧
    (exp_special v4sf.INFINITY (binary32.neg v4sf.INFINITY) = 0 ∧
      Vec4.get ⟨0xff800000, 0xc2c80000, 0x7f800000, 0x7f800000⟩ 0
        = binary32.neg v4sf.INFINITY ∧
      (sse2_expf (exp_special v4sf.INFINITY)
        ⟨0xff800000, 0xc2c80000, 0x7f800000, 0x7f800000⟩).get 0 = 0) ∧
    (exp_special v2df.INFINITY v2df.INFINITY = v2df.INFINITY ∧
      Vec2.get ⟨0x7ff0000000000000, 0xfff0000000000000⟩ 0 = v2df.INFINITY ∧
      (sse2_exp (exp_special v2df.INFINITY) c_floor
        ⟨0x7ff0000000000000, 0xfff0000000000000⟩).get 0 = v2df.INFINITY) ∧
    (exp_special v2df.INFINITY (binary64.neg v2df.INFINITY) = 0 ∧
      Vec2.get ⟨0x7ff0000000000000, 0xfff0000000000000⟩ 1 = binary64.neg v2df.INFINITY ∧
      (sse2_exp (exp_special v2df.INFINITY) c_floor
        ⟨0x7ff0000000000000, 0xfff0000000000000⟩).get 1 = 0) :=
  ⟨⟨by decide, by decide, Or.inl (by decide!),
      (C2_out_of_range_lane_is_scalar (exp_special v4sf.INFINITY) (exp_special v2df.INFINITY)
        c_floor).1 _ 0 (by decide) (by decide) (Or.inl (by decide!))⟩,
    ⟨by decide, by decide, Or.inr (by decide!),
      (C2_out_of_range_lane_is_scalar (exp_special v4sf.INFINITY) (exp_special v2df.INFINITY)
        c_floor).2.1 _ 1 (by decide) (by decide) (Or.inr (by decide!))⟩,
    ⟨by decide, by decide,
      (C2_out_of_range_lane_is_scalar (exp_special v4sf.INFINITY) (exp_special v2df.INFINITY)
        c_floor).2.2.1 (by decide) _ 3 (by decide)⟩,
    ⟨by decide, by decide,
      (C2_out_of_range_lane_is_scalar (exp_special v4sf.INFINITY) (exp_special v2df.INFINITY)
        c_floor).2.2.2.1 (by decide) _ 0 (by decide)⟩,
    ⟨by decide, by decide,
      (C2_out_of_range_lane_is_scalar (exp_special v4sf.INFINITY) (exp_special v2df.INFINITY)
        c_floor).2.2.2.2.1 (by decide) _ 0 (by decide)⟩,
    ⟨by decide, by decide,
      (C2_out_of_range_lane_is_scalar (exp_special v4sf.INFINITY) (exp_special v2df.INFINITY)
        c_floor).2.2.2.2.2 (by decide) _ 1 (by decide)⟩⟩

/-- The model of the C library's `floor` returns 64-bit lanes. -/
theorem c_floor_lt (b : Nat) (hb : b < 2 ^ 64) : c_floor b < 2 ^ 64 := by
  have hw : (2 : Nat) ^ 64 = 2 ^ binary64.width := rfl
  rw [hw] at hb ⊢
  unfold c_floor
  simp only []
  split_ifs
  all_goals with_reducible first
    | exact Fmt.quiet_lt _ _ hb
    | exact hb
    | exact Nat.two_pow_pos _
    | exact Fmt.withSign_lt _ _ _ (by omega) (Fmt.roundUnits_le _ _ _)
    | exact lt_of_le_of_lt (Fmt.roundUnits_le _ _ _)
        (lt_of_lt_of_le binary64.infMag_lt_signBit
          (by rw [binary64.two_pow_width]; omega))

/-- C3: a lane with `MINLOGF ≤ x[i] ≤ MAXLOGF` comes out of `sse2_expf` as lane `i` of
`sse2_expf_unsafe`, whatever the other lanes hold (out of range or NaN); likewise for
`sse2_exp` with `MINLOG`, `MAXLOG`.  An output lane of either function depends on the same
input lane only. -/
theorem C3_in_range_lane_is_unsafe_lane (expf exp floor : Nat → Nat)
    (hfloor : ∀ b, b < 2 ^ 64 → floor b < 2 ^ 64) :
    (∀ (x : v4sf) (i : Fin 4), x.get i < 2 ^ 32 →
      binary32.le MINLOGF (x.get i) → binary32.le (x.get i) MAXLOGF →
      (sse2_expf expf x).get i = ( sse2_expf_unsafe x).get i) ∧
    (∀ (x : v2df) (i : Fin 2), x.get i < 2 ^ 64 →
      binary64.le MINLOG (x.get i) → binary64.le (x.get i) MAXLOG →
      (sse2_exp exp floor x).get i = ( sse2_exp_unsafe floor x).get i) ∧
    (∀ (x y : v4sf) (i : Fin 4), x.get i = y.get i →
      (sse2_expf expf x).get i = (sse2_expf expf y).get i) ∧
    (∀ (x y : v2df) (i : Fin 2), x.get i = y.get i →
      (sse2_exp exp floor x).get i = (sse2_exp exp floor y).get i) := by
  refine ⟨?_, ?_, ?_, ?_⟩
  · intro x i hx h1 h2
    rw [sse2_expf_get, sse2_expf_unsafe_get]
    exact expf_sel_inr expf _ _ (expf_unsafe_lane_lt _ hx) h2.1 (not_oorf_of_le _ h1 h2)
  · intro x i hx h1 h2
    rw [sse2_exp_get, sse2_exp_unsafe_get]
    exact exp_sel_inr exp _ _ (exp_unsafe_lane_lt floor hfloor _ hx) h2.1
      (not_oord_of_le _ h1 h2)
  · intro x y i h
    rw [sse2_expf_get, sse2_expf_get, sse2_expf_unsafe_get, sse2_expf_unsafe_get, h]
  · intro x y i h
    rw [sse2_exp_get, sse2_exp_get, sse2_exp_unsafe_get, sse2_exp_unsafe_get, h]

/-- C3 at concrete inputs: the in-range lane 1.0 beside an infinite and a NaN lane, for
both precisions, and two vectors that agree on one lane. -/
theorem C3_in_range_lane_is_unsafe_lane_witness :
    (Vec4.get ⟨0x7f800000, 0x3f800000, 0x7fc00000, 0⟩ 1 < 2 ^ 32 ∧
      binary32.le MINLOGF (Vec4.get ⟨0x7f800000, 0x3f800000, 0x7fc00000, 0⟩ 1) ∧
      binary32.le (Vec4.get ⟨0x7f800000, 0x3f800000, 0x7fc00000, 0⟩ 1) MAXLOGF ∧
      (sse2_expf (exp_special v4sf.INFINITY) ⟨0x7f800000, 0x3f800000, 0x7fc00000, 0⟩).get 1
        = ( sse2_expf_unsafe ⟨0x7f800000, 0x3f800000, 0x7fc00000, 0⟩).get 1) ∧
    (Vec2.get ⟨0x7ff0000000000000, 0x3ff0000000000000⟩ 1 < 2 ^ 64 ∧
      binary64.le MINLOG (Vec2.get ⟨0x7ff0000000000000, 0x3ff0000000000000⟩ 1) ∧
      binary64.le (Vec2.get ⟨0x7ff0000000000000, 0x3ff0000000000000⟩ 1) MAXLOG ∧
      (sse2_exp (exp_special v2df.INFINITY) c_floor
          ⟨0x7ff0000000000000, 0x3ff0000000000000⟩).get 1
        = ( sse2_exp_unsafe c_floor ⟨0x7ff0000000000000, 0x3ff0000000000000⟩).get 1) ∧
    (Vec4.get ⟨1, 2, 3, 4⟩ 2 = Vec4.get ⟨5, 6, 3, 7⟩ 2 ∧
      (sse2_expf (exp_special v4sf.INFINITY) ⟨1, 2, 3, 4⟩).get 2
        = (sse2_expf (exp_special v4sf.INFINITY) ⟨5, 6, 3, 7⟩).get 2) ∧
    (Vec2.get ⟨1, 2⟩ 0 = Vec2.get ⟨1, 3⟩ 0 ∧
      (sse2_exp (exp_special v2df.INFINITY) c_floor ⟨1, 2⟩).get 0
        = (sse2_exp (exp_special v2df.INFINITY) c_floor ⟨1, 3⟩).get 0) :=
  ⟨⟨by decide, by decide!, by decide!,
      (C3_in_range_lane_is_unsafe_lane (exp_special v4sf.INFINITY)
        (exp_special v2df.INFINITY) c_floor c_floor_lt).1 _ 1
        (by decide) (by decide!) (by decide!)⟩,
    ⟨by decide, by decide!, by decide!,
      (C3_in_range_lane_is_unsafe_lane (exp_special v4sf.INFINITY)
        (exp_special v2df.INFINITY) c_floor c_floor_lt).2.1 _ 1
        (by decide) (by decide!) (by decide!)⟩,
    ⟨by decide,
      (C3_in_range_lane_is_unsafe_lane (exp_special v4sf.INFINITY)
        (exp_special v2df.INFINITY) c_floor c_floor_lt).2.2.1 _ _ 2 (by decide)⟩,
    ⟨by decide,
      (C3_in_range_lane_is_unsafe_lane (exp_special v4sf.INFINITY)
        (exp_special v2df.INFINITY) c_floor c_floor_lt).2.2.2 _ _ 0 (by decide)⟩⟩

/-! ## Zero inputs -/

/-- The unsafe double lane uses `floor` at one argument only. -/
theorem exp_unsafe_lane_floor_arg (floor : Nat → Nat) (a : Nat) :
    exp_unsafe_lane floor a
      = exp_unsafe_lane
          (fun _ => floor (binary64.add (binary64.mul LOG2E a) (binary64.lit 0 5 10))) a := by
  simp only [ sse2_exp_unsafe, exp_unsafe_lane, Vec2.map, Vec2.map2, vec_splat2, vec_splat,
    mulpd, addpd, subpd, divpd, v2df.sse2_floor_unsafe, v2df.unpack, v2df.pack, cvtpd2dq,
    ldexp, pow2_unsafe, paddd, unpcklps, psllqi128, Vec2.toVec4, Vec4.toVec2, Vec4.map2,
    v2df.polevl, v2df.polevl_loop, List.set_cons_zero, List.set_cons_succ,
    List.getD_cons_zero, List.getD_cons_succ, Nat.zero_mod, Nat.zero_div]

theorem zero32_not_oor : ¬ oorf 0 ∧ ¬ oorf (2 ^ 31) := by decide!

theorem zero64_not_oor : ¬ oord 0 ∧ ¬ oord (2 ^ 63) := by decide!

theorem expf_unsafe_lane_zero :
    expf_unsafe_lane 0 = 0x3f800000 ∧ expf_unsafe_lane (2 ^ 31) = 0x3f800000 := by decide!

theorem exp_floor_arg_zero :
    binary64.add (binary64.mul LOG2E 0) (binary64.lit 0 5 10) = 0x3fe0000000000000 ∧
    binary64.add (binary64.mul LOG2E (2 ^ 63)) (binary64.lit 0 5 10) = 0x3fe0000000000000 := by
  decide!

theorem exp_unsafe_lane_zero :
    exp_unsafe_lane (fun _ => 0) 0 = 0x3ff0000000000000 ∧
    exp_unsafe_lane (fun _ => 0) (2 ^ 63) = 0x3ff0000000000000 := by decide!

theorem one32_toRat : binary32.toRat 0x3f800000 = 1 := by
  have h : binary32.sval 0x3f800000 = 2 ^ 149 := by decide!
  have hs : binary32.scale = 149 := by decide
  unfold Fmt.toRat
  rw [h, hs]
  norm_num

set_option exponentiation.threshold 2048 in
theorem one64_toRat : binary64.toRat 0x3ff0000000000000 = 1 := by
  have h : binary64.sval 0x3ff0000000000000 = 2 ^ 1074 := by decide!
  have hs : binary64.scale = 1074 := by decide
  unfold Fmt.toRat
  rw [h, hs, Int.cast_pow, Int.cast_ofNat]
  exact div_self (pow_ne_zero _ (by norm_num))

/-- C4: `sse2_expf` returns exactly `1.0f` (bit pattern `0x3f800000`) in every lane whose
input is `+0.0` or `-0.0`, and `sse2_exp` returns exactly `1.0` (`0x3ff0000000000000`) in
every such lane, the scalar `floor` mapping `0.5` to `+0.0`. -/
theorem C4_exp_of_zero_is_one (expf exp floor : Nat → Nat)
    (hfloor : floor 0x3fe0000000000000 = 0) :
    (∀ (x : v4sf) (i : Fin 4), (x.get i = 0 ∨ x.get i = 2 ^ 31) →
      (sse2_expf expf x).get i = 0x3f800000) ∧
    (∀ (x : v2df) (i : Fin 2), (x.get i = 0 ∨ x.get i = 2 ^ 63) →
      (sse2_exp exp floor x).get i = 0x3ff0000000000000) ∧
    binary32.toRat 0x3f800000 = 1 ∧ binary64.toRat 0x3ff0000000000000 = 1 := by
  refine ⟨?_, ?_, one32_toRat, one64_toRat⟩
  · intro x i hx
    rw [sse2_expf_get, sse2_expf_unsafe_get]
    rcases hx with hx | hx <;> rw [hx]
    · rw [expf_unsafe_lane_zero.1]
      exact expf_sel_inr expf _ _ (by decide) (by decide) zero32_not_oor.1
    · rw [expf_unsafe_lane_zero.2]
      exact expf_sel_inr expf _ _ (by decide) (by decide) zero32_not_oor.2
  · intro x i hx
    rw [sse2_exp_get, sse2_exp_unsafe_get, exp_unsafe_lane_floor_arg]
    rcases hx with hx | hx <;> rw [hx]
    · rw [exp_floor_arg_zero.1, hfloor, exp_unsafe_lane_zero.1]
      exact exp_sel_inr exp _ _ (by decide) (by decide) zero64_not_oor.1
    · rw [exp_floor_arg_zero.2, hfloor, exp_unsafe_lane_zero.2]
      exact exp_sel_inr exp _ _ (by decide) (by decide) zero64_not_oor.2

/-- C4 at the concrete input of the specification, the double lanes `[0.0, -0.0]`, with
the model of the C library's `floor`. -/
theorem C4_exp_of_zero_is_one_witness :
    c_floor 0x3fe0000000000000 = 0 ∧
    (sse2_exp (exp_special v2df.INFINITY) c_floor ⟨0, 2 ^ 63⟩).get 0 = 0x3ff0000000000000 ∧
    (sse2_exp (exp_special v2df.INFINITY) c_floor ⟨0, 2 ^ 63⟩).get 1 = 0x3ff0000000000000 ∧
    (sse2_expf (exp_special v4sf.INFINITY) ⟨0, 2 ^ 31, 0x7fc00000, 0x7f800000⟩).get 1
      = 0x3f800000 :=
  ⟨by decide!,
    (C4_exp_of_zero_is_one (exp_special v4sf.INFINITY) (exp_special v2df.INFINITY) c_floor
      (by decide!)).2.1 _ 0 (Or.inl (by decide)),
    (C4_exp_of_zero_is_one (exp_special v4sf.INFINITY) (exp_special v2df.INFINITY) c_floor
      (by decide!)).2.1 _ 1 (Or.inr (by decide)),
    (C4_exp_of_zero_is_one (exp_special v4sf.INFINITY) (exp_special v2df.INFINITY) c_floor
      (by decide!)).1 _ 1 (Or.inr (by decide))⟩

/-! ## Powers of two built from the exponent field -/

/-- The fields and the value of the pattern `k * 2 ^ mb` with `1 ≤ k < 2 ^ eb`. -/
theorem Fmt.pow2_pattern (f : Fmt) (k : Nat) (hb : 1 ≤ f.bias) (hk1 : 1 ≤ k)
    (hk2 : k < 2 ^ f.eb) :
    f.sign (k * 2 ^ f.mb) = 0 ∧ f.expField (k * 2 ^ f.mb) = k ∧
    f.manField (k * 2 ^ f.mb) = 0 ∧
    f.toRat (k * 2 ^ f.mb) = (2 : ℚ) ^ ((k : ℤ) - (f.bias : ℤ)) := by
  have hpos : 0 < 2 ^ f.mb := Nat.two_pow_pos _
  have hlt : k * 2 ^ f.mb < f.signBit := by
    unfold Fmt.signBit
    rw [pow_add, mul_comm (2 ^ f.mb)]
    exact Nat.mul_lt_mul_of_pos_right hk2 hpos
  have hsign : f.sign (k * 2 ^ f.mb) = 0 := by
    unfold Fmt.sign
    rw [Nat.div_eq_of_lt hlt]
  have hexp : f.expField (k * 2 ^ f.mb) = k := by
    unfold Fmt.expField Fmt.mag
    rw [Nat.mod_eq_of_lt hlt, Nat.mul_div_cancel _ hpos]
  have hman : f.manField (k * 2 ^ f.mb) = 0 := by
    unfold Fmt.manField
    exact Nat.mul_mod_left _ _
  refine ⟨hsign, hexp, hman, ?_⟩
  unfold Fmt.toRat Fmt.sval Fmt.units Fmt.scale
  rw [hsign, hexp, hman, if_neg (by omega), if_neg (by omega)]
  have e1 : ((k : ℤ) - (f.bias : ℤ)) = ((k - 1 : ℕ) : ℤ) - ((f.bias - 1 : ℕ) : ℤ) := by omega
  rw [e1, zpow_sub₀ (by norm_num : (2 : ℚ) ≠ 0), zpow_natCast, zpow_natCast, pow_add]
  push_cast
  field_simp
  ring

theorem ofInt32_add (n : Int) (b : Nat) (h1 : 0 ≤ n + b) (h2 : n + b < 2 ^ 32) :
    (Fmt.ofInt32 n + b) % 2 ^ 32 = (n + b).toNat := by
  unfold Fmt.ofInt32
  have h3 : (((Int.toNat (n % 2 ^ 32) + b) % 2 ^ 32 : ℕ) : ℤ) = ((n + b).toNat : ℤ) := by
    push_cast
    rw [Int.toNat_of_nonneg (Int.emod_nonneg _ (by norm_num)), Int.toNat_of_nonneg h1]
    omega
  exact_mod_cast h3

theorem bias32 : binary32.bias = 127 := by decide

theorem bias64 : binary64.bias = 1023 := by decide

theorem pow2f_unsafe_lane (n : Int) (h1 : -126 ≤ n) (h2 : n ≤ 127) :
    ((Fmt.ofInt32 n + 127) % 2 ^ 32) <<< 23 % 2 ^ 32 = (n + 127).toNat * 2 ^ 23 := by
  have e := ofInt32_add n 127 (by omega) (by omega)
  simp only [Nat.cast_ofNat] at e
  rw [e, Nat.shiftLeft_eq]
  have : (n + 127).toNat < 255 := by omega
  omega

theorem pow2_unsafe_lane (n : Int) (z : Nat) (hz : z = 0) (h1 : -1022 ≤ n) (h2 : n ≤ 1023) :
    (z + (Fmt.ofInt32 n + 1023) % 2 ^ 32 * 2 ^ 32) <<< 20 % 2 ^ 64
      = (n + 1023).toNat * 2 ^ 52 := by
  have e := ofInt32_add n 1023 (by omega) (by omega)
  simp only [Nat.cast_ofNat] at e
  rw [e, hz, Nat.shiftLeft_eq]
  have : (n + 1023).toNat < 2047 := by omega
  omega

/-- C6: for `-126 ≤ n ≤ 127` each lane of `pow2f_unsafe` (add 127, shift left by 23) is
the binary32 pattern of `2 ^ n`: sign 0, biased exponent `n + 127`, zero significand field,
value `2 ^ n`.  For `-1022 ≤ n0, n1 ≤ 1023` in integer lanes 0 and 1, `pow2_unsafe` (add
1023, interleave with zero low words, shift the 64-bit lanes left by 20) gives the binary64
patterns of `2 ^ n0` and `2 ^ n1`, whatever integer lanes 2 and 3 hold. -/
theorem C6_pow2_patterns :
    (∀ (n : Int) (v : v4si) (i : Fin 4), -126 ≤ n → n ≤ 127 → v.get i = Fmt.ofInt32 n →
      ( pow2f_unsafe v).get i = (n + 127).toNat * 2 ^ 23 ∧
      binary32.sign (( pow2f_unsafe v).get i) = 0 ∧
      (binary32.expField (( pow2f_unsafe v).get i) : ℤ) = n + 127 ∧
      binary32.manField (( pow2f_unsafe v).get i) = 0 ∧
      binary32.toRat (( pow2f_unsafe v).get i) = (2 : ℚ) ^ n) ∧
    (∀ (n0 n1 : Int) (l2 l3 : Nat), -1022 ≤ n0 → n0 ≤ 1023 → -1022 ≤ n1 → n1 ≤ 1023 →
      pow2_unsafe ⟨Fmt.ofInt32 n0, Fmt.ofInt32 n1, l2, l3⟩
        = ⟨(n0 + 1023).toNat * 2 ^ 52, (n1 + 1023).toNat * 2 ^ 52⟩ ∧
      binary64.sign ((n0 + 1023).toNat * 2 ^ 52) = 0 ∧
      (binary64.expField ((n0 + 1023).toNat * 2 ^ 52) : ℤ) = n0 + 1023 ∧
      binary64.manField ((n0 + 1023).toNat * 2 ^ 52) = 0 ∧
      binary64.toRat ((n0 + 1023).toNat * 2 ^ 52) = (2 : ℚ) ^ n0 ∧
      binary64.sign ((n1 + 1023).toNat * 2 ^ 52) = 0 ∧
      (binary64.expField ((n1 + 1023).toNat * 2 ^ 52) : ℤ) = n1 + 1023 ∧
      binary64.manField ((n1 + 1023).toNat * 2 ^ 52) = 0 ∧
      binary64.toRat ((n1 + 1023).toNat * 2 ^ 52) = (2 : ℚ) ^ n1) := by
  constructor
  · intro n v i h1 h2 hv
    have hl : ( pow2f_unsafe v).get i = (n + 127).toNat * 2 ^ 23 := by
      simp only [ pow2f_unsafe, pslldi128, paddd, vec_splat, Vec4.get_map_v4, Vec4.get_map2_v4]
      have hs : Vec4.get ⟨127, 127, 127, 127⟩ i = 127 := by fin_cases i <;> rfl
      rw [hs, hv]
      exact pow2f_unsafe_lane n h1 h2
    obtain ⟨p1, p2, p3, p4⟩ := binary32.pow2_pattern (n + 127).toNat (by decide) (by omega)
      (by have : (2 : Nat) ^ binary32.eb = 256 := by decide
          omega)
    have hmb : binary32.mb = 23 := rfl
    rw [hmb] at p1 p2 p3 p4
    rw [hl]
    refine ⟨rfl, p1, ?_, p3, ?_⟩
    · rw [p2]; omega
    · rw [p4, bias32]
      congr 1
      omega
  · intro n0 n1 l2 l3 h1 h2 h3 h4
    have hmb : binary64.mb = 52 := rfl
    have he : (2 : Nat) ^ binary64.eb = 2048 := by decide
    obtain ⟨p1, p2, p3, p4⟩ := binary64.pow2_pattern (n0 + 1023).toNat (by decide) (by omega)
      (by omega)
    obtain ⟨q1, q2, q3, q4⟩ := binary64.pow2_pattern (n1 + 1023).toNat (by decide) (by omega)
      (by omega)
    rw [hmb] at p1 p2 p3 p4 q1 q2 q3 q4
    refine ⟨?_, p1, ?_, p3, ?_, q1, ?_, q3, ?_⟩
    · simp only [ pow2_unsafe, psllqi128, paddd, vec_splat, unpcklps, Vec2.toVec4, Vec4.toVec2,
        Vec2.map, Vec4.map2]
      rw [pow2_unsafe_lane n0 _ (by decide) h1 h2, pow2_unsafe_lane n1 _ (by decide) h3 h4]
    · rw [p2]; omega
    · rw [p4, bias64]
      congr 1
      omega
    · rw [q2]; omega
    · rw [q4, bias64]
      congr 1
      omega

/-- C6 at concrete inputs: `n = -126` in lane 2 of `pow2f_unsafe`, and `n0 = 1023`,
`n1 = -1022` for `pow2_unsafe` with arbitrary upper integer lanes. -/
theorem C6_pow2_patterns_witness :
    ((-126 : Int) ≤ -126 ∧ (-126 : Int) ≤ 127 ∧
      Vec4.get ⟨0, 0, 0xffffff82, 0⟩ 2 = Fmt.ofInt32 (-126) ∧
      ( pow2f_unsafe ⟨0, 0, 0xffffff82, 0⟩).get 2 = ((-126 : Int) + 127).toNat * 2 ^ 23 ∧
      binary32.toRat (( pow2f_unsafe ⟨0, 0, 0xffffff82, 0⟩).get 2) = (2 : ℚ) ^ (-126 : Int)) ∧
    ((-1022 : Int) ≤ 1023 ∧ (1023 : Int) ≤ 1023 ∧ (-1022 : Int) ≤ -1022 ∧
      (-1022 : Int) ≤ 1023 ∧
      pow2_unsafe ⟨Fmt.ofInt32 1023, Fmt.ofInt32 (-1022), 77, 99⟩
        = ⟨((1023 : Int) + 1023).toNat * 2 ^ 52, ((-1022 : Int) + 1023).toNat * 2 ^ 52⟩) :=
  ⟨⟨by decide, by decide, by decide,
      (C6_pow2_patterns.1 (-126) ⟨0, 0, 0xffffff82, 0⟩ 2 (by decide) (by decide)
        (by decide)).1,
      (C6_pow2_patterns.1 (-126) ⟨0, 0, 0xffffff82, 0⟩ 2 (by decide) (by decide)
        (by decide)).2.2.2.2⟩,
    ⟨by decide, by decide, by decide, by decide,
      (C6_pow2_patterns.2 1023 (-1022) 77 99 (by decide) (by decide) (by decide)
        (by decide)).1⟩⟩

/-! ## Floor and truncation: lanes passed through -/

theorem Fmt.maskOf_or (f : Fmt) (p q : Prop) [Decidable p] [Decidable q] :
    f.or (f.maskOf p) (f.maskOf q) = f.maskOf (p ∨ q) := by
  by_cases hp : p <;> by_cases hq : q <;>
    simp only [Fmt.or, Fmt.maskOf, hp, hq, if_true, if_false, or_self, or_true, true_or,
      Nat.or_self, Nat.or_zero, Nat.zero_or]

theorem pass_nan_inf_zero_lane_eq (f : Fmt) (a r : Nat) :
    pass_nan_inf_zero_lane f a r
      = f.or (f.andn (f.maskOf (((f.isNaN a ∨ f.isNaN a) ∨ f.feq a (f.neg f.infMag)) ∨
          f.feq a f.infMag ∨ f.feq a 0)) r)
        (f.and (f.maskOf (((f.isNaN a ∨ f.isNaN a) ∨ f.feq a (f.neg f.infMag)) ∨
          f.feq a f.infMag ∨ f.feq a 0)) a) := by
  simp only [pass_nan_inf_zero_lane, Fmt.cmpunord, Fmt.cmpeq, Fmt.maskOf_or, or_assoc]

theorem pass_nan_inf_zero_lane_special (f : Fmt) (a r : Nat) (ha : a < 2 ^ f.width)
    (hs : isSpecial f a) : pass_nan_inf_zero_lane f a r = a := by
  have hs2 : ((f.isNaN a ∨ f.isNaN a) ∨ f.feq a (f.neg f.infMag)) ∨
      f.feq a f.infMag ∨ f.feq a 0 := by
    unfold isSpecial at hs; tauto
  rw [pass_nan_inf_zero_lane_eq]
  simp only [Fmt.or, Fmt.andn, Fmt.and, Fmt.maskOf, if_pos hs2, Nat.xor_self, Nat.zero_and,
    Nat.zero_or, Fmt.allOnes]
  rw [Nat.and_comm, Nat.and_pow_two_sub_one_eq_mod, Nat.mod_eq_of_lt ha]

theorem pass_nan_inf_zero_lane_plain (f : Fmt) (a r : Nat) (hr : r < 2 ^ f.width)
    (hs : ¬ isSpecial f a) : pass_nan_inf_zero_lane f a r = r := by
  have hs2 : ¬ (((f.isNaN a ∨ f.isNaN a) ∨ f.feq a (f.neg f.infMag)) ∨
      f.feq a f.infMag ∨ f.feq a 0) := by
    unfold isSpecial at hs; tauto
  rw [pass_nan_inf_zero_lane_eq]
  simp only [Fmt.or, Fmt.andn, Fmt.and, Fmt.maskOf, if_neg hs2, Nat.xor_zero, Nat.zero_and,
    Nat.or_zero, Fmt.allOnes]
  rw [Nat.and_comm, Nat.and_pow_two_sub_one_eq_mod, Nat.mod_eq_of_lt hr]

theorem v4sf_pass_nan_inf_zero_get (x r : v4sf) (i : Fin 4) :
    (v4sf.pass_nan_inf_zero x r).get i
      = pass_nan_inf_zero_lane binary32 (x.get i) (r.get i) := by
  fin_cases i <;> rfl

theorem v4sf_sse2_floor_get (x : v4sf) (i : Fin 4) :
    (v4sf.sse2_floor x).get i
      = pass_nan_inf_zero_lane binary32 (x.get i)
          (binary32.cvtdq2 (binary32.cvt2dq (x.get i))) := by
  unfold v4sf.sse2_floor v4sf.sse2_floor_unsafe cvtdq2ps cvtps2dq
  rw [v4sf_pass_nan_inf_zero_get, Vec4.get_map_v4, Vec4.get_map_v4]

theorem v4sf_sse2_trunc_get (x : v4sf) (i : Fin 4) :
    (v4sf.sse2_trunc x).get i
      = pass_nan_inf_zero_lane binary32 (x.get i)
          (binary32.cvtdq2 (binary32.cvtt2dq (x.get i))) := by
  unfold v4sf.sse2_trunc v4sf.sse2_trunc_unsafe cvtdq2ps cvttps2dq
  rw [v4sf_pass_nan_inf_zero_get, Vec4.get_map_v4, Vec4.get_map_v4]

theorem v2df_sse2_floor_get (floor : Nat → Nat) (x : v2df) (i : Fin 2) :
    (v2df.sse2_floor floor x).get i = pass_nan_lane binary64 (x.get i) (floor (x.get i)) := by
  fin_cases i <;> rfl

/-- C7: a float lane that is a NaN, an infinity or a zero comes out of `sse2_floor` and of
`sse2_trunc` with its bit pattern unchanged (NaN payload and sign of zero kept).  On double
vectors `sse2_floor` merges only NaN lanes, and does the same as soon as the scalar `floor`
returns infinities and signed zeros unchanged. -/
theorem C7_floor_trunc_pass_special_lanes :
    (∀ (x : v4sf) (i : Fin 4), x.get i < 2 ^ 32 →
      (binary32.isNaN (x.get i) ∨ x.get i = v4sf.INFINITY ∨
        x.get i = binary32.neg v4sf.INFINITY ∨ x.get i = 0 ∨ x.get i = 2 ^ 31) →
      (v4sf.sse2_floor x).get i = x.get i ∧ (v4sf.sse2_trunc x).get i = x.get i) ∧
    (∀ (floor : Nat → Nat), floor v2df.INFINITY = v2df.INFINITY →
      floor (binary64.neg v2df.INFINITY) = binary64.neg v2df.INFINITY →
      floor 0 = 0 → floor (2 ^ 63) = 2 ^ 63 →
      ∀ (x : v2df) (i : Fin 2), x.get i < 2 ^ 64 →
      (binary64.isNaN (x.get i) ∨ x.get i = v2df.INFINITY ∨
        x.get i = binary64.neg v2df.INFINITY ∨ x.get i = 0 ∨ x.get i = 2 ^ 63) →
      (v2df.sse2_floor floor x).get i = x.get i) := by
  constructor
  · intro x i hx hs
    have hsp : isSpecial binary32 (x.get i) := by
      rcases hs with h | h | h | h | h
      · exact Or.inl h
      all_goals rw [h]; decide
    rw [v4sf_sse2_floor_get, v4sf_sse2_trunc_get]
    exact ⟨pass_nan_inf_zero_lane_special binary32 _ _ hx hsp,
      pass_nan_inf_zero_lane_special binary32 _ _ hx hsp⟩
  · intro floor f1 f2 f3 f4 x i hx hs
    rw [v2df_sse2_floor_get]
    rcases hs with h | h | h | h | h
    · exact pass_nan_lane_nan binary64 _ _ hx h
    all_goals
      rw [h]
      first
        | rw [f1] | rw [f2] | rw [f3] | rw [f4]
      exact pass_nan_lane_not_nan binary64 _ _ (by decide) (by decide)

/-- C7 at concrete inputs: a float vector holding a NaN with payload, `-inf`, `-0.0` and
`+0.0`, and a double vector holding `-0.0` and a NaN, with the model of `floor`. -/
theorem C7_floor_trunc_pass_special_lanes_witness :
    (Vec4.get ⟨0xffc12345, 0xff800000, 2 ^ 31, 0⟩ 2 < 2 ^ 32 ∧
      (v4sf.sse2_floor ⟨0xffc12345, 0xff800000, 2 ^ 31, 0⟩).get 2
        = Vec4.get ⟨0xffc12345, 0xff800000, 2 ^ 31, 0⟩ 2 ∧
      (v4sf.sse2_trunc ⟨0xffc12345, 0xff800000, 2 ^ 31, 0⟩).get 2
        = Vec4.get ⟨0xffc12345, 0xff800000, 2 ^ 31, 0⟩ 2) ∧
    (Vec4.get ⟨0xffc12345, 0xff800000, 2 ^ 31, 0⟩ 0 < 2 ^ 32 ∧
      (v4sf.sse2_floor ⟨0xffc12345, 0xff800000, 2 ^ 31, 0⟩).get 0
        = Vec4.get ⟨0xffc12345, 0xff800000, 2 ^ 31, 0⟩ 0 ∧
      (v4sf.sse2_trunc ⟨0xffc12345, 0xff800000, 2 ^ 31, 0⟩).get 0
        = Vec4.get ⟨0xffc12345, 0xff800000, 2 ^ 31, 0⟩ 0) ∧
    (c_floor v2df.INFINITY = v2df.INFINITY ∧
      c_floor (binary64.neg v2df.INFINITY) = binary64.neg v2df.INFINITY ∧
      c_floor 0 = 0 ∧ c_floor (2 ^ 63) = 2 ^ 63 ∧
      Vec2.get ⟨2 ^ 63, 0x7ff8000000000001⟩ 0 < 2 ^ 64 ∧
      (v2df.sse2_floor c_floor ⟨2 ^ 63, 0x7ff8000000000001⟩).get 0
        = Vec2.get ⟨2 ^ 63, 0x7ff8000000000001⟩ 0) :=
  ⟨⟨by decide,
      C7_floor_trunc_pass_special_lanes.1 _ 2 (by decide)
        (Or.inr (Or.inr (Or.inr (Or.inr (by decide)))))⟩,
    ⟨by decide,
      C7_floor_trunc_pass_special_lanes.1 _ 0 (by decide) (Or.inl (by decide))⟩,
    ⟨by decide, by decide, by decide, by decide, by decide,
      C7_floor_trunc_pass_special_lanes.2 c_floor (by decide) (by decide) (by decide)
        (by decide) _ 0 (by decide) (Or.inr (Or.inr (Or.inr (Or.inr (by decide)))))⟩⟩

/-! ## Lane pack / unpack -/

/-- C10: for four-lane float and integer vectors and two-lane double vectors,
`pack (unpack v) = v` bit for bit, and `unpack` stores lane `i` in array element `i`; the
lanes are arbitrary bit patterns, NaN payloads and signed zeros included. -/
theorem C10_pack_unpack_roundtrip :
    (∀ v : v4sf, v4sf.pack (v4sf.unpack v) = v) ∧
    (∀ v : v4si, v4si.pack (v4si.unpack v) = v) ∧
    (∀ v : v2df, v2df.pack (v2df.unpack v) = v) ∧
    (∀ (v : v4sf) (i : Fin 4),
      (v4sf.unpack v).length = 4 ∧ (v4sf.unpack v)[i.val]? = some (v.get i)) ∧
    (∀ (v : v4si) (i : Fin 4),
      (v4si.unpack v).length = 4 ∧ (v4si.unpack v)[i.val]? = some (v.get i)) ∧
    (∀ (v : v2df) (i : Fin 2),
      (v2df.unpack v).length = 2 ∧ (v2df.unpack v)[i.val]? = some (v.get i)) := by
  refine ⟨?_, ?_, ?_, ?_, ?_, ?_⟩
  · intro v; cases v; rfl
  · intro v; cases v; rfl
  · intro v; cases v; rfl
  · intro v i; fin_cases i <;> exact ⟨rfl, rfl⟩
  · intro v i; fin_cases i <;> exact ⟨rfl, rfl⟩
  · intro v i; fin_cases i <;> exact ⟨rfl, rfl⟩

/-! ## The leading-bit search -/

theorem ilog2Step_inv (N k : Nat) (p : Nat × Nat)
    (h : p.1 = N / 2 ^ p.2 ∧ 1 ≤ p.1 ∧ p.1 < 2 ^ (2 * k)) :
    (Fmt.ilog2Step p k).1 = N / 2 ^ (Fmt.ilog2Step p k).2 ∧ 1 ≤ (Fmt.ilog2Step p k).1 ∧
      (Fmt.ilog2Step p k).1 < 2 ^ k := by
  obtain ⟨h1, h2, h3⟩ := h
  unfold Fmt.ilog2Step
  have hk : 0 < 2 ^ k := Nat.two_pow_pos k
  split_ifs with hc
  · refine ⟨?_, ?_, ?_⟩
    · show p.1 / 2 ^ k = N / 2 ^ (p.2 + k)
      rw [h1, Nat.div_div_eq_div_mul, pow_add]
    · exact (Nat.one_le_div_iff hk).2 hc
    · show p.1 / 2 ^ k < 2 ^ k
      rw [Nat.div_lt_iff_lt_mul hk, ← pow_add]
      have : k + k = 2 * k := by ring
      rw [this]; exact h3
  · exact ⟨h1, h2, by omega⟩

set_option exponentiation.threshold 8192 in
theorem ilog2_spec (N : Nat) (h0 : 0 < N) (hN : N < 2 ^ 8192) :
    2 ^ Fmt.ilog2 N ≤ N ∧ N < 2 ^ (Fmt.ilog2 N + 1) := by
  have i0 : ((N, 0) : Nat × Nat).1 = N / 2 ^ ((N, 0) : Nat × Nat).2 ∧
      1 ≤ ((N, 0) : Nat × Nat).1 ∧ ((N, 0) : Nat × Nat).1 < 2 ^ (2 * 4096) := by
    refine ⟨?_, h0, hN⟩
    show N = N / 2 ^ 0
    rw [pow_zero, Nat.div_one]
  have i1 := ilog2Step_inv N 4096 _ i0
  have i2 := ilog2Step_inv N 2048 _ i1
  have i3 := ilog2Step_inv N 1024 _ i2
  have i4 := ilog2Step_inv N 512 _ i3
  have i5 := ilog2Step_inv N 256 _ i4
  have i6 := ilog2Step_inv N 128 _ i5
  have i7 := ilog2Step_inv N 64 _ i6
  have i8 := ilog2Step_inv N 32 _ i7
  have i9 := ilog2Step_inv N 16 _ i8
  have i10 := ilog2Step_inv N 8 _ i9
  have i11 := ilog2Step_inv N 4 _ i10
  have i12 := ilog2Step_inv N 2 _ i11
  have i13 := ilog2Step_inv N 1 _ i12
  have e : Fmt.ilog2 N = (Fmt.ilog2Step (Fmt.ilog2Step (Fmt.ilog2Step (Fmt.ilog2Step (Fmt.ilog2Step (Fmt.ilog2Step
      (Fmt.ilog2Step (Fmt.ilog2Step (Fmt.ilog2Step (Fmt.ilog2Step (Fmt.ilog2Step (Fmt.ilog2Step (Fmt.ilog2Step (N, 0)
      4096) 2048) 1024) 512) 256) 128) 64) 32) 16) 8) 4) 2) 1).2 := by
    simp only [Fmt.ilog2, List.foldl]
  rw [e]
  generalize (Fmt.ilog2Step (Fmt.ilog2Step (Fmt.ilog2Step (Fmt.ilog2Step (Fmt.ilog2Step (Fmt.ilog2Step
      (Fmt.ilog2Step (Fmt.ilog2Step (Fmt.ilog2Step (Fmt.ilog2Step (Fmt.ilog2Step (Fmt.ilog2Step (Fmt.ilog2Step (N, 0)
      4096) 2048) 1024) 512) 256) 128) 64) 32) 16) 8) 4) 2) 1) = p at i13
  obtain ⟨j1, j2, j3⟩ := i13
  have hp : p.1 = 1 := by omega
  rw [hp] at j1
  have hpos : 0 < 2 ^ p.2 := Nat.two_pow_pos _
  constructor
  · exact (Nat.one_le_div_iff hpos).1 (by omega)
  · have : N / 2 ^ p.2 < 2 := by omega
    rw [Nat.div_lt_iff_lt_mul hpos] at this
    rw [pow_succ]; omega

theorem ilog2_eq (N k : Nat) (h1 : 2 ^ k ≤ N) (h2 : N < 2 ^ (k + 1)) (hN : N < 2 ^ 8192) :
    Fmt.ilog2 N = k := by
  have h0 : 0 < N := lt_of_lt_of_le (Nat.two_pow_pos k) h1
  obtain ⟨s1, s2⟩ := ilog2_spec N h0 hN
  have a1 : Fmt.ilog2 N < k + 1 :=
    (Nat.pow_lt_pow_iff_right (by decide : 1 < 2)).1 (lt_of_le_of_lt s1 h2)
  have a2 : k < Fmt.ilog2 N + 1 :=
    (Nat.pow_lt_pow_iff_right (by decide : 1 < 2)).1 (lt_of_le_of_lt h1 s2)
  omega

/-! ## Fields, magnitude and value of a bit pattern -/

theorem Fmt.two_pow_mb_dvd_signBit (f : Fmt) : 2 ^ f.mb ∣ f.signBit := by
  unfold Fmt.signBit
  exact pow_dvd_pow 2 (Nat.le_add_right _ _)

theorem Fmt.manField_lt (f : Fmt) (a : Nat) : f.manField a < 2 ^ f.mb :=
  Nat.mod_lt _ (Nat.two_pow_pos _)

theorem Fmt.mag_eq (f : Fmt) (a : Nat) :
    f.mag a = f.expField a * 2 ^ f.mb + f.manField a := by
  unfold Fmt.expField Fmt.manField
  have h : a % 2 ^ f.mb = f.mag a % 2 ^ f.mb := by
    unfold Fmt.mag
    rw [Nat.mod_mod_of_dvd _ f.two_pow_mb_dvd_signBit]
  rw [h, mul_comm]
  exact (Nat.div_add_mod _ _).symm

theorem Fmt.expField_lt_of_finite (f : Fmt) (a : Nat) (h : f.isFinite a) :
    f.expField a < 2 ^ f.eb - 1 := by
  unfold Fmt.expField
  unfold Fmt.isFinite Fmt.infMag at h
  exact (Nat.div_lt_iff_lt_mul (Nat.two_pow_pos _)).2 h

theorem Fmt.mag_lt_signBit (f : Fmt) (a : Nat) : f.mag a < f.signBit :=
  Nat.mod_lt _ f.signBit_pos

theorem Fmt.mag_of_lt (f : Fmt) (b : Nat) (h : b < f.signBit) : f.mag b = b :=
  Nat.mod_eq_of_lt h

/-- Sign and magnitude of an assembled pattern. -/
theorem Fmt.withSign_fields (f : Fmt) (s b : Nat) (hs : s ≤ 1) (hb : b < f.signBit) :
    f.sign (f.withSign s b) = s ∧ f.mag (f.withSign s b) = b ∧
    f.units (f.withSign s b) = f.units b := by
  have hp := f.signBit_pos
  have h1 : f.sign (f.withSign s b) = s := by
    unfold Fmt.sign Fmt.withSign
    rw [Nat.add_comm, Nat.add_mul_div_right _ _ hp, Nat.div_eq_of_lt hb, Nat.zero_add]
    exact Nat.mod_eq_of_lt (by omega)
  have h2 : f.mag (f.withSign s b) = b := by
    unfold Fmt.mag Fmt.withSign
    rw [Nat.add_comm, Nat.add_mul_mod_self_right]
    exact Nat.mod_eq_of_lt hb
  have h3 : f.manField (f.withSign s b) = f.manField b := by
    unfold Fmt.manField Fmt.withSign
    obtain ⟨c, hc⟩ := f.two_pow_mb_dvd_signBit
    rw [hc, Nat.add_comm, ← Nat.mul_assoc, Nat.mul_comm s, Nat.mul_assoc,
      Nat.add_mul_mod_self_left]
  refine ⟨h1, h2, ?_⟩
  unfold Fmt.units Fmt.expField
  rw [h2, h3, f.mag_of_lt b hb]

theorem Fmt.toRat_withSign (f : Fmt) (s b : Nat) (hs : s ≤ 1) (hb : b < f.signBit) :
    f.toRat (f.withSign s b)
      = (if s = 1 then -(f.units b : ℚ) else (f.units b : ℚ)) / 2 ^ f.scale := by
  obtain ⟨h1, _, h3⟩ := f.withSign_fields s b hs hb
  unfold Fmt.toRat Fmt.sval
  rw [h1, h3]
  split_ifs <;> push_cast <;> rfl

/-- A finite pattern is a denormal (`expField = 0`, magnitude `manField`) or a normal
number (`1 ≤ expField ≤ 2 ^ eb - 2`, magnitude `(2 ^ mb + manField) * 2 ^ (expField - 1)`). -/
theorem Fmt.units_cases (f : Fmt) (a : Nat) :
    (f.expField a = 0 ∧ f.units a = f.manField a) ∨
    (1 ≤ f.expField a ∧ f.units a = (2 ^ f.mb + f.manField a) * 2 ^ (f.expField a - 1)) := by
  unfold Fmt.units
  by_cases h : f.expField a = 0
  · left; exact ⟨h, by rw [if_pos h]⟩
  · right; exact ⟨by omega, by rw [if_neg h]⟩

theorem Fmt.units_pos (f : Fmt) (a : Nat) (h : ¬ f.isZero a) : 0 < f.units a := by
  have hm := f.mag_eq a
  unfold Fmt.isZero at h
  rcases f.units_cases a with ⟨h1, h2⟩ | ⟨h1, h2⟩
  · rw [h2]; rw [h1] at hm; omega
  · rw [h2]; positivity

/-- A finite magnitude is below the magnitude of the pattern of infinity. -/
theorem Fmt.units_lt_inf (f : Fmt) (a : Nat) (h : f.isFinite a) (he : 1 ≤ f.eb) :
    f.units a < 2 ^ f.mb * 2 ^ (2 ^ f.eb - 2) := by
  have hE := f.expField_lt_of_finite a h
  have hM := f.manField_lt a
  have h2 : 2 ≤ 2 ^ f.eb := by
    calc 2 = 2 ^ 1 := by norm_num
      _ ≤ 2 ^ f.eb := Nat.pow_le_pow_right (by decide) he
  rcases f.units_cases a with ⟨_, h2⟩ | ⟨h1, h2⟩
  · rw [h2]
    calc f.manField a < 2 ^ f.mb := hM
      _ = 2 ^ f.mb * 1 := by ring
      _ ≤ 2 ^ f.mb * 2 ^ (2 ^ f.eb - 2) :=
          Nat.mul_le_mul_left _ (Nat.one_le_two_pow)
  · rw [h2]
    have e : 2 ^ (2 ^ f.eb - 2) = 2 * 2 ^ (2 ^ f.eb - 3) := by
      rw [← pow_succ']; congr 1; omega
    have hle : 2 ^ (f.expField a - 1) ≤ 2 ^ (2 ^ f.eb - 3) :=
      Nat.pow_le_pow_right (by decide) (by omega)
    rw [e]
    calc (2 ^ f.mb + f.manField a) * 2 ^ (f.expField a - 1)
        ≤ (2 ^ f.mb + f.manField a) * 2 ^ (2 ^ f.eb - 3) := Nat.mul_le_mul_left _ hle
      _ < (2 ^ f.mb + 2 ^ f.mb) * 2 ^ (2 ^ f.eb - 3) :=
          Nat.mul_lt_mul_of_pos_right (by omega) (Nat.two_pow_pos _)
      _ = 2 ^ f.mb * (2 * 2 ^ (2 ^ f.eb - 3)) := by ring

/-! ## Rounding a quotient to an integer -/

theorem rneDiv_of_dvd (n d : Nat) (hd : 0 < d) (h : d ∣ n) : Fmt.rneDiv n d = n / d := by
  unfold Fmt.rneDiv
  have hr : n % d = 0 := Nat.mod_eq_zero_of_dvd h
  rw [hr, if_neg (by omega)]

theorem rneDiv_bounds (n d : Nat) : n / d ≤ Fmt.rneDiv n d ∧ Fmt.rneDiv n d ≤ n / d + 1 := by
  unfold Fmt.rneDiv
  split_ifs <;> omega

theorem rneDiv_nearest (n d : Nat) (hd : 0 < d) :
    IsNearestEven ((n : ℚ) / d) (Fmt.rneDiv n d : ℕ) := by
  have hdq : (0 : ℚ) < d := by exact_mod_cast hd
  have hnat := (Nat.div_add_mod n d).symm
  have hr : n % d < d := Nat.mod_lt _ hd
  unfold Fmt.rneDiv IsNearestEven
  generalize n / d = k at hnat ⊢
  generalize n % d = r at hnat hr ⊢
  have hn : (n : ℚ) = (d : ℚ) * (k : ℚ) + (r : ℚ) := by exact_mod_cast hnat
  have hrq : (r : ℚ) < d := by exact_mod_cast hr
  have hr0 : (0 : ℚ) ≤ (r : ℚ) := by positivity
  have hfrac : (n : ℚ) / d - (k : ℚ) = (r : ℚ) / d := by
    rw [hn]; field_simp
  split_ifs with hc
  · have e : (n : ℚ) / d - (((k + 1 : ℕ) : ℤ) : ℚ) = (r : ℚ) / d - 1 := by
      push_cast; linarith
    rw [e]
    have hle : (r : ℚ) / d - 1 ≤ 0 := by
      rw [sub_nonpos, div_le_one hdq]; exact le_of_lt hrq
    rw [abs_of_nonpos hle]
    rcases hc with hc | ⟨hc1, hc2⟩
    · left
      have : (d : ℚ) < 2 * (r : ℚ) := by exact_mod_cast hc
      have h2 : (1 : ℚ) / 2 < (r : ℚ) / d := by
        rw [div_lt_div_iff₀ (by norm_num) hdq]; linarith
      linarith
    · right
      have : (2 : ℚ) * (r : ℚ) = d := by exact_mod_cast hc1
      have h2 : (r : ℚ) / d = 1 / 2 := by
        rw [div_eq_div_iff (ne_of_gt hdq) (by norm_num)]; linarith
      refine ⟨by rw [h2]; norm_num, ?_⟩
      rw [Int.even_iff]
      push_cast
      omega
  · have e : (n : ℚ) / d - (((k : ℕ) : ℤ) : ℚ) = (r : ℚ) / d := by
      push_cast; exact hfrac
    rw [e, abs_of_nonneg (div_nonneg hr0 (le_of_lt hdq))]
    rw [not_or] at hc
    obtain ⟨hc1, hc2⟩ := hc
    by_cases h2r : 2 * r = d
    · right
      have : (2 : ℚ) * (r : ℚ) = d := by exact_mod_cast h2r
      refine ⟨by rw [div_eq_div_iff (ne_of_gt hdq) (by norm_num)]; linarith, ?_⟩
      rw [Int.even_iff]
      have : ¬ (k % 2 = 1) := fun h => hc2 ⟨h2r, h⟩
      omega
    · left
      have : 2 * r < d := by omega
      have : (2 : ℚ) * (r : ℚ) < d := by exact_mod_cast this
      rw [div_lt_div_iff₀ hdq (by norm_num)]; linarith

theorem IsNearestEven.neg (q : ℚ) (z : ℤ) (h : IsNearestEven q z) :
    IsNearestEven (-q) (-z) := by
  unfold IsNearestEven at *
  have e : -q - ((-z : ℤ) : ℚ) = -(q - (z : ℚ)) := by push_cast; ring
  rw [e, abs_neg, even_neg]
  exact h

theorem IsNearestEven.unique (q : ℚ) (z w : ℤ) (hz : IsNearestEven q z)
    (hw : IsNearestEven q w) : z = w := by
  unfold IsNearestEven at *
  have habs : ∀ a : ℚ, |a| < 1 / 2 ∨ (|a| = 1 / 2 ∧ True) → -(1 / 2) ≤ a ∧ a ≤ 1 / 2 := by
    intro a h
    have : |a| ≤ 1 / 2 := by rcases h with h | ⟨h, _⟩ <;> linarith
    exact abs_le.1 this
  have hz1 : |q - z| ≤ 1 / 2 := by rcases hz with h | ⟨h, _⟩ <;> linarith
  have hw1 : |q - w| ≤ 1 / 2 := by rcases hw with h | ⟨h, _⟩ <;> linarith
  obtain ⟨z1, z2⟩ := abs_le.1 hz1
  obtain ⟨w1, w2⟩ := abs_le.1 hw1
  have d1 : ((z - w : ℤ) : ℚ) ≤ 1 := by push_cast; linarith
  have d2 : (-1 : ℚ) ≤ ((z - w : ℤ) : ℚ) := by push_cast; linarith
  have d1' : z - w ≤ 1 := by exact_mod_cast d1
  have d2' : -1 ≤ z - w := by exact_mod_cast d2
  by_contra hne
  have hcase : z - w = 1 ∨ z - w = -1 := by omega
  have strict : ¬ (|q - z| < 1 / 2) ∧ ¬ (|q - w| < 1 / 2) := by
    constructor
    · intro h
      obtain ⟨a1, a2⟩ := abs_lt.1 h
      rcases hcase with hc | hc
      · have : ((z - w : ℤ) : ℚ) = 1 := by exact_mod_cast hc
        push_cast at this; linarith
      · have : ((z - w : ℤ) : ℚ) = -1 := by exact_mod_cast hc
        push_cast at this; linarith
    · intro h
      obtain ⟨a1, a2⟩ := abs_lt.1 h
      rcases hcase with hc | hc
      · have : ((z - w : ℤ) : ℚ) = 1 := by exact_mod_cast hc
        push_cast at this; linarith
      · have : ((z - w : ℤ) : ℚ) = -1 := by exact_mod_cast hc
        push_cast at this; linarith
  have ez : Even z := by
    rcases hz with h | ⟨_, h⟩
    · exact absurd h strict.1
    · exact h
  have ew : Even w := by
    rcases hw with h | ⟨_, h⟩
    · exact absurd h strict.2
    · exact h
  rw [Int.even_iff] at ez ew
  omega

/-! ## Exact results of the rounding step -/

/-- A magnitude whose bits below the rounding position are zero, and which does not
overflow, is encoded without error. -/
theorem Fmt.roundUnits_exact (f : Fmt) (N : Nat) (h0 : 0 < N) (hN : N < 2 ^ 8192)
    (hdvd : 2 ^ (Fmt.ilog2 N - f.mb) ∣ N) (hov : Fmt.ilog2 N - f.mb + 1 < 2 ^ f.eb - 1) :
    f.roundUnits N 1 < f.infMag ∧ f.units (f.roundUnits N 1) = N := by
  obtain ⟨l1, l2⟩ := ilog2_spec N h0 hN
  have hA : 0 < 2 ^ f.mb := Nat.two_pow_pos _
  unfold Fmt.roundUnits
  simp only [Nat.div_one, Nat.one_mul]
  generalize hs : Fmt.ilog2 N - f.mb = s at hdvd hov ⊢
  have hS : 0 < 2 ^ s := Nat.two_pow_pos _
  rw [rneDiv_of_dvd N (2 ^ s) hS hdvd]
  obtain ⟨m, hm⟩ := hdvd
  have hdiv : N / 2 ^ s = m := by rw [hm]; exact Nat.mul_div_cancel_left _ hS
  rw [hdiv]
  have hinf : f.infMag = (2 ^ f.eb - 1) * 2 ^ f.mb := rfl
  by_cases hk : Fmt.ilog2 N < f.mb
  · -- denormal result
    have s0 : s = 0 := by omega
    subst s0
    have hmN : m = N := by rw [hm]; simp
    have hlt : N < 2 ^ f.mb :=
      lt_of_lt_of_le l2 (Nat.pow_le_pow_right (by decide) (by omega))
    have hlt2 : N < f.infMag := by
      rw [hinf]
      calc N < 2 ^ f.mb := hlt
        _ = 1 * 2 ^ f.mb := by ring
        _ ≤ (2 ^ f.eb - 1) * 2 ^ f.mb := Nat.mul_le_mul_right _ (by omega)
    rw [hmN, Nat.zero_mul, Nat.zero_add, Nat.min_eq_left (le_of_lt hlt2)]
    refine ⟨hlt2, ?_⟩
    have hsb : N < f.signBit := lt_trans hlt2 f.infMag_lt_signBit
    unfold Fmt.units Fmt.expField Fmt.manField
    rw [f.mag_of_lt N hsb, Nat.div_eq_of_lt hlt, if_pos rfl, Nat.mod_eq_of_lt hlt]
  · -- normal result
    have hks : Fmt.ilog2 N = s + f.mb := by omega
    rw [hks] at l1 l2
    have hm1 : 2 ^ f.mb ≤ m := by
      by_contra hc
      have : m * 2 ^ s < 2 ^ f.mb * 2 ^ s :=
        Nat.mul_lt_mul_of_pos_right (by omega) hS
      rw [pow_add, hm, mul_comm (2 ^ s) m, mul_comm (2 ^ s)] at l1
      omega
    have hm2 : m < 2 * 2 ^ f.mb := by
      by_contra hc
      have : 2 * 2 ^ f.mb * 2 ^ s ≤ m * 2 ^ s := Nat.mul_le_mul_right _ (by omega)
      rw [pow_succ, pow_add, hm, mul_comm (2 ^ s) m] at l2
      have e : 2 ^ s * 2 ^ f.mb * 2 = 2 * 2 ^ f.mb * 2 ^ s := by ring
      omega
    have hb : s * 2 ^ f.mb + m < f.infMag := by
      rw [hinf]
      have h3 : s + 2 ≤ 2 ^ f.eb - 1 := by omega
      calc s * 2 ^ f.mb + m < s * 2 ^ f.mb + 2 * 2 ^ f.mb := by omega
        _ = (s + 2) * 2 ^ f.mb := by ring
        _ ≤ (2 ^ f.eb - 1) * 2 ^ f.mb := Nat.mul_le_mul_right _ h3
    rw [Nat.min_eq_left (le_of_lt hb)]
    refine ⟨hb, ?_⟩
    have hsb : s * 2 ^ f.mb + m < f.signBit := lt_trans hb f.infMag_lt_signBit
    have e1 : s * 2 ^ f.mb + m = (m - 2 ^ f.mb) + (s + 1) * 2 ^ f.mb := by
      have : (s + 1) * 2 ^ f.mb = s * 2 ^ f.mb + 2 ^ f.mb := by ring
      omega
    have hE : (s * 2 ^ f.mb + m) / 2 ^ f.mb = s + 1 := by
      rw [e1, Nat.add_mul_div_right _ _ hA, Nat.div_eq_of_lt (by omega), Nat.zero_add]
    have hM : (s * 2 ^ f.mb + m) % 2 ^ f.mb = m - 2 ^ f.mb := by
      rw [e1, Nat.add_mul_mod_self_right, Nat.mod_eq_of_lt (by omega)]
    unfold Fmt.units Fmt.expField Fmt.manField
    rw [f.mag_of_lt _ hsb, hE, hM, if_neg (by omega), Nat.add_sub_cancel, hm]
    have : 2 ^ f.mb + (m - 2 ^ f.mb) = m := by omega
    rw [this, mul_comm]

theorem std32 : binary32.Std := by decide

theorem std64 : binary64.Std := by decide

set_option exponentiation.threshold 8192 in
/-- The magnitude of a finite non-zero number is representable. -/
theorem Fmt.units_rep (f : Fmt) (a : Nat) (hstd : f.Std) (hf : f.isFinite a)
    (hz : ¬ f.isZero a) :
    f.units a < 2 ^ 8192 ∧ 2 ^ (Fmt.ilog2 (f.units a) - f.mb) ∣ f.units a ∧
    Fmt.ilog2 (f.units a) - f.mb + 1 < 2 ^ f.eb - 1 := by
  obtain ⟨s1, s2, s3, s4⟩ := hstd
  have hpos := f.units_pos a hz
  have hE := f.expField_lt_of_finite a hf
  have hM := f.manField_lt a
  have h4 : 4 ≤ 2 ^ f.eb := by
    calc 4 = 2 ^ 2 := by norm_num
      _ ≤ 2 ^ f.eb := Nat.pow_le_pow_right (by decide) s1
  have hbig : f.units a < 2 ^ 8192 := by
    have h := f.units_lt_inf a hf (by omega)
    rw [← pow_add] at h
    exact lt_of_lt_of_le h (Nat.pow_le_pow_right (by decide) (by omega))
  refine ⟨hbig, ?_⟩
  obtain ⟨l1, l2⟩ := ilog2_spec _ hpos hbig
  rcases f.units_cases a with ⟨h1, h2⟩ | ⟨h1, h2⟩
  · have hlt : Fmt.ilog2 (f.units a) < f.mb := by
      have l1' : 2 ^ Fmt.ilog2 (f.units a) ≤ f.manField a := le_of_le_of_eq l1 h2
      exact (Nat.pow_lt_pow_iff_right (by decide : 1 < 2)).1 (lt_of_le_of_lt l1' hM)
    have e : Fmt.ilog2 (f.units a) - f.mb = 0 := by omega
    rw [e]
    exact ⟨by simp, by omega⟩
  · have hlo : 2 ^ (f.mb + (f.expField a - 1)) ≤ f.units a := by
      rw [h2, pow_add]
      exact Nat.mul_le_mul_right _ (by omega)
    have hhi : f.units a < 2 ^ (f.mb + (f.expField a - 1) + 1) := by
      rw [h2, pow_succ, pow_add]
      have : (2 ^ f.mb + f.manField a) * 2 ^ (f.expField a - 1)
          < (2 * 2 ^ f.mb) * 2 ^ (f.expField a - 1) :=
        Nat.mul_lt_mul_of_pos_right (by omega) (Nat.two_pow_pos _)
      calc (2 ^ f.mb + f.manField a) * 2 ^ (f.expField a - 1)
          < (2 * 2 ^ f.mb) * 2 ^ (f.expField a - 1) := this
        _ = 2 ^ f.mb * 2 ^ (f.expField a - 1) * 2 := by ring
    have e := ilog2_eq _ _ hlo hhi hbig
    have e2 : Fmt.ilog2 (f.units a) - f.mb = f.expField a - 1 := by omega
    rw [e2]
    exact ⟨by rw [h2]; exact Dvd.intro_left _ rfl, by omega⟩

/-- A finite magnitude of at least `2 ^ mb` is an integer. -/
theorem Fmt.units_dvd_of_large (f : Fmt) (a : Nat)
    (hl : 2 ^ (f.mb + f.scale) ≤ f.units a) : 2 ^ f.scale ∣ f.units a := by
  have hM := f.manField_lt a
  rcases f.units_cases a with ⟨h1, h2⟩ | ⟨h1, h2⟩
  · exfalso
    rw [h2] at hl
    have : 2 ^ f.mb ≤ 2 ^ (f.mb + f.scale) := Nat.pow_le_pow_right (by decide) (by omega)
    omega
  · rw [h2] at hl ⊢
    have hlt : 2 ^ (f.mb + f.scale) < 2 ^ (f.mb + 1 + (f.expField a - 1)) := by
      calc 2 ^ (f.mb + f.scale) ≤ (2 ^ f.mb + f.manField a) * 2 ^ (f.expField a - 1) := hl
        _ < (2 * 2 ^ f.mb) * 2 ^ (f.expField a - 1) :=
            Nat.mul_lt_mul_of_pos_right (by omega) (Nat.two_pow_pos _)
        _ = 2 ^ (f.mb + 1 + (f.expField a - 1)) := by
            rw [pow_add, pow_succ]; ring
    have hexp := (Nat.pow_lt_pow_iff_right (by decide : 1 < 2)).1 hlt
    exact Dvd.dvd.mul_left (pow_dvd_pow 2 (by omega)) _

set_option exponentiation.threshold 8192 in
/-- An integer of at most `mb + 1` bits is representable. -/
theorem Fmt.int_rep (f : Fmt) (m : Nat) (hstd : f.Std) (h0 : 0 < m) (hm : m ≤ 2 ^ f.mb) :
    0 < m * 2 ^ f.scale ∧ m * 2 ^ f.scale < 2 ^ 8192 ∧
    2 ^ (Fmt.ilog2 (m * 2 ^ f.scale) - f.mb) ∣ m * 2 ^ f.scale ∧
    Fmt.ilog2 (m * 2 ^ f.scale) - f.mb + 1 < 2 ^ f.eb - 1 := by
  obtain ⟨s1, s2, s3, s4⟩ := hstd
  have hS : 0 < 2 ^ f.scale := Nat.two_pow_pos _
  have hmb : m < 2 ^ 8192 :=
    lt_of_le_of_lt hm (Nat.pow_lt_pow_right (by decide) (by omega))
  obtain ⟨l1, l2⟩ := ilog2_spec m h0 hmb
  have hj : Fmt.ilog2 m ≤ f.mb :=
    (Nat.pow_le_pow_iff_right (by decide : 1 < 2)).1 (le_trans l1 hm)
  have hbig : m * 2 ^ f.scale < 2 ^ 8192 := by
    calc m * 2 ^ f.scale ≤ 2 ^ f.mb * 2 ^ f.scale := Nat.mul_le_mul_right _ hm
      _ = 2 ^ (f.mb + f.scale) := by rw [pow_add]
      _ < 2 ^ 8192 := Nat.pow_lt_pow_right (by decide) s4
  have hlo : 2 ^ (Fmt.ilog2 m + f.scale) ≤ m * 2 ^ f.scale := by
    rw [pow_add]; exact Nat.mul_le_mul_right _ l1
  have hhi : m * 2 ^ f.scale < 2 ^ (Fmt.ilog2 m + f.scale + 1) := by
    have : m * 2 ^ f.scale < 2 ^ (Fmt.ilog2 m + 1) * 2 ^ f.scale :=
      Nat.mul_lt_mul_of_pos_right l2 hS
    calc m * 2 ^ f.scale < 2 ^ (Fmt.ilog2 m + 1) * 2 ^ f.scale := this
      _ = 2 ^ (Fmt.ilog2 m + f.scale + 1) := by rw [← pow_add]; congr 1; omega
  have e := ilog2_eq _ _ hlo hhi hbig
  refine ⟨Nat.mul_pos h0 hS, hbig, ?_, by omega⟩
  rw [e]
  exact Dvd.dvd.mul_left (pow_dvd_pow 2 (by omega)) _

/-! ## Conversions between floating-point and 32-bit integer lanes -/

theorem toInt32_ofInt32 (z : Int) (h1 : -(2 ^ 31) ≤ z) (h2 : z < 2 ^ 31) :
    Fmt.toInt32 (Fmt.ofInt32 z) = z := by
  unfold Fmt.toInt32 Fmt.ofInt32
  have hnn : (0 : Int) ≤ z % 2 ^ 32 := Int.emod_nonneg _ (by norm_num)
  have hlt : z % 2 ^ 32 < 2 ^ 32 := Int.emod_lt_of_pos _ (by norm_num)
  have hc : ((Int.toNat (z % 2 ^ 32) : ℕ) : ℤ) = z % 2 ^ 32 := Int.toNat_of_nonneg hnn
  have hm : Int.toNat (z % 2 ^ 32) % 2 ^ 32 = Int.toNat (z % 2 ^ 32) :=
    Nat.mod_eq_of_lt (by omega)
  rw [hm]
  split_ifs with h <;> omega

theorem fitInt32_of_range (z : Int) (h1 : -(2 ^ 31) ≤ z) (h2 : z < 2 ^ 31) :
    Fmt.fitInt32 z = Fmt.ofInt32 z := by
  unfold Fmt.fitInt32
  rw [if_pos ⟨h1, h2⟩]

theorem Fmt.infMag_pos (f : Fmt) (he : 1 ≤ f.eb) : 0 < f.infMag := by
  unfold Fmt.infMag
  have h2 : 2 ≤ 2 ^ f.eb := by
    calc 2 = 2 ^ 1 := by norm_num
      _ ≤ 2 ^ f.eb := Nat.pow_le_pow_right (by decide) he
  exact Nat.mul_pos (by omega) (Nat.two_pow_pos _)

theorem Fmt.toRat_zero (f : Fmt) : f.toRat 0 = 0 := by
  have hu : f.units 0 = 0 := by
    unfold Fmt.units Fmt.expField Fmt.manField Fmt.mag
    simp
  unfold Fmt.toRat Fmt.sval
  rw [hu]
  split_ifs <;> simp

/-- The value of a finite pattern in terms of its sign and magnitude. -/
theorem Fmt.toRat_eq (f : Fmt) (a : Nat) :
    f.toRat a = (if f.sign a = 1 then -(f.units a : ℚ) else (f.units a : ℚ)) / 2 ^ f.scale := by
  unfold Fmt.toRat Fmt.sval
  split_ifs <;> push_cast <;> rfl

/-- Converting an in-range integer with a representable magnitude is exact. -/
theorem Fmt.cvtdq2_exact (f : Fmt) (z : Int) (he : 1 ≤ f.eb)
    (h1 : -(2 ^ 31) ≤ z) (h2 : z < 2 ^ 31)
    (hrep : z ≠ 0 → z.natAbs * 2 ^ f.scale < 2 ^ 8192 ∧
      2 ^ (Fmt.ilog2 (z.natAbs * 2 ^ f.scale) - f.mb) ∣ z.natAbs * 2 ^ f.scale ∧
      Fmt.ilog2 (z.natAbs * 2 ^ f.scale) - f.mb + 1 < 2 ^ f.eb - 1) :
    f.isFinite (f.cvtdq2 (Fmt.ofInt32 z)) ∧ f.toRat (f.cvtdq2 (Fmt.ofInt32 z)) = z := by
  unfold Fmt.cvtdq2
  simp only []
  rw [toInt32_ofInt32 z h1 h2]
  by_cases hz : z = 0
  · rw [if_pos hz, hz]
    refine ⟨?_, by rw [f.toRat_zero]; simp⟩
    unfold Fmt.isFinite Fmt.mag
    rw [Nat.zero_mod]
    exact f.infMag_pos he
  · rw [if_neg hz]
    obtain ⟨r1, r2, r3⟩ := hrep hz
    have hpos : 0 < z.natAbs * 2 ^ f.scale :=
      Nat.mul_pos (Int.natAbs_pos.2 hz) (Nat.two_pow_pos _)
    obtain ⟨e1, e2⟩ := f.roundUnits_exact _ hpos r1 r2 r3
    have hsb := lt_trans e1 f.infMag_lt_signBit
    have hs : (if z < 0 then 1 else 0) ≤ 1 := by split_ifs <;> omega
    obtain ⟨w1, w2, w3⟩ := f.withSign_fields _ _ hs hsb
    refine ⟨?_, ?_⟩
    · unfold Fmt.isFinite
      rw [w2]; exact e1
    · rw [f.toRat_withSign _ _ hs hsb, e2]
      have hS : (2 : ℚ) ^ f.scale ≠ 0 := by positivity
      by_cases hneg : z < 0
      · rw [if_pos hneg, if_pos rfl]
        push_cast
        rw [neg_div, mul_div_assoc, div_self hS, mul_one]
        have hi : (z.natAbs : ℤ) = -z := by omega
        have h' : (z.natAbs : ℚ) = ((z.natAbs : ℤ) : ℚ) := (Int.cast_natCast _).symm
        rw [h', hi]; push_cast; ring
      · rw [if_neg hneg, if_neg (by decide)]
        push_cast
        rw [mul_div_assoc, div_self hS, mul_one]
        have hi : (z.natAbs : ℤ) = z := by omega
        have h' : (z.natAbs : ℚ) = ((z.natAbs : ℤ) : ℚ) := (Int.cast_natCast _).symm
        rw [h', hi]
/-- The integer a finite lane is converted to by `cvtps2dq` / `cvtpd2dq`, before the
range check. -/
theorem Fmt.cvt2dq_nearest (f : Fmt) (a : Nat) :
    IsNearestEven (f.toRat a)
      (if f.sign a = 1 then -((Fmt.rneDiv (f.units a) (2 ^ f.scale) : ℕ) : ℤ)
        else ((Fmt.rneDiv (f.units a) (2 ^ f.scale) : ℕ) : ℤ)) := by
  have h := rneDiv_nearest (f.units a) (2 ^ f.scale) (Nat.two_pow_pos _)
  rw [f.toRat_eq]
  push_cast at h
  split_ifs
  · rw [neg_div]
    exact IsNearestEven.neg _ _ h
  · exact h

/-- Magnitude bounds that follow from `-2 ^ 31 ≤ x < 2 ^ 31`. -/
theorem Fmt.units_bounds (f : Fmt) (a : Nat) (lo : -(2 ^ 31) ≤ f.toRat a)
    (hi : f.toRat a < 2 ^ 31) :
    (f.sign a = 1 → f.units a ≤ 2 ^ 31 * 2 ^ f.scale) ∧
    (f.sign a ≠ 1 → f.units a < 2 ^ 31 * 2 ^ f.scale) := by
  have hS : (0 : ℚ) < 2 ^ f.scale := by positivity
  rw [f.toRat_eq] at lo hi
  constructor
  · intro hs
    rw [if_pos hs, neg_div, neg_le_neg_iff, div_le_iff₀ hS] at lo
    exact_mod_cast lo
  · intro hs
    rw [if_neg hs, div_lt_iff₀ hS] at hi
    exact_mod_cast hi

/-- For a format of at most 31 significand bits, a lane with `-2 ^ 31 ≤ x < 2 ^ 31` is
rounded to an integer that fits 32 bits. -/
theorem Fmt.cvt2dq_range (f : Fmt) (a : Nat) (hmb : f.mb ≤ 30)
    (lo : -(2 ^ 31) ≤ f.toRat a) (hi : f.toRat a < 2 ^ 31) :
    -(2 ^ 31) ≤ (if f.sign a = 1 then -((Fmt.rneDiv (f.units a) (2 ^ f.scale) : ℕ) : ℤ)
        else ((Fmt.rneDiv (f.units a) (2 ^ f.scale) : ℕ) : ℤ)) ∧
    (if f.sign a = 1 then -((Fmt.rneDiv (f.units a) (2 ^ f.scale) : ℕ) : ℤ)
        else ((Fmt.rneDiv (f.units a) (2 ^ f.scale) : ℕ) : ℤ)) < 2 ^ 31 := by
  obtain ⟨b1, b2⟩ := f.units_bounds a lo hi
  have hS : 0 < 2 ^ f.scale := Nat.two_pow_pos _
  have hmbp : 2 ^ f.mb ≤ 2 ^ 30 := Nat.pow_le_pow_right (by decide) hmb
  have hn : (f.sign a = 1 → Fmt.rneDiv (f.units a) (2 ^ f.scale) ≤ 2 ^ 31) ∧
      (f.sign a ≠ 1 → Fmt.rneDiv (f.units a) (2 ^ f.scale) < 2 ^ 31) := by
    by_cases hl : 2 ^ (f.mb + f.scale) ≤ f.units a
    · have hd := f.units_dvd_of_large a hl
      rw [rneDiv_of_dvd _ _ hS hd]
      constructor
      · intro hs
        exact Nat.div_le_of_le_mul (by rw [mul_comm]; exact b1 hs)
      · intro hs
        exact (Nat.div_lt_iff_lt_mul hS).2 (b2 hs)
    · have hb := (rneDiv_bounds (f.units a) (2 ^ f.scale)).2
      have hq : f.units a / 2 ^ f.scale < 2 ^ f.mb := by
        rw [Nat.div_lt_iff_lt_mul hS, ← pow_add]; omega
      constructor <;> intro _ <;> omega
  split_ifs with hs
  · have := hn.1 hs
    constructor <;> omega
  · have := hn.2 hs
    constructor <;> omega

/-- The integer obtained by rounding a finite non-zero lane to nearest is representable. -/
theorem Fmt.rne_rep (f : Fmt) (a : Nat) (hstd : f.Std) (hf : f.isFinite a)
    (hz : ¬ f.isZero a) (h0 : Fmt.rneDiv (f.units a) (2 ^ f.scale) ≠ 0) :
    Fmt.rneDiv (f.units a) (2 ^ f.scale) * 2 ^ f.scale < 2 ^ 8192 ∧
    2 ^ (Fmt.ilog2 (Fmt.rneDiv (f.units a) (2 ^ f.scale) * 2 ^ f.scale) - f.mb)
      ∣ Fmt.rneDiv (f.units a) (2 ^ f.scale) * 2 ^ f.scale ∧
    Fmt.ilog2 (Fmt.rneDiv (f.units a) (2 ^ f.scale) * 2 ^ f.scale) - f.mb + 1
      < 2 ^ f.eb - 1 := by
  have hS : 0 < 2 ^ f.scale := Nat.two_pow_pos _
  by_cases hl : 2 ^ (f.mb + f.scale) ≤ f.units a
  · have hd := f.units_dvd_of_large a hl
    rw [rneDiv_of_dvd _ _ hS hd, Nat.div_mul_cancel hd]
    exact f.units_rep a hstd hf hz
  · have hb := (rneDiv_bounds (f.units a) (2 ^ f.scale)).2
    have hq : f.units a / 2 ^ f.scale < 2 ^ f.mb := by
      rw [Nat.div_lt_iff_lt_mul hS, ← pow_add]; omega
    exact (f.int_rep _ hstd (Nat.pos_of_ne_zero h0) (by omega)).2

/-- The integer obtained by truncating a finite non-zero lane is representable. -/
theorem Fmt.trunc_rep (f : Fmt) (a : Nat) (hstd : f.Std) (hf : f.isFinite a)
    (hz : ¬ f.isZero a) (h0 : f.units a / 2 ^ f.scale ≠ 0) :
    f.units a / 2 ^ f.scale * 2 ^ f.scale < 2 ^ 8192 ∧
    2 ^ (Fmt.ilog2 (f.units a / 2 ^ f.scale * 2 ^ f.scale) - f.mb)
      ∣ f.units a / 2 ^ f.scale * 2 ^ f.scale ∧
    Fmt.ilog2 (f.units a / 2 ^ f.scale * 2 ^ f.scale) - f.mb + 1 < 2 ^ f.eb - 1 := by
  have hS : 0 < 2 ^ f.scale := Nat.two_pow_pos _
  by_cases hl : 2 ^ (f.mb + f.scale) ≤ f.units a
  · have hd := f.units_dvd_of_large a hl
    rw [Nat.div_mul_cancel hd]
    exact f.units_rep a hstd hf hz
  · have hq : f.units a / 2 ^ f.scale < 2 ^ f.mb := by
      rw [Nat.div_lt_iff_lt_mul hS, ← pow_add]; omega
    exact (f.int_rep _ hstd (Nat.pos_of_ne_zero h0) (le_of_lt hq)).2

/-- Truncation of the magnitude is rounding of the value toward zero. -/
theorem Fmt.cvtt2dq_towardZero (f : Fmt) (a : Nat) :
    towardZero (f.toRat a)
      = (if f.sign a = 1 then -((f.units a / 2 ^ f.scale : ℕ) : ℤ)
          else ((f.units a / 2 ^ f.scale : ℕ) : ℤ)) := by
  have hS : (0 : ℚ) < 2 ^ f.scale := by positivity
  have hfl : ⌊(f.units a : ℚ) / 2 ^ f.scale⌋ = ((f.units a / 2 ^ f.scale : ℕ) : ℤ) := by
    have h1 : ((2 : ℚ) ^ f.scale) = ((2 ^ f.scale : ℕ) : ℚ) := by push_cast; rfl
    rw [h1, ← Int.natCast_floor_eq_floor (by positivity), Nat.floor_div_eq_div]
  rw [f.toRat_eq]
  unfold towardZero
  by_cases hs : f.sign a = 1
  · rw [if_pos hs, if_pos hs, neg_div]
    by_cases h0 : (0 : ℚ) ≤ -((f.units a : ℚ) / 2 ^ f.scale)
    · rw [if_pos h0]
      have hq : (f.units a : ℚ) / 2 ^ f.scale = 0 :=
        le_antisymm (by linarith) (by positivity)
      rw [hq] at hfl
      rw [hq, ← hfl]; simp
    · rw [if_neg h0, Int.ceil_neg, hfl]
  · rw [if_neg hs, if_neg hs, if_pos (by positivity), hfl]
theorem natAbs_signed (s n : Nat) :
    (if s = 1 then -((n : ℕ) : ℤ) else ((n : ℕ) : ℤ)).natAbs = n := by
  split_ifs <;> simp

/-- Round to nearest, then back: `cvtdq2 (cvt2dq a)` holds exactly the integer that
`cvt2dq` produced, as soon as that integer fits 32 bits. -/
theorem Fmt.floor_lane (f : Fmt) (a : Nat) (hstd : f.Std) (hf : f.isFinite a)
    (hz : ¬ f.isZero a)
    (h1 : -(2 ^ 31) ≤ (if f.sign a = 1 then -((Fmt.rneDiv (f.units a) (2 ^ f.scale) : ℕ) : ℤ)
        else ((Fmt.rneDiv (f.units a) (2 ^ f.scale) : ℕ) : ℤ)))
    (h2 : (if f.sign a = 1 then -((Fmt.rneDiv (f.units a) (2 ^ f.scale) : ℕ) : ℤ)
        else ((Fmt.rneDiv (f.units a) (2 ^ f.scale) : ℕ) : ℤ)) < 2 ^ 31) :
    Fmt.toInt32 (f.cvt2dq a)
      = (if f.sign a = 1 then -((Fmt.rneDiv (f.units a) (2 ^ f.scale) : ℕ) : ℤ)
        else ((Fmt.rneDiv (f.units a) (2 ^ f.scale) : ℕ) : ℤ)) ∧
    f.isFinite (f.cvtdq2 (f.cvt2dq a)) ∧
    f.toRat (f.cvtdq2 (f.cvt2dq a)) = (Fmt.toInt32 (f.cvt2dq a) : ℚ) := by
  have hc : f.cvt2dq a = Fmt.ofInt32
      (if f.sign a = 1 then -((Fmt.rneDiv (f.units a) (2 ^ f.scale) : ℕ) : ℤ)
        else ((Fmt.rneDiv (f.units a) (2 ^ f.scale) : ℕ) : ℤ)) := by
    unfold Fmt.cvt2dq
    simp only []
    rw [if_pos hf, fitInt32_of_range _ h1 h2]
  rw [hc, toInt32_ofInt32 _ h1 h2]
  refine ⟨rfl, ?_⟩
  apply f.cvtdq2_exact _ (by have := hstd.1; omega) h1 h2
  intro hne
  rw [natAbs_signed]
  apply f.rne_rep a hstd hf hz
  intro h0
  apply hne
  rw [h0]
  split_ifs <;> simp

/-- Truncate, then back: `cvtdq2 (cvtt2dq a)` holds exactly the value rounded toward
zero, for `-2 ^ 31 ≤ x < 2 ^ 31`. -/
theorem Fmt.trunc_lane (f : Fmt) (a : Nat) (hstd : f.Std) (hf : f.isFinite a)
    (hz : ¬ f.isZero a) (lo : -(2 ^ 31) ≤ f.toRat a) (hi : f.toRat a < 2 ^ 31) :
    Fmt.toInt32 (f.cvtt2dq a) = towardZero (f.toRat a) ∧
    f.isFinite (f.cvtdq2 (f.cvtt2dq a)) ∧
    f.toRat (f.cvtdq2 (f.cvtt2dq a)) = (towardZero (f.toRat a) : ℚ) := by
  obtain ⟨b1, b2⟩ := f.units_bounds a lo hi
  have hS : 0 < 2 ^ f.scale := Nat.two_pow_pos _
  have h12 : -(2 ^ 31) ≤ (if f.sign a = 1 then -((f.units a / 2 ^ f.scale : ℕ) : ℤ)
        else ((f.units a / 2 ^ f.scale : ℕ) : ℤ)) ∧
      (if f.sign a = 1 then -((f.units a / 2 ^ f.scale : ℕ) : ℤ)
        else ((f.units a / 2 ^ f.scale : ℕ) : ℤ)) < 2 ^ 31 := by
    split_ifs with hs
    · have : f.units a / 2 ^ f.scale ≤ 2 ^ 31 :=
        Nat.div_le_of_le_mul (by rw [mul_comm]; exact b1 hs)
      generalize f.units a / 2 ^ f.scale = q at this ⊢
      constructor <;> omega
    · have : f.units a / 2 ^ f.scale < 2 ^ 31 := (Nat.div_lt_iff_lt_mul hS).2 (b2 hs)
      generalize f.units a / 2 ^ f.scale = q at this ⊢
      constructor <;> omega
  obtain ⟨h1, h2⟩ := h12
  have hc : f.cvtt2dq a = Fmt.ofInt32
      (if f.sign a = 1 then -((f.units a / 2 ^ f.scale : ℕ) : ℤ)
        else ((f.units a / 2 ^ f.scale : ℕ) : ℤ)) := by
    unfold Fmt.cvtt2dq
    simp only []
    rw [if_pos hf, fitInt32_of_range _ h1 h2]
  rw [hc, toInt32_ofInt32 _ h1 h2, f.cvtt2dq_towardZero]
  refine ⟨rfl, ?_⟩
  apply f.cvtdq2_exact _ (by have := hstd.1; omega) h1 h2
  intro hne
  rw [natAbs_signed]
  apply f.trunc_rep a hstd hf hz
  intro h0
  apply hne
  rw [h0]
  split_ifs <;> simp

theorem sval_special32 :
    binary32.sval binary32.infMag = ((2 ^ binary32.mb * 2 ^ (2 ^ binary32.eb - 2) : ℕ) : ℤ) ∧
    binary32.sval (binary32.neg binary32.infMag)
      = -((2 ^ binary32.mb * 2 ^ (2 ^ binary32.eb - 2) : ℕ) : ℤ) ∧
    binary32.sval 0 = 0 := by decide!

/-- A finite non-zero float lane is not passed through by `pass_nan_inf_zero`. -/
theorem not_special32 (a : Nat) (hf : binary32.isFinite a) (hz : ¬ binary32.isZero a) :
    ¬ isSpecial binary32 a := by
  have hlt := binary32.units_lt_inf a hf (by decide)
  have hpos := binary32.units_pos a hz
  obtain ⟨e1, e2, e3⟩ := sval_special32
  have hn : ¬ binary32.isNaN a := by
    unfold Fmt.isNaN; unfold Fmt.isFinite at hf; omega
  unfold isSpecial Fmt.feq
  rw [e1, e2, e3]
  generalize 2 ^ binary32.mb * 2 ^ (2 ^ binary32.eb - 2) = B at hlt ⊢
  clear e1 e2 e3
  unfold Fmt.sval
  rintro (h | ⟨_, _, h⟩ | ⟨_, _, h⟩ | ⟨_, _, h⟩)
  · exact hn h
  all_goals
    split_ifs at h <;> omega
/-- C8: for a finite non-zero float lane `x` with `-2 ^ 31 ≤ x < 2 ^ 31`, the integer lane
produced by `cvtps2dq` is the integer nearest to `x`, ties to even (it fits 32 bits, so
nothing but that rounding is lost), `sse2_floor` returns that integer converted back to
float, and the conversion back is exact; `sse2_trunc` returns in the same way `x` rounded
toward zero. -/
theorem C8_floor_trunc_round_once (x : v4sf) (i : Fin 4)
    (hf : binary32.isFinite (x.get i)) (hz : ¬ binary32.isZero (x.get i))
    (lo : -(2 ^ 31) ≤ binary32.toRat (x.get i)) (hi : binary32.toRat (x.get i) < 2 ^ 31) :
    (IsNearestEven (binary32.toRat (x.get i)) (Fmt.toInt32 ((cvtps2dq x).get i)) ∧
      (v4sf.sse2_floor x).get i = (cvtdq2ps (cvtps2dq x)).get i ∧
      binary32.isFinite ((v4sf.sse2_floor x).get i) ∧
      binary32.toRat ((v4sf.sse2_floor x).get i)
        = (Fmt.toInt32 ((cvtps2dq x).get i) : ℚ)) ∧
    (Fmt.toInt32 ((cvttps2dq x).get i) = towardZero (binary32.toRat (x.get i)) ∧
      (v4sf.sse2_trunc x).get i = (cvtdq2ps (cvttps2dq x)).get i ∧
      binary32.isFinite ((v4sf.sse2_trunc x).get i) ∧
      binary32.toRat ((v4sf.sse2_trunc x).get i)
        = (towardZero (binary32.toRat (x.get i)) : ℚ)) := by
  have hw : (2 : Nat) ^ binary32.width = 2 ^ 32 := rfl
  have hns := not_special32 _ hf hz
  obtain ⟨r1, r2⟩ := binary32.cvt2dq_range (x.get i) (by decide) lo hi
  obtain ⟨f1, f2, f3⟩ := binary32.floor_lane (x.get i) std32 hf hz r1 r2
  obtain ⟨t1, t2, t3⟩ := binary32.trunc_lane (x.get i) std32 hf hz lo hi
  have hfl : (v4sf.sse2_floor x).get i = binary32.cvtdq2 (binary32.cvt2dq (x.get i)) := by
    rw [v4sf_sse2_floor_get]
    exact pass_nan_inf_zero_lane_plain binary32 _ _ (binary32.cvtdq2_lt _) hns
  have htr : (v4sf.sse2_trunc x).get i = binary32.cvtdq2 (binary32.cvtt2dq (x.get i)) := by
    rw [v4sf_sse2_trunc_get]
    exact pass_nan_inf_zero_lane_plain binary32 _ _ (binary32.cvtdq2_lt _) hns
  unfold cvtdq2ps cvtps2dq cvttps2dq
  simp only [Vec4.get_map_v4]
  rw [hfl, htr]
  refine ⟨⟨?_, rfl, f2, f3⟩, ⟨t1, rfl, t2, t3⟩⟩
  rw [f1]
  exact binary32.cvt2dq_nearest _

theorem toRat_m2p5 : binary32.toRat 0xc0200000 = -5 / 2 := by
  have h : binary32.sval 0xc0200000 = -(5 * 2 ^ 148) := by decide!
  have hs : binary32.scale = 149 := by decide
  unfold Fmt.toRat
  rw [h, hs]
  norm_num

/-- C8 at the concrete lane `-2.5`: the nearest integer with ties to even and the value
rounded toward zero are both `-2`, returned as `-2.0f`. -/
theorem C8_floor_trunc_round_once_witness :
    binary32.isFinite (Vec4.get ⟨0xc0200000, 0, 0, 0⟩ 0) ∧
    ¬ binary32.isZero (Vec4.get ⟨0xc0200000, 0, 0, 0⟩ 0) ∧
    -(2 ^ 31) ≤ binary32.toRat (Vec4.get ⟨0xc0200000, 0, 0, 0⟩ 0) ∧
    binary32.toRat (Vec4.get ⟨0xc0200000, 0, 0, 0⟩ 0) < 2 ^ 31 ∧
    binary32.toRat ((v4sf.sse2_floor ⟨0xc0200000, 0, 0, 0⟩).get 0)
      = (Fmt.toInt32 ((cvtps2dq ⟨0xc0200000, 0, 0, 0⟩).get 0) : ℚ) ∧
    binary32.toRat ((v4sf.sse2_trunc ⟨0xc0200000, 0, 0, 0⟩).get 0)
      = (towardZero (binary32.toRat (Vec4.get ⟨0xc0200000, 0, 0, 0⟩ 0)) : ℚ) ∧
    (v4sf.sse2_floor ⟨0xc0200000, 0, 0, 0⟩).get 0 = 0xc0000000 ∧
    (v4sf.sse2_trunc ⟨0xc0200000, 0, 0, 0⟩).get 0 = 0xc0000000 :=
  have lo : -(2 ^ 31) ≤ binary32.toRat (Vec4.get ⟨0xc0200000, 0, 0, 0⟩ 0) := by
    show -(2 ^ 31) ≤ binary32.toRat 0xc0200000
    rw [toRat_m2p5]; norm_num
  have hi : binary32.toRat (Vec4.get ⟨0xc0200000, 0, 0, 0⟩ 0) < 2 ^ 31 := by
    show binary32.toRat 0xc0200000 < 2 ^ 31
    rw [toRat_m2p5]; norm_num
  ⟨by decide, by decide, lo, hi,
    (C8_floor_trunc_round_once ⟨0xc0200000, 0, 0, 0⟩ 0 (by decide) (by decide) lo hi).1.2.2.2,
    (C8_floor_trunc_round_once ⟨0xc0200000, 0, 0, 0⟩ 0 (by decide) (by decide) lo hi).2.2.2.2,
    by decide!, by decide!⟩

/-! ## Floor on double lanes -/

theorem v2df_sse2_floor_unsafe2_get (x : v2df) (j : Fin 2) :
    (v2df.sse2_floor_unsafe2 x).get j = binary64.cvtdq2 (binary64.cvt2dq (x.get j)) := by
  fin_cases j <;> rfl

theorem Fmt.not_nan_of_finite (f : Fmt) (a : Nat) (h : f.isFinite a) : ¬ f.isNaN a := by
  unfold Fmt.isNaN; unfold Fmt.isFinite at h; omega

theorem toRat_1p5_32 : binary32.toRat 0x3fc00000 = 3 / 2 := by
  have h : binary32.sval 0x3fc00000 = 3 * 2 ^ 148 := by decide!
  have hs : binary32.scale = 149 := by decide
  unfold Fmt.toRat
  rw [h, hs]
  norm_num

theorem toRat_two_32 : binary32.toRat 0x40000000 = 2 := by
  have h : binary32.sval 0x40000000 = 2 ^ 150 := by decide!
  have hs : binary32.scale = 149 := by decide
  unfold Fmt.toRat
  rw [h, hs]
  norm_num

theorem toRat_1p5_64 : binary64.toRat 0x3ff8000000000000 = 3 / 2 := by
  have h : binary64.sval 0x3ff8000000000000 = 3 * 2 ^ 1073 := by decide!
  have hs : binary64.scale = 1073 + 1 := by decide
  unfold Fmt.toRat
  rw [h, hs, Int.cast_mul, Int.cast_pow, Int.cast_ofNat, Int.cast_ofNat,
    pow_succ (2 : ℚ) 1073, mul_comm (3 : ℚ), mul_div_mul_left _ _ (pow_ne_zero _ (by norm_num))]

/-- Rounding a finite non-zero number down to an integer, on the magnitude: exact, and
the largest integer not above the value. -/
theorem Fmt.floor_rep (f : Fmt) (a : Nat) (hstd : f.Std) (hf : f.isFinite a)
    (hz : ¬ f.isZero a) :
    f.isFinite (if f.sign a = 1 then
        f.withSign 1 (f.roundUnits
          ((if f.units a % 2 ^ f.scale = 0 then f.units a / 2 ^ f.scale
            else f.units a / 2 ^ f.scale + 1) * 2 ^ f.scale) 1)
      else if f.units a / 2 ^ f.scale = 0 then 0
      else f.roundUnits (f.units a / 2 ^ f.scale * 2 ^ f.scale) 1) ∧
    f.toRat (if f.sign a = 1 then
        f.withSign 1 (f.roundUnits
          ((if f.units a % 2 ^ f.scale = 0 then f.units a / 2 ^ f.scale
            else f.units a / 2 ^ f.scale + 1) * 2 ^ f.scale) 1)
      else if f.units a / 2 ^ f.scale = 0 then 0
      else f.roundUnits (f.units a / 2 ^ f.scale * 2 ^ f.scale) 1)
      = (⌊f.toRat a⌋ : ℚ) := by
  have hS : 0 < 2 ^ f.scale := Nat.two_pow_pos _
  have hSq : (0 : ℚ) < 2 ^ f.scale := by positivity
  have hSne : (2 : ℚ) ^ f.scale ≠ 0 := ne_of_gt hSq
  have hpos := f.units_pos a hz
  have hdm := Nat.div_add_mod (f.units a) (2 ^ f.scale)
  have hrlt := Nat.mod_lt (f.units a) hS
  have he1 : 1 ≤ f.eb := by have := hstd.1; omega
  have hfl : ⌊(f.units a : ℚ) / 2 ^ f.scale⌋ = ((f.units a / 2 ^ f.scale : ℕ) : ℤ) := by
    have h1 : ((2 : ℚ) ^ f.scale) = ((2 ^ f.scale : ℕ) : ℚ) := by push_cast; rfl
    rw [h1, ← Int.natCast_floor_eq_floor (by positivity), Nat.floor_div_eq_div]
  have htr := f.trunc_rep a hstd hf hz
  have hlarge : 2 ^ (f.mb + f.scale) ≤ f.units a → f.units a % 2 ^ f.scale = 0 :=
    fun hl => Nat.mod_eq_zero_of_dvd (f.units_dvd_of_large a hl)
  have hsmall : ¬ 2 ^ (f.mb + f.scale) ≤ f.units a → f.units a / 2 ^ f.scale < 2 ^ f.mb := by
    intro hl
    rw [Nat.div_lt_iff_lt_mul hS, ← pow_add]; omega
  have hurep := f.units_rep a hstd hf hz
  rw [f.toRat_eq a]
  generalize hq : f.units a / 2 ^ f.scale = q at hdm hfl htr hsmall ⊢
  generalize hr : f.units a % 2 ^ f.scale = r at hdm hrlt hlarge ⊢
  have hUq : (f.units a : ℚ) = (2 : ℚ) ^ f.scale * q + r := by
    exact_mod_cast hdm.symm
  by_cases hs : f.sign a = 1
  · rw [if_pos hs, if_pos hs]
    have hn0 : 0 < (if r = 0 then q else q + 1) := by
      split_ifs with h0
      · rcases Nat.eq_zero_or_pos q with hq0 | hq0
        · exfalso
          rw [hq0, h0] at hdm
          simp at hdm
          omega
        · exact hq0
      · omega
    have hrep : (if r = 0 then q else q + 1) * 2 ^ f.scale < 2 ^ 8192 ∧
        2 ^ (Fmt.ilog2 ((if r = 0 then q else q + 1) * 2 ^ f.scale) - f.mb)
          ∣ (if r = 0 then q else q + 1) * 2 ^ f.scale ∧
        Fmt.ilog2 ((if r = 0 then q else q + 1) * 2 ^ f.scale) - f.mb + 1
          < 2 ^ f.eb - 1 := by
      by_cases hl : 2 ^ (f.mb + f.scale) ≤ f.units a
      · have hr0 : r = 0 := hlarge hl
        rw [if_pos hr0]
        have e : q * 2 ^ f.scale = f.units a := by
          rw [hr0] at hdm; rw [mul_comm]; omega
        rw [e]
        exact hurep
      · have hqlt := hsmall hl
        exact (f.int_rep _ hstd hn0 (by split_ifs <;> omega)).2
    obtain ⟨e1, e2⟩ := f.roundUnits_exact _ (Nat.mul_pos hn0 hS) hrep.1 hrep.2.1 hrep.2.2
    have hsb := lt_trans e1 f.infMag_lt_signBit
    obtain ⟨w1, w2, w3⟩ := f.withSign_fields 1 _ (le_refl 1) hsb
    refine ⟨by unfold Fmt.isFinite; rw [w2]; exact e1, ?_⟩
    rw [f.toRat_withSign 1 _ (le_refl 1) hsb, e2, if_pos rfl, neg_div, neg_div,
      Int.floor_neg]
    have hc : ⌈(f.units a : ℚ) / 2 ^ f.scale⌉ = (((if r = 0 then q else q + 1 : ℕ)) : ℤ) := by
      rw [Int.ceil_eq_iff, hUq]
      have hrq : (r : ℚ) < 2 ^ f.scale := by exact_mod_cast hrlt
      have hdiv : ((2 : ℚ) ^ f.scale * q + r) / 2 ^ f.scale = q + r / 2 ^ f.scale := by
        field_simp
        ring
      rw [hdiv]
      split_ifs with h0
      · rw [h0]; push_cast; constructor <;> simp
      · have hrp : (0 : ℚ) < r := by
          have : 0 < r := Nat.pos_of_ne_zero h0
          exact_mod_cast this
        have h1 : (r : ℚ) / 2 ^ f.scale < 1 := (div_lt_one hSq).2 hrq
        have h2 : (0 : ℚ) < (r : ℚ) / 2 ^ f.scale := div_pos hrp hSq
        push_cast
        constructor <;> linarith
    rw [hc]
    generalize (if r = 0 then q else q + 1) = n
    push_cast
    rw [mul_div_assoc, div_self hSne, mul_one]
  · rw [if_neg hs, if_neg hs, hfl]
    by_cases hq0 : q = 0
    · rw [if_pos hq0, hq0]
      refine ⟨?_, by rw [f.toRat_zero]; simp⟩
      unfold Fmt.isFinite Fmt.mag
      rw [Nat.zero_mod]
      exact f.infMag_pos he1
    · rw [if_neg hq0]
      have hrep := htr hq0
      obtain ⟨e1, e2⟩ := f.roundUnits_exact _
        (Nat.mul_pos (Nat.pos_of_ne_zero hq0) hS) hrep.1 hrep.2.1 hrep.2.2
      have hsb := lt_trans e1 f.infMag_lt_signBit
      have hw : f.roundUnits (q * 2 ^ f.scale) 1
          = f.withSign 0 (f.roundUnits (q * 2 ^ f.scale) 1) := by
        unfold Fmt.withSign; simp
      refine ⟨by unfold Fmt.isFinite; rw [f.mag_of_lt _ hsb]; exact e1, ?_⟩
      rw [hw, f.toRat_withSign 0 _ (by decide) hsb, e2, if_neg (by decide)]
      push_cast
      rw [mul_div_assoc, div_self hSne, mul_one]

/-- The model of the C library's `floor` returns, for every finite non-zero double, the
largest integer not above it: what the amended C9 assumes of the scalar routine holds of
this model at every such lane. -/
theorem c_floor_spec (a : Nat) (hf : binary64.isFinite a) (hz : ¬ binary64.isZero a) :
    binary64.isFinite (c_floor a) ∧
    binary64.toRat (c_floor a) = (⌊binary64.toRat a⌋ : ℚ) := by
  have hnn := binary64.not_nan_of_finite a hf
  have hni : ¬ (binary64.isInf a ∨ binary64.isZero a) := by
    unfold Fmt.isInf; unfold Fmt.isFinite at hf
    rintro (h | h)
    · omega
    · exact hz h
  have h := binary64.floor_rep a std64 hf hz
  unfold c_floor
  simp only []
  rw [if_neg hnn, if_neg hni]
  exact h

/-- C9 fails at `x = 1.5`, which is representable in both formats: the float lane of
`sse2_floor` is `2.0` (nearest, ties to even) and the double lane of `sse2_floor`, computed
by the scalar `floor`, is `1.0`. -/
theorem C9_counterexample_one_and_a_half :
    binary32.isFinite 0x3fc00000 ∧ ¬ binary32.isZero 0x3fc00000 ∧
    binary64.isFinite 0x3ff8000000000000 ∧
    binary32.toRat 0x3fc00000 = 3 / 2 ∧ binary64.toRat 0x3ff8000000000000 = 3 / 2 ∧
    binary32.toRat ((v4sf.sse2_floor ⟨0x3fc00000, 0, 0, 0⟩).get 0) = 2 ∧
    binary64.toRat ((v2df.sse2_floor c_floor ⟨0x3ff8000000000000, 0⟩).get 0) = 1 ∧
    binary64.toRat ((v2df.sse2_floor c_floor ⟨0x3ff8000000000000, 0⟩).get 0)
      ≠ binary32.toRat ((v4sf.sse2_floor ⟨0x3fc00000, 0, 0, 0⟩).get 0) := by
  have e1 : (v4sf.sse2_floor ⟨0x3fc00000, 0, 0, 0⟩).get 0 = 0x40000000 := by decide!
  have e2 : (v2df.sse2_floor c_floor ⟨0x3ff8000000000000, 0⟩).get 0 = 0x3ff0000000000000 := by
    decide!
  rw [e1, e2, toRat_two_32, one64_toRat]
  exact ⟨by decide, by decide, by decide, toRat_1p5_32, toRat_1p5_64, rfl, rfl, by norm_num⟩

/-- C9 as amended: for a finite non-zero value with `|x| < 2 ^ 31` held by a float lane
and by a double lane, it is `sse2_floor_unsafe2` whose double lane equals the float lane
of `sse2_floor` (the integer nearest to `x`, ties to even); the double lane of `sse2_floor`
is the scalar `floor` of the lane, the largest integer not above `x` when the scalar
routine computes that. -/
theorem C9_double_floor_is_scalar_floor (floor : Nat → Nat) (xf : v4sf) (i : Fin 4)
    (xd : v2df) (j : Fin 2)
    (hff : binary32.isFinite (xf.get i)) (hzf : ¬ binary32.isZero (xf.get i))
    (hfd : binary64.isFinite (xd.get j)) (hzd : ¬ binary64.isZero (xd.get j))
    (heq : binary32.toRat (xf.get i) = binary64.toRat (xd.get j))
    (lo : -(2 ^ 31) < binary32.toRat (xf.get i)) (hi : binary32.toRat (xf.get i) < 2 ^ 31)
    (hw : floor (xd.get j) < 2 ^ 64)
    (hfloor : binary64.toRat (floor (xd.get j)) = (⌊binary64.toRat (xd.get j)⌋ : ℚ)) :
    binary64.toRat ((v2df.sse2_floor_unsafe2 xd).get j)
      = binary32.toRat ((v4sf.sse2_floor xf).get i) ∧
    IsNearestEven (binary64.toRat (xd.get j)) (Fmt.toInt32 ((cvtpd2dq xd).get j.castSucc.castSucc)) ∧
    binary64.toRat ((v2df.sse2_floor_unsafe2 xd).get j)
      = (Fmt.toInt32 ((cvtpd2dq xd).get j.castSucc.castSucc) : ℚ) ∧
    (v2df.sse2_floor floor xd).get j = floor (xd.get j) ∧
    binary64.toRat ((v2df.sse2_floor floor xd).get j) = (⌊binary64.toRat (xd.get j)⌋ : ℚ) := by
  have hns := not_special32 _ hff hzf
  have lo' := le_of_lt lo
  obtain ⟨r1, r2⟩ := binary32.cvt2dq_range (xf.get i) (by decide) lo' hi
  obtain ⟨f1, f2, f3⟩ := binary32.floor_lane (xf.get i) std32 hff hzf r1 r2
  have nf := binary32.cvt2dq_nearest (xf.get i)
  have nd := binary64.cvt2dq_nearest (xd.get j)
  rw [heq] at nf
  have hu := IsNearestEven.unique _ _ _ nd nf
  rw [← hu] at r1 r2
  obtain ⟨g1, g2, g3⟩ := binary64.floor_lane (xd.get j) std64 hfd hzd r1 r2
  have hfl : (v4sf.sse2_floor xf).get i = binary32.cvtdq2 (binary32.cvt2dq (xf.get i)) := by
    rw [v4sf_sse2_floor_get]
    exact pass_nan_inf_zero_lane_plain binary32 _ _ (binary32.cvtdq2_lt _) hns
  have hcv : (cvtpd2dq xd).get j.castSucc.castSucc = binary64.cvt2dq (xd.get j) := by
    fin_cases j <;> rfl
  have hsf : (v2df.sse2_floor floor xd).get j = floor (xd.get j) := by
    rw [v2df_sse2_floor_get]
    exact pass_nan_lane_not_nan binary64 _ _ hw (binary64.not_nan_of_finite _ hfd)
  rw [v2df_sse2_floor_unsafe2_get, hfl, hcv, hsf]
  refine ⟨?_, ?_, g3, rfl, hfloor⟩
  · rw [g3, f3, g1, f1, hu]
  · rw [g1]; exact nd
theorem c_floor_1p5 :
    c_floor 0x3ff8000000000000 = 0x3ff0000000000000 := by decide!

theorem floor_three_halves : (⌊(3 / 2 : ℚ)⌋ : ℚ) = 1 := by
  have h : ⌊(3 / 2 : ℚ)⌋ = 1 := by
    rw [Int.floor_eq_iff]; constructor <;> norm_num
  rw [h]; norm_num

/-- C9 as amended, at `x = 1.5` with the model of the C library's `floor`. -/
theorem C9_double_floor_is_scalar_floor_witness :
    binary32.isFinite (Vec4.get ⟨0x3fc00000, 0, 0, 0⟩ 0) ∧
    ¬ binary32.isZero (Vec4.get ⟨0x3fc00000, 0, 0, 0⟩ 0) ∧
    binary64.isFinite (Vec2.get ⟨0x3ff8000000000000, 0⟩ 0) ∧
    ¬ binary64.isZero (Vec2.get ⟨0x3ff8000000000000, 0⟩ 0) ∧
    binary32.toRat (Vec4.get ⟨0x3fc00000, 0, 0, 0⟩ 0)
      = binary64.toRat (Vec2.get ⟨0x3ff8000000000000, 0⟩ 0) ∧
    -(2 ^ 31) < binary32.toRat (Vec4.get ⟨0x3fc00000, 0, 0, 0⟩ 0) ∧
    binary32.toRat (Vec4.get ⟨0x3fc00000, 0, 0, 0⟩ 0) < 2 ^ 31 ∧
    c_floor (Vec2.get ⟨0x3ff8000000000000, 0⟩ 0) < 2 ^ 64 ∧
    binary64.toRat (c_floor (Vec2.get ⟨0x3ff8000000000000, 0⟩ 0))
      = (⌊binary64.toRat (Vec2.get ⟨0x3ff8000000000000, 0⟩ 0)⌋ : ℚ) ∧
    binary64.toRat ((v2df.sse2_floor_unsafe2 ⟨0x3ff8000000000000, 0⟩).get 0)
      = binary32.toRat ((v4sf.sse2_floor ⟨0x3fc00000, 0, 0, 0⟩).get 0) ∧
    (v2df.sse2_floor c_floor ⟨0x3ff8000000000000, 0⟩).get 0
      = c_floor (Vec2.get ⟨0x3ff8000000000000, 0⟩ 0) :=
  have heq : binary32.toRat (Vec4.get ⟨0x3fc00000, 0, 0, 0⟩ 0)
      = binary64.toRat (Vec2.get ⟨0x3ff8000000000000, 0⟩ 0) :=
    toRat_1p5_32.trans toRat_1p5_64.symm
  have lo : -(2 ^ 31) < binary32.toRat (Vec4.get ⟨0x3fc00000, 0, 0, 0⟩ 0) := by
    show -(2 ^ 31) < binary32.toRat 0x3fc00000
    rw [toRat_1p5_32]; norm_num
  have hi : binary32.toRat (Vec4.get ⟨0x3fc00000, 0, 0, 0⟩ 0) < 2 ^ 31 := by
    show binary32.toRat 0x3fc00000 < 2 ^ 31
    rw [toRat_1p5_32]; norm_num
  have hw : c_floor (Vec2.get ⟨0x3ff8000000000000, 0⟩ 0) < 2 ^ 64 := by
    show c_floor 0x3ff8000000000000 < 2 ^ 64
    rw [c_floor_1p5]; decide
  have hfloor : binary64.toRat (c_floor (Vec2.get ⟨0x3ff8000000000000, 0⟩ 0))
      = (⌊binary64.toRat (Vec2.get ⟨0x3ff8000000000000, 0⟩ 0)⌋ : ℚ) := by
    show binary64.toRat (c_floor 0x3ff8000000000000)
      = (⌊binary64.toRat 0x3ff8000000000000⌋ : ℚ)
    rw [c_floor_1p5, one64_toRat, toRat_1p5_64, floor_three_halves]
  ⟨by decide, by decide, by decide, by decide, heq, lo, hi, hw, hfloor,
    (C9_double_floor_is_scalar_floor c_floor ⟨0x3fc00000, 0, 0, 0⟩ 0
      ⟨0x3ff8000000000000, 0⟩ 0 (by decide) (by decide) (by decide) (by decide)
      heq lo hi hw hfloor).1,
    (C9_double_floor_is_scalar_floor c_floor ⟨0x3fc00000, 0, 0, 0⟩ 0
      ⟨0x3ff8000000000000, 0⟩ 0 (by decide) (by decide) (by decide) (by decide)
      heq lo hi hw hfloor).2.2.2.1⟩

/-- The value of a pattern from its signed magnitude written as `M * 2 ^ e`. -/
theorem Fmt.toRat_of_sval (f : Fmt) (a : Nat) (M : Int) (e k : Nat)
    (h : f.sval a = M * 2 ^ e) (hs : f.scale = e + k) : f.toRat a = (M : ℚ) / 2 ^ k := by
  unfold Fmt.toRat
  rw [h, hs, pow_add]
  push_cast
  rw [mul_comm (M : ℚ), mul_div_mul_left _ _ (pow_ne_zero _ (by norm_num))]

/-! ## Bit patterns and values of the constants of the source -/

theorem float_1_bits : float_1.l0 = 0x3f800000 := by decide!

theorem float_1_val : binary32.toRat 0x3f800000 = 1 / 2 ^ 0 :=
  Fmt.toRat_of_sval _ _ 1 149 0 (by decide!) (by decide)

theorem float_0p5_bits : float_0p5.l0 = 0x3f000000 := by decide!

theorem float_0p5_val : binary32.toRat 0x3f000000 = 1 / 2 ^ 1 :=
  Fmt.toRat_of_sval _ _ 1 148 1 (by decide!) (by decide)

theorem float_exp_lo_bits : float_exp_lo.l0 = 0xc2b0c0a5 := by decide!

theorem float_exp_lo_val : binary32.toRat 0xc2b0c0a5 = (-11583653) / 2 ^ 17 :=
  Fmt.toRat_of_sval _ _ (-11583653) 132 17 (by decide!) (by decide)

theorem LOG2EF_bits : float_cephes_LOG2EF.l0 = 0x3fb8aa3b := by decide!

theorem LOG2EF_val : binary32.toRat 0x3fb8aa3b = 12102203 / 2 ^ 23 :=
  Fmt.toRat_of_sval _ _ 12102203 126 23 (by decide!) (by decide)

theorem exp_C1_bits : float_cephes_exp_C1.l0 = 0x3f318000 := by decide!

theorem exp_C1_val : binary32.toRat 0x3f318000 = 355 / 2 ^ 9 :=
  Fmt.toRat_of_sval _ _ 355 140 9 (by decide!) (by decide)

theorem exp_C2_bits : float_cephes_exp_C2.l0 = 0xb95e8083 := by decide!

theorem exp_C2_val : binary32.toRat 0xb95e8083 = (-14581891) / 2 ^ 36 :=
  Fmt.toRat_of_sval _ _ (-14581891) 113 36 (by decide!) (by decide)

theorem exp_p0_bits : float_cephes_exp_p0.l0 = 0x39506967 := by decide!

theorem exp_p0_val : binary32.toRat 0x39506967 = 13658471 / 2 ^ 36 :=
  Fmt.toRat_of_sval _ _ 13658471 113 36 (by decide!) (by decide)

theorem exp_p1_bits : float_cephes_exp_p1.l0 = 0x3ab743ce := by decide!

theorem exp_p1_val : binary32.toRat 0x3ab743ce = 6005223 / 2 ^ 32 :=
  Fmt.toRat_of_sval _ _ 6005223 117 32 (by decide!) (by decide)

theorem exp_p2_bits : float_cephes_exp_p2.l0 = 0x3c088908 := by decide!

theorem exp_p2_val : binary32.toRat 0x3c088908 = 1118497 / 2 ^ 27 :=
  Fmt.toRat_of_sval _ _ 1118497 122 27 (by decide!) (by decide)

theorem exp_p3_bits : float_cephes_exp_p3.l0 = 0x3d2aa9c1 := by decide!

theorem exp_p3_val : binary32.toRat 0x3d2aa9c1 = 11184577 / 2 ^ 28 :=
  Fmt.toRat_of_sval _ _ 11184577 121 28 (by decide!) (by decide)

theorem exp_p4_bits : float_cephes_exp_p4.l0 = 0x3e2aaaaa := by decide!

theorem exp_p4_val : binary32.toRat 0x3e2aaaaa = 5592405 / 2 ^ 25 :=
  Fmt.toRat_of_sval _ _ 5592405 124 25 (by decide!) (by decide)

theorem exp_p5_bits : float_cephes_exp_p5.l0 = 0x3f000000 := by decide!

theorem exp_p5_val : binary32.toRat 0x3f000000 = 1 / 2 ^ 1 :=
  Fmt.toRat_of_sval _ _ 1 148 1 (by decide!) (by decide)

theorem MAXLOGF_bits : MAXLOGF = 0x42b0c0a5 := by decide!

theorem MAXLOGF_val : binary32.toRat 0x42b0c0a5 = 11583653 / 2 ^ 17 :=
  Fmt.toRat_of_sval _ _ 11583653 132 17 (by decide!) (by decide)

theorem MINLOGF_bits : MINLOGF = 0xc2af0000 := by decide!

theorem MINLOGF_val : binary32.toRat 0xc2af0000 = (-175) / 2 ^ 1 :=
  Fmt.toRat_of_sval _ _ (-175) 148 1 (by decide!) (by decide)

theorem C1d_bits : C1 = 0x3fe62e4000000000 := by decide!

theorem C1d_val : binary64.toRat 0x3fe62e4000000000 = 22713 / 2 ^ 15 :=
  Fmt.toRat_of_sval _ _ 22713 1059 15 (by decide!) (by decide)

theorem C2d_bits : C2 = 0x3eb7f7d1cf79abca := by decide!

theorem C2d_val : binary64.toRat 0x3eb7f7d1cf79abca = 3373202482714085 / 2 ^ 71 :=
  Fmt.toRat_of_sval _ _ 3373202482714085 1003 71 (by decide!) (by decide)

theorem LOG2E_bits : LOG2E = 0x3ff71547652b82fe := by decide!

theorem LOG2E_val : binary64.toRat 0x3ff71547652b82fe = 3248660424278399 / 2 ^ 51 :=
  Fmt.toRat_of_sval _ _ 3248660424278399 1023 51 (by decide!) (by decide)

theorem MAXLOG_bits : MAXLOG = 0x4086232bdd7abcd2 := by decide!

theorem MAXLOG_val : binary64.toRat 0x4086232bdd7abcd2 = 3115560397004393 / 2 ^ 42 :=
  Fmt.toRat_of_sval _ _ 3115560397004393 1032 42 (by decide!) (by decide)

theorem MINLOG_bits : MINLOG = 0xc086232bdd7abcd2 := by decide!

theorem MINLOG_val : binary64.toRat 0xc086232bdd7abcd2 = (-3115560397004393) / 2 ^ 42 :=
  Fmt.toRat_of_sval _ _ (-3115560397004393) 1032 42 (by decide!) (by decide)

/-! ## The helper `polevl` -/

/-- The scalar `polevl` of the source is the generic loop on binary64 arithmetic. -/
theorem double_polevl_loop_eq (x : Nat) (coef : List Nat) (k p ans : Nat) :
    double.polevl_loop x coef k p ans
      = generic.polevl_loop binary64.mul binary64.add 0 x coef k p ans := by
  induction k generalizing p ans with
  | zero => rfl
  | succ k ih =>
    rw [double.polevl_loop, generic.polevl_loop]
    exact ih _ _

theorem double_polevl_eq (x : Nat) (coef : List Nat) (N : Nat) :
    double.polevl x coef N = generic.polevl binary64.mul binary64.add 0 x coef N := by
  unfold double.polevl generic.polevl
  rw [double_polevl_loop_eq]

/-- The vector loop computes, in each lane, the scalar loop of that lane. -/
theorem v2df_polevl_loop_get (x : v2df) (coef : List Nat) (k p : Nat) (ans : v2df)
    (j : Fin 2) :
    ((v2df.polevl_loop x coef k p ans).1).get j
        = (double.polevl_loop (x.get j) coef k p (ans.get j)).1 ∧
    (v2df.polevl_loop x coef k p ans).2 = (double.polevl_loop (x.get j) coef k p (ans.get j)).2 := by
  induction k generalizing p ans with
  | zero =>
    rw [v2df.polevl_loop, double.polevl_loop]
    refine ⟨?_, rfl⟩
    fin_cases j <;> rfl
  | succ k ih =>
    rw [v2df.polevl_loop, double.polevl_loop]
    have e : (addpd (mulpd ans x) (vec_splat2 (coef.getD p 0))).get j
        = binary64.add (binary64.mul (ans.get j) (x.get j)) (coef.getD p 0) := by
      fin_cases j <;> rfl
    rw [← e]
    exact ih _ _

/-- Running the loop from a state with counter `i = k + 1`: it is left after exactly
`k + 1` passes, with the result of the structural loop. -/
theorem polevl_run_spec {α : Type} (mul add : α → α → α) (zero : α) (x : α) (coef : List α)
    (k : Nat) (s : PolevlState α) (hi : s.i = (k : Int) + 1) (extra : Nat) :
    ∃ t, polevl_run mul add zero x coef (k + 1 + extra) s = some t ∧
      t.ans = (generic.polevl_loop mul add zero x coef k s.p s.ans).1 ∧
      t.p = s.p + (k + 1) ∧ t.i = 0 ∧ t.steps = s.steps + (k + 1) ∧
      t.reads = s.reads ++ (List.range' s.p (k + 1)) := by
  induction k generalizing s with
  | zero =>
    have e : 0 + 1 + extra = extra + 1 := by omega
    rw [e, polevl_run]
    have h0 : (polevl_step mul add zero x coef s).i = 0 := by
      show s.i - 1 = 0
      rw [hi]; simp
    rw [if_neg (by rw [h0]; simp)]
    exact ⟨_, rfl, rfl, rfl, h0, rfl, rfl⟩
  | succ k ih =>
    have e : k + 1 + 1 + extra = (k + 1 + extra) + 1 := by omega
    rw [e, polevl_run]
    have h0 : (polevl_step mul add zero x coef s).i = (k : Int) + 1 := by
      show s.i - 1 = (k : Int) + 1
      rw [hi]; push_cast; ring
    rw [if_pos (by rw [h0]; omega)]
    obtain ⟨t, h1, h2, h3, h4, h5, h6⟩ := ih (polevl_step mul add zero x coef s) h0
    refine ⟨t, h1, ?_, ?_, h4, ?_, ?_⟩
    · rw [h2, generic.polevl_loop]; rfl
    · rw [h3]; show s.p + 1 + (k + 1) = s.p + (k + 1 + 1); omega
    · rw [h5]; show s.steps + 1 + (k + 1) = s.steps + (k + 1 + 1); omega
    · rw [h6]
      show s.reads ++ [s.p] ++ List.range' (s.p + 1) (k + 1)
        = s.reads ++ List.range' s.p (k + 1 + 1)
      rw [List.append_assoc]
      rfl

/-- With less fuel than the counter the loop is not left. -/
theorem polevl_run_none {α : Type} (mul add : α → α → α) (zero : α) (x : α) (coef : List α)
    (fuel : Nat) (s : PolevlState α) (hi : (fuel : Int) < s.i) :
    polevl_run mul add zero x coef fuel s = none := by
  induction fuel generalizing s with
  | zero => rfl
  | succ n ih =>
    rw [polevl_run]
    have h0 : (polevl_step mul add zero x coef s).i = s.i - 1 := rfl
    rw [if_pos (by rw [h0]; push_cast at hi; omega)]
    exact ih _ (by rw [h0]; push_cast at hi; omega)

/-- Horner's rule: in exact arithmetic the loop entered at position `p` with `k + 1`
passes to go returns `ans * x ^ (k + 1) + Σ coef[p + i] * x ^ (k - i)`. -/
theorem polevl_loop_horner (x : ℚ) (coef : List ℚ) (k p : Nat) (ans : ℚ) :
    (generic.polevl_loop (fun a b => a * b) (fun a b => a + b) 0 x coef k p ans).1
      = ans * x ^ (k + 1)
        + ∑ i in Finset.range (k + 1), coef.getD (p + i) 0 * x ^ (k - i) := by
  induction k generalizing p ans with
  | zero =>
    rw [generic.polevl_loop]
    simp
  | succ k ih =>
    rw [generic.polevl_loop, ih, Finset.sum_range_succ' _ (k + 1)]
    have e : ∀ i ∈ Finset.range (k + 1),
        coef.getD (p + 1 + i) 0 * x ^ (k - i) = coef.getD (p + (i + 1)) 0 * x ^ (k + 1 - (i + 1)) := by
      intro i _
      have e1 : p + 1 + i = p + (i + 1) := by omega
      have e2 : k + 1 - (i + 1) = k - i := by omega
      rw [e1, e2]
    rw [Finset.sum_congr rfl e]
    simp only [Nat.add_zero, Nat.sub_zero]
    ring

/-- C15: for a degree `N ≥ 1` and a coefficient array `coef[0..N]`, the loop of the
scalar `polevl` is left after exactly `N` multiply-add steps (with any fuel of at least
`N` passes, and with no less), having read exactly `coef[0], ..., coef[N]` in this order,
and returns what the scalar `polevl` returns; in exact arithmetic that value is the
Horner value `coef[0] * x ^ N + coef[1] * x ^ (N - 1) + ... + coef[N]`; and each lane of
the vector overload is the scalar overload of that lane. -/
theorem C15_polevl_is_horner (N : Nat) (hN : 1 ≤ N) (x : Nat) (coef : List Nat)
    (hlen : coef.length = N + 1) (xq : ℚ) (coefq : List ℚ) (xv : v2df) (j : Fin 2) :
    (∀ extra, ∃ t, polevl_run binary64.mul binary64.add 0 x coef (N + extra)
          (polevl_init 0 coef N) = some t ∧
        t.ans = double.polevl x coef N ∧ t.steps = N ∧ t.reads = List.range (N + 1) ∧
        (∀ r ∈ t.reads, r < coef.length)) ∧
    (∀ fuel, fuel < N →
      polevl_run binary64.mul binary64.add 0 x coef fuel (polevl_init 0 coef N) = none) ∧
    (∀ extra, ∃ t, polevl_run (fun a b => a * b) (fun a b => a + b) 0 xq coefq (N + extra)
          (polevl_init 0 coefq N) = some t ∧
        t.ans = ∑ i in Finset.range (N + 1), coefq.getD i 0 * xq ^ (N - i) ∧ t.steps = N) ∧
    generic.polevl (fun a b => a * b) (fun a b => a + b) 0 xq coefq N
      = ∑ i in Finset.range (N + 1), coefq.getD i 0 * xq ^ (N - i) ∧
    (v2df.polevl xv coef N).get j = double.polevl (xv.get j) coef N := by
  obtain ⟨k, rfl⟩ : ∃ k, N = k + 1 := ⟨N - 1, by omega⟩
  have hor : generic.polevl (fun a b => a * b) (fun a b => a + b) 0 xq coefq (k + 1)
      = ∑ i in Finset.range (k + 1 + 1), coefq.getD i 0 * xq ^ (k + 1 - i) := by
    unfold generic.polevl
    rw [Nat.add_sub_cancel, polevl_loop_horner, Finset.sum_range_succ' _ (k + 1)]
    have e : ∀ i ∈ Finset.range (k + 1),
        coefq.getD (1 + i) 0 * xq ^ (k - i) = coefq.getD (i + 1) 0 * xq ^ (k + 1 - (i + 1)) := by
      intro i _
      have e1 : 1 + i = i + 1 := by omega
      have e2 : k + 1 - (i + 1) = k - i := by omega
      rw [e1, e2]
    rw [Finset.sum_congr rfl e]
    simp only [Nat.sub_zero]
    ring
  refine ⟨?_, ?_, ?_, hor, ?_⟩
  · intro extra
    obtain ⟨t, h1, h2, _, _, h5, h6⟩ := polevl_run_spec binary64.mul binary64.add 0 x coef k
      (polevl_init 0 coef ((k + 1 : ℕ) : ℤ)) (by show ((k + 1 : ℕ) : ℤ) = (k : ℤ) + 1; push_cast; rfl)
      extra
    have hr : t.reads = List.range (k + 1 + 1) := by
      rw [h6]
      show [0] ++ List.range' 1 (k + 1) = List.range (k + 1 + 1)
      rw [List.range_eq_range']
      rfl
    refine ⟨t, h1, ?_, ?_, hr, ?_⟩
    · rw [h2, double_polevl_eq]
      unfold generic.polevl
      rw [Nat.add_sub_cancel]
      rfl
    · rw [h5]; show 0 + (k + 1) = k + 1; omega
    · intro r hr'
      rw [hr, List.mem_range] at hr'
      omega
  · intro fuel hf
    apply polevl_run_none
    show (fuel : ℤ) < ((k + 1 : ℕ) : ℤ)
    exact_mod_cast hf
  · intro extra
    obtain ⟨t, h1, h2, _, _, h5, _⟩ := polevl_run_spec (fun a b : ℚ => a * b)
      (fun a b => a + b) 0 xq coefq k
      (polevl_init 0 coefq ((k + 1 : ℕ) : ℤ)) (by show ((k + 1 : ℕ) : ℤ) = (k : ℤ) + 1; push_cast; rfl)
      extra
    refine ⟨t, h1, ?_, ?_⟩
    · rw [h2, ← hor]
      unfold generic.polevl
      rw [Nat.add_sub_cancel]
      rfl
    · rw [h5]; show 0 + (k + 1) = k + 1; omega
  · unfold v2df.polevl double.polevl
    have e : (vec_splat2 (coef.getD 0 0)).get j = coef.getD 0 0 := by
      fin_cases j <;> rfl
    rw [(v2df_polevl_loop_get xv coef (k + 1 - 1) 1 (vec_splat2 (coef.getD 0 0)) j).1, e]

/-- C15 at the degree 2 and the coefficients `P` of the source. -/
theorem C15_polevl_is_horner_witness :
    1 ≤ 2 ∧ P.length = 2 + 1 ∧
    generic.polevl (fun a b => a * b) (fun a b => a + b) 0 (3 : ℚ) [1, 2, 5] 2
      = ∑ i in Finset.range (2 + 1), ([1, 2, 5] : List ℚ).getD i 0 * (3 : ℚ) ^ (2 - i) ∧
    (v2df.polevl ⟨0x3ff8000000000000, 0⟩ P 2).get 0
      = double.polevl (Vec2.get ⟨0x3ff8000000000000, 0⟩ 0) P 2 :=
  ⟨by decide, rfl,
    (C15_polevl_is_horner 2 (by decide) 0x3ff8000000000000 P rfl 3 [1, 2, 5]
      ⟨0x3ff8000000000000, 0⟩ 0).2.2.2.1,
    (C15_polevl_is_horner 2 (by decide) 0x3ff8000000000000 P rfl 3 [1, 2, 5]
      ⟨0x3ff8000000000000, 0⟩ 0).2.2.2.2⟩

theorem P_bits : P = [0x3f2089cdd5e44be8, 0x3f9f06d10cca2c7e, 0x3ff0000000000000] := by
  decide!

theorem Q_bits :
    Q = [0x3ec92eb6bc365fa0, 0x3f64ae39b508b6c0, 0x3fcd17099887e074, 0x4000000000000000] := by
  decide!

theorem P0_val : binary64.toRat 0x3f2089cdd5e44be8 = 581889597147517 / 2 ^ 62 :=
  Fmt.toRat_of_sval _ _ 581889597147517 1012 62 (by decide!) (by decide)

theorem P1_val : binary64.toRat 0x3f9f06d10cca2c7e = 4366609605269055 / 2 ^ 57 :=
  Fmt.toRat_of_sval _ _ 4366609605269055 1017 57 (by decide!) (by decide)

theorem P2_val : binary64.toRat 0x3ff0000000000000 = 1 / 2 ^ 0 :=
  Fmt.toRat_of_sval _ _ 1 1074 0 (by decide!) (by decide)

theorem Q0_val : binary64.toRat 0x3ec92eb6bc365fa0 = 221507399824125 / 2 ^ 66 :=
  Fmt.toRat_of_sval _ _ 221507399824125 1008 66 (by decide!) (by decide)

theorem Q1_val : binary64.toRat 0x3f64ae39b508b6c0 = 90954100122331 / 2 ^ 55 :=
  Fmt.toRat_of_sval _ _ 90954100122331 1019 55 (by decide!) (by decide)

theorem Q2_val : binary64.toRat 0x3fcd17099887e074 = 2047026076448797 / 2 ^ 53 :=
  Fmt.toRat_of_sval _ _ 2047026076448797 1021 53 (by decide!) (by decide)

theorem Q3_val : binary64.toRat 0x4000000000000000 = 2 / 2 ^ 0 :=
  Fmt.toRat_of_sval _ _ 2 1074 0 (by decide!) (by decide)

/-! ## The rational approximation of `sse2_exp_unsafe` -/

/-- One lane of `sse2_exp_unsafe` is the approximation stage on binary64 arithmetic,
applied to the reduced argument and scaled by the power of two. -/
theorem exp_unsafe_lane_stages (floor : Nat → Nat) (a : Nat) :
    exp_unsafe_lane floor a
      = binary64.mul
          (generic.exp_approx binary64.mul binary64.add binary64.sub binary64.div 0
            (binary64.lit 0 1 1) P Q (exp_reduce_lane (exp_px_lane floor a) a))
          (exp_pow2_lane (exp_px_lane floor a)) := by
  simp only [exp_unsafe_lane, sse2_exp_unsafe, exp_reduce_lane, exp_px_lane, exp_pow2_lane,
    generic.exp_approx, generic.polevl, generic.polevl_loop, Vec2.map, Vec2.map2, vec_splat2,
    vec_splat, mulpd, addpd, subpd, divpd, v2df.sse2_floor_unsafe, v2df.unpack, v2df.pack,
    cvtpd2dq, ldexp, pow2_unsafe, paddd, unpcklps, psllqi128, Vec2.toVec4, Vec4.toVec2,
    Vec4.map2, v2df.polevl, v2df.polevl_loop, List.set_cons_zero, List.set_cons_succ,
    List.getD_cons_zero, List.getD_cons_succ, Nat.zero_mod, Nat.zero_div]

/-- The approximation stage in exact arithmetic, for any coefficients. -/
theorem exp_approx_rat (p0 p1 p2 q0 q1 q2 q3 r : ℚ) :
    generic.exp_approx (fun a b => a * b) (fun a b => a + b) (fun a b => a - b)
      (fun a b => a / b) 0 1 [p0, p1, p2] [q0, q1, q2, q3] r
    = 1 + 2 * r * (p0 * (r ^ 2) ^ 2 + p1 * r ^ 2 + p2)
        / ((q0 * (r ^ 2) ^ 3 + q1 * (r ^ 2) ^ 2 + q2 * r ^ 2 + q3)
            - r * (p0 * (r ^ 2) ^ 2 + p1 * r ^ 2 + p2)) := by
  simp only [generic.exp_approx, generic.polevl, generic.polevl_loop, List.getD_cons_zero,
    List.getD_cons_succ]
  ring

theorem exp_approx_exact_eq (r : ℚ) :
    exp_approx_exact r
      = 1 + 2 * r * spec_P (r ^ 2) / (spec_Q (r ^ 2) - r * spec_P (r ^ 2)) := by
  unfold exp_approx_exact spec_P spec_Q
  rw [P_bits, Q_bits]
  exact exp_approx_rat _ _ _ _ _ _ _ r

/-- C14 fails at `r = 1/4`: in exact arithmetic, with the coefficients of the program,
the approximation stage of `sse2_exp_unsafe` gives
`684459801273445540500029 / 533057829212657545991101` (about `1.2840254`, the value of
`exp (1/4)`), and the form `1 + 2r * P(r^2) / (Q(r^2) - P(r^2))` gives
`457356843182263548736637 / 305954871121475554227709` (about `1.4948507`). -/
theorem C14_counterexample_quarter :
    exp_approx_exact (1 / 4) = 684459801273445540500029 / 533057829212657545991101 ∧
    spec_exp_rational (1 / 4) = 457356843182263548736637 / 305954871121475554227709 ∧
    exp_approx_exact (1 / 4) ≠ spec_exp_rational (1 / 4) := by
  have h1 : exp_approx_exact (1 / 4)
      = 684459801273445540500029 / 533057829212657545991101 := by
    rw [exp_approx_exact_eq]
    unfold spec_P spec_Q
    rw [P_bits, Q_bits]
    simp only [List.getD_cons_zero, List.getD_cons_succ]
    rw [P0_val, P1_val, P2_val, Q0_val, Q1_val, Q2_val, Q3_val]
    norm_num
  have h2 : spec_exp_rational (1 / 4)
      = 457356843182263548736637 / 305954871121475554227709 := by
    unfold spec_exp_rational spec_P spec_Q
    rw [P_bits, Q_bits]
    simp only [List.getD_cons_zero, List.getD_cons_succ]
    rw [P0_val, P1_val, P2_val, Q0_val, Q1_val, Q2_val, Q3_val]
    norm_num
  refine ⟨h1, h2, ?_⟩
  rw [h1, h2]
  norm_num

/-- C14 as amended: every lane of `sse2_exp_unsafe` is the approximation stage of source
lines 539-565, applied to the reduced argument, times the power of two; and in exact
arithmetic that stage, for every reduced argument `r`, equals
`1 + 2r * P(r^2) / (Q(r^2) - r * P(r^2))`, where
`P(t) = P[0] * t^2 + P[1] * t + P[2]` and
`Q(t) = Q[0] * t^3 + Q[1] * t^2 + Q[2] * t + Q[3]`: the denominator subtracts
`r * P(r^2)`, the numerator's half, not `P(r^2)`. -/
theorem C14_rational_form_of_the_stage (floor : Nat → Nat) (x : v2df) (j : Fin 2) (r : ℚ) :
    (( sse2_exp_unsafe floor x).get j
      = binary64.mul
          (generic.exp_approx binary64.mul binary64.add binary64.sub binary64.div 0
            (binary64.lit 0 1 1) P Q (exp_reduce_lane (exp_px_lane floor (x.get j)) (x.get j)))
          (exp_pow2_lane (exp_px_lane floor (x.get j)))) ∧
    exp_approx_exact r
      = 1 + 2 * r * spec_P (r ^ 2) / (spec_Q (r ^ 2) - r * spec_P (r ^ 2)) := by
  refine ⟨?_, exp_approx_exact_eq r⟩
  rw [sse2_exp_unsafe_get, exp_unsafe_lane_stages]

/-- C19: the two constants of each pair add up to `ln 2` within `1e-9`, for the values
the program holds (the single-precision pair `float_cephes_exp_C1`,
`float_cephes_exp_C2` and the double-precision pair `C1`, `C2`) and for the decimal
literals they are written as; hence, in exact arithmetic, `x - k * C1 - k * C2` equals
`x - k * ln 2` up to `|k| * 1e-9`. -/
theorem C19_split_constants_approximate_ln2 (x k : ℝ) :
    |((binary32.toRat float_cephes_exp_C1.l0 : ℝ) + (binary32.toRat float_cephes_exp_C2.l0 : ℝ))
        - Real.log 2| ≤ 1 / 10 ^ 9 ∧
    |((binary64.toRat C1 : ℝ) + (binary64.toRat C2 : ℝ)) - Real.log 2| ≤ 1 / 10 ^ 9 ∧
    |((0.693359375 : ℝ) + (-2.12194440e-4)) - Real.log 2| ≤ 1 / 10 ^ 9 ∧
    |((6.93145751953125e-1 : ℝ) + 1.42860682030941723212e-6) - Real.log 2| ≤ 1 / 10 ^ 9 ∧
    |(x - k * (binary32.toRat float_cephes_exp_C1.l0 : ℝ)
          - k * (binary32.toRat float_cephes_exp_C2.l0 : ℝ)) - (x - k * Real.log 2)|
      ≤ |k| * (1 / 10 ^ 9) ∧
    |(x - k * (binary64.toRat C1 : ℝ) - k * (binary64.toRat C2 : ℝ)) - (x - k * Real.log 2)|
      ≤ |k| * (1 / 10 ^ 9) := by
  have hlo := Real.log_two_gt_d9
  have hhi := Real.log_two_lt_d9
  have h1 : |((binary32.toRat float_cephes_exp_C1.l0 : ℝ)
      + (binary32.toRat float_cephes_exp_C2.l0 : ℝ)) - Real.log 2| ≤ 1 / 10 ^ 9 := by
    rw [exp_C1_bits, exp_C2_bits, exp_C1_val, exp_C2_val, abs_le]
    push_cast
    constructor <;> norm_num <;> linarith
  have h2 : |((binary64.toRat C1 : ℝ) + (binary64.toRat C2 : ℝ)) - Real.log 2|
      ≤ 1 / 10 ^ 9 := by
    rw [C1d_bits, C2d_bits, C1d_val, C2d_val, abs_le]
    push_cast
    constructor <;> norm_num <;> linarith
  have hk : ∀ c : ℝ, |c - Real.log 2| ≤ 1 / 10 ^ 9 → ∀ c1 c2 : ℝ, c1 + c2 = c →
      |(x - k * c1 - k * c2) - (x - k * Real.log 2)| ≤ |k| * (1 / 10 ^ 9) := by
    intro c hc c1 c2 h12
    have e : (x - k * c1 - k * c2) - (x - k * Real.log 2) = -(k * (c - Real.log 2)) := by
      rw [← h12]; ring
    rw [e, abs_neg, abs_mul]
    exact mul_le_mul_of_nonneg_left hc (abs_nonneg k)
  refine ⟨h1, h2, ?_, ?_, hk _ h1 _ _ rfl, hk _ h2 _ _ rfl⟩
  · rw [abs_le]
    constructor <;> norm_num <;> linarith
  · rw [abs_le]
    constructor <;> norm_num <;> linarith

/-- C17: in exact rational arithmetic, for every `x` with
`-87.5 ≤ x ≤ 88.3762626647949`, the integer `k = ⌊x * LOG2EF + 1/2⌋` and the reduced
argument `r = x - k * C1 - k * C2` satisfy `|r| ≤ 0.35`; both with the values the program
holds for `float_cephes_LOG2EF`, `float_cephes_exp_C1`, `float_cephes_exp_C2` and with
the decimal literals they are written as. -/
theorem C17_reduced_argument_is_small (x : ℚ) (h1 : -87.5 ≤ x)
    (h2 : x ≤ 88.3762626647949) :
    |x - ⌊x * binary32.toRat float_cephes_LOG2EF.l0 + 1 / 2⌋
            * binary32.toRat float_cephes_exp_C1.l0
        - ⌊x * binary32.toRat float_cephes_LOG2EF.l0 + 1 / 2⌋
            * binary32.toRat float_cephes_exp_C2.l0| ≤ 0.35 ∧
    |x - ⌊x * 1.44269504088896341 + 1 / 2⌋ * 0.693359375
        - ⌊x * 1.44269504088896341 + 1 / 2⌋ * (-2.12194440e-4)| ≤ 0.35 := by
  constructor
  · rw [LOG2EF_bits, exp_C1_bits, exp_C2_bits, LOG2EF_val, exp_C1_val, exp_C2_val]
    have f1 := Int.floor_le (x * (12102203 / 2 ^ 23) + 1 / 2)
    have f2 := Int.lt_floor_add_one (x * (12102203 / 2 ^ 23) + 1 / 2)
    generalize (⌊x * (12102203 / 2 ^ 23) + 1 / 2⌋ : ℤ) = k at f1 f2 ⊢
    rw [abs_le]
    constructor <;> norm_num at h1 h2 f1 f2 ⊢ <;> linarith
  · have f1 := Int.floor_le (x * 1.44269504088896341 + 1 / 2)
    have f2 := Int.lt_floor_add_one (x * 1.44269504088896341 + 1 / 2)
    generalize (⌊x * 1.44269504088896341 + 1 / 2⌋ : ℤ) = k at f1 f2 ⊢
    rw [abs_le]
    constructor <;> norm_num at h1 h2 f1 f2 ⊢ <;> linarith

/-- C17 at `x = 1`. -/
theorem C17_reduced_argument_is_small_witness :
    (-87.5 : ℚ) ≤ 1 ∧ (1 : ℚ) ≤ 88.3762626647949 ∧
    |(1 : ℚ) - ⌊(1 : ℚ) * binary32.toRat float_cephes_LOG2EF.l0 + 1 / 2⌋
            * binary32.toRat float_cephes_exp_C1.l0
        - ⌊(1 : ℚ) * binary32.toRat float_cephes_LOG2EF.l0 + 1 / 2⌋
            * binary32.toRat float_cephes_exp_C2.l0| ≤ 0.35 :=
  ⟨by norm_num, by norm_num,
    (C17_reduced_argument_is_small 1 (by norm_num) (by norm_num)).1⟩

/-! ## The polynomial of `sse2_expf_unsafe` against the exponential -/

/-- The polynomial stage in exact real arithmetic, written out. -/
theorem expf_poly_real (p0 p1 p2 p3 p4 p5 r : ℝ) :
    generic.expf_poly (fun a b : ℝ => a * b) (fun a b => a + b) p0 p1 p2 p3 p4 p5 1 r
      = 1 + r + r ^ 2 * (p0 * r ^ 5 + p1 * r ^ 4 + p2 * r ^ 3 + p3 * r ^ 2 + p4 * r + p5) := by
  unfold generic.expf_poly
  simp only []
  ring

/-- Taylor's polynomial of degree 11 is within `1e-13` of `exp` on `[-0.35, 0.35]`. -/
theorem exp_taylor11 (r : ℝ) (hr : |r| ≤ 7 / 20) :
    |Real.exp r - (1 + r + r ^ 2 / 2 + r ^ 3 / 6 + r ^ 4 / 24 + r ^ 5 / 120 + r ^ 6 / 720
        + r ^ 7 / 5040 + r ^ 8 / 40320 + r ^ 9 / 362880 + r ^ 10 / 3628800
        + r ^ 11 / 39916800)| ≤ 1 / 10 ^ 13 := by
  have h := Real.exp_bound (le_trans hr (by norm_num)) (by norm_num : 0 < 12)
  have hp : |r| ^ 12 ≤ (7 / 20) ^ 12 := pow_le_pow_left₀ (abs_nonneg r) hr 12
  have hs : (∑ m ∈ Finset.range 12, r ^ m / (m.factorial : ℝ))
      = 1 + r + r ^ 2 / 2 + r ^ 3 / 6 + r ^ 4 / 24 + r ^ 5 / 120 + r ^ 6 / 720
        + r ^ 7 / 5040 + r ^ 8 / 40320 + r ^ 9 / 362880 + r ^ 10 / 3628800
        + r ^ 11 / 39916800 := by
    simp only [Finset.sum_range_succ, Finset.sum_range_zero, Nat.factorial]
    norm_num
  rw [hs] at h
  refine le_trans h ?_
  have hc : (0 : ℝ) ≤ ((12 : ℕ).succ : ℝ) / (((12 : ℕ).factorial : ℝ) * (12 : ℕ)) := by positivity
  refine le_trans (mul_le_mul_of_nonneg_right hp hc) ?_
  simp only [Nat.factorial]
  norm_num

/-- C18: in exact real arithmetic, with the values the program holds for
`float_cephes_exp_p0`, ..., `float_cephes_exp_p5` and for `float_1`, the polynomial
stage of `sse2_expf_unsafe` (source lines 158-173) computes
`1 + r + r^2 * (p0 * r^5 + p1 * r^4 + p2 * r^3 + p3 * r^2 + p4 * r + p5)`, and for every
real `r` with `|r| ≤ 0.35` this differs from `exp r` by at most `1e-6 * exp r`. -/
theorem C18_polynomial_is_close_to_exp (r : ℝ) (hr : |r| ≤ 0.35) :
    generic.expf_poly (fun a b : ℝ => a * b) (fun a b => a + b)
        (binary32.toRat float_cephes_exp_p0.l0 : ℝ) (binary32.toRat float_cephes_exp_p1.l0 : ℝ)
        (binary32.toRat float_cephes_exp_p2.l0 : ℝ) (binary32.toRat float_cephes_exp_p3.l0 : ℝ)
        (binary32.toRat float_cephes_exp_p4.l0 : ℝ) (binary32.toRat float_cephes_exp_p5.l0 : ℝ)
        (binary32.toRat float_1.l0 : ℝ) r
      = 1 + r + r ^ 2 * ((binary32.toRat float_cephes_exp_p0.l0 : ℝ) * r ^ 5
          + (binary32.toRat float_cephes_exp_p1.l0 : ℝ) * r ^ 4
          + (binary32.toRat float_cephes_exp_p2.l0 : ℝ) * r ^ 3
          + (binary32.toRat float_cephes_exp_p3.l0 : ℝ) * r ^ 2
          + (binary32.toRat float_cephes_exp_p4.l0 : ℝ) * r
          + (binary32.toRat float_cephes_exp_p5.l0 : ℝ)) ∧
    |generic.expf_poly (fun a b : ℝ => a * b) (fun a b => a + b)
        (binary32.toRat float_cephes_exp_p0.l0 : ℝ) (binary32.toRat float_cephes_exp_p1.l0 : ℝ)
        (binary32.toRat float_cephes_exp_p2.l0 : ℝ) (binary32.toRat float_cephes_exp_p3.l0 : ℝ)
        (binary32.toRat float_cephes_exp_p4.l0 : ℝ) (binary32.toRat float_cephes_exp_p5.l0 : ℝ)
        (binary32.toRat float_1.l0 : ℝ) r - Real.exp r| ≤ 1e-6 * Real.exp r := by
  have h1 : ((binary32.toRat float_1.l0 : ℚ) : ℝ) = 1 := by
    rw [float_1_bits, float_1_val]; norm_num
  rw [h1, expf_poly_real]
  refine ⟨rfl, ?_⟩
  have hr' : |r| ≤ 7 / 20 := le_trans hr (by norm_num)
  have ht := abs_le.1 (exp_taylor11 r hr')
  have he : 1 + r ≤ Real.exp r := by linarith [Real.add_one_le_exp r]
  have hrl := abs_le.1 hr'
  have b : ∀ i : ℕ, -((7 / 20 : ℝ) ^ i) ≤ r ^ i ∧ r ^ i ≤ (7 / 20 : ℝ) ^ i := by
    intro i
    have : |r ^ i| ≤ (7 / 20 : ℝ) ^ i := by
      rw [abs_pow]; exact pow_le_pow_left₀ (abs_nonneg r) hr' i
    exact abs_le.1 this
  have b2 := b 2
  have b3 := b 3
  have b4 := b 4
  have b5 := b 5
  have b6 := b 6
  have b7 := b 7
  have b8 := b 8
  have b9 := b 9
  have b10 := b 10
  have b11 := b 11
  rw [exp_p0_bits, exp_p1_bits, exp_p2_bits, exp_p3_bits, exp_p4_bits, exp_p5_bits,
    exp_p0_val, exp_p1_val, exp_p2_val, exp_p3_val, exp_p4_val, exp_p5_val, abs_le]
  push_cast
  norm_num at b2 b3 b4 b5 b6 b7 b8 b9 b10 b11 ht ⊢
  constructor <;> linarith [ht.1, ht.2, he, hrl.1, hrl.2]

/-- C18 at `r = 1/4`. -/
theorem C18_polynomial_is_close_to_exp_witness :
    |(1 / 4 : ℝ)| ≤ 0.35 ∧
    |generic.expf_poly (fun a b : ℝ => a * b) (fun a b => a + b)
        (binary32.toRat float_cephes_exp_p0.l0 : ℝ) (binary32.toRat float_cephes_exp_p1.l0 : ℝ)
        (binary32.toRat float_cephes_exp_p2.l0 : ℝ) (binary32.toRat float_cephes_exp_p3.l0 : ℝ)
        (binary32.toRat float_cephes_exp_p4.l0 : ℝ) (binary32.toRat float_cephes_exp_p5.l0 : ℝ)
        (binary32.toRat float_1.l0 : ℝ) (1 / 4) - Real.exp (1 / 4)| ≤ 1e-6 * Real.exp (1 / 4) :=
  have h : |(1 / 4 : ℝ)| ≤ 0.35 := by
    rw [abs_of_nonneg (by norm_num)]; norm_num
  ⟨h, (C18_polynomial_is_close_to_exp (1 / 4) h).2⟩

/-! ## `sse2_expf_unsafe` stage by stage -/

/-- One lane of `sse2_expf_unsafe` is the polynomial stage on binary32 arithmetic,
applied to the reduced argument and multiplied by the word built from `k`. -/
theorem expf_unsafe_lane_stages (a : Nat) :
    expf_unsafe_lane a
      = binary32.mul
          (generic.expf_poly binary32.mul binary32.add float_cephes_exp_p0.l0
            float_cephes_exp_p1.l0 float_cephes_exp_p2.l0 float_cephes_exp_p3.l0
            float_cephes_exp_p4.l0 float_cephes_exp_p5.l0 float_1.l0
            (expf_reduce_lane (expf_clamp_lane a) (expf_kf_lane a)))
          (expf_pow2n_lane (expf_emm0_lane (expf_kf_lane a))) := by
  simp only [expf_unsafe_lane, sse2_expf_unsafe, expf_reduce_lane, expf_clamp_lane,
    expf_kf_lane, expf_floor_lane, expf_fx_lane, expf_pow2n_lane, expf_emm0_lane,
    generic.expf_poly, Vec4.map, Vec4.map2, vec_splat, maxps, mulps,
    addps, subps, cmpgtps, andps, v4sf.sse2_floor_unsafe, cvtdq2ps, cvtps2dq, cvttps2dq, paddd,
    pslldi128, float_1, float_exp_lo, float_cephes_LOG2EF, float_0p5, float_cephes_exp_C1,
    float_cephes_exp_C2, float_cephes_exp_p0, float_cephes_exp_p1, float_cephes_exp_p2,
    float_cephes_exp_p3, float_cephes_exp_p4, float_cephes_exp_p5, int_0x7f]

/-! ## The lower clamp -/

/-- A lane that is not above `float_exp_lo` (NaN included) is replaced by `float_exp_lo`. -/
theorem expf_clamp_lane_low (a : Nat) (h : ¬ binary32.lt float_exp_lo.l0 a) :
    expf_clamp_lane a = float_exp_lo.l0 := by
  unfold expf_clamp_lane Fmt.max
  rw [if_neg h]

theorem not_lt_of_le32 (a b : Nat) (h : binary32.le a b) : ¬ binary32.lt b a := by
  unfold Fmt.le at h
  unfold Fmt.lt
  intro hc
  omega

theorem not_lt_of_nan32 (a b : Nat) (h : binary32.isNaN a) : ¬ binary32.lt b a := by
  unfold Fmt.lt
  intro hc
  exact hc.2.1 h

/-- The lane of `sse2_expf_unsafe` depends on the input lane through the clamp only. -/
theorem expf_unsafe_lane_clamp (a b : Nat) (h : expf_clamp_lane a = expf_clamp_lane b) :
    expf_unsafe_lane a = expf_unsafe_lane b ∧ expf_n_lane a = expf_n_lane b := by
  rw [expf_unsafe_lane_stages, expf_unsafe_lane_stages]
  unfold expf_n_lane expf_kf_lane
  rw [h]
  exact ⟨rfl, rfl⟩

theorem expf_clamp_lane_lo : expf_clamp_lane float_exp_lo.l0 = float_exp_lo.l0 := by decide!

theorem expf_unsafe_lane_lo : expf_unsafe_lane float_exp_lo.l0 = 0 := by decide!

theorem expf_n_lane_lo : expf_n_lane float_exp_lo.l0 = -127 := by decide!

theorem expf_pow2n_lane_lo :
    expf_pow2n_lane (expf_emm0_lane (expf_kf_lane float_exp_lo.l0)) = 0 := by decide!

/-- C16: a lane `x ≤ float_exp_lo` of `sse2_expf_unsafe` (`-inf` is such a lane) comes out
as the lane for `x = float_exp_lo`, which is the pattern of `+0.0`: there `k = -127`, the
word `(k + 127) << 23` is `0`, and the polynomial value is multiplied by it. -/
theorem C16_lanes_below_the_clamp_give_zero (x : v4sf) (i : Fin 4)
    (h : binary32.le (x.get i) float_exp_lo.l0) :
    ( sse2_expf_unsafe x).get i = ( sse2_expf_unsafe float_exp_lo).get i ∧
    ( sse2_expf_unsafe x).get i = 0 ∧
    binary32.toRat (( sse2_expf_unsafe x).get i) = 0 ∧ binary32.sign (( sse2_expf_unsafe x).get i) = 0 ∧
    expf_n_lane (x.get i) = -127 ∧
    expf_pow2n_lane (expf_emm0_lane (expf_kf_lane (x.get i))) = 0 ∧
    binary32.le (binary32.neg binary32.infMag) float_exp_lo.l0 := by
  have hc : expf_clamp_lane (x.get i) = expf_clamp_lane float_exp_lo.l0 := by
    rw [expf_clamp_lane_lo]
    exact expf_clamp_lane_low _ (not_lt_of_le32 _ _ h)
  obtain ⟨e1, e2⟩ := expf_unsafe_lane_clamp _ _ hc
  have hlo : ( sse2_expf_unsafe float_exp_lo).get i = 0 := by
    rw [sse2_expf_unsafe_get]
    have : float_exp_lo.get i = float_exp_lo.l0 := by fin_cases i <;> rfl
    rw [this, expf_unsafe_lane_lo]
  have hx : ( sse2_expf_unsafe x).get i = 0 := by
    rw [sse2_expf_unsafe_get, e1, expf_unsafe_lane_lo]
  refine ⟨by rw [hx, hlo], hx, ?_, ?_, ?_, ?_, by decide!⟩
  · rw [hx]; exact binary32.toRat_zero
  · rw [hx]; decide
  · rw [e2, expf_n_lane_lo]
  · have : expf_kf_lane (x.get i) = expf_kf_lane float_exp_lo.l0 := by
      unfold expf_kf_lane
      rw [hc]
    rw [this, expf_pow2n_lane_lo]

/-- C16 at `x = -100.0` in lane 0 and `-inf` in lane 1. -/
theorem C16_lanes_below_the_clamp_give_zero_witness :
    binary32.le (Vec4.get ⟨0xc2c80000, 0xff800000, 0, 0⟩ 0) float_exp_lo.l0 ∧
    ( sse2_expf_unsafe ⟨0xc2c80000, 0xff800000, 0, 0⟩).get 0 = 0 ∧
    binary32.le (Vec4.get ⟨0xc2c80000, 0xff800000, 0, 0⟩ 1) float_exp_lo.l0 ∧
    ( sse2_expf_unsafe ⟨0xc2c80000, 0xff800000, 0, 0⟩).get 1 = 0 :=
  ⟨by decide!,
    (C16_lanes_below_the_clamp_give_zero ⟨0xc2c80000, 0xff800000, 0, 0⟩ 0 (by decide!)).2.1,
    by decide!,
    (C16_lanes_below_the_clamp_give_zero ⟨0xc2c80000, 0xff800000, 0, 0⟩ 1 (by decide!)).2.1⟩

/-! ## Rounding respects representable bounds -/

theorem rneDiv_le_of_le (n D U : Nat) (hD : 0 < D) (h : n ≤ U * D) : Fmt.rneDiv n D ≤ U := by
  have hq : n / D ≤ U := Nat.div_le_of_le_mul (by rw [mul_comm]; exact h)
  have hdm := Nat.div_add_mod n D
  have hr := Nat.mod_lt n hD
  unfold Fmt.rneDiv
  generalize n / D = q at hq hdm ⊢
  generalize n % D = r at hdm hr ⊢
  split_ifs with hc
  · by_contra hcon
    have hqU : q = U := by omega
    subst hqU
    have : D * q = q * D := Nat.mul_comm _ _
    have hr0 : r = 0 := by omega
    subst hr0
    rcases hc with hc | ⟨hc, _⟩ <;> omega
  · exact hq

theorem le_rneDiv_of_le (n D U : Nat) (hD : 0 < D) (h : U * D ≤ n) : U ≤ Fmt.rneDiv n D :=
  le_trans ((Nat.le_div_iff_mul_le hD).2 h) (rneDiv_bounds n D).1

set_option exponentiation.threshold 8192 in
theorem ilog2_zero : Fmt.ilog2 0 = 0 := by decide!

/-- The shape of the rounding step: the shift `s` and the rounded significand. -/
theorem Fmt.roundUnits_shape (f : Fmt) (n d : Nat) (hN : n / d < 2 ^ 8192) :
    ∃ s, f.roundUnits n d = min (s * 2 ^ f.mb + Fmt.rneDiv n (d * 2 ^ s)) f.infMag ∧
      n / d < 2 ^ (f.mb + s + 1) ∧ (s = 0 ∨ 2 ^ (f.mb + s) ≤ n / d) := by
  refine ⟨Fmt.ilog2 (n / d) - f.mb, rfl, ?_, ?_⟩
  · by_cases h0 : n / d = 0
    · rw [h0]; exact Nat.two_pow_pos _
    · obtain ⟨_, l2⟩ := ilog2_spec (n / d) (Nat.pos_of_ne_zero h0) hN
      exact lt_of_lt_of_le l2 (Nat.pow_le_pow_right (by decide) (by omega))
  · by_cases hs : Fmt.ilog2 (n / d) - f.mb = 0
    · left; exact hs
    · right
      have h0 : n / d ≠ 0 := by
        intro h0
        rw [h0, ilog2_zero] at hs
        exact hs (by simp)
      obtain ⟨l1, _⟩ := ilog2_spec (n / d) (Nat.pos_of_ne_zero h0) hN
      have e : f.mb + (Fmt.ilog2 (n / d) - f.mb) = Fmt.ilog2 (n / d) := by omega
      rw [e]
      exact l1

/-- The fields of a magnitude pattern. -/
theorem Fmt.units_of_fields (f : Fmt) (c : Nat) :
    f.mag c = f.expField c * 2 ^ f.mb + f.manField c ∧ f.manField c < 2 ^ f.mb ∧
    ((f.expField c = 0 ∧ f.units c = f.manField c) ∨
     (1 ≤ f.expField c ∧ f.units c = (2 ^ f.mb + f.manField c) * 2 ^ (f.expField c - 1))) :=
  ⟨f.mag_eq c, f.manField_lt c, f.units_cases c⟩

/-- Rounding does not go above a representable upper bound of the exact quotient. -/
theorem Fmt.roundUnits_le_mag (f : Fmt) (n d c : Nat) (hd : 0 < d) (hN : n / d < 2 ^ 8192)
    (h : n ≤ f.units c * d) : f.roundUnits n d ≤ f.mag c := by
  obtain ⟨s, hs, hlt, hge⟩ := f.roundUnits_shape n d hN
  obtain ⟨hmag, hM, hU⟩ := f.units_of_fields c
  have hA : 0 < 2 ^ f.mb := Nat.two_pow_pos _
  have hB : 0 < 2 ^ s := Nat.two_pow_pos _
  rw [hs]
  refine le_trans (Nat.min_le_left _ _) ?_
  rw [hmag]
  have hqU : n / d ≤ f.units c := Nat.div_le_of_le_mul (by rw [mul_comm]; exact h)
  -- the rounded significand is at most `2 ^ (mb + 1)`
  have hR2 : Fmt.rneDiv n (d * 2 ^ s) ≤ 2 * 2 ^ f.mb := by
    have h1 : n / (d * 2 ^ s) < 2 * 2 ^ f.mb := by
      rw [← Nat.div_div_eq_div_mul, Nat.div_lt_iff_lt_mul hB]
      calc n / d < 2 ^ (f.mb + s + 1) := hlt
        _ = 2 * 2 ^ f.mb * 2 ^ s := by rw [pow_succ, pow_add]; ring
    have := (rneDiv_bounds n (d * 2 ^ s)).2
    omega
  rcases hU with ⟨hE, hu⟩ | ⟨hE, hu⟩
  · -- denormal bound
    rw [hE, Nat.zero_mul, Nat.zero_add]
    rw [hu] at h hqU
    have hs0 : s = 0 := by
      rcases hge with h0 | h1
      · exact h0
      · exfalso
        have : 2 ^ f.mb ≤ 2 ^ (f.mb + s) := Nat.pow_le_pow_right (by decide) (by omega)
        omega
    subst hs0
    rw [Nat.zero_mul, Nat.zero_add, pow_zero, Nat.mul_one]
    exact rneDiv_le_of_le n d _ hd h
  · -- normal bound
    have hUlt : f.units c < 2 ^ (f.mb + f.expField c) := by
      rw [hu]
      calc (2 ^ f.mb + f.manField c) * 2 ^ (f.expField c - 1)
          < (2 * 2 ^ f.mb) * 2 ^ (f.expField c - 1) :=
            Nat.mul_lt_mul_of_pos_right (by omega) (Nat.two_pow_pos _)
        _ = 2 ^ (f.mb + f.expField c) := by
            have e : f.mb + f.expField c = (f.mb + (f.expField c - 1)) + 1 := by omega
            rw [e, pow_succ, pow_add]; ring
    have hsE : s ≤ f.expField c - 1 := by
      rcases hge with h0 | h1
      · omega
      · have : 2 ^ (f.mb + s) < 2 ^ (f.mb + f.expField c) :=
          lt_of_le_of_lt (le_trans h1 hqU) hUlt
        have := (Nat.pow_lt_pow_iff_right (by decide : 1 < 2)).1 this
        omega
    rcases Nat.eq_or_lt_of_le hsE with he | hlt2
    · have hR : Fmt.rneDiv n (d * 2 ^ s) ≤ 2 ^ f.mb + f.manField c := by
        apply rneDiv_le_of_le n (d * 2 ^ s) _ (Nat.mul_pos hd hB)
        rw [hu, ← he] at h
        calc n ≤ (2 ^ f.mb + f.manField c) * 2 ^ s * d := h
          _ = (2 ^ f.mb + f.manField c) * (d * 2 ^ s) := by ring
      have e2 : f.expField c * 2 ^ f.mb = s * 2 ^ f.mb + 2 ^ f.mb := by
        have : f.expField c = s + 1 := by omega
        rw [this]; ring
      omega
    · have e2 : (s + 2) * 2 ^ f.mb ≤ f.expField c * 2 ^ f.mb :=
        Nat.mul_le_mul_right _ (by omega)
      have e3 : (s + 2) * 2 ^ f.mb = s * 2 ^ f.mb + 2 * 2 ^ f.mb := by ring
      omega

/-- Rounding does not go below a representable lower bound of the exact quotient. -/
theorem Fmt.mag_le_roundUnits (f : Fmt) (n d c : Nat) (hd : 0 < d) (hN : n / d < 2 ^ 8192)
    (hc : f.isFinite c) (h : f.units c * d ≤ n) : f.mag c ≤ f.roundUnits n d := by
  obtain ⟨s, hs, hlt, hge⟩ := f.roundUnits_shape n d hN
  obtain ⟨hmag, hM, hU⟩ := f.units_of_fields c
  have hA : 0 < 2 ^ f.mb := Nat.two_pow_pos _
  have hB : 0 < 2 ^ s := Nat.two_pow_pos _
  rw [hs]
  refine Nat.le_min.2 ⟨?_, le_of_lt hc⟩
  rw [hmag]
  have hqU : f.units c ≤ n / d := (Nat.le_div_iff_mul_le hd).2 h
  -- for a positive shift the rounded significand is at least `2 ^ mb`
  have hR1 : s ≠ 0 → 2 ^ f.mb ≤ Fmt.rneDiv n (d * 2 ^ s) := by
    intro hs0
    rcases hge with h0 | h1
    · exact absurd h0 hs0
    · have h2 : 2 ^ f.mb ≤ n / (d * 2 ^ s) := by
        rw [← Nat.div_div_eq_div_mul, Nat.le_div_iff_mul_le hB, ← pow_add]
        exact h1
      exact le_trans h2 (rneDiv_bounds n (d * 2 ^ s)).1
  rcases hU with ⟨hE, hu⟩ | ⟨hE, hu⟩
  · rw [hE, Nat.zero_mul, Nat.zero_add]
    by_cases hs0 : s = 0
    · subst hs0
      rw [Nat.zero_mul, Nat.zero_add, pow_zero, Nat.mul_one]
      rw [hu] at h
      exact le_rneDiv_of_le n d _ hd h
    · have := hR1 hs0
      omega
  · have hUge : 2 ^ (f.mb + (f.expField c - 1)) ≤ f.units c := by
      rw [hu, pow_add]
      exact Nat.mul_le_mul_right _ (by omega)
    have hsE : f.expField c - 1 ≤ s := by
      have : 2 ^ (f.mb + (f.expField c - 1)) < 2 ^ (f.mb + s + 1) :=
        lt_of_le_of_lt (le_trans hUge hqU) hlt
      have := (Nat.pow_lt_pow_iff_right (by decide : 1 < 2)).1 this
      omega
    rcases Nat.eq_or_lt_of_le hsE with he | hlt2
    · have hR : 2 ^ f.mb + f.manField c ≤ Fmt.rneDiv n (d * 2 ^ s) := by
        apply le_rneDiv_of_le n (d * 2 ^ s) _ (Nat.mul_pos hd hB)
        rw [hu, he] at h
        calc (2 ^ f.mb + f.manField c) * (d * 2 ^ s)
            = (2 ^ f.mb + f.manField c) * 2 ^ s * d := by ring
          _ ≤ n := h
      have e2 : f.expField c * 2 ^ f.mb = s * 2 ^ f.mb + 2 ^ f.mb := by
        have : f.expField c = s + 1 := by omega
        rw [this]; ring
      omega
    · have hs0 : s ≠ 0 := by omega
      have := hR1 hs0
      have e2 : (f.expField c + 1) * 2 ^ f.mb ≤ (s + 1) * 2 ^ f.mb :=
        Nat.mul_le_mul_right _ (by omega)
      have e3 : (s + 1) * 2 ^ f.mb = s * 2 ^ f.mb + 2 ^ f.mb := by ring
      have e4 : (f.expField c + 1) * 2 ^ f.mb = f.expField c * 2 ^ f.mb + 2 ^ f.mb := by ring
      omega

theorem Fmt.mag_mag (f : Fmt) (a : Nat) : f.mag (f.mag a) = f.mag a := by
  unfold Fmt.mag
  exact Nat.mod_mod _ _

/-- The magnitude of a number depends on its magnitude field pattern only. -/
theorem Fmt.units_mag (f : Fmt) (a : Nat) : f.units (f.mag a) = f.units a := by
  have h1 : f.expField (f.mag a) = f.expField a := by
    unfold Fmt.expField
    rw [f.mag_mag]
  have h2 : f.manField (f.mag a) = f.manField a := by
    unfold Fmt.manField Fmt.mag
    exact Nat.mod_mod_of_dvd _ f.two_pow_mb_dvd_signBit
  unfold Fmt.units
  rw [h1, h2]

/-- The magnitude is monotone in the magnitude field pattern. -/
theorem Fmt.units_mono (f : Fmt) (p q : Nat) (hpq : f.mag p ≤ f.mag q) :
    f.units p ≤ f.units q := by
  obtain ⟨hp, hMp, hUp⟩ := f.units_of_fields p
  obtain ⟨hq, hMq, hUq⟩ := f.units_of_fields q
  have hA : 0 < 2 ^ f.mb := Nat.two_pow_pos _
  have hE : f.expField p ≤ f.expField q := by
    unfold Fmt.expField
    exact Nat.div_le_div_right hpq
  rw [hp, hq] at hpq
  rcases Nat.eq_or_lt_of_le hE with he | hlt
  · rw [he] at hpq hUp
    have hM : f.manField p ≤ f.manField q := by omega
    rcases hUp with ⟨h0, hu⟩ | ⟨h1, hu⟩
    · rcases hUq with ⟨_, hv⟩ | ⟨h1', _⟩
      · rw [hu, hv]; exact hM
      · omega
    · rcases hUq with ⟨h0', _⟩ | ⟨_, hv⟩
      · omega
      · rw [hu, hv]
        exact Nat.mul_le_mul_right _ (by omega)
  · rcases hUq with ⟨h0', _⟩ | ⟨h1', hv⟩
    · omega
    · have hqge : 2 ^ f.mb * 2 ^ (f.expField q - 1) ≤ f.units q := by
        rw [hv]; exact Nat.mul_le_mul_right _ (by omega)
      have hone : 1 ≤ 2 ^ (f.expField q - 1) := Nat.one_le_two_pow
      rcases hUp with ⟨h0, hu⟩ | ⟨h1, hu⟩
      · rw [hu]
        calc f.manField p ≤ 2 ^ f.mb * 1 := by omega
          _ ≤ 2 ^ f.mb * 2 ^ (f.expField q - 1) := Nat.mul_le_mul_left _ hone
          _ ≤ f.units q := hqge
      · rw [hu]
        have hle : 2 ^ (f.expField p - 1) * 2 ≤ 2 ^ (f.expField q - 1) := by
          rw [← pow_succ]
          exact Nat.pow_le_pow_right (by decide) (by omega)
        calc (2 ^ f.mb + f.manField p) * 2 ^ (f.expField p - 1)
            ≤ (2 * 2 ^ f.mb) * 2 ^ (f.expField p - 1) := Nat.mul_le_mul_right _ (by omega)
          _ = 2 ^ f.mb * (2 ^ (f.expField p - 1) * 2) := by ring
          _ ≤ 2 ^ f.mb * 2 ^ (f.expField q - 1) := Nat.mul_le_mul_left _ hle
          _ ≤ f.units q := hqge

set_option exponentiation.threshold 8192 in
/-- Every finite magnitude is below `2 ^ 8192`. -/
theorem Fmt.units_lt_big (f : Fmt) (hstd : f.Std) (c : Nat) (hc : f.isFinite c) :
    f.units c < 2 ^ 8192 := by
  obtain ⟨s1, _, s3, _⟩ := hstd
  have h := f.units_lt_inf c hc (by omega)
  rw [← pow_add] at h
  exact lt_of_lt_of_le h (Nat.pow_le_pow_right (by decide) (by omega))

theorem Fmt.sval_eq (f : Fmt) (a : Nat) :
    f.sval a = if f.sign a = 1 then -(f.units a : Int) else (f.units a : Int) := rfl

set_option exponentiation.threshold 8192 in
/-- Rounding a signed exact value `T / D` (in multiples of the smallest denormal) that
lies between two finite numbers of the format gives a finite number between them. -/
theorem Fmt.round_between (f : Fmt) (hstd : f.Std) (s n D : Nat) (hs : s ≤ 1) (hD : 0 < D)
    (lo hi : Nat) (hlo : f.isFinite lo) (hhi : f.isFinite hi)
    (h1 : f.sval lo * D ≤ (if s = 1 then -(n : Int) else (n : Int)))
    (h2 : (if s = 1 then -(n : Int) else (n : Int)) ≤ f.sval hi * D) :
    f.isFinite (f.withSign s (f.roundUnits n D)) ∧
    f.sval lo ≤ f.sval (f.withSign s (f.roundUnits n D)) ∧
    f.sval (f.withSign s (f.roundUnits n D)) ≤ f.sval hi := by
  have hDz : (0 : Int) < (D : Int) := by exact_mod_cast hD
  have blo := f.units_lt_big hstd lo hlo
  have bhi := f.units_lt_big hstd hi hhi
  -- what is needed of the rounded magnitude
  have key : ∀ c : Nat, f.isFinite c → n ≤ f.units c * D →
      f.roundUnits n D < f.infMag ∧ f.units (f.roundUnits n D) ≤ f.units c := by
    intro c hc hn
    have hN : n / D < 2 ^ 8192 :=
      lt_of_le_of_lt (Nat.div_le_of_le_mul (by rw [mul_comm]; exact hn))
        (f.units_lt_big hstd c hc)
    have hm := f.roundUnits_le_mag n D c hD hN hn
    refine ⟨lt_of_le_of_lt hm hc, ?_⟩
    apply f.units_mono
    rw [f.mag_of_lt _ (lt_of_le_of_lt hm (f.mag_lt_signBit c))]
    exact hm
  have key2 : ∀ c : Nat, f.isFinite c → n / D < 2 ^ 8192 → f.units c * D ≤ n →
      f.units c ≤ f.units (f.roundUnits n D) := by
    intro c hc hN hn
    have hm := f.mag_le_roundUnits n D c hD hN hc hn
    apply f.units_mono
    rw [f.mag_of_lt (f.roundUnits n D)
      (lt_of_le_of_lt (f.roundUnits_le n D) f.infMag_lt_signBit)]
    exact hm
  have fin : ∀ c : Nat, f.isFinite c → n ≤ f.units c * D →
      f.isFinite (f.withSign s (f.roundUnits n D)) ∧
      f.sval (f.withSign s (f.roundUnits n D))
        = (if s = 1 then -(f.units (f.roundUnits n D) : Int)
            else (f.units (f.roundUnits n D) : Int)) ∧
      f.units (f.roundUnits n D) ≤ f.units c ∧ n / D < 2 ^ 8192 := by
    intro c hc hn
    obtain ⟨k1, k2⟩ := key c hc hn
    obtain ⟨w1, w2, w3⟩ := f.withSign_fields s _ hs (lt_trans k1 f.infMag_lt_signBit)
    refine ⟨by unfold Fmt.isFinite; rw [w2]; exact k1, ?_, k2, ?_⟩
    · rw [f.sval_eq, w1, w3]
    · exact lt_of_le_of_lt (Nat.div_le_of_le_mul (by rw [mul_comm]; exact hn))
        (f.units_lt_big hstd c hc)
  rw [f.sval_eq lo] at h1
  rw [f.sval_eq hi] at h2
  rw [f.sval_eq lo, f.sval_eq hi]
  by_cases hs1 : s = 1
  · rw [if_pos hs1] at h1 h2
    have hn : n ≤ f.units lo * D := by
      have e : ((f.units lo * D : ℕ) : ℤ) = (f.units lo : ℤ) * D := by push_cast; ring
      split_ifs at h1 with hsl
      · rw [neg_mul] at h1; omega
      · have : (0 : ℤ) ≤ (f.units lo : ℤ) * D := by positivity
        omega
    obtain ⟨f1, f2, f3, f4⟩ := fin lo hlo hn
    rw [f2, if_pos hs1]
    refine ⟨f1, ?_, ?_⟩
    · split_ifs with hsl
      · omega
      · rw [if_neg hsl] at h1
        have hz : f.units lo = 0 := by
          by_contra hne
          have : (0 : ℤ) < (f.units lo : ℤ) * D :=
            mul_pos (by exact_mod_cast Nat.pos_of_ne_zero hne) hDz
          omega
        omega
    · split_ifs with hsh
      · rw [if_pos hsh, neg_mul] at h2
        have hn2 : f.units hi * D ≤ n := by
          have e : ((f.units hi * D : ℕ) : ℤ) = (f.units hi : ℤ) * D := by push_cast; ring
          omega
        have := key2 hi hhi f4 hn2
        omega
      · omega
  · have hs0 : s = 0 := by omega
    rw [if_neg hs1] at h1 h2
    have hn : n ≤ f.units hi * D := by
      have e : ((f.units hi * D : ℕ) : ℤ) = (f.units hi : ℤ) * D := by push_cast; ring
      split_ifs at h2 with hsh
      · rw [neg_mul] at h2
        have : (0 : ℤ) ≤ (f.units hi : ℤ) * D := by positivity
        omega
      · omega
    obtain ⟨f1, f2, f3, f4⟩ := fin hi hhi hn
    rw [f2, if_neg hs1]
    refine ⟨f1, ?_, ?_⟩
    · split_ifs with hsl
      · omega
      · rw [if_neg hsl] at h1
        have hn2 : f.units lo * D ≤ n := by
          have e : ((f.units lo * D : ℕ) : ℤ) = (f.units lo : ℤ) * D := by push_cast; ring
          omega
        have := key2 lo hlo f4 hn2
        omega
    · split_ifs with hsh
      · rw [if_pos hsh, neg_mul] at h2
        have hz : f.units hi = 0 := by
          by_contra hne
          have : (0 : ℤ) < (f.units hi : ℤ) * D :=
            mul_pos (by exact_mod_cast Nat.pos_of_ne_zero hne) hDz
          omega
        omega
      · omega

/-! ## Negation -/

theorem xor_two_pow_mod (b k : Nat) : (b ^^^ 2 ^ k) % 2 ^ k = b % 2 ^ k := by
  apply Nat.eq_of_testBit_eq
  intro i
  rw [Nat.testBit_mod_two_pow, Nat.testBit_mod_two_pow, Nat.testBit_xor, Nat.testBit_two_pow]
  by_cases h : i < k
  · have : ¬ k = i := by omega
    simp [h, this]
  · simp [h]

theorem xor_two_pow_bit (b k : Nat) : (b ^^^ 2 ^ k) / 2 ^ k % 2 = 1 - b / 2 ^ k % 2 := by
  have h := Nat.testBit_xor b (2 ^ k) k
  rw [Nat.testBit_two_pow_self, Nat.testBit_to_div_mod, Nat.testBit_to_div_mod] at h
  have h1 := Nat.mod_two_eq_zero_or_one ((b ^^^ 2 ^ k) / 2 ^ k)
  have h2 := Nat.mod_two_eq_zero_or_one (b / 2 ^ k)
  rcases h1 with h1 | h1 <;> rcases h2 with h2 | h2 <;> rw [h1, h2] at h <;> simp at h <;>
    rw [h1, h2]

/-- Negation flips the sign and keeps the magnitude. -/
theorem Fmt.neg_fields (f : Fmt) (b : Nat) :
    f.mag (f.neg b) = f.mag b ∧ f.sign (f.neg b) = 1 - f.sign b ∧
    f.units (f.neg b) = f.units b ∧ f.sval (f.neg b) = -f.sval b := by
  have h1 : f.mag (f.neg b) = f.mag b := by
    unfold Fmt.mag Fmt.neg Fmt.signBit
    exact xor_two_pow_mod _ _
  have h2 : f.sign (f.neg b) = 1 - f.sign b := by
    unfold Fmt.sign Fmt.neg Fmt.signBit
    exact xor_two_pow_bit _ _
  have h3 : f.units (f.neg b) = f.units b := by
    rw [← f.units_mag, h1, f.units_mag]
  refine ⟨h1, h2, h3, ?_⟩
  have hs : f.sign b = 0 ∨ f.sign b = 1 := by
    unfold Fmt.sign
    exact Nat.mod_two_eq_zero_or_one _
  rw [f.sval_eq, f.sval_eq, h2, h3]
  rcases hs with hs | hs <;> rw [hs] <;> simp

theorem Fmt.neg_finite (f : Fmt) (b : Nat) (hb : f.isFinite b) : f.isFinite (f.neg b) := by
  unfold Fmt.isFinite at *
  rw [(f.neg_fields b).1]
  exact hb

theorem Fmt.toRat_neg (f : Fmt) (b : Nat) : f.toRat (f.neg b) = -f.toRat b := by
  unfold Fmt.toRat
  rw [(f.neg_fields b).2.2.2]
  push_cast
  ring

/-! ## Order of values -/

theorem Fmt.sign_le_one (f : Fmt) (a : Nat) : f.sign a ≤ 1 := by
  unfold Fmt.sign
  have := Nat.mod_lt (a / f.signBit) (by decide : 0 < 2)
  omega

theorem Fmt.toRat_le_iff (f : Fmt) (a b : Nat) : f.toRat a ≤ f.toRat b ↔ f.sval a ≤ f.sval b := by
  unfold Fmt.toRat
  rw [div_le_div_iff_of_pos_right (by positivity)]
  exact Int.cast_le

theorem Fmt.toRat_lt_iff (f : Fmt) (a b : Nat) : f.toRat a < f.toRat b ↔ f.sval a < f.sval b := by
  unfold Fmt.toRat
  rw [div_lt_div_iff_of_pos_right (by positivity)]
  exact Int.cast_lt

theorem Fmt.finite_not_inf (f : Fmt) (a : Nat) (h : f.isFinite a) : ¬ f.isInf a := by
  unfold Fmt.isInf; unfold Fmt.isFinite at h; omega

theorem Fmt.isFinite_zero (f : Fmt) (he : 1 ≤ f.eb) : f.isFinite 0 := by
  unfold Fmt.isFinite Fmt.mag
  rw [Nat.zero_mod]
  exact f.infMag_pos he

/-! ## Operations on finite numbers stay between representable bounds -/

/-- A product of finite numbers whose exact value lies between two finite numbers of
the format is finite and lies between them. -/
theorem Fmt.mul_between (f : Fmt) (hstd : f.Std) (a b lo hi : Nat) (ha : f.isFinite a)
    (hb : f.isFinite b) (hlo : f.isFinite lo) (hhi : f.isFinite hi)
    (h1 : f.toRat lo ≤ f.toRat a * f.toRat b) (h2 : f.toRat a * f.toRat b ≤ f.toRat hi) :
    f.isFinite (f.mul a b) ∧ f.toRat lo ≤ f.toRat (f.mul a b) ∧
    f.toRat (f.mul a b) ≤ f.toRat hi := by
  have hS : (0 : ℚ) < 2 ^ f.scale := by positivity
  have e : f.mul a b = f.withSign ((f.sign a + f.sign b) % 2)
      (f.roundUnits (f.units a * f.units b) (2 ^ f.scale)) := by
    unfold Fmt.mul
    rw [if_neg (f.not_nan_of_finite a ha), if_neg (f.not_nan_of_finite b hb),
      if_neg (by
        rintro (⟨h, _⟩ | ⟨_, h⟩)
        · exact f.finite_not_inf a ha h
        · exact f.finite_not_inf b hb h),
      if_neg (by
        rintro (h | h)
        · exact f.finite_not_inf a ha h
        · exact f.finite_not_inf b hb h)]
  have hT : (if (f.sign a + f.sign b) % 2 = 1 then -((f.units a * f.units b : ℕ) : ℤ)
      else ((f.units a * f.units b : ℕ) : ℤ)) = f.sval a * f.sval b := by
    rw [f.sval_eq a, f.sval_eq b]
    have sa := f.sign_le_one a
    have sb := f.sign_le_one b
    have ca : f.sign a = 0 ∨ f.sign a = 1 := by omega
    have cb : f.sign b = 0 ∨ f.sign b = 1 := by omega
    rcases ca with ca | ca <;> rcases cb with cb | cb <;> rw [ca, cb] <;> push_cast <;> simp
  have g1 : f.sval lo * ((2 ^ f.scale : ℕ) : ℤ) ≤ f.sval a * f.sval b := by
    have : (f.sval lo : ℚ) * 2 ^ f.scale ≤ (f.sval a : ℚ) * (f.sval b : ℚ) := by
      unfold Fmt.toRat at h1
      rw [div_mul_div_comm, div_le_div_iff₀ hS (mul_pos hS hS)] at h1
      nlinarith [h1]
    exact_mod_cast this
  have g2 : f.sval a * f.sval b ≤ f.sval hi * ((2 ^ f.scale : ℕ) : ℤ) := by
    have : (f.sval a : ℚ) * (f.sval b : ℚ) ≤ (f.sval hi : ℚ) * 2 ^ f.scale := by
      unfold Fmt.toRat at h2
      rw [div_mul_div_comm, div_le_div_iff₀ (mul_pos hS hS) hS] at h2
      nlinarith [h2]
    exact_mod_cast this
  rw [← hT] at g1 g2
  obtain ⟨r1, r2, r3⟩ := f.round_between hstd ((f.sign a + f.sign b) % 2) _ _
    (by omega) (Nat.two_pow_pos _) lo hi hlo hhi g1 g2
  rw [e]
  exact ⟨r1, (f.toRat_le_iff _ _).2 r2, (f.toRat_le_iff _ _).2 r3⟩

/-- A sum of finite numbers whose exact value lies between two finite numbers of the
format is finite and lies between them. -/
theorem Fmt.add_between (f : Fmt) (hstd : f.Std) (a b lo hi : Nat) (ha : f.isFinite a)
    (hb : f.isFinite b) (hlo : f.isFinite lo) (hhi : f.isFinite hi)
    (h1 : f.toRat lo ≤ f.toRat a + f.toRat b) (h2 : f.toRat a + f.toRat b ≤ f.toRat hi) :
    f.isFinite (f.add a b) ∧ f.toRat lo ≤ f.toRat (f.add a b) ∧
    f.toRat (f.add a b) ≤ f.toRat hi := by
  have hS : (0 : ℚ) < 2 ^ f.scale := by positivity
  have g1 : f.sval lo ≤ f.sval a + f.sval b := by
    have : (f.sval lo : ℚ) ≤ (f.sval a : ℚ) + (f.sval b : ℚ) := by
      unfold Fmt.toRat at h1
      rw [← add_div, div_le_div_iff_of_pos_right hS] at h1
      exact h1
    exact_mod_cast this
  have g2 : f.sval a + f.sval b ≤ f.sval hi := by
    have : (f.sval a : ℚ) + (f.sval b : ℚ) ≤ (f.sval hi : ℚ) := by
      unfold Fmt.toRat at h2
      rw [← add_div, div_le_div_iff_of_pos_right hS] at h2
      exact h2
    exact_mod_cast this
  unfold Fmt.add
  simp only []
  rw [if_neg (f.not_nan_of_finite a ha), if_neg (f.not_nan_of_finite b hb),
    if_neg (f.finite_not_inf a ha), if_neg (f.finite_not_inf b hb)]
  generalize f.sval a + f.sval b = t at g1 g2 ⊢
  by_cases ht : t = 0
  · rw [if_pos ht]
    have hs : (if f.sign a = 1 ∧ f.sign b = 1 then 1 else 0) ≤ 1 := by split_ifs <;> omega
    have h0 : (0 : ℕ) < f.signBit := f.signBit_pos
    obtain ⟨w1, w2, w3⟩ := f.withSign_fields _ 0 hs h0
    have hu : f.units 0 = 0 := by
      unfold Fmt.units Fmt.expField Fmt.manField Fmt.mag
      simp
    have hv : f.sval (f.withSign (if f.sign a = 1 ∧ f.sign b = 1 then 1 else 0) 0) = 0 := by
      rw [f.sval_eq, w3, hu]
      split_ifs <;> simp
    refine ⟨?_, ?_, ?_⟩
    · unfold Fmt.isFinite
      rw [w2]
      exact f.infMag_pos (by have := hstd.1; omega)
    · rw [f.toRat_le_iff, hv]; omega
    · rw [f.toRat_le_iff, hv]; omega
  · rw [if_neg ht]
    have hT : (if (if t < 0 then 1 else 0) = 1 then -((t.natAbs : ℕ) : ℤ)
        else ((t.natAbs : ℕ) : ℤ)) = t := by
      by_cases hneg : t < 0
      · rw [if_pos hneg, if_pos rfl]; omega
      · rw [if_neg hneg, if_neg (by decide)]; omega
    have g1' : f.sval lo * ((1 : ℕ) : ℤ) ≤ t := by simpa using g1
    have g2' : t ≤ f.sval hi * ((1 : ℕ) : ℤ) := by simpa using g2
    rw [← hT] at g1' g2'
    obtain ⟨r1, r2, r3⟩ := f.round_between hstd (if t < 0 then 1 else 0) t.natAbs 1
      (by split_ifs <;> omega) (by decide) lo hi hlo hhi g1' g2'
    exact ⟨r1, (f.toRat_le_iff _ _).2 r2, (f.toRat_le_iff _ _).2 r3⟩

/-- A difference of finite numbers whose exact value lies between two finite numbers of
the format is finite and lies between them. -/
theorem Fmt.sub_between (f : Fmt) (hstd : f.Std) (a b lo hi : Nat) (ha : f.isFinite a)
    (hb : f.isFinite b) (hlo : f.isFinite lo) (hhi : f.isFinite hi)
    (h1 : f.toRat lo ≤ f.toRat a - f.toRat b) (h2 : f.toRat a - f.toRat b ≤ f.toRat hi) :
    f.isFinite (f.sub a b) ∧ f.toRat lo ≤ f.toRat (f.sub a b) ∧
    f.toRat (f.sub a b) ≤ f.toRat hi := by
  have e : f.sub a b = f.add a (f.neg b) := by
    unfold Fmt.sub
    rw [if_neg (f.not_nan_of_finite a ha), if_neg (f.not_nan_of_finite b hb)]
  rw [e]
  apply f.add_between hstd a (f.neg b) lo hi ha (f.neg_finite b hb) hlo hhi
  · rw [f.toRat_neg]; linarith
  · rw [f.toRat_neg]; linarith

/-! ## The floor idiom of `sse2_expf_unsafe` -/

theorem Fmt.units_of_isZero (f : Fmt) (a : Nat) (hz : f.isZero a) : f.units a = 0 := by
  unfold Fmt.isZero at hz
  rw [← f.units_mag, hz]
  unfold Fmt.units Fmt.expField Fmt.manField Fmt.mag
  simp

theorem Fmt.toRat_of_isZero (f : Fmt) (a : Nat) (hz : f.isZero a) : f.toRat a = 0 := by
  rw [f.toRat_eq, f.units_of_isZero a hz]
  split_ifs <;> simp

theorem rneDiv_zero (d : Nat) : Fmt.rneDiv 0 d = 0 := by
  unfold Fmt.rneDiv
  simp

/-- Round to nearest and back, for every finite lane (zeros included). -/
theorem Fmt.floor_lane_all (f : Fmt) (a : Nat) (hstd : f.Std) (hmb : f.mb ≤ 30)
    (hf : f.isFinite a) (lo : -(2 ^ 31) ≤ f.toRat a) (hi : f.toRat a < 2 ^ 31) :
    IsNearestEven (f.toRat a) (Fmt.toInt32 (f.cvt2dq a)) ∧
    f.isFinite (f.cvtdq2 (f.cvt2dq a)) ∧
    f.toRat (f.cvtdq2 (f.cvt2dq a)) = (Fmt.toInt32 (f.cvt2dq a) : ℚ) := by
  by_cases hz : f.isZero a
  · have hu := f.units_of_isZero a hz
    have hc : f.cvt2dq a = 0 := by
      unfold Fmt.cvt2dq
      simp only []
      rw [if_pos hf, hu, rneDiv_zero]
      split_ifs <;> decide
    have ht : Fmt.toInt32 0 = 0 := by decide
    have hd : f.cvtdq2 0 = 0 := by
      unfold Fmt.cvtdq2
      simp only []
      rw [ht, if_pos rfl]
    rw [hc, hd, ht, f.toRat_of_isZero a hz, f.toRat_zero]
    refine ⟨?_, f.isFinite_zero (by have := hstd.1; omega), by simp⟩
    left
    norm_num
  · obtain ⟨r1, r2⟩ := f.cvt2dq_range a hmb lo hi
    obtain ⟨f1, f2, f3⟩ := f.floor_lane a hstd hf hz r1 r2
    have n := f.cvt2dq_nearest a
    rw [← f1] at n
    exact ⟨n, f2, f3⟩

/-- A finite number that is not an integer is below `2 ^ mb` in magnitude. -/
theorem Fmt.small_of_not_int (f : Fmt) (a : Nat) (z : ℤ) (h1 : f.toRat a < z)
    (h2 : (z : ℚ) - 1 < f.toRat a) :
    -(2 ^ f.mb : ℚ) < f.toRat a ∧ f.toRat a < 2 ^ f.mb := by
  have hS : (0 : ℚ) < 2 ^ f.scale := by positivity
  have hlt : f.units a < 2 ^ (f.mb + f.scale) := by
    by_contra hc
    obtain ⟨m, hm⟩ := f.units_dvd_of_large a (by omega)
    have hv : f.toRat a = ((if f.sign a = 1 then -(m : ℤ) else (m : ℤ) : ℤ) : ℚ) := by
      rw [f.toRat_eq, hm]
      split_ifs
      · push_cast; field_simp; ring
      · push_cast; field_simp
    rw [hv] at h1 h2
    have a1 : (if f.sign a = 1 then -(m : ℤ) else (m : ℤ)) < z := by exact_mod_cast h1
    have a2 : z - 1 < (if f.sign a = 1 then -(m : ℤ) else (m : ℤ)) := by exact_mod_cast h2
    omega
  have hq : (f.units a : ℚ) / 2 ^ f.scale < 2 ^ f.mb := by
    rw [div_lt_iff₀ hS, ← pow_add]
    exact_mod_cast hlt
  have h0 : (0 : ℚ) ≤ (f.units a : ℚ) / 2 ^ f.scale := by positivity
  have hp : (0 : ℚ) < 2 ^ f.mb := by positivity
  rw [f.toRat_eq]
  split_ifs
  · rw [neg_div]; constructor <;> linarith
  · constructor <;> linarith

/-- A comparison mask and-ed with a lane selects the lane or zero. -/
theorem Fmt.and_maskOf (f : Fmt) (p : Prop) [Decidable p] (c : Nat) (hc : c < 2 ^ f.width) :
    f.and (f.maskOf p) c = if p then c else 0 := by
  unfold Fmt.and Fmt.maskOf Fmt.allOnes
  split_ifs
  · rw [Nat.and_comm, Nat.and_pow_two_sub_one_eq_mod, Nat.mod_eq_of_lt hc]
  · exact Nat.zero_and _

theorem Fmt.lt_iff_of_finite (f : Fmt) (a b : Nat) (ha : f.isFinite a) (hb : f.isFinite b) :
    f.lt a b ↔ f.toRat a < f.toRat b := by
  unfold Fmt.lt
  rw [f.toRat_lt_iff]
  constructor
  · exact fun h => h.2.2
  · exact fun h => ⟨f.not_nan_of_finite a ha, f.not_nan_of_finite b hb, h⟩

/-- An exact difference: when the exact value of `a - b` is that of a finite number `c`,
the subtraction returns a finite number of that value. -/
theorem Fmt.sub_exact (f : Fmt) (hstd : f.Std) (a b c : Nat) (ha : f.isFinite a)
    (hb : f.isFinite b) (hc : f.isFinite c) (h : f.toRat a - f.toRat b = f.toRat c) :
    f.isFinite (f.sub a b) ∧ f.toRat (f.sub a b) = f.toRat c := by
  obtain ⟨r1, r2, r3⟩ := f.sub_between hstd a b c c ha hb hc hc (le_of_eq h.symm) (le_of_eq h)
  exact ⟨r1, le_antisymm r3 r2⟩

/-- The value of the floor idiom: the nearest integer, less one when it is above. -/
theorem expf_floor_lane_spec (fx : Nat) (hf : binary32.isFinite fx)
    (lo : -(2 ^ 31) < binary32.toRat fx) (hi : binary32.toRat fx < 2 ^ 31) :
    binary32.and (binary32.cmpgt (binary32.cvtdq2 (binary32.cvt2dq fx)) fx) float_1.l0
      = (if binary32.toRat fx < binary32.toRat (binary32.cvtdq2 (binary32.cvt2dq fx))
          then float_1.l0 else 0) ∧
    binary32.isFinite (expf_floor_lane fx) ∧
    binary32.toRat (expf_floor_lane fx)
      = binary32.toRat (binary32.cvtdq2 (binary32.cvt2dq fx))
        - (if binary32.toRat fx < binary32.toRat (binary32.cvtdq2 (binary32.cvt2dq fx))
            then 1 else 0) ∧
    binary32.toRat (expf_floor_lane fx) = (⌊binary32.toRat fx⌋ : ℚ) := by
  obtain ⟨n1, n2, n3⟩ := binary32.floor_lane_all fx std32 (by decide) hf (le_of_lt lo) hi
  have hone : binary32.isFinite float_1.l0 := by decide!
  have hmask : binary32.and (binary32.cmpgt (binary32.cvtdq2 (binary32.cvt2dq fx)) fx)
      float_1.l0
      = (if binary32.toRat fx < binary32.toRat (binary32.cvtdq2 (binary32.cvt2dq fx))
          then float_1.l0 else 0) := by
    unfold Fmt.cmpgt
    rw [binary32.and_maskOf _ _ (by decide!)]
    by_cases h : binary32.toRat fx < binary32.toRat (binary32.cvtdq2 (binary32.cvt2dq fx))
    · rw [if_pos h, if_pos ((binary32.lt_iff_of_finite _ _ hf n2).2 h)]
    · rw [if_neg h, if_neg (fun hc => h ((binary32.lt_iff_of_finite _ _ hf n2).1 hc))]
  have hdef : expf_floor_lane fx = binary32.sub (binary32.cvtdq2 (binary32.cvt2dq fx))
      (binary32.and (binary32.cmpgt (binary32.cvtdq2 (binary32.cvt2dq fx)) fx) float_1.l0) :=
    rfl
  have hnear : |binary32.toRat fx - (Fmt.toInt32 (binary32.cvt2dq fx) : ℚ)| ≤ 1 / 2 := by
    rcases n1 with h | ⟨h, _⟩ <;> linarith
  obtain ⟨a1, a2⟩ := abs_le.1 hnear
  refine ⟨hmask, ?_⟩
  rw [hdef, hmask]
  generalize binary32.cvtdq2 (binary32.cvt2dq fx) = t at n2 n3 ⊢
  generalize Fmt.toInt32 (binary32.cvt2dq fx) = R at n1 n3 a1 a2 ⊢
  by_cases h : binary32.toRat fx < binary32.toRat t
  · rw [if_pos h, if_pos h]
    rw [n3] at h
    -- the nearest integer is above a non-integer below `2 ^ 23`
    obtain ⟨s1, s2⟩ := binary32.small_of_not_int fx R h (by linarith)
    have hm : binary32.mb = 23 := rfl
    rw [hm] at s1 s2
    have b1 : -(2 ^ 23 : ℚ) ≤ ((R - 1 : ℤ) : ℚ) := by
      have : -(2 ^ 23 : ℚ) < (R : ℚ) := by linarith
      have : -(2 ^ 23 : ℤ) < R := by exact_mod_cast this
      have : -(2 ^ 23 : ℤ) ≤ R - 1 := by omega
      exact_mod_cast this
    have b2 : ((R - 1 : ℤ) : ℚ) ≤ 2 ^ 23 := by
      push_cast; linarith
    have b1' : -(2 ^ 23 : ℤ) ≤ R - 1 := by exact_mod_cast b1
    have b2' : R - 1 ≤ (2 ^ 23 : ℤ) := by exact_mod_cast b2
    obtain ⟨c1, c2⟩ := binary32.cvtdq2_exact (R - 1) (by decide) (by omega) (by omega)
      (by
        intro hne
        have hpos : 0 < (R - 1).natAbs := Int.natAbs_pos.2 hne
        have hle : (R - 1).natAbs ≤ 2 ^ binary32.mb := by rw [hm]; omega
        exact (binary32.int_rep _ std32 hpos hle).2)
    have hv1 : binary32.toRat float_1.l0 = 1 := by
      rw [float_1_bits, float_1_val]; norm_num
    obtain ⟨e1, e2⟩ := binary32.sub_exact std32 t float_1.l0 _ n2 hone c1
      (by rw [c2, n3, hv1]; push_cast; ring)
    refine ⟨e1, ?_, ?_⟩
    · rw [e2, c2, n3]; push_cast; ring
    · rw [e2, c2]
      have hfl : ⌊binary32.toRat fx⌋ = R - 1 := by
        rw [Int.floor_eq_iff]
        push_cast
        constructor <;> linarith
      rw [hfl]
  · rw [if_neg h, if_neg h]
    have hz : binary32.isFinite 0 := by decide
    obtain ⟨e1, e2⟩ := binary32.sub_exact std32 t 0 t n2 hz n2
      (by rw [binary32.toRat_zero]; ring)
    refine ⟨e1, by rw [e2]; ring, ?_⟩
    rw [e2, n3]
    rw [n3] at h
    have hfl : ⌊binary32.toRat fx⌋ = R := by
      rw [Int.floor_eq_iff]
      constructor <;> linarith
    rw [hfl]

/-- C13: in `sse2_expf_unsafe`, for a finite float `f` with `|f| < 2 ^ 31`, the lane
`t = sse2_floor_unsafe(f)` holds the integer nearest to `f` (ties to even), the mask
and-ed with `one` is `1.0` exactly where `t > f` and `0.0` elsewhere, the subtraction is
exact, and the result is the mathematical floor of `f`; hence the `k` that the routine
uses for an input lane `a` is `⌊fl(fl(x * LOG2EF) + 0.5)⌋`, `x` being the clamped
lane. -/
theorem C13_floor_idiom (fx : Nat) (hf : binary32.isFinite fx)
    (hb : |binary32.toRat fx| < 2 ^ 31) :
    IsNearestEven (binary32.toRat fx) (Fmt.toInt32 (binary32.cvt2dq fx)) ∧
    binary32.toRat (binary32.cvtdq2 (binary32.cvt2dq fx))
      = (Fmt.toInt32 (binary32.cvt2dq fx) : ℚ) ∧
    binary32.and (binary32.cmpgt (binary32.cvtdq2 (binary32.cvt2dq fx)) fx) float_1.l0
      = (if binary32.toRat fx < binary32.toRat (binary32.cvtdq2 (binary32.cvt2dq fx))
          then float_1.l0 else 0) ∧
    binary32.isFinite (expf_floor_lane fx) ∧
    binary32.toRat (expf_floor_lane fx)
      = binary32.toRat (binary32.cvtdq2 (binary32.cvt2dq fx))
        - (if binary32.toRat fx < binary32.toRat (binary32.cvtdq2 (binary32.cvt2dq fx))
            then 1 else 0) ∧
    binary32.toRat (expf_floor_lane fx) = (⌊binary32.toRat fx⌋ : ℚ) ∧
    (∀ a, binary32.add (binary32.mul (expf_clamp_lane a) float_cephes_LOG2EF.l0)
          float_0p5.l0 = fx →
      binary32.toRat (expf_kf_lane a) = (⌊binary32.toRat fx⌋ : ℚ) ∧
      expf_unsafe_lane a
        = binary32.mul
            (generic.expf_poly binary32.mul binary32.add float_cephes_exp_p0.l0
              float_cephes_exp_p1.l0 float_cephes_exp_p2.l0 float_cephes_exp_p3.l0
              float_cephes_exp_p4.l0 float_cephes_exp_p5.l0 float_1.l0
              (expf_reduce_lane (expf_clamp_lane a) (expf_kf_lane a)))
            (expf_pow2n_lane (expf_emm0_lane (expf_kf_lane a)))) := by
  obtain ⟨lo, hi⟩ := abs_lt.1 hb
  obtain ⟨n1, _, n3⟩ := binary32.floor_lane_all fx std32 (by decide) hf (le_of_lt lo) hi
  obtain ⟨m1, m2, m3, m4⟩ := expf_floor_lane_spec fx hf lo hi
  refine ⟨n1, n3, m1, m2, m3, m4, ?_⟩
  intro a ha
  refine ⟨?_, expf_unsafe_lane_stages a⟩
  have : expf_kf_lane a = expf_floor_lane fx := by
    unfold expf_kf_lane expf_fx_lane
    rw [ha]
  rw [this, m4]

/-- C13 at `f = 1.5` (`t = 2.0 > f`, floor `1.0`). -/
theorem C13_floor_idiom_witness :
    binary32.isFinite 0x3fc00000 ∧ |binary32.toRat 0x3fc00000| < 2 ^ 31 ∧
    binary32.toRat (expf_floor_lane 0x3fc00000) = (⌊binary32.toRat 0x3fc00000⌋ : ℚ) :=
  have hb : |binary32.toRat 0x3fc00000| < 2 ^ 31 := by
    rw [toRat_1p5_32, abs_of_nonneg (by norm_num)]; norm_num
  ⟨by decide, hb, (C13_floor_idiom 0x3fc00000 (by decide) hb).2.2.2.2.2.1⟩

/-! ## The integer `k` of `sse2_expf_unsafe` -/

theorem b_m126q_val : binary32.toRat 0xc2fc8000 = (-505) / 2 ^ 2 :=
  Fmt.toRat_of_sval _ _ (-505) 147 2 (by decide!) (by decide)

theorem b_p127h_val : binary32.toRat 0x42feffff = 16711679 / 2 ^ 17 :=
  Fmt.toRat_of_sval _ _ 16711679 132 17 (by decide!) (by decide)

theorem b_m126_val : binary32.toRat 0xc2fc0000 = (-126) / 2 ^ 0 :=
  Fmt.toRat_of_sval _ _ (-126) 149 0 (by decide!) (by decide)

theorem b_p128m_val : binary32.toRat 0x42ffffff = 16777215 / 2 ^ 17 :=
  Fmt.toRat_of_sval _ _ 16777215 132 17 (by decide!) (by decide)

theorem b_m127h_val : binary32.toRat 0xc2feffff = (-16711679) / 2 ^ 17 :=
  Fmt.toRat_of_sval _ _ (-16711679) 132 17 (by decide!) (by decide)

theorem b_m127_val : binary32.toRat 0xc2fe0000 = (-127) / 2 ^ 0 :=
  Fmt.toRat_of_sval _ _ (-127) 149 0 (by decide!) (by decide)

theorem towardZero_int (K : ℤ) : towardZero (K : ℚ) = K := by
  unfold towardZero
  split_ifs <;> simp

/-- Truncating conversion of a finite lane that holds an integer in range. -/
theorem Fmt.cvtt2dq_of_int (f : Fmt) (a : Nat) (K : ℤ) (hf : f.isFinite a)
    (hv : f.toRat a = K) (h1 : -(2 ^ 31) ≤ K) (h2 : K < 2 ^ 31) :
    f.cvtt2dq a = Fmt.ofInt32 K := by
  have ht := f.cvtt2dq_towardZero a
  rw [hv, towardZero_int] at ht
  unfold Fmt.cvtt2dq
  simp only []
  rw [if_pos hf, ← ht, fitInt32_of_range _ h1 h2]

/-- A lane between two finite numbers is finite. -/
theorem Fmt.finite_of_between (f : Fmt) (hstd : f.Std) (a lo hi : Nat) (hlo : f.isFinite lo)
    (hhi : f.isFinite hi) (h1 : f.sval lo ≤ f.sval a) (h2 : f.sval a ≤ f.sval hi) :
    f.isFinite a := by
  by_contra hc
  unfold Fmt.isFinite at hc
  have he : 1 ≤ f.eb := by have := hstd.1; omega
  have hinf : f.units f.infMag = 2 ^ f.mb * 2 ^ (2 ^ f.eb - 2) := by
    have hA : 0 < 2 ^ f.mb := Nat.two_pow_pos _
    have h2e : 2 ≤ 2 ^ f.eb := by
      calc 2 = 2 ^ 1 := by norm_num
        _ ≤ 2 ^ f.eb := Nat.pow_le_pow_right (by decide) he
    have hE : f.expField f.infMag = 2 ^ f.eb - 1 := by
      unfold Fmt.expField
      rw [f.mag_of_lt _ f.infMag_lt_signBit]
      unfold Fmt.infMag
      exact Nat.mul_div_cancel _ hA
    have hM : f.manField f.infMag = 0 := by
      unfold Fmt.manField Fmt.infMag
      exact Nat.mul_mod_left _ _
    unfold Fmt.units
    rw [hE, hM, if_neg (by omega), Nat.add_zero]
    congr 2
  have hge : f.units f.infMag ≤ f.units a := by
    apply f.units_mono
    rw [f.mag_of_lt _ f.infMag_lt_signBit]
    omega
  have l1 := f.units_lt_inf lo hlo he
  have l2 := f.units_lt_inf hi hhi he
  rw [f.sval_eq lo, f.sval_eq a] at h1
  rw [f.sval_eq a, f.sval_eq hi] at h2
  split_ifs at h1 h2 <;> omega

/-- From bounds on `x * LOG2EF` to the integer `k`: every intermediate lane is finite,
`k` is the floor of `fx = fl(fl(x * LOG2EF) + 0.5)`, and the integer lane holds it. -/
theorem expf_kf_range (x b1 b2 c1 c2 : Nat) (K1 K2 : ℤ) (hx : binary32.isFinite x)
    (hb1 : binary32.isFinite b1) (hb2 : binary32.isFinite b2) (hc1 : binary32.isFinite c1)
    (hc2 : binary32.isFinite c2)
    (h1 : binary32.toRat b1 ≤ binary32.toRat x * (12102203 / 2 ^ 23))
    (h2 : binary32.toRat x * (12102203 / 2 ^ 23) ≤ binary32.toRat b2)
    (h3 : binary32.toRat c1 ≤ binary32.toRat b1 + 1 / 2)
    (h4 : binary32.toRat b2 + 1 / 2 ≤ binary32.toRat c2)
    (h5 : (K1 : ℚ) ≤ binary32.toRat c1) (h6 : binary32.toRat c2 < (K2 : ℚ) + 1)
    (hK1 : -(2 ^ 31) < K1) (hK2 : K2 < 2 ^ 31) :
    binary32.isFinite (expf_fx_lane x) ∧
    binary32.isFinite (expf_floor_lane (expf_fx_lane x)) ∧
    binary32.toRat (expf_floor_lane (expf_fx_lane x))
      = (⌊binary32.toRat (expf_fx_lane x)⌋ : ℚ) ∧
    K1 ≤ ⌊binary32.toRat (expf_fx_lane x)⌋ ∧ ⌊binary32.toRat (expf_fx_lane x)⌋ ≤ K2 ∧
    expf_emm0_lane (expf_floor_lane (expf_fx_lane x))
      = Fmt.ofInt32 ⌊binary32.toRat (expf_fx_lane x)⌋ := by
  have hL : binary32.isFinite float_cephes_LOG2EF.l0 := by decide!
  have hH : binary32.isFinite float_0p5.l0 := by decide!
  have vL : binary32.toRat float_cephes_LOG2EF.l0 = 12102203 / 2 ^ 23 := by
    rw [LOG2EF_bits, LOG2EF_val]
  have vH : binary32.toRat float_0p5.l0 = 1 / 2 := by
    rw [float_0p5_bits, float_0p5_val]; norm_num
  obtain ⟨m1, m2, m3⟩ := binary32.mul_between std32 x float_cephes_LOG2EF.l0 b1 b2 hx hL hb1 hb2
    (by rw [vL]; exact h1) (by rw [vL]; exact h2)
  obtain ⟨a1, a2, a3⟩ := binary32.add_between std32 _ float_0p5.l0 c1 c2 m1 hH hc1 hc2
    (by rw [vH]; linarith) (by rw [vH]; linarith)
  have hfx : expf_fx_lane x
      = binary32.add (binary32.mul x float_cephes_LOG2EF.l0) float_0p5.l0 := rfl
  rw [hfx]
  generalize binary32.add (binary32.mul x float_cephes_LOG2EF.l0) float_0p5.l0 = fx
    at a1 a2 a3 ⊢
  have k1 : (K1 : ℚ) ≤ binary32.toRat fx := le_trans h5 a2
  have k2 : binary32.toRat fx < (K2 : ℚ) + 1 := lt_of_le_of_lt a3 h6
  have q1 : (-(2 ^ 31) : ℚ) < (K1 : ℚ) := by exact_mod_cast hK1
  have q2 : (K2 : ℚ) + 1 ≤ 2 ^ 31 := by
    have : K2 + 1 ≤ 2 ^ 31 := by omega
    exact_mod_cast this
  obtain ⟨_, s2, _, s4⟩ := expf_floor_lane_spec fx a1 (by linarith) (by linarith)
  have f1 : K1 ≤ ⌊binary32.toRat fx⌋ := Int.le_floor.2 k1
  have f2 : ⌊binary32.toRat fx⌋ ≤ K2 := by
    have : ⌊binary32.toRat fx⌋ < K2 + 1 := Int.floor_lt.2 (by push_cast; exact k2)
    omega
  refine ⟨a1, s2, s4, f1, f2, ?_⟩
  unfold expf_emm0_lane
  exact binary32.cvtt2dq_of_int _ _ s2 s4 (by omega) (by omega)

/-- The word `(k + 127) << 23` for `-126 ≤ k ≤ 127` is the normal float `2 ^ k`. -/
theorem expf_pow2n_lane_spec (K : ℤ) (h1 : -126 ≤ K) (h2 : K ≤ 127) :
    expf_pow2n_lane (Fmt.ofInt32 K) = (K + 127).toNat * 2 ^ 23 ∧
    binary32.sign (expf_pow2n_lane (Fmt.ofInt32 K)) = 0 ∧
    (binary32.expField (expf_pow2n_lane (Fmt.ofInt32 K)) : ℤ) = K + 127 ∧
    binary32.manField (expf_pow2n_lane (Fmt.ofInt32 K)) = 0 ∧
    binary32.isFinite (expf_pow2n_lane (Fmt.ofInt32 K)) ∧
    binary32.toRat (expf_pow2n_lane (Fmt.ofInt32 K)) = (2 : ℚ) ^ K := by
  have hl : expf_pow2n_lane (Fmt.ofInt32 K) = (K + 127).toNat * 2 ^ 23 := by
    have h7 : int_0x7f.l0 = 127 := rfl
    unfold expf_pow2n_lane
    simp only []
    rw [h7]
    exact pow2f_unsafe_lane K h1 h2
  obtain ⟨p1, p2, p3, p4⟩ := binary32.pow2_pattern (K + 127).toNat (by decide) (by omega)
    (by have : (2 : Nat) ^ binary32.eb = 256 := by decide
        omega)
  have hmb : binary32.mb = 23 := rfl
  rw [hmb] at p1 p2 p3 p4
  rw [hl]
  refine ⟨rfl, p1, by rw [p2]; omega, p3, ?_, ?_⟩
  · have hE := p2
    unfold Fmt.expField at hE
    unfold Fmt.isFinite
    rw [infMag32]
    have : binary32.mag ((K + 127).toNat * 2 ^ 23) / 2 ^ 23 < 255 := by
      rw [hmb] at hE; rw [hE]; omega
    omega
  · have e : (((K + 127).toNat : ℕ) : ℤ) - ((binary32.bias : ℕ) : ℤ) = K := by
      rw [bias32]; omega
    rw [p4, e]

theorem sval_lo_lt_minlogf : binary32.sval float_exp_lo.l0 < binary32.sval MINLOGF := by
  decide!

theorem finite_minlogf : binary32.isFinite MINLOGF := by decide!

theorem finite_maxlogf : binary32.isFinite MAXLOGF := by decide!

theorem finite_exp_lo : binary32.isFinite float_exp_lo.l0 := by decide!

/-- A lane above `float_exp_lo` passes the clamp unchanged. -/
theorem expf_clamp_lane_id (a : Nat) (hn : ¬ binary32.isNaN a)
    (h : binary32.sval float_exp_lo.l0 < binary32.sval a) : expf_clamp_lane a = a := by
  unfold expf_clamp_lane Fmt.max
  rw [if_pos]
  exact ⟨binary32.not_nan_of_finite _ finite_exp_lo, hn, h⟩

/-- The integer `k` for a clamped lane `x` with `-88.3762... ≤ x ≤ MAXLOGF`: the floor
of `fx`, between `-127` and `127`, and at least `-126` when `x ≥ MINLOGF`. -/
theorem expf_k_of_clamped (x : Nat) (hf : binary32.isFinite x)
    (t1 : (-11583653 : ℚ) / 2 ^ 17 ≤ binary32.toRat x)
    (t2 : binary32.toRat x ≤ 11583653 / 2 ^ 17) :
    binary32.isFinite (expf_floor_lane (expf_fx_lane x)) ∧
    binary32.toRat (expf_floor_lane (expf_fx_lane x))
      = (⌊binary32.toRat (expf_fx_lane x)⌋ : ℚ) ∧
    -127 ≤ ⌊binary32.toRat (expf_fx_lane x)⌋ ∧ ⌊binary32.toRat (expf_fx_lane x)⌋ ≤ 127 ∧
    ((-175 : ℚ) / 2 ^ 1 ≤ binary32.toRat x → -126 ≤ ⌊binary32.toRat (expf_fx_lane x)⌋) ∧
    expf_emm0_lane (expf_floor_lane (expf_fx_lane x))
      = Fmt.ofInt32 ⌊binary32.toRat (expf_fx_lane x)⌋ := by
  obtain ⟨_, k2, k3, k4, k5, k6⟩ := expf_kf_range x 0xc2feffff 0x42feffff 0xc2fe0000
    0x42ffffff (-127) 127 hf (by decide) (by decide) (by decide) (by decide)
    (by rw [b_m127h_val]; norm_num at t1 ⊢; linarith)
    (by rw [b_p127h_val]; norm_num at t2 ⊢; linarith)
    (by rw [b_m127_val, b_m127h_val]; norm_num)
    (by rw [b_p127h_val, b_p128m_val]; norm_num)
    (by rw [b_m127_val]; norm_num) (by rw [b_p128m_val]; norm_num)
    (by norm_num) (by norm_num)
  refine ⟨k2, k3, k4, k5, ?_, k6⟩
  intro t3
  obtain ⟨_, _, _, j4, _, _⟩ := expf_kf_range x 0xc2fc8000 0x42feffff 0xc2fc0000
    0x42ffffff (-126) 127 hf (by decide) (by decide) (by decide) (by decide)
    (by rw [b_m126q_val]; norm_num at t3 ⊢; linarith)
    (by rw [b_p127h_val]; norm_num at t2 ⊢; linarith)
    (by rw [b_m126_val, b_m126q_val]; norm_num)
    (by rw [b_p127h_val, b_p128m_val]; norm_num)
    (by rw [b_m126_val]; norm_num) (by rw [b_p128m_val]; norm_num)
    (by norm_num) (by norm_num)
  exact j4

/-- A lane with `MINLOGF ≤ a ≤ MAXLOGF`: it is finite, the clamp is idle, and `k` is
the floor of `fx`, between `-126` and `127`. -/
theorem expf_lane_in_range (a : Nat) (h1 : binary32.le MINLOGF a)
    (h2 : binary32.le a MAXLOGF) :
    binary32.isFinite a ∧ expf_clamp_lane a = a ∧
    binary32.isFinite (expf_kf_lane a) ∧
    binary32.toRat (expf_kf_lane a) = (expf_n_lane a : ℚ) ∧
    expf_n_lane a
      = ⌊binary32.toRat (binary32.add (binary32.mul a float_cephes_LOG2EF.l0)
          float_0p5.l0)⌋ ∧
    -126 ≤ expf_n_lane a ∧ expf_n_lane a ≤ 127 ∧
    expf_emm0_lane (expf_kf_lane a) = Fmt.ofInt32 (expf_n_lane a) ∧
    (-175 : ℚ) / 2 ^ 1 ≤ binary32.toRat a ∧ binary32.toRat a ≤ 11583653 / 2 ^ 17 := by
  have hn : ¬ binary32.isNaN a := h2.1
  have s1 : binary32.sval MINLOGF ≤ binary32.sval a := h1.2.2
  have s2 : binary32.sval a ≤ binary32.sval MAXLOGF := h2.2.2
  have hf : binary32.isFinite a :=
    binary32.finite_of_between std32 a _ _ finite_minlogf finite_maxlogf s1 s2
  have hc : expf_clamp_lane a = a :=
    expf_clamp_lane_id a hn (lt_of_lt_of_le sval_lo_lt_minlogf s1)
  have t1 : (-175 : ℚ) / 2 ^ 1 ≤ binary32.toRat a := by
    rw [← MINLOGF_val, ← MINLOGF_bits]; exact (binary32.toRat_le_iff _ _).2 s1
  have t2 : binary32.toRat a ≤ 11583653 / 2 ^ 17 := by
    rw [← MAXLOGF_val, ← MAXLOGF_bits]; exact (binary32.toRat_le_iff _ _).2 s2
  obtain ⟨k2, k3, _, k5, k4, k6⟩ := expf_k_of_clamped a hf
    (by norm_num at t1 ⊢; linarith) t2
  have k4' := k4 t1
  have hfx : expf_fx_lane a
      = binary32.add (binary32.mul a float_cephes_LOG2EF.l0) float_0p5.l0 := rfl
  have hkf : expf_kf_lane a = expf_floor_lane (expf_fx_lane a) := by
    unfold expf_kf_lane
    rw [hc]
  have hnl : expf_n_lane a = ⌊binary32.toRat (expf_fx_lane a)⌋ := by
    unfold expf_n_lane
    rw [hkf, k6, toInt32_ofInt32 _ (by omega) (by omega)]
  rw [hkf, hnl, ← hfx]
  exact ⟨hf, hc, k2, k3, rfl, k4', k5, k6, t1, t2⟩

/-- C11: for a lane with `MINLOGF ≤ x ≤ MAXLOGF` the clamp is idle, the integer `k` that
`sse2_expf_unsafe` derives is `⌊fl(fl(x * LOG2EF) + 0.5)⌋` and satisfies
`-126 ≤ k ≤ 127`; the word `(k + 127) << 23` is the normal float `2 ^ k` (sign 0, biased
exponent `k + 127`, zero significand field), the lane of `sse2_expf_unsafe` is the
polynomial value times that float, and `sse2_expf` takes the lane from the unsafe
path. -/
theorem C11_in_range_exponent_is_valid (expf : Nat → Nat) (x : v4sf) (i : Fin 4)
    (hx : x.get i < 2 ^ 32) (h1 : binary32.le MINLOGF (x.get i))
    (h2 : binary32.le (x.get i) MAXLOGF) :
    expf_clamp_lane (x.get i) = x.get i ∧
    expf_n_lane (x.get i)
      = ⌊binary32.toRat (binary32.add (binary32.mul (x.get i) float_cephes_LOG2EF.l0)
          float_0p5.l0)⌋ ∧
    -126 ≤ expf_n_lane (x.get i) ∧ expf_n_lane (x.get i) ≤ 127 ∧
    expf_pow2n_lane (expf_emm0_lane (expf_kf_lane (x.get i)))
      = (expf_n_lane (x.get i) + 127).toNat * 2 ^ 23 ∧
    binary32.sign (expf_pow2n_lane (expf_emm0_lane (expf_kf_lane (x.get i)))) = 0 ∧
    (binary32.expField (expf_pow2n_lane (expf_emm0_lane (expf_kf_lane (x.get i)))) : ℤ)
      = expf_n_lane (x.get i) + 127 ∧
    binary32.manField (expf_pow2n_lane (expf_emm0_lane (expf_kf_lane (x.get i)))) = 0 ∧
    binary32.toRat (expf_pow2n_lane (expf_emm0_lane (expf_kf_lane (x.get i))))
      = (2 : ℚ) ^ expf_n_lane (x.get i) ∧
    ( sse2_expf_unsafe x).get i
      = binary32.mul
          (generic.expf_poly binary32.mul binary32.add float_cephes_exp_p0.l0
            float_cephes_exp_p1.l0 float_cephes_exp_p2.l0 float_cephes_exp_p3.l0
            float_cephes_exp_p4.l0 float_cephes_exp_p5.l0 float_1.l0
            (expf_reduce_lane (expf_clamp_lane (x.get i)) (expf_kf_lane (x.get i))))
          (expf_pow2n_lane (expf_emm0_lane (expf_kf_lane (x.get i)))) ∧
    (sse2_expf expf x).get i = ( sse2_expf_unsafe x).get i := by
  obtain ⟨_, hc, _, _, r5, r6, r7, r8, _, _⟩ := expf_lane_in_range (x.get i) h1 h2
  obtain ⟨p1, p2, p3, p4, _, p6⟩ := expf_pow2n_lane_spec _ r6 r7
  rw [r8]
  refine ⟨hc, r5, r6, r7, p1, p2, p3, p4, p6, ?_, ?_⟩
  · rw [sse2_expf_unsafe_get, expf_unsafe_lane_stages, r8]
  · rw [sse2_expf_get, sse2_expf_unsafe_get]
    exact expf_sel_inr expf _ _ (expf_unsafe_lane_lt _ hx) h2.1 (not_oorf_of_le _ h1 h2)

/-- C11 at `x = MAXLOGF` (lane 0), where `k = 127`. -/
theorem C11_in_range_exponent_is_valid_witness :
    Vec4.get ⟨0x42b0c0a5, 0, 0, 0⟩ 0 < 2 ^ 32 ∧
    binary32.le MINLOGF (Vec4.get ⟨0x42b0c0a5, 0, 0, 0⟩ 0) ∧
    binary32.le (Vec4.get ⟨0x42b0c0a5, 0, 0, 0⟩ 0) MAXLOGF ∧
    -126 ≤ expf_n_lane (Vec4.get ⟨0x42b0c0a5, 0, 0, 0⟩ 0) ∧
    expf_n_lane (Vec4.get ⟨0x42b0c0a5, 0, 0, 0⟩ 0) ≤ 127 ∧
    expf_n_lane (Vec4.get ⟨0x42b0c0a5, 0, 0, 0⟩ 0) = 127 :=
  ⟨by decide, by decide!, by decide!,
    (C11_in_range_exponent_is_valid (exp_special v4sf.INFINITY) ⟨0x42b0c0a5, 0, 0, 0⟩ 0
      (by decide) (by decide!) (by decide!)).2.2.1,
    (C11_in_range_exponent_is_valid (exp_special v4sf.INFINITY) ⟨0x42b0c0a5, 0, 0, 0⟩ 0
      (by decide) (by decide!) (by decide!)).2.2.2.1,
    by decide!⟩

theorem b_neg_tiny_val : binary32.toRat 0x87800000 = (-1) / 2 ^ 112 :=
  Fmt.toRat_of_sval _ _ (-1) 37 112 (by decide!) (by decide)

theorem b_hundred_val : binary32.toRat 0x42c80000 = 100 / 2 ^ 0 :=
  Fmt.toRat_of_sval _ _ 100 149 0 (by decide!) (by decide)

theorem b_mhundred_val : binary32.toRat 0xc2c80000 = (-100) / 2 ^ 0 :=
  Fmt.toRat_of_sval _ _ (-100) 149 0 (by decide!) (by decide)

/-- C12 fails at the finite lanes `x = 100.0` and `x = -100.0`.  For `x = 100.0` the
upper clamp being disabled, `n = 144 > 127`, the word `(n + 127) << 23` wraps to
`0x87800000`, a negative number and not `2 ^ 144`.  For `x = -100.0` the lower clamp
gives `n = -127 < -126` and the word is `0`, the pattern of `+0.0`, not `2 ^ (-127)`. -/
theorem C12_counterexample_hundred :
    binary32.isFinite 0x42c80000 ∧ binary32.toRat 0x42c80000 = 100 ∧
    expf_n_lane 0x42c80000 = 144 ∧ ¬ (expf_n_lane 0x42c80000 ≤ 127) ∧
    expf_pow2n_lane (expf_emm0_lane (expf_kf_lane 0x42c80000)) = 0x87800000 ∧
    binary32.toRat (expf_pow2n_lane (expf_emm0_lane (expf_kf_lane 0x42c80000)))
      ≠ (2 : ℚ) ^ expf_n_lane 0x42c80000 ∧
    binary32.isFinite 0xc2c80000 ∧ binary32.toRat 0xc2c80000 = -100 ∧
    expf_n_lane 0xc2c80000 = -127 ∧ ¬ (-126 ≤ expf_n_lane 0xc2c80000) ∧
    expf_pow2n_lane (expf_emm0_lane (expf_kf_lane 0xc2c80000)) = 0 ∧
    binary32.toRat (expf_pow2n_lane (expf_emm0_lane (expf_kf_lane 0xc2c80000)))
      ≠ (2 : ℚ) ^ expf_n_lane 0xc2c80000 := by
  have n1 : expf_n_lane 0x42c80000 = 144 := by decide!
  have w1 : expf_pow2n_lane (expf_emm0_lane (expf_kf_lane 0x42c80000)) = 0x87800000 := by
    decide!
  have n2 : expf_n_lane 0xc2c80000 = -127 := by decide!
  have w2 : expf_pow2n_lane (expf_emm0_lane (expf_kf_lane 0xc2c80000)) = 0 := by decide!
  refine ⟨by decide, by rw [b_hundred_val]; norm_num, n1, by rw [n1]; decide, w1, ?_,
    by decide, by rw [b_mhundred_val]; norm_num, n2, by rw [n2]; decide, w2, ?_⟩
  · rw [w1, n1, b_neg_tiny_val]
    have : (0 : ℚ) < (2 : ℚ) ^ (144 : ℤ) := by positivity
    intro h
    rw [← h] at this
    norm_num at this
  · rw [w2, n2, binary32.toRat_zero]
    have : (0 : ℚ) < (2 : ℚ) ^ (-127 : ℤ) := by positivity
    intro h
    rw [← h] at this
    exact lt_irrefl _ this

/-- The clamped lane of an input lane that is not above `MAXLOGF`. -/
theorem expf_clamp_lane_le (a : Nat) (h : binary32.le a MAXLOGF) :
    binary32.isFinite (expf_clamp_lane a) ∧
    (-11583653 : ℚ) / 2 ^ 17 ≤ binary32.toRat (expf_clamp_lane a) ∧
    binary32.toRat (expf_clamp_lane a) ≤ 11583653 / 2 ^ 17 := by
  have vlo : binary32.toRat float_exp_lo.l0 = (-11583653) / 2 ^ 17 := by
    rw [float_exp_lo_bits, float_exp_lo_val]
  by_cases hl : binary32.lt float_exp_lo.l0 a
  · have hc : expf_clamp_lane a = a := by
      unfold expf_clamp_lane Fmt.max
      rw [if_pos hl]
    have s1 : binary32.sval float_exp_lo.l0 ≤ binary32.sval a := le_of_lt hl.2.2
    have s2 : binary32.sval a ≤ binary32.sval MAXLOGF := h.2.2
    rw [hc]
    refine ⟨binary32.finite_of_between std32 a _ _ finite_exp_lo finite_maxlogf s1 s2, ?_, ?_⟩
    · rw [← vlo]; exact (binary32.toRat_le_iff _ _).2 s1
    · rw [← MAXLOGF_val, ← MAXLOGF_bits]; exact (binary32.toRat_le_iff _ _).2 s2
  · rw [expf_clamp_lane_low a hl, vlo]
    exact ⟨finite_exp_lo, le_refl _, by norm_num⟩

/-- C12 as amended: `sse2_expf_unsafe` clamps from below only.  For every input lane
`x ≤ MAXLOGF` (finite or `-inf`) the integer `n` that is biased by 127 and shifted into
the exponent field satisfies `-127 ≤ n ≤ 127`; when `-126 ≤ n` the constructed bit pattern
is the float `2 ^ n`, and when `n = -127` it is the word `0`, the pattern of `+0.0`. -/
theorem C12_lower_clamp_bounds_the_exponent (x : v4sf) (i : Fin 4)
    (h : binary32.le (x.get i) MAXLOGF) :
    -127 ≤ expf_n_lane (x.get i) ∧ expf_n_lane (x.get i) ≤ 127 ∧
    (-126 ≤ expf_n_lane (x.get i) →
      expf_pow2n_lane (expf_emm0_lane (expf_kf_lane (x.get i)))
        = (expf_n_lane (x.get i) + 127).toNat * 2 ^ 23 ∧
      binary32.sign (expf_pow2n_lane (expf_emm0_lane (expf_kf_lane (x.get i)))) = 0 ∧
      (binary32.expField (expf_pow2n_lane (expf_emm0_lane (expf_kf_lane (x.get i)))) : ℤ)
        = expf_n_lane (x.get i) + 127 ∧
      binary32.manField (expf_pow2n_lane (expf_emm0_lane (expf_kf_lane (x.get i)))) = 0 ∧
      binary32.toRat (expf_pow2n_lane (expf_emm0_lane (expf_kf_lane (x.get i))))
        = (2 : ℚ) ^ expf_n_lane (x.get i)) ∧
    (expf_n_lane (x.get i) = -127 →
      expf_pow2n_lane (expf_emm0_lane (expf_kf_lane (x.get i))) = 0) ∧
    ( sse2_expf_unsafe x).get i
      = binary32.mul
          (generic.expf_poly binary32.mul binary32.add float_cephes_exp_p0.l0
            float_cephes_exp_p1.l0 float_cephes_exp_p2.l0 float_cephes_exp_p3.l0
            float_cephes_exp_p4.l0 float_cephes_exp_p5.l0 float_1.l0
            (expf_reduce_lane (expf_clamp_lane (x.get i)) (expf_kf_lane (x.get i))))
          (expf_pow2n_lane (expf_emm0_lane (expf_kf_lane (x.get i)))) := by
  obtain ⟨c1, c2, c3⟩ := expf_clamp_lane_le (x.get i) h
  obtain ⟨_, _, k4, k5, _, k6⟩ := expf_k_of_clamped _ c1 c2 c3
  have hkf : expf_kf_lane (x.get i)
      = expf_floor_lane (expf_fx_lane (expf_clamp_lane (x.get i))) := rfl
  have hnl : expf_n_lane (x.get i)
      = ⌊binary32.toRat (expf_fx_lane (expf_clamp_lane (x.get i)))⌋ := by
    unfold expf_n_lane
    rw [hkf, k6, toInt32_ofInt32 _ (by omega) (by omega)]
  refine ⟨by rw [hnl]; exact k4, by rw [hnl]; exact k5, ?_, ?_, ?_⟩
  · intro h126
    rw [hkf, k6, ← hnl]
    obtain ⟨p1, p2, p3, p4, _, p6⟩ := expf_pow2n_lane_spec _ h126 (by rw [hnl]; exact k5)
    exact ⟨p1, p2, p3, p4, p6⟩
  · intro h127
    rw [hkf, k6, ← hnl, h127]
    decide
  · rw [sse2_expf_unsafe_get, expf_unsafe_lane_stages]

/-- C12 as amended, at `x = -100.0` (lane 0), where `n = -127` and the word is `0`. -/
theorem C12_lower_clamp_bounds_the_exponent_witness :
    binary32.le (Vec4.get ⟨0xc2c80000, 0, 0, 0⟩ 0) MAXLOGF ∧
    -127 ≤ expf_n_lane (Vec4.get ⟨0xc2c80000, 0, 0, 0⟩ 0) ∧
    expf_n_lane (Vec4.get ⟨0xc2c80000, 0, 0, 0⟩ 0) ≤ 127 :=
  ⟨by decide!,
    (C12_lower_clamp_bounds_the_exponent ⟨0xc2c80000, 0, 0, 0⟩ 0 (by decide!)).1,
    (C12_lower_clamp_bounds_the_exponent ⟨0xc2c80000, 0, 0, 0⟩ 0 (by decide!)).2.1⟩

/-! ## No NaN arises in `sse2_expf_unsafe` on a lane of the safe domain -/

/-- The float `2 ^ p` for `p ≤ 127`. -/
theorem pow2_float (p : Nat) (hp : p ≤ 127) :
    ∃ c, binary32.isFinite c ∧ binary32.toRat c = 2 ^ p := by
  obtain ⟨_, _, _, _, p5, p6⟩ := expf_pow2n_lane_spec (p : ℤ) (by omega) (by omega)
  exact ⟨_, p5, by rw [p6, zpow_natCast]⟩

theorem Fmt.Within.mono {a p q : Nat} (h : binary32.Within a p) (hpq : p ≤ q) :
    binary32.Within a q :=
  ⟨h.1, le_trans h.2 (pow_le_pow_right₀ (by norm_num) hpq)⟩

theorem within_mul (a b p q : Nat) (ha : binary32.Within a p) (hb : binary32.Within b q)
    (hpq : p + q ≤ 127) : binary32.Within (binary32.mul a b) (p + q) := by
  obtain ⟨c, c1, c2⟩ := pow2_float (p + q) hpq
  have hab : |binary32.toRat a * binary32.toRat b| ≤ 2 ^ (p + q) := by
    rw [abs_mul, pow_add]
    exact mul_le_mul ha.2 hb.2 (abs_nonneg _) (by positivity)
  obtain ⟨l1, l2⟩ := abs_le.1 hab
  obtain ⟨r1, r2, r3⟩ := binary32.mul_between std32 a b (binary32.neg c) c ha.1 hb.1
    (binary32.neg_finite c c1) c1 (by rw [binary32.toRat_neg, c2]; exact l1)
    (by rw [c2]; exact l2)
  rw [binary32.toRat_neg, c2] at r2
  rw [c2] at r3
  exact ⟨r1, abs_le.2 ⟨r2, r3⟩⟩

theorem within_add (a b p : Nat) (ha : binary32.Within a p) (hb : binary32.Within b p)
    (hp : p + 1 ≤ 127) : binary32.Within (binary32.add a b) (p + 1) := by
  obtain ⟨c, c1, c2⟩ := pow2_float (p + 1) hp
  have hab : |binary32.toRat a + binary32.toRat b| ≤ 2 ^ (p + 1) := by
    rw [pow_succ]
    have := abs_add (binary32.toRat a) (binary32.toRat b)
    have h1 := ha.2
    have h2 := hb.2
    linarith
  obtain ⟨l1, l2⟩ := abs_le.1 hab
  obtain ⟨r1, r2, r3⟩ := binary32.add_between std32 a b (binary32.neg c) c ha.1 hb.1
    (binary32.neg_finite c c1) c1 (by rw [binary32.toRat_neg, c2]; exact l1)
    (by rw [c2]; exact l2)
  rw [binary32.toRat_neg, c2] at r2
  rw [c2] at r3
  exact ⟨r1, abs_le.2 ⟨r2, r3⟩⟩

theorem within_sub (a b p : Nat) (ha : binary32.Within a p) (hb : binary32.Within b p)
    (hp : p + 1 ≤ 127) : binary32.Within (binary32.sub a b) (p + 1) := by
  obtain ⟨c, c1, c2⟩ := pow2_float (p + 1) hp
  have hab : |binary32.toRat a - binary32.toRat b| ≤ 2 ^ (p + 1) := by
    rw [pow_succ]
    have := abs_sub (binary32.toRat a) (binary32.toRat b)
    have h1 := ha.2
    have h2 := hb.2
    linarith
  obtain ⟨l1, l2⟩ := abs_le.1 hab
  obtain ⟨r1, r2, r3⟩ := binary32.sub_between std32 a b (binary32.neg c) c ha.1 hb.1
    (binary32.neg_finite c c1) c1 (by rw [binary32.toRat_neg, c2]; exact l1)
    (by rw [c2]; exact l2)
  rw [binary32.toRat_neg, c2] at r2
  rw [c2] at r3
  exact ⟨r1, abs_le.2 ⟨r2, r3⟩⟩

/-- The product of two finite lanes is not a NaN. -/
theorem Fmt.mul_not_nan (f : Fmt) (a b : Nat) (ha : f.isFinite a) (hb : f.isFinite b) :
    ¬ f.isNaN (f.mul a b) := by
  have e : f.mul a b = f.withSign ((f.sign a + f.sign b) % 2)
      (f.roundUnits (f.units a * f.units b) (2 ^ f.scale)) := by
    unfold Fmt.mul
    rw [if_neg (f.not_nan_of_finite a ha), if_neg (f.not_nan_of_finite b hb),
      if_neg (by
        rintro (⟨h, _⟩ | ⟨_, h⟩)
        · exact f.finite_not_inf a ha h
        · exact f.finite_not_inf b hb h),
      if_neg (by
        rintro (h | h)
        · exact f.finite_not_inf a ha h
        · exact f.finite_not_inf b hb h)]
  have hr := f.roundUnits_le (f.units a * f.units b) (2 ^ f.scale)
  obtain ⟨_, w2, _⟩ := f.withSign_fields ((f.sign a + f.sign b) % 2) _ (by omega)
    (lt_of_le_of_lt hr f.infMag_lt_signBit)
  unfold Fmt.isNaN
  rw [e, w2]
  omega

theorem within_const (c : Nat) (M : ℚ) (hf : binary32.isFinite c) (hv : binary32.toRat c = M)
    (hM : |M| ≤ 1) : binary32.Within c 0 :=
  ⟨hf, by rw [hv, pow_zero]; exact hM⟩

/-- The reduced argument of a lane of the safe domain is finite. -/
theorem expf_reduce_within (x k : Nat) (hx : binary32.Within x 7) (hk : binary32.Within k 7) :
    binary32.Within (expf_reduce_lane x k) 9 := by
  have c1 : binary32.Within float_cephes_exp_C1.l0 0 :=
    within_const _ _ (by decide!) (by rw [exp_C1_bits, exp_C1_val])
      (by rw [abs_le]; constructor <;> norm_num)
  have c2 : binary32.Within float_cephes_exp_C2.l0 0 :=
    within_const _ _ (by decide!) (by rw [exp_C2_bits, exp_C2_val])
      (by rw [abs_le]; constructor <;> norm_num)
  have t := within_mul k _ 7 0 hk c1 (by decide)
  have z := within_mul k _ 7 0 hk c2 (by decide)
  have x1 := within_sub x _ 7 hx t (by decide)
  exact within_sub _ _ 8 x1 (z.mono (by decide)) (by decide)

/-- The polynomial stage of a finite reduced argument is finite. -/
theorem expf_poly_within (r : Nat) (hr : binary32.Within r 9) :
    binary32.Within
      (generic.expf_poly binary32.mul binary32.add float_cephes_exp_p0.l0
        float_cephes_exp_p1.l0 float_cephes_exp_p2.l0 float_cephes_exp_p3.l0
        float_cephes_exp_p4.l0 float_cephes_exp_p5.l0 float_1.l0 r) 70 := by
  have q0 : binary32.Within float_cephes_exp_p0.l0 0 :=
    within_const _ _ (by decide!) (by rw [exp_p0_bits, exp_p0_val])
      (by rw [abs_le]; constructor <;> norm_num)
  have q1 : binary32.Within float_cephes_exp_p1.l0 0 :=
    within_const _ _ (by decide!) (by rw [exp_p1_bits, exp_p1_val])
      (by rw [abs_le]; constructor <;> norm_num)
  have q2 : binary32.Within float_cephes_exp_p2.l0 0 :=
    within_const _ _ (by decide!) (by rw [exp_p2_bits, exp_p2_val])
      (by rw [abs_le]; constructor <;> norm_num)
  have q3 : binary32.Within float_cephes_exp_p3.l0 0 :=
    within_const _ _ (by decide!) (by rw [exp_p3_bits, exp_p3_val])
      (by rw [abs_le]; constructor <;> norm_num)
  have q4 : binary32.Within float_cephes_exp_p4.l0 0 :=
    within_const _ _ (by decide!) (by rw [exp_p4_bits, exp_p4_val])
      (by rw [abs_le]; constructor <;> norm_num)
  have q5 : binary32.Within float_cephes_exp_p5.l0 0 :=
    within_const _ _ (by decide!) (by rw [exp_p5_bits, exp_p5_val])
      (by rw [abs_le]; constructor <;> norm_num)
  have qo : binary32.Within float_1.l0 0 :=
    within_const _ _ (by decide!) (by rw [float_1_bits, float_1_val])
      (by rw [abs_le]; constructor <;> norm_num)
  unfold generic.expf_poly
  simp only []
  have z := within_mul r r 9 9 hr hr (by decide)
  have y1 := within_mul _ r 0 9 q0 hr (by decide)
  have y2 := within_add _ _ 9 y1 (q1.mono (by decide)) (by decide)
  have y3 := within_mul _ r 10 9 y2 hr (by decide)
  have y4 := within_add _ _ 19 y3 (q2.mono (by decide)) (by decide)
  have y5 := within_mul _ r 20 9 y4 hr (by decide)
  have y6 := within_add _ _ 29 y5 (q3.mono (by decide)) (by decide)
  have y7 := within_mul _ r 30 9 y6 hr (by decide)
  have y8 := within_add _ _ 39 y7 (q4.mono (by decide)) (by decide)
  have y9 := within_mul _ r 40 9 y8 hr (by decide)
  have y10 := within_add _ _ 49 y9 (q5.mono (by decide)) (by decide)
  have y11 := within_mul _ _ 50 18 y10 z (by decide)
  have y12 := within_add _ _ 68 y11 (hr.mono (by decide)) (by decide)
  exact within_add _ _ 69 y12 (qo.mono (by decide)) (by decide)

/-- On a lane with `MINLOGF ≤ a ≤ MAXLOGF` the arithmetic of `sse2_expf_unsafe` stays
finite up to the last product, whose result is not a NaN. -/
theorem expf_unsafe_lane_not_nan (a : Nat) (h1 : binary32.le MINLOGF a)
    (h2 : binary32.le a MAXLOGF) : ¬ binary32.isNaN (expf_unsafe_lane a) := by
  obtain ⟨hf, hc, k1, k2, _, k4, k5, k6, t1, t2⟩ := expf_lane_in_range a h1 h2
  have hx : binary32.Within (expf_clamp_lane a) 7 := by
    rw [hc]
    refine ⟨hf, ?_⟩
    rw [abs_le]
    constructor <;> norm_num at t1 t2 ⊢ <;> linarith
  have hk : binary32.Within (expf_kf_lane a) 7 := by
    refine ⟨k1, ?_⟩
    rw [k2, abs_le]
    have a1 : ((-126 : ℤ) : ℚ) ≤ (expf_n_lane a : ℚ) := by exact_mod_cast k4
    have a2 : (expf_n_lane a : ℚ) ≤ ((127 : ℤ) : ℚ) := by exact_mod_cast k5
    constructor <;> norm_num at a1 a2 ⊢ <;> linarith
  have hr := expf_reduce_within _ _ hx hk
  have hy := expf_poly_within _ hr
  obtain ⟨_, _, _, _, p5, _⟩ := expf_pow2n_lane_spec _ k4 k5
  rw [expf_unsafe_lane_stages, k6]
  exact binary32.mul_not_nan _ _ hy.1 p5

theorem le_of_not_oorf (a : Nat) (hn : ¬ binary32.isNaN a) (ho : ¬ oorf a) :
    binary32.le MINLOGF a ∧ binary32.le a MAXLOGF := by
  have n1 : ¬ binary32.isNaN MINLOGF := binary32.not_nan_of_finite _ finite_minlogf
  have n2 : ¬ binary32.isNaN MAXLOGF := binary32.not_nan_of_finite _ finite_maxlogf
  unfold oorf Fmt.lt at ho
  unfold Fmt.le
  rw [not_or] at ho
  obtain ⟨o1, o2⟩ := ho
  constructor
  · refine ⟨n1, hn, ?_⟩
    by_contra hc
    exact o1 ⟨hn, n1, by omega⟩
  · refine ⟨hn, n2, ?_⟩
    by_contra hc
    exact o2 ⟨n2, hn, by omega⟩

/-- C20: `sse2_expf_unsafe` does not propagate a NaN.  On a NaN input lane
`_mm_max_ps(x, float_exp_lo)` returns its second operand, so the lane is computed as for
`x = float_exp_lo` and comes out as `+0.0`, not a NaN; `sse2_expf` returns the input NaN
on that lane through `pass_nan`.  And every NaN lane in the output of `sse2_expf` is such
a merged input NaN: on a lane of the safe domain the arithmetic of the unsafe path gives
no NaN, and the scalar routine is assumed to return no NaN for an argument that is
none. -/
theorem C20_nan_comes_from_the_merge (expf : Nat → Nat) (x : v4sf) (i : Fin 4)
    (hx : x.get i < 2 ^ 32) (hw : ∀ b, expf b < 2 ^ 32)
    (hexpf : ∀ b, ¬ binary32.isNaN b → ¬ binary32.isNaN (expf b)) :
    (binary32.isNaN (x.get i) →
      binary32.max (x.get i) float_exp_lo.l0 = float_exp_lo.l0 ∧
      ( sse2_expf_unsafe x).get i = ( sse2_expf_unsafe float_exp_lo).get i ∧
      ( sse2_expf_unsafe x).get i = 0 ∧
      ¬ binary32.isNaN (( sse2_expf_unsafe x).get i) ∧
      (sse2_expf expf x).get i = x.get i) ∧
    (binary32.isNaN ((sse2_expf expf x).get i) →
      binary32.isNaN (x.get i) ∧ (sse2_expf expf x).get i = x.get i ∧
      ¬ binary32.isNaN (( sse2_expf_unsafe x).get i)) ∧
    (¬ binary32.isNaN (x.get i) → ¬ oorf (x.get i) →
      ¬ binary32.isNaN (( sse2_expf_unsafe x).get i)) := by
  have hlo : ( sse2_expf_unsafe float_exp_lo).get i = 0 := by
    rw [sse2_expf_unsafe_get]
    have : float_exp_lo.get i = float_exp_lo.l0 := by fin_cases i <;> rfl
    rw [this, expf_unsafe_lane_lo]
  have nan_case : binary32.isNaN (x.get i) →
      binary32.max (x.get i) float_exp_lo.l0 = float_exp_lo.l0 ∧
      ( sse2_expf_unsafe x).get i = ( sse2_expf_unsafe float_exp_lo).get i ∧
      ( sse2_expf_unsafe x).get i = 0 ∧
      ¬ binary32.isNaN (( sse2_expf_unsafe x).get i) ∧
      (sse2_expf expf x).get i = x.get i := by
    intro hn
    have hc : expf_clamp_lane (x.get i) = float_exp_lo.l0 :=
      expf_clamp_lane_low _ (not_lt_of_nan32 _ _ hn)
    have hc2 : expf_clamp_lane (x.get i) = expf_clamp_lane float_exp_lo.l0 := by
      rw [expf_clamp_lane_lo]; exact hc
    obtain ⟨e1, _⟩ := expf_unsafe_lane_clamp _ _ hc2
    have hu : ( sse2_expf_unsafe x).get i = 0 := by
      rw [sse2_expf_unsafe_get, e1, expf_unsafe_lane_lo]
    refine ⟨hc, by rw [hu, hlo], hu, by rw [hu]; decide, ?_⟩
    rw [sse2_expf_get]
    exact expf_sel_nan expf _ _ hx hn
  have inr_case : ¬ binary32.isNaN (x.get i) → ¬ oorf (x.get i) →
      ¬ binary32.isNaN (( sse2_expf_unsafe x).get i) := by
    intro hn ho
    obtain ⟨l1, l2⟩ := le_of_not_oorf _ hn ho
    rw [sse2_expf_unsafe_get]
    exact expf_unsafe_lane_not_nan _ l1 l2
  refine ⟨nan_case, ?_, inr_case⟩
  intro hout
  have hin : binary32.isNaN (x.get i) := by
    by_contra hn
    rw [sse2_expf_get] at hout
    by_cases ho : oorf (x.get i)
    · rw [expf_sel_oor expf _ _ (hw _) hn ho] at hout
      exact hexpf _ hn hout
    · have hu : ( sse2_expf_unsafe x).get i < 2 ^ 32 := by
        rw [sse2_expf_unsafe_get]
        exact expf_unsafe_lane_lt _ hx
      rw [expf_sel_inr expf _ _ hu hn ho] at hout
      exact inr_case hn ho hout
  obtain ⟨_, _, _, n4, n5⟩ := nan_case hin
  exact ⟨hin, n5, n4⟩

/-- C20 at the vector `[NaN, 1.0, +inf, -100.0]`, lane 0. -/
theorem C20_nan_comes_from_the_merge_witness :
    Vec4.get ⟨0x7fc00001, 0x3f800000, 0x7f800000, 0xc2c80000⟩ 0 < 2 ^ 32 ∧
    (∀ b, exp_special v4sf.INFINITY b < 2 ^ 32) ∧
    (∀ b, ¬ binary32.isNaN b → ¬ binary32.isNaN (exp_special v4sf.INFINITY b)) ∧
    binary32.isNaN (Vec4.get ⟨0x7fc00001, 0x3f800000, 0x7f800000, 0xc2c80000⟩ 0) ∧
    ( sse2_expf_unsafe ⟨0x7fc00001, 0x3f800000, 0x7f800000, 0xc2c80000⟩).get 0 = 0 ∧
    (sse2_expf (exp_special v4sf.INFINITY)
        ⟨0x7fc00001, 0x3f800000, 0x7f800000, 0xc2c80000⟩).get 0 = 0x7fc00001 :=
  have hw : ∀ b, exp_special v4sf.INFINITY b < 2 ^ 32 := by
    intro b
    unfold exp_special
    split_ifs <;> decide
  have he : ∀ b, ¬ binary32.isNaN b → ¬ binary32.isNaN (exp_special v4sf.INFINITY b) := by
    intro b _
    unfold exp_special
    split_ifs <;> decide
  ⟨by decide, hw, he, by decide,
    ((C20_nan_comes_from_the_merge (exp_special v4sf.INFINITY)
      ⟨0x7fc00001, 0x3f800000, 0x7f800000, 0xc2c80000⟩ 0 (by decide) hw he).1
        (by decide)).2.2.1,
    ((C20_nan_comes_from_the_merge (exp_special v4sf.INFINITY)
      ⟨0x7fc00001, 0x3f800000, 0x7f800000, 0xc2c80000⟩ 0 (by decide) hw he).1
        (by decide)).2.2.2.2⟩

/-- The exact value of the approximation stage at `r = 1/4` is within `1e-12` of
`exp (1/4)`, and the form with the denominator `Q(r^2) - P(r^2)` is off by more than
`0.2`: the denominator `Q(r^2) - r * P(r^2)` is the one that approximates `exp`. -/
theorem exp_approx_exact_quarter_close :
    |((exp_approx_exact (1 / 4) : ℚ) : ℝ) - Real.exp (1 / 4)| ≤ 1 / 10 ^ 12 ∧
    (2 : ℝ) / 10 ≤ ((spec_exp_rational (1 / 4) : ℚ) : ℝ) - Real.exp (1 / 4) := by
  have h1 : exp_approx_exact (1 / 4)
      = 684459801273445540500029 / 533057829212657545991101 := by
    rw [exp_approx_exact_eq]
    unfold spec_P spec_Q
    rw [P_bits, Q_bits]
    simp only [List.getD_cons_zero, List.getD_cons_succ]
    rw [P0_val, P1_val, P2_val, Q0_val, Q1_val, Q2_val, Q3_val]
    norm_num
  have h2 : spec_exp_rational (1 / 4)
      = 457356843182263548736637 / 305954871121475554227709 := by
    unfold spec_exp_rational spec_P spec_Q
    rw [P_bits, Q_bits]
    simp only [List.getD_cons_zero, List.getD_cons_succ]
    rw [P0_val, P1_val, P2_val, Q0_val, Q1_val, Q2_val, Q3_val]
    norm_num
  have hr : |(1 / 4 : ℝ)| ≤ 7 / 20 := by
    rw [abs_of_nonneg (by norm_num)]; norm_num
  obtain ⟨t1, t2⟩ := abs_le.1 (exp_taylor11 (1 / 4) hr)
  rw [h1, h2]
  push_cast
  constructor
  · rw [abs_le]
    constructor <;> norm_num at t1 t2 ⊢ <;> linarith
  · norm_num at t1 t2 ⊢
    linarith

/-! ## The error of one rounding -/

/-- The magnitude encoded by the pattern `s * 2 ^ mb + R` of a rounded significand. -/
theorem Fmt.units_of_pattern (f : Fmt) (s R : Nat) (h1 : s = 0 ∨ 2 ^ f.mb ≤ R)
    (h2 : R ≤ 2 * 2 ^ f.mb) (h3 : s * 2 ^ f.mb + R < f.signBit) :
    f.units (s * 2 ^ f.mb + R) = R * 2 ^ s := by
  have hA : 0 < 2 ^ f.mb := Nat.two_pow_pos _
  unfold Fmt.units Fmt.expField Fmt.manField
  rw [f.mag_of_lt _ h3]
  by_cases hR : R < 2 ^ f.mb
  · have hs : s = 0 := by omega
    subst hs
    rw [Nat.zero_mul, Nat.zero_add, Nat.div_eq_of_lt hR, if_pos rfl, Nat.mod_eq_of_lt hR,
      pow_zero, Nat.mul_one]
  · by_cases hR2 : R = 2 * 2 ^ f.mb
    · have e1 : s * 2 ^ f.mb + R = 0 + (s + 2) * 2 ^ f.mb := by rw [hR2]; ring
      rw [e1, Nat.add_mul_div_right _ _ hA, Nat.add_mul_mod_self_right, Nat.zero_div,
        Nat.zero_mod, Nat.zero_add, if_neg (by omega), Nat.add_zero, hR2]
      have : s + 2 - 1 = s + 1 := by omega
      rw [this, pow_succ]
      ring
    · have e1 : s * 2 ^ f.mb + R = (R - 2 ^ f.mb) + (s + 1) * 2 ^ f.mb := by
        have : (s + 1) * 2 ^ f.mb = s * 2 ^ f.mb + 2 ^ f.mb := by ring
        omega
      rw [e1, Nat.add_mul_div_right _ _ hA, Nat.add_mul_mod_self_right,
        Nat.div_eq_of_lt (by omega), Nat.mod_eq_of_lt (by omega), Nat.zero_add,
        if_neg (by omega), Nat.add_sub_cancel]
      have : 2 ^ f.mb + (R - 2 ^ f.mb) = R := by omega
      rw [this]

/-- Rounding to nearest without overflow: the encoded magnitude is within a relative
`2 ^ -(mb + 1)` of the exact quotient, or within half a unit of the smallest denormal. -/
theorem Fmt.roundUnits_err (f : Fmt) (n D : Nat) (hD : 0 < D) (hN : n / D < 2 ^ 8192)
    (hfin : f.roundUnits n D < f.infMag) :
    |(f.units (f.roundUnits n D) : ℚ) - (n : ℚ) / D| ≤ (n : ℚ) / D / 2 ^ (f.mb + 1) + 1 / 2 := by
  obtain ⟨s, hs, hlt, hge⟩ := f.roundUnits_shape n D hN
  clear hN
  have hA : 0 < 2 ^ f.mb := Nat.two_pow_pos _
  have hB : 0 < 2 ^ s := Nat.two_pow_pos _
  have hDq : (0 : ℚ) < D := by exact_mod_cast hD
  have hBq : (0 : ℚ) < 2 ^ s := by positivity
  have hp0 : s * 2 ^ f.mb + Fmt.rneDiv n (D * 2 ^ s) < f.infMag := by
    rw [hs] at hfin
    by_contra hc
    rw [Nat.min_eq_right (by omega)] at hfin
    exact lt_irrefl _ hfin
  have hr : f.roundUnits n D = s * 2 ^ f.mb + Fmt.rneDiv n (D * 2 ^ s) := by
    rw [hs, Nat.min_eq_left (le_of_lt hp0)]
  have hR2 : Fmt.rneDiv n (D * 2 ^ s) ≤ 2 * 2 ^ f.mb := by
    have h1 : n / (D * 2 ^ s) < 2 * 2 ^ f.mb := by
      rw [← Nat.div_div_eq_div_mul, Nat.div_lt_iff_lt_mul hB]
      calc n / D < 2 ^ (f.mb + s + 1) := hlt
        _ = 2 * 2 ^ f.mb * 2 ^ s := by rw [pow_succ, pow_add]; ring
    have := (rneDiv_bounds n (D * 2 ^ s)).2
    omega
  have hR1 : s = 0 ∨ 2 ^ f.mb ≤ Fmt.rneDiv n (D * 2 ^ s) := by
    rcases hge with h0 | h1
    · left; exact h0
    · right
      have h2 : 2 ^ f.mb ≤ n / (D * 2 ^ s) := by
        rw [← Nat.div_div_eq_div_mul, Nat.le_div_iff_mul_le hB, ← pow_add]
        exact h1
      exact le_trans h2 (rneDiv_bounds n (D * 2 ^ s)).1
  rw [hr, f.units_of_pattern s _ hR1 hR2 (lt_trans hp0 f.infMag_lt_signBit)]
  have hnear := rneDiv_nearest n (D * 2 ^ s) (Nat.mul_pos hD hB)
  have habs : |(n : ℚ) / ((D * 2 ^ s : ℕ) : ℚ)
      - ((Fmt.rneDiv n (D * 2 ^ s) : ℕ) : ℤ)| ≤ 1 / 2 := by
    rcases hnear with h | ⟨h, _⟩ <;> linarith
  generalize Fmt.rneDiv n (D * 2 ^ s) = R at habs ⊢
  have e : ((R * 2 ^ s : ℕ) : ℚ) - (n : ℚ) / D
      = -(((n : ℚ) / ((D * 2 ^ s : ℕ) : ℚ) - ((R : ℕ) : ℤ)) * 2 ^ s) := by
    push_cast
    field_simp
    ring
  rw [e, abs_neg, abs_mul, abs_of_pos hBq]
  have hq0 : (0 : ℚ) ≤ (n : ℚ) / D := by positivity
  have hpow : (0 : ℚ) < 2 ^ (f.mb + 1) := by positivity
  have step : |(n : ℚ) / ((D * 2 ^ s : ℕ) : ℚ) - ((R : ℕ) : ℤ)| * 2 ^ s ≤ 2 ^ s / 2 := by
    have := mul_le_mul_of_nonneg_right habs (le_of_lt hBq)
    linarith
  refine le_trans step ?_
  rcases hge with h0 | h1
  · subst h0
    have : (0 : ℚ) ≤ (n : ℚ) / D / 2 ^ (f.mb + 1) := by positivity
    norm_num
    linarith
  · have h1q : ((2 ^ (f.mb + s) : ℕ) : ℚ) ≤ (n : ℚ) / D := by
      rw [le_div_iff₀ hDq]
      have : 2 ^ (f.mb + s) * D ≤ n := (Nat.le_div_iff_mul_le hD).1 h1
      exact_mod_cast this
    have e2 : (2 : ℚ) ^ s / 2 = ((2 ^ (f.mb + s) : ℕ) : ℚ) / 2 ^ (f.mb + 1) := by
      push_cast
      rw [pow_add, pow_succ]
      field_simp
      ring
    rw [e2]
    have : ((2 ^ (f.mb + s) : ℕ) : ℚ) / 2 ^ (f.mb + 1) ≤ (n : ℚ) / D / 2 ^ (f.mb + 1) :=
      div_le_div_of_nonneg_right h1q (le_of_lt hpow)
    linarith


/-- Rounding a signed exact value whose magnitude is at most that of a finite number
`c`: the result is finite, and within a relative `2 ^ -(mb + 1)` plus half the smallest
denormal of the exact value. -/
theorem Fmt.round_signed_err (f : Fmt) (hstd : f.Std) (s n D : Nat) (hs : s ≤ 1) (hD : 0 < D)
    (c : Nat) (hc : f.isFinite c) (hn : n ≤ f.units c * D) :
    f.isFinite (f.withSign s (f.roundUnits n D)) ∧
    |f.toRat (f.withSign s (f.roundUnits n D))
        - (if s = 1 then -(n : ℚ) else (n : ℚ)) / D / 2 ^ f.scale|
      ≤ (n : ℚ) / D / 2 ^ f.scale / 2 ^ (f.mb + 1) + 1 / 2 / 2 ^ f.scale := by
  have hS : (0 : ℚ) < 2 ^ f.scale := by positivity
  have hN : n / D < 2 ^ 8192 :=
    lt_of_le_of_lt (Nat.div_le_of_le_mul (by rw [mul_comm]; exact hn))
      (f.units_lt_big hstd c hc)
  have hm := f.roundUnits_le_mag n D c hD hN hn
  have hfin : f.roundUnits n D < f.infMag := lt_of_le_of_lt hm hc
  have herr := f.roundUnits_err n D hD hN hfin
  obtain ⟨w1, w2, w3⟩ := f.withSign_fields s _ hs (lt_trans hfin f.infMag_lt_signBit)
  refine ⟨by unfold Fmt.isFinite; rw [w2]; exact hfin, ?_⟩
  rw [f.toRat_eq, w1, w3]
  generalize (f.units (f.roundUnits n D) : ℚ) = U at herr ⊢
  have key : |U - (n : ℚ) / D| / 2 ^ f.scale
      ≤ (n : ℚ) / D / 2 ^ f.scale / 2 ^ (f.mb + 1) + 1 / 2 / 2 ^ f.scale := by
    have h := div_le_div_of_nonneg_right herr (le_of_lt hS)
    have e : ((n : ℚ) / D / 2 ^ (f.mb + 1) + 1 / 2) / 2 ^ f.scale
        = (n : ℚ) / D / 2 ^ f.scale / 2 ^ (f.mb + 1) + 1 / 2 / 2 ^ f.scale := by
      field_simp
      ring
    rw [e] at h
    exact h
  refine le_trans (le_of_eq ?_) key
  rw [← abs_of_pos hS, ← abs_div, abs_of_pos hS]
  split_ifs
  · rw [← abs_neg]
    congr 1
    field_simp
    ring
  · congr 1
    field_simp
    ring


/-- The absolute value of a lane is its magnitude in multiples of the smallest denormal. -/
theorem Fmt.abs_toRat (f : Fmt) (a : Nat) : |f.toRat a| = (f.units a : ℚ) / 2 ^ f.scale := by
  have hS : (0 : ℚ) < 2 ^ f.scale := by positivity
  have hu : (0 : ℚ) ≤ (f.units a : ℚ) := Nat.cast_nonneg _
  rw [f.toRat_eq]
  split_ifs
  · rw [neg_div, abs_neg, abs_of_nonneg (div_nonneg hu hS.le)]
  · rw [abs_of_nonneg (div_nonneg hu hS.le)]

/-- A product of finite numbers whose exact value is not above a finite number of the
format in magnitude: the result is finite and within a relative `2 ^ -(mb + 1)` plus half
the smallest denormal of the exact product. -/
theorem Fmt.mul_err (f : Fmt) (hstd : f.Std) (a b c : Nat) (ha : f.isFinite a)
    (hb : f.isFinite b) (hc : f.isFinite c) (h : |f.toRat a * f.toRat b| ≤ |f.toRat c|) :
    f.isFinite (f.mul a b) ∧
    |f.toRat (f.mul a b) - f.toRat a * f.toRat b|
      ≤ |f.toRat a * f.toRat b| / 2 ^ (f.mb + 1) + 1 / 2 / 2 ^ f.scale := by
  have hS : (0 : ℚ) < 2 ^ f.scale := by positivity
  have e : f.mul a b = f.withSign ((f.sign a + f.sign b) % 2)
      (f.roundUnits (f.units a * f.units b) (2 ^ f.scale)) := by
    unfold Fmt.mul
    rw [if_neg (f.not_nan_of_finite a ha), if_neg (f.not_nan_of_finite b hb),
      if_neg (by
        rintro (⟨h, _⟩ | ⟨_, h⟩)
        · exact f.finite_not_inf a ha h
        · exact f.finite_not_inf b hb h),
      if_neg (by
        rintro (h | h)
        · exact f.finite_not_inf a ha h
        · exact f.finite_not_inf b hb h)]
  have hm : ((f.units a * f.units b : ℕ) : ℚ) / ((2 ^ f.scale : ℕ) : ℚ) / 2 ^ f.scale
      = |f.toRat a * f.toRat b| := by
    rw [abs_mul, f.abs_toRat, f.abs_toRat]
    push_cast
    field_simp
  have hn : f.units a * f.units b ≤ f.units c * 2 ^ f.scale := by
    rw [← hm, f.abs_toRat, div_div, div_le_div_iff₀ (by positivity) hS] at h
    have h' : ((f.units a * f.units b : ℕ) : ℚ) * 2 ^ f.scale
        ≤ ((f.units c * 2 ^ f.scale : ℕ) : ℚ) * 2 ^ f.scale := by
      push_cast at h ⊢
      linarith
    have := le_of_mul_le_mul_right h' hS
    exact_mod_cast this
  have hv : (if (f.sign a + f.sign b) % 2 = 1 then -((f.units a * f.units b : ℕ) : ℚ)
      else ((f.units a * f.units b : ℕ) : ℚ)) / ((2 ^ f.scale : ℕ) : ℚ) / 2 ^ f.scale
      = f.toRat a * f.toRat b := by
    rw [f.toRat_eq a, f.toRat_eq b]
    have sa := f.sign_le_one a
    have sb := f.sign_le_one b
    have ca : f.sign a = 0 ∨ f.sign a = 1 := by omega
    have cb : f.sign b = 0 ∨ f.sign b = 1 := by omega
    rcases ca with ca | ca <;> rcases cb with cb | cb <;> rw [ca, cb] <;> norm_num <;>
      field_simp
  obtain ⟨r1, r2⟩ := f.round_signed_err hstd ((f.sign a + f.sign b) % 2) _ _ (by omega)
    (Nat.two_pow_pos _) c hc hn
  rw [hv, hm] at r2
  rw [e]
  exact ⟨r1, r2⟩

/-- A sum of finite numbers whose exact value is not above a finite number of the
format in magnitude: finite, and within a relative `2 ^ -(mb + 1)` plus half the
smallest denormal of the exact sum. -/
theorem Fmt.add_err (f : Fmt) (hstd : f.Std) (a b c : Nat) (ha : f.isFinite a)
    (hb : f.isFinite b) (hc : f.isFinite c) (h : |f.toRat a + f.toRat b| ≤ |f.toRat c|) :
    f.isFinite (f.add a b) ∧
    |f.toRat (f.add a b) - (f.toRat a + f.toRat b)|
      ≤ |f.toRat a + f.toRat b| / 2 ^ (f.mb + 1) + 1 / 2 / 2 ^ f.scale := by
  have hS : (0 : ℚ) < 2 ^ f.scale := by positivity
  have hsum : f.toRat a + f.toRat b = ((f.sval a + f.sval b : ℤ) : ℚ) / 2 ^ f.scale := by
    unfold Fmt.toRat
    push_cast
    rw [add_div]
  rw [hsum] at h ⊢
  unfold Fmt.add
  simp only []
  rw [if_neg (f.not_nan_of_finite a ha), if_neg (f.not_nan_of_finite b hb),
    if_neg (f.finite_not_inf a ha), if_neg (f.finite_not_inf b hb)]
  generalize f.sval a + f.sval b = t at h ⊢
  by_cases ht : t = 0
  · rw [if_pos ht]
    have hs : (if f.sign a = 1 ∧ f.sign b = 1 then 1 else 0) ≤ 1 := by split_ifs <;> omega
    obtain ⟨w1, w2, w3⟩ := f.withSign_fields _ 0 hs f.signBit_pos
    have hu : f.units 0 = 0 := by
      unfold Fmt.units Fmt.expField Fmt.manField Fmt.mag
      simp
    refine ⟨?_, ?_⟩
    · unfold Fmt.isFinite
      rw [w2]
      exact f.infMag_pos (by have := hstd.1; omega)
    · rw [f.toRat_eq, w3, hu, ht]
      have : (0 : ℚ) ≤ 1 / 2 / 2 ^ f.scale := by positivity
      split_ifs <;> simpa using this
  · rw [if_neg ht]
    have hm : ((t.natAbs : ℕ) : ℚ) / ((1 : ℕ) : ℚ) / 2 ^ f.scale = |(t : ℚ) / 2 ^ f.scale| := by
      rw [abs_div, abs_of_pos hS, Nat.cast_one, div_one, Nat.cast_natAbs, Int.cast_abs]
    have hn : t.natAbs ≤ f.units c * 1 := by
      rw [← hm, f.abs_toRat, Nat.cast_one, div_one, div_le_div_iff_of_pos_right hS] at h
      rw [Nat.mul_one]
      exact_mod_cast h
    have hv : (if (if t < 0 then 1 else 0) = 1 then -((t.natAbs : ℕ) : ℚ)
        else ((t.natAbs : ℕ) : ℚ)) / ((1 : ℕ) : ℚ) / 2 ^ f.scale = (t : ℚ) / 2 ^ f.scale := by
      rw [Nat.cast_one, div_one, Nat.cast_natAbs, Int.cast_abs]
      by_cases hneg : t < 0
      · rw [if_pos hneg, if_pos rfl, abs_of_neg (by exact_mod_cast hneg), neg_neg]
      · rw [if_neg hneg, if_neg (by decide), abs_of_nonneg (by exact_mod_cast (not_lt.1 hneg))]
    obtain ⟨r1, r2⟩ := f.round_signed_err hstd (if t < 0 then 1 else 0) t.natAbs 1
      (by split_ifs <;> omega) (by decide) c hc hn
    rw [hv, hm] at r2
    exact ⟨r1, r2⟩

/-- The same for a difference. -/
theorem Fmt.sub_err (f : Fmt) (hstd : f.Std) (a b c : Nat) (ha : f.isFinite a)
    (hb : f.isFinite b) (hc : f.isFinite c) (h : |f.toRat a - f.toRat b| ≤ |f.toRat c|) :
    f.isFinite (f.sub a b) ∧
    |f.toRat (f.sub a b) - (f.toRat a - f.toRat b)|
      ≤ |f.toRat a - f.toRat b| / 2 ^ (f.mb + 1) + 1 / 2 / 2 ^ f.scale := by
  have e : f.sub a b = f.add a (f.neg b) := by
    unfold Fmt.sub
    rw [if_neg (f.not_nan_of_finite a ha), if_neg (f.not_nan_of_finite b hb)]
  have hv : f.toRat a - f.toRat b = f.toRat a + f.toRat (f.neg b) := by
    rw [f.toRat_neg]; ring
  rw [hv] at h
  rw [e, hv]
  exact f.add_err hstd a (f.neg b) c ha (f.neg_finite b hb) hc h

/-- The same for a quotient with a non-zero divisor. -/
theorem Fmt.div_err (f : Fmt) (hstd : f.Std) (a b c : Nat) (ha : f.isFinite a)
    (hb : f.isFinite b) (hz : ¬ f.isZero b) (hc : f.isFinite c)
    (h : |f.toRat a / f.toRat b| ≤ |f.toRat c|) :
    f.isFinite (f.div a b) ∧
    |f.toRat (f.div a b) - f.toRat a / f.toRat b|
      ≤ |f.toRat a / f.toRat b| / 2 ^ (f.mb + 1) + 1 / 2 / 2 ^ f.scale := by
  have hS : (0 : ℚ) < 2 ^ f.scale := by positivity
  have hub : 0 < f.units b := f.units_pos b hz
  have hubq : (0 : ℚ) < (f.units b : ℚ) := by exact_mod_cast hub
  have sa := f.sign_le_one a
  have sb := f.sign_le_one b
  unfold Fmt.div
  rw [if_neg (f.not_nan_of_finite a ha), if_neg (f.not_nan_of_finite b hb),
    if_neg (by
      rintro (⟨h, _⟩ | ⟨_, h⟩)
      · exact f.finite_not_inf a ha h
      · exact hz h),
    if_neg (by
      rintro (h | h)
      · exact f.finite_not_inf a ha h
      · exact hz h)]
  by_cases hza : f.isZero a
  · rw [if_pos (Or.inr hza)]
    obtain ⟨w1, w2, w3⟩ := f.withSign_fields ((f.sign a + f.sign b) % 2) 0 (by omega)
      f.signBit_pos
    have hu : f.units 0 = 0 := by
      unfold Fmt.units Fmt.expField Fmt.manField Fmt.mag
      simp
    refine ⟨?_, ?_⟩
    · unfold Fmt.isFinite
      rw [w2]
      exact f.infMag_pos (by have := hstd.1; omega)
    · rw [f.toRat_of_isZero a hza, f.toRat_eq, w3, hu]
      have : (0 : ℚ) ≤ 1 / 2 / 2 ^ f.scale := by positivity
      split_ifs <;> simpa using this
  · rw [if_neg (by
      rintro (h | h)
      · exact f.finite_not_inf b hb h
      · exact hza h)]
    have hm : ((f.units a * 2 ^ f.scale : ℕ) : ℚ) / ((f.units b : ℕ) : ℚ) / 2 ^ f.scale
        = |f.toRat a / f.toRat b| := by
      rw [abs_div, f.abs_toRat, f.abs_toRat]
      push_cast
      field_simp
      ring
    have hn : f.units a * 2 ^ f.scale ≤ f.units c * f.units b := by
      rw [← hm, f.abs_toRat, div_div, div_le_div_iff₀ (by positivity) hS] at h
      have h' : ((f.units a * 2 ^ f.scale : ℕ) : ℚ) * 2 ^ f.scale
          ≤ ((f.units c * f.units b : ℕ) : ℚ) * 2 ^ f.scale := by
        push_cast at h ⊢
        linarith
      have := le_of_mul_le_mul_right h' hS
      exact_mod_cast this
    have hv : (if (f.sign a + f.sign b) % 2 = 1 then -((f.units a * 2 ^ f.scale : ℕ) : ℚ)
        else ((f.units a * 2 ^ f.scale : ℕ) : ℚ)) / ((f.units b : ℕ) : ℚ) / 2 ^ f.scale
        = f.toRat a / f.toRat b := by
      rw [f.toRat_eq a, f.toRat_eq b]
      have ca : f.sign a = 0 ∨ f.sign a = 1 := by omega
      have cb : f.sign b = 0 ∨ f.sign b = 1 := by omega
      have hne : (f.units b : ℚ) ≠ 0 := ne_of_gt hubq
      have hSn : (2 : ℚ) ^ f.scale ≠ 0 := ne_of_gt hS
      rcases ca with ca | ca <;> rcases cb with cb | cb <;> rw [ca, cb]
      · rw [if_neg (by decide), if_neg (by decide), if_neg (by decide)]
        push_cast
        field_simp
        ring
      · rw [if_pos (by decide), if_neg (by decide), if_pos (by decide)]
        push_cast
        simp only [neg_div, div_neg, neg_neg, neg_inj]
        field_simp
        ring
      · rw [if_pos (by decide), if_pos (by decide), if_neg (by decide)]
        push_cast
        simp only [neg_div, div_neg, neg_neg, neg_inj]
        field_simp
        ring
      · rw [if_neg (by decide), if_pos (by decide), if_pos (by decide)]
        push_cast
        simp only [neg_div, div_neg, neg_neg, neg_inj]
        field_simp
        ring
    obtain ⟨r1, r2⟩ := f.round_signed_err hstd ((f.sign a + f.sign b) % 2) _ _ (by omega)
      hub c hc hn
    rw [hv, hm] at r2
    exact ⟨r1, r2⟩


/-! ## Propagation of rounding errors -/

/-- One rounding under the error model: an exact result `t` of magnitude at most `m`,
known up to `p` before rounding, is held up to `p + (m + p) * u + h` after it. -/
theorem Fmt.Prec.step {f : Fmt} {u h B : ℚ} (hp : f.Prec u h B) (r x t p m e : ℚ)
    (hx : |x - t| ≤ p) (ht : |t| ≤ m) (he : p + (m + p) * u + h ≤ e)
    (hr : |r - x| ≤ |x| / 2 ^ (f.mb + 1) + 1 / 2 / 2 ^ f.scale) : |r - t| ≤ e := by
  obtain ⟨_, hu, hh, _⟩ := hp
  have hxm : |x| ≤ m + p := by
    have := abs_sub_abs_le_abs_sub x t
    linarith
  have h1 : |x| / 2 ^ (f.mb + 1) ≤ (m + p) * u := by
    rw [div_eq_mul_one_div]
    exact mul_le_mul hxm hu (by positivity) (le_trans (abs_nonneg _) hxm)
  have h2 : |r - t| ≤ |r - x| + |x - t| := abs_sub_le r x t
  linarith

/-- The magnitude bound `B` of the error model excludes overflow. -/
theorem Fmt.Prec.bound {f : Fmt} {u h B : ℚ} (hp : f.Prec u h B) (x t p m : ℚ)
    (hx : |x - t| ≤ p) (ht : |t| ≤ m) (hov : m + p ≤ B) :
    ∃ c, f.isFinite c ∧ |x| ≤ |f.toRat c| := by
  obtain ⟨_, _, _, c, c1, c2⟩ := hp
  refine ⟨c, c1, le_trans ?_ c2⟩
  have := abs_sub_abs_le_abs_sub x t
  linarith

/-- Product of two lanes held up to an error. -/
theorem Fmt.Near.mul {f : Fmt} {u h B : ℚ} (hp : f.Prec u h B) {a b : Nat}
    {v w ea ma eb mb : ℚ} (ha : f.Near a v ea ma) (hb : f.Near b w eb mb) (e m : ℚ)
    (hm : ma * mb ≤ m) (hov : m + (ma * eb + mb * ea + ea * eb) ≤ B)
    (he : (ma * eb + mb * ea + ea * eb) + (m + (ma * eb + mb * ea + ea * eb)) * u + h ≤ e) :
    f.Near (f.mul a b) (v * w) e m := by
  obtain ⟨a1, a2, a3⟩ := ha
  obtain ⟨b1, b2, b3⟩ := hb
  have hvw : |v * w| ≤ m := by
    rw [abs_mul]
    exact le_trans (mul_le_mul a3 b3 (abs_nonneg _) (le_trans (abs_nonneg _) a3)) hm
  have hprop : |f.toRat a * f.toRat b - v * w| ≤ ma * eb + mb * ea + ea * eb := by
    have e1 : f.toRat a * f.toRat b - v * w
        = (f.toRat a - v) * w + v * (f.toRat b - w) + (f.toRat a - v) * (f.toRat b - w) := by
      ring
    rw [e1]
    have t1 : |(f.toRat a - v) * w| ≤ ea * mb := by
      rw [abs_mul]
      exact mul_le_mul a2 b3 (abs_nonneg _) (le_trans (abs_nonneg _) a2)
    have t2 : |v * (f.toRat b - w)| ≤ ma * eb := by
      rw [abs_mul]
      exact mul_le_mul a3 b2 (abs_nonneg _) (le_trans (abs_nonneg _) a3)
    have t3 : |(f.toRat a - v) * (f.toRat b - w)| ≤ ea * eb := by
      rw [abs_mul]
      exact mul_le_mul a2 b2 (abs_nonneg _) (le_trans (abs_nonneg _) a2)
    have := abs_add_three ((f.toRat a - v) * w) (v * (f.toRat b - w))
      ((f.toRat a - v) * (f.toRat b - w))
    linarith
  obtain ⟨c, c1, c2⟩ := hp.bound _ _ _ _ hprop hvw hov
  obtain ⟨r1, r2⟩ := f.mul_err hp.1 a b c a1 b1 c1 c2
  exact ⟨r1, hp.step _ _ _ _ _ _ hprop hvw he r2, hvw⟩

/-- Sum of two lanes held up to an error; the bound `m` on the exact sum is supplied. -/
theorem Fmt.Near.add {f : Fmt} {u h B : ℚ} (hp : f.Prec u h B) {a b : Nat}
    {v w ea ma eb mb : ℚ} (ha : f.Near a v ea ma) (hb : f.Near b w eb mb) (e m : ℚ)
    (hvw : |v + w| ≤ m) (hov : m + (ea + eb) ≤ B)
    (he : (ea + eb) + (m + (ea + eb)) * u + h ≤ e) :
    f.Near (f.add a b) (v + w) e m := by
  obtain ⟨a1, a2, a3⟩ := ha
  obtain ⟨b1, b2, b3⟩ := hb
  have hprop : |(f.toRat a + f.toRat b) - (v + w)| ≤ ea + eb := by
    have e1 : (f.toRat a + f.toRat b) - (v + w) = (f.toRat a - v) + (f.toRat b - w) := by ring
    rw [e1]
    have := abs_add (f.toRat a - v) (f.toRat b - w)
    linarith
  obtain ⟨c, c1, c2⟩ := hp.bound _ _ _ _ hprop hvw hov
  obtain ⟨r1, r2⟩ := f.add_err hp.1 a b c a1 b1 c1 c2
  exact ⟨r1, hp.step _ _ _ _ _ _ hprop hvw he r2, hvw⟩

/-- Difference of two lanes held up to an error; the bound `m` on the exact difference
is supplied. -/
theorem Fmt.Near.sub {f : Fmt} {u h B : ℚ} (hp : f.Prec u h B) {a b : Nat}
    {v w ea ma eb mb : ℚ} (ha : f.Near a v ea ma) (hb : f.Near b w eb mb) (e m : ℚ)
    (hvw : |v - w| ≤ m) (hov : m + (ea + eb) ≤ B)
    (he : (ea + eb) + (m + (ea + eb)) * u + h ≤ e) :
    f.Near (f.sub a b) (v - w) e m := by
  obtain ⟨a1, a2, a3⟩ := ha
  obtain ⟨b1, b2, b3⟩ := hb
  have hprop : |(f.toRat a - f.toRat b) - (v - w)| ≤ ea + eb := by
    have e1 : (f.toRat a - f.toRat b) - (v - w) = (f.toRat a - v) + -(f.toRat b - w) := by ring
    rw [e1]
    have := abs_add (f.toRat a - v) (-(f.toRat b - w))
    rw [abs_neg] at this
    linarith
  obtain ⟨c, c1, c2⟩ := hp.bound _ _ _ _ hprop hvw hov
  obtain ⟨r1, r2⟩ := f.sub_err hp.1 a b c a1 b1 c1 c2
  exact ⟨r1, hp.step _ _ _ _ _ _ hprop hvw he r2, hvw⟩

/-- Quotient of two lanes held up to an error, the exact divisor being at least `l` in
magnitude. -/
theorem Fmt.Near.div {f : Fmt} {u h B : ℚ} (hp : f.Prec u h B) {a b : Nat}
    {v w ea ma eb mb : ℚ} (ha : f.Near a v ea ma) (hb : f.Near b w eb mb) (e m l : ℚ)
    (hl : l ≤ |w|) (hlb : eb < l) (hm : ma / l ≤ m)
    (hov : m + (ea / (l - eb) + ma * eb / ((l - eb) * l)) ≤ B)
    (he : (ea / (l - eb) + ma * eb / ((l - eb) * l))
        + (m + (ea / (l - eb) + ma * eb / ((l - eb) * l))) * u + h ≤ e) :
    f.Near (f.div a b) (v / w) e m := by
  obtain ⟨a1, a2, a3⟩ := ha
  obtain ⟨b1, b2, b3⟩ := hb
  have heb : 0 ≤ eb := le_trans (abs_nonneg _) b2
  have hl0 : 0 < l := lt_of_le_of_lt heb hlb
  have hd : 0 < l - eb := by linarith
  have hw : 0 < |w| := lt_of_lt_of_le hl0 hl
  have hB : l - eb ≤ |f.toRat b| := by
    have := abs_sub_abs_le_abs_sub w (f.toRat b)
    rw [abs_sub_comm] at this
    linarith
  have hBpos : 0 < |f.toRat b| := lt_of_lt_of_le hd hB
  have hwn : w ≠ 0 := abs_pos.1 hw
  have hbn : f.toRat b ≠ 0 := abs_pos.1 hBpos
  have hz : ¬ f.isZero b := fun hz => hbn (f.toRat_of_isZero b hz)
  have hvw : |v / w| ≤ m := by
    rw [abs_div]
    refine le_trans ?_ hm
    exact div_le_div₀ (le_trans (abs_nonneg _) a3) a3 hl0 hl
  have hprop : |f.toRat a / f.toRat b - v / w|
      ≤ ea / (l - eb) + ma * eb / ((l - eb) * l) := by
    have e1 : f.toRat a / f.toRat b - v / w
        = (f.toRat a - v) / f.toRat b + -(v * (f.toRat b - w) / (f.toRat b * w)) := by
      field_simp
      ring
    rw [e1]
    have t1 : |(f.toRat a - v) / f.toRat b| ≤ ea / (l - eb) := by
      rw [abs_div]
      exact div_le_div₀ (le_trans (abs_nonneg _) a2) a2 hd hB
    have t2 : |v * (f.toRat b - w) / (f.toRat b * w)| ≤ ma * eb / ((l - eb) * l) := by
      rw [abs_div, abs_mul, abs_mul]
      exact div_le_div₀ (mul_nonneg (le_trans (abs_nonneg _) a3) heb)
        (mul_le_mul a3 b2 (abs_nonneg _) (le_trans (abs_nonneg _) a3)) (mul_pos hd hl0)
        (mul_le_mul hB hl hl0.le (abs_nonneg _))
    have := abs_add ((f.toRat a - v) / f.toRat b)
      (-(v * (f.toRat b - w) / (f.toRat b * w)))
    rw [abs_neg] at this
    linarith
  obtain ⟨c, c1, c2⟩ := hp.bound _ _ _ _ hprop hvw hov
  obtain ⟨r1, r2⟩ := f.div_err hp.1 a b c a1 b1 hz c1 c2
  exact ⟨r1, hp.step _ _ _ _ _ _ hprop hvw he r2, hvw⟩


theorem abs_add_le_of {v w a b m : ℚ} (hv : |v| ≤ a) (hw : |w| ≤ b) (h : a + b ≤ m) :
    |v + w| ≤ m :=
  le_trans (abs_add v w) (by linarith)

theorem abs_sub_le_of {v w a b m : ℚ} (hv : |v| ≤ a) (hw : |w| ≤ b) (h : a + b ≤ m) :
    |v - w| ≤ m :=
  le_trans (abs_sub v w) (by linarith)

/-- The error model of binary32: unit roundoff `2 ^ -24`, half the smallest denormal
`2 ^ -150`, and the finite number `1.5 * 2 ^ 127`. -/
theorem prec32 : binary32.Prec (1 / 2 ^ 24) (1 / 2 ^ 150) (3 * 2 ^ 126) := by
  refine ⟨std32, le_refl _, ?_, 0x7f400000, by decide, ?_⟩
  · have : binary32.scale = 149 := by decide
    rw [this]
    norm_num
  · have : binary32.toRat 0x7f400000 = (3 * 2 ^ 126 : ℤ) / 2 ^ 0 :=
      Fmt.toRat_of_sval _ _ (3 * 2 ^ 126) 149 0 (by decide!) (by decide)
    rw [this]
    norm_num

set_option exponentiation.threshold 4096 in
/-- The error model of binary64: unit roundoff `2 ^ -53`, half the smallest denormal
`2 ^ -1075`, and the finite number `2 ^ 1023`. -/
theorem prec64 : binary64.Prec (1 / 2 ^ 53) (1 / 2 ^ 1075) (2 ^ 1023) := by
  refine ⟨std64, le_refl _, ?_, 0x7fe0000000000000, by decide, ?_⟩
  · have : binary64.scale = 1074 := by decide
    rw [this]
    norm_num
  · have : binary64.toRat 0x7fe0000000000000 = (2 ^ 1023 : ℤ) / 2 ^ 0 :=
      Fmt.toRat_of_sval _ _ (2 ^ 1023) 1074 0 (by decide!) (by decide)
    rw [this]
    norm_num


/-! ## Rounding error of the polynomial stage of `sse2_expf_unsafe` -/

/-- The polynomial stage of `sse2_expf_unsafe` on binary32 arithmetic, for a finite
reduced argument `r` with `|r| ≤ 0.3466`: the result is finite and within `1.222e-7` of
the same polynomial evaluated on `r` in exact arithmetic, whose magnitude is at most
`1.415`. -/
theorem expf_poly_err (r : Nat) (hf : binary32.isFinite r)
    (hb : |binary32.toRat r| ≤ 3466 / 10 ^ 4) :
    binary32.Near
      (generic.expf_poly binary32.mul binary32.add float_cephes_exp_p0.l0
        float_cephes_exp_p1.l0 float_cephes_exp_p2.l0 float_cephes_exp_p3.l0
        float_cephes_exp_p4.l0 float_cephes_exp_p5.l0 float_1.l0 r)
      (generic.expf_poly (fun a b : ℚ => a * b) (fun a b => a + b)
        (binary32.toRat float_cephes_exp_p0.l0) (binary32.toRat float_cephes_exp_p1.l0)
        (binary32.toRat float_cephes_exp_p2.l0) (binary32.toRat float_cephes_exp_p3.l0)
        (binary32.toRat float_cephes_exp_p4.l0) (binary32.toRat float_cephes_exp_p5.l0)
        (binary32.toRat float_1.l0) (binary32.toRat r))
      (1222 / 10 ^ 10) (1415 / 10 ^ 3) := by
  have hr : binary32.Near r (binary32.toRat r) 0 (3466 / 10 ^ 4) := ⟨hf, by simp, hb⟩
  have q0 : binary32.Near float_cephes_exp_p0.l0 (binary32.toRat float_cephes_exp_p0.l0) 0
      (1988 / 10 ^ 7) :=
    ⟨by decide!, by simp, by
      rw [exp_p0_bits, exp_p0_val, abs_le]
      constructor <;> norm_num⟩
  have q1 : binary32.Near float_cephes_exp_p1.l0 (binary32.toRat float_cephes_exp_p1.l0) 0
      (1399 / 10 ^ 6) :=
    ⟨by decide!, by simp, by
      rw [exp_p1_bits, exp_p1_val, abs_le]
      constructor <;> norm_num⟩
  have q2 : binary32.Near float_cephes_exp_p2.l0 (binary32.toRat float_cephes_exp_p2.l0) 0
      (8334 / 10 ^ 6) :=
    ⟨by decide!, by simp, by
      rw [exp_p2_bits, exp_p2_val, abs_le]
      constructor <;> norm_num⟩
  have q3 : binary32.Near float_cephes_exp_p3.l0 (binary32.toRat float_cephes_exp_p3.l0) 0
      (4167 / 10 ^ 5) :=
    ⟨by decide!, by simp, by
      rw [exp_p3_bits, exp_p3_val, abs_le]
      constructor <;> norm_num⟩
  have q4 : binary32.Near float_cephes_exp_p4.l0 (binary32.toRat float_cephes_exp_p4.l0) 0
      (1667 / 10 ^ 4) :=
    ⟨by decide!, by simp, by
      rw [exp_p4_bits, exp_p4_val, abs_le]
      constructor <;> norm_num⟩
  have q5 : binary32.Near float_cephes_exp_p5.l0 (binary32.toRat float_cephes_exp_p5.l0) 0
      (5000 / 10 ^ 4) :=
    ⟨by decide!, by simp, by
      rw [exp_p5_bits, exp_p5_val, abs_le]
      constructor <;> norm_num⟩
  have qo : binary32.Near float_1.l0 (binary32.toRat float_1.l0) 0 1 :=
    ⟨by decide!, by simp, by
      rw [float_1_bits, float_1_val, abs_le]
      constructor <;> norm_num⟩
  have z := Fmt.Near.mul prec32 hr hr (7165 / 10 ^ 12) (1202 / 10 ^ 4)
    (by norm_num) (by norm_num) (by norm_num)
  have y1 := Fmt.Near.mul prec32 q0 hr (4108 / 10 ^ 15) (6891 / 10 ^ 8)
    (by norm_num) (by norm_num) (by norm_num)
  have y2 := Fmt.Near.add prec32 y1 q1 (9161 / 10 ^ 14) (1468 / 10 ^ 6)
    (abs_add_le_of y1.2.2 q1.2.2 (by norm_num)) (by norm_num) (by norm_num)
  have y3 := Fmt.Near.mul prec32 y2 hr (6209 / 10 ^ 14) (5089 / 10 ^ 7)
    (by norm_num) (by norm_num) (by norm_num)
  have y4 := Fmt.Near.add prec32 y3 q2 (5892 / 10 ^ 13) (8843 / 10 ^ 6)
    (abs_add_le_of y3.2.2 q2.2.2 (by norm_num)) (by norm_num) (by norm_num)
  have y5 := Fmt.Near.mul prec32 y4 hr (3870 / 10 ^ 13) (3065 / 10 ^ 6)
    (by norm_num) (by norm_num) (by norm_num)
  have y6 := Fmt.Near.add prec32 y5 q3 (3054 / 10 ^ 12) (4474 / 10 ^ 5)
    (abs_add_le_of y5.2.2 q3.2.2 (by norm_num)) (by norm_num) (by norm_num)
  have y7 := Fmt.Near.mul prec32 y6 hr (1983 / 10 ^ 12) (1551 / 10 ^ 5)
    (by norm_num) (by norm_num) (by norm_num)
  have y8 := Fmt.Near.add prec32 y7 q4 (1285 / 10 ^ 11) (1823 / 10 ^ 4)
    (abs_add_le_of y7.2.2 q4.2.2 (by norm_num)) (by norm_num) (by norm_num)
  have y9 := Fmt.Near.mul prec32 y8 hr (8221 / 10 ^ 12) (6319 / 10 ^ 5)
    (by norm_num) (by norm_num) (by norm_num)
  have y10 := Fmt.Near.add prec32 y9 q5 (4180 / 10 ^ 11) (5632 / 10 ^ 4)
    (abs_add_le_of y9.2.2 q5.2.2 (by norm_num)) (by norm_num) (by norm_num)
  have y11 := Fmt.Near.mul prec32 y10 z (1310 / 10 ^ 11) (6770 / 10 ^ 5)
    (by norm_num) (by norm_num) (by norm_num)
  have y12 := Fmt.Near.add prec32 y11 hr (3780 / 10 ^ 11) (4143 / 10 ^ 4)
    (abs_add_le_of y11.2.2 hr.2.2 (by norm_num)) (by norm_num) (by norm_num)
  have y13 := Fmt.Near.add prec32 y12 qo (1222 / 10 ^ 10) (1415 / 10 ^ 3)
    (abs_add_le_of y12.2.2 qo.2.2 (by norm_num)) (by norm_num) (by norm_num)
  unfold generic.expf_poly
  simp only []
  exact y13


/-! ## Representable values -/

set_option exponentiation.threshold 8192 in
/-- A significand of at most `mb + 1` bits, scaled by `2 ^ e` smallest denormals with the
exponent in range, is the value of a finite lane, with either sign. -/
theorem Fmt.exists_rep (f : Fmt) (hstd : f.Std) (s m e : Nat) (hs : s ≤ 1)
    (hm : m < 2 ^ (f.mb + 1)) (he : e + 1 < 2 ^ f.eb - 1) :
    ∃ c, f.isFinite c ∧
      f.toRat c = (if s = 1 then -((m * 2 ^ e : ℕ) : ℚ) else ((m * 2 ^ e : ℕ) : ℚ))
        / 2 ^ f.scale := by
  obtain ⟨s1, s2, s3, s4⟩ := hstd
  by_cases h0 : m = 0
  · refine ⟨0, f.isFinite_zero (by omega), ?_⟩
    rw [f.toRat_zero, h0]
    simp
  · have hpos : 0 < m * 2 ^ e := Nat.mul_pos (by omega) (Nat.two_pow_pos _)
    have hlt : m * 2 ^ e < 2 ^ (f.mb + 1 + e) := by
      rw [pow_add]
      exact Nat.mul_lt_mul_of_pos_right hm (Nat.two_pow_pos _)
    have hbig : m * 2 ^ e < 2 ^ 8192 :=
      lt_of_lt_of_le hlt (Nat.pow_le_pow_right (by decide) (by omega))
    obtain ⟨l1, l2⟩ := ilog2_spec (m * 2 ^ e) hpos hbig
    have hlog : Fmt.ilog2 (m * 2 ^ e) < f.mb + 1 + e := by
      by_contra hc
      have := Nat.pow_le_pow_right (by decide : 0 < 2) (not_lt.1 hc)
      omega
    have hdvd : 2 ^ (Fmt.ilog2 (m * 2 ^ e) - f.mb) ∣ m * 2 ^ e :=
      Dvd.dvd.mul_left (pow_dvd_pow 2 (by omega)) m
    obtain ⟨r1, r2⟩ := f.roundUnits_exact (m * 2 ^ e) hpos hbig hdvd (by omega)
    obtain ⟨w1, w2, w3⟩ := f.withSign_fields s _ hs (lt_trans r1 f.infMag_lt_signBit)
    refine ⟨f.withSign s (f.roundUnits (m * 2 ^ e) 1), ?_, ?_⟩
    · unfold Fmt.isFinite
      rw [w2]
      exact r1
    · rw [f.toRat_eq, w1, w3, r2]


/-! ## Rounding error of the argument reduction of `sse2_expf_unsafe` -/

/-- The argument reduction of `sse2_expf_unsafe` on a lane `a` with
`MINLOGF ≤ a ≤ MAXLOGF`, `k` being the integer the routine derives: the product `k * C1`
is exact, and the reduced argument is finite and within `4.455e-8` of
`a - k * C1 - k * C2` (exact arithmetic on the values of the constants), which is at most
`0.34659` in magnitude. -/
theorem expf_reduce_err (a : Nat) (h1 : binary32.le MINLOGF a) (h2 : binary32.le a MAXLOGF) :
    binary32.Near (expf_reduce_lane a (expf_kf_lane a))
      (binary32.toRat a - (expf_n_lane a : ℚ) * (355 / 2 ^ 9)
        - (expf_n_lane a : ℚ) * ((-14581891) / 2 ^ 36))
      (4455 / 10 ^ 11) (34659 / 10 ^ 5) := by
  obtain ⟨hf, _, k1, k2, k3, k4, k5, _, t1, t2⟩ := expf_lane_in_range a h1 h2
  have hX : binary32.Near a (binary32.toRat a) 0 (885 / 10 ^ 1) :=
    ⟨hf, by simp, by rw [abs_le]; constructor <;> norm_num at t1 t2 ⊢ <;> linarith⟩
  have hL : binary32.Near float_cephes_LOG2EF.l0 (12102203 / 2 ^ 23) 0 (14427 / 10 ^ 4) :=
    ⟨by decide!, by rw [LOG2EF_bits, LOG2EF_val]; simp, by
      rw [abs_le]; constructor <;> norm_num⟩
  have hH : binary32.Near float_0p5.l0 (1 / 2 ^ 1) 0 (1 / 2) :=
    ⟨by decide!, by rw [float_0p5_bits, float_0p5_val]; simp, by
      rw [abs_le]; constructor <;> norm_num⟩
  have hC2 : binary32.Near float_cephes_exp_C2.l0 ((-14581891) / 2 ^ 36) 0 (2122 / 10 ^ 7) :=
    ⟨by decide!, by rw [exp_C2_bits, exp_C2_val]; simp, by
      rw [abs_le]; constructor <;> norm_num⟩
  have m1 := Fmt.Near.mul prec32 hX hL (7612 / 10 ^ 9) (1277 / 10 ^ 1)
    (by norm_num) (by norm_num) (by norm_num)
  have fx := Fmt.Near.add prec32 m1 hH (1526 / 10 ^ 8) (1282 / 10 ^ 1)
    (abs_add_le_of m1.2.2 hH.2.2 (by norm_num)) (by norm_num) (by norm_num)
  have f1 := Int.floor_le (binary32.toRat
    (binary32.add (binary32.mul a float_cephes_LOG2EF.l0) float_0p5.l0))
  have f2 := Int.lt_floor_add_one (binary32.toRat
    (binary32.add (binary32.mul a float_cephes_LOG2EF.l0) float_0p5.l0))
  rw [← k3] at f1 f2
  have f3 := abs_le.1 fx.2.1
  generalize binary32.toRat
    (binary32.add (binary32.mul a float_cephes_LOG2EF.l0) float_0p5.l0) = F at f1 f2 f3
  have q4 : (-126 : ℚ) ≤ (expf_n_lane a : ℚ) := by exact_mod_cast k4
  have q5 : (expf_n_lane a : ℚ) ≤ 127 := by exact_mod_cast k5
  -- the exact product `k * C1`
  have hT : binary32.Near (binary32.mul (expf_kf_lane a) float_cephes_exp_C1.l0)
      ((expf_n_lane a : ℚ) * (355 / 2 ^ 9)) 0 (8806 / 10 ^ 2) := by
    obtain ⟨c, c1, c2⟩ := binary32.exists_rep std32 (if expf_n_lane a < 0 then 1 else 0)
      ((expf_n_lane a).natAbs * 355) 140 (by split_ifs <;> omega)
      (by have : binary32.mb = 23 := rfl
          rw [this]
          omega)
      (by decide)
    have hs : binary32.scale = 149 := by decide
    have c3 : binary32.toRat c = (expf_n_lane a : ℚ) * (355 / 2 ^ 9) := by
      rw [c2, hs]
      push_cast
      rw [Nat.cast_natAbs, Int.cast_abs]
      by_cases hneg : expf_n_lane a < 0
      · rw [if_pos hneg, if_pos rfl, abs_of_neg (by exact_mod_cast hneg)]
        field_simp
        ring
      · rw [if_neg hneg, if_neg (by decide),
          abs_of_nonneg (by exact_mod_cast (not_lt.1 hneg))]
        field_simp
        ring
    have hv : binary32.toRat (expf_kf_lane a) * binary32.toRat float_cephes_exp_C1.l0
        = binary32.toRat c := by
      rw [k2, exp_C1_bits, exp_C1_val, c3]
    obtain ⟨r1, r2, r3⟩ := binary32.mul_between std32 (expf_kf_lane a)
      float_cephes_exp_C1.l0 c c k1 (by decide!) c1 c1 (le_of_eq hv.symm) (le_of_eq hv)
    refine ⟨r1, ?_, ?_⟩
    · rw [le_antisymm r3 r2, c3]
      simp
    · rw [abs_le]
      constructor <;> norm_num <;> linarith
  have hK : binary32.Near (expf_kf_lane a) (expf_n_lane a : ℚ) 0 127 :=
    ⟨k1, by rw [k2]; simp, by rw [abs_le]; constructor <;> linarith⟩
  generalize (expf_n_lane a : ℚ) = K at *
  have z := Fmt.Near.mul prec32 hK hC2 (1607 / 10 ^ 12) (2695 / 10 ^ 5)
    (by norm_num) (by norm_num) (by norm_num)
  have hv1 : |binary32.toRat a - K * (355 / 2 ^ 9)| ≤ 3737 / 10 ^ 4 := by
    rw [abs_le]
    constructor <;> norm_num at f1 f2 f3 ⊢ <;> linarith
  have hv2 : |binary32.toRat a - K * (355 / 2 ^ 9) - K * ((-14581891) / 2 ^ 36)|
      ≤ 34659 / 10 ^ 5 := by
    rw [abs_le]
    constructor <;> norm_num at f1 f2 f3 ⊢ <;> linarith
  have x1 := Fmt.Near.sub prec32 hX hT (2228 / 10 ^ 11) (3737 / 10 ^ 4)
    hv1 (by norm_num) (by norm_num)
  have x2 := Fmt.Near.sub prec32 x1 z (4455 / 10 ^ 11) (34659 / 10 ^ 5)
    hv2 (by norm_num) (by norm_num)
  exact x2


/-- The product of two finite lanes under the error model, the exact product being at
most `B` in magnitude. -/
theorem Fmt.Prec.mul_raw {f : Fmt} {u h B : ℚ} (hp : f.Prec u h B) (a b : Nat)
    (ha : f.isFinite a) (hb : f.isFinite b) (hov : |f.toRat a * f.toRat b| ≤ B) :
    f.isFinite (f.mul a b) ∧
    |f.toRat (f.mul a b) - f.toRat a * f.toRat b| ≤ |f.toRat a * f.toRat b| * u + h := by
  obtain ⟨hstd, hu, hh, c, c1, c2⟩ := hp
  obtain ⟨r1, r2⟩ := f.mul_err hstd a b c ha hb c1 (le_trans hov c2)
  refine ⟨r1, le_trans r2 ?_⟩
  have : |f.toRat a * f.toRat b| / 2 ^ (f.mb + 1) ≤ |f.toRat a * f.toRat b| * u := by
    rw [div_eq_mul_one_div]
    exact mul_le_mul_of_nonneg_left hu (abs_nonneg _)
  linarith

/-! ## The exponential of a reduced argument -/

/-- Splitting off a power of two: `exp x = 2 ^ k * exp (x - k * log 2)`. -/
theorem exp_split (x : ℝ) (k : ℤ) :
    Real.exp x = (2 : ℝ) ^ k * Real.exp (x - k * Real.log 2) := by
  have h2 : (2 : ℝ) ^ k = Real.exp (k * Real.log 2) := by
    rw [← Real.rpow_intCast, Real.rpow_def_of_pos (by norm_num), mul_comm]
  rw [h2, ← Real.exp_add]
  congr 1
  ring

/-- A small shift of the argument changes `exp` by a small relative amount. -/
theorem exp_shift (p r : ℝ) (h : |p - r| ≤ 1) :
    |Real.exp p - Real.exp r| ≤ 2 * |p - r| * Real.exp r := by
  have e : Real.exp p - Real.exp r = (Real.exp (p - r) - 1) * Real.exp r := by
    rw [sub_mul, ← Real.exp_add]
    congr 1
    · congr 1
      ring
    · ring
  rw [e, abs_mul, abs_of_pos (Real.exp_pos r)]
  exact mul_le_mul_of_nonneg_right (Real.abs_exp_sub_one_le h) (Real.exp_pos r).le

/-- The polynomial of `sse2_expf_unsafe`, with the values of its coefficients, is within
`3.6e-8` of `exp` on `[-0.3466, 0.3466]`. -/
theorem expf_poly_approx (r : ℝ) (hr : |r| ≤ 3466 / 10 ^ 4) :
    |1 + r + r ^ 2 * (13658471 / 2 ^ 36 * r ^ 5 + 6005223 / 2 ^ 32 * r ^ 4
        + 1118497 / 2 ^ 27 * r ^ 3 + 11184577 / 2 ^ 28 * r ^ 2 + 5592405 / 2 ^ 25 * r
        + 1 / 2 ^ 1) - Real.exp r| ≤ 36 / 10 ^ 9 := by
  have hr' : |r| ≤ 7 / 20 := le_trans hr (by norm_num)
  have ht := abs_le.1 (exp_taylor11 r hr')
  have b : ∀ i : ℕ, -((3466 / 10 ^ 4 : ℝ) ^ i) ≤ r ^ i ∧ r ^ i ≤ (3466 / 10 ^ 4 : ℝ) ^ i := by
    intro i
    have : |r ^ i| ≤ (3466 / 10 ^ 4 : ℝ) ^ i := by
      rw [abs_pow]; exact pow_le_pow_left₀ (abs_nonneg r) hr i
    exact abs_le.1 this
  have b2 := b 2
  have b3 := b 3
  have b4 := b 4
  have b5 := b 5
  have b6 := b 6
  have b7 := b 7
  have b8 := b 8
  have b9 := b 9
  have b10 := b 10
  have b11 := b 11
  rw [abs_le]
  norm_num at b2 b3 b4 b5 b6 b7 b8 b9 b10 b11 ht ⊢
  constructor <;> linarith [ht.1, ht.2]


/-! ## Accuracy of `sse2_expf_unsafe` on the safe domain -/

theorem abs_le_cast (q e : ℚ) (h : |q| ≤ e) : |(q : ℝ)| ≤ (e : ℝ) := by
  rw [← Rat.cast_abs]
  exact Rat.cast_le.2 h

/-- The rounding errors of `sse2_expf_unsafe` on a lane `a` with `MINLOGF ≤ a ≤ MAXLOGF`:
with `k` the integer the routine derives, `r` the reduced argument and `y` the value of
the polynomial stage as the routine holds them, the lane of the result is finite and is
`y * 2 ^ k` up to one rounding, `y` is within `1.222e-7` of the polynomial at `r`, and `r`
is within `4.455e-8` of `a - k * C1 - k * C2`. -/
theorem expf_lane_chain (a : Nat) (h1 : binary32.le MINLOGF a)
    (h2 : binary32.le a MAXLOGF) :
    binary32.isFinite (expf_unsafe_lane a) ∧
    ∃ (K : ℤ) (r y : ℚ), -126 ≤ K ∧ K ≤ 127 ∧
      |binary32.toRat (expf_unsafe_lane a) - y * 2 ^ K|
        ≤ 14152 / 10 ^ 4 * (2 : ℚ) ^ K * (1 / 2 ^ 24) + 1 / 2 ^ 150 ∧
      |y - (1 + r + r ^ 2 * (13658471 / 2 ^ 36 * r ^ 5 + 6005223 / 2 ^ 32 * r ^ 4
        + 1118497 / 2 ^ 27 * r ^ 3 + 11184577 / 2 ^ 28 * r ^ 2 + 5592405 / 2 ^ 25 * r
        + 1 / 2 ^ 1))| ≤ 1222 / 10 ^ 10 ∧
      |r - (binary32.toRat a - (K : ℚ) * (355 / 2 ^ 9) - (K : ℚ) * ((-14581891) / 2 ^ 36))|
        ≤ 4455 / 10 ^ 11 ∧
      |binary32.toRat a - (K : ℚ) * (355 / 2 ^ 9) - (K : ℚ) * ((-14581891) / 2 ^ 36)|
        ≤ 34659 / 10 ^ 5 := by
  obtain ⟨_, hc, _, _, _, k4, k5, k6, _, _⟩ := expf_lane_in_range a h1 h2
  obtain ⟨r1, r2, r3⟩ := expf_reduce_err a h1 h2
  obtain ⟨_, _, _, _, p5, p6⟩ := expf_pow2n_lane_spec _ k4 k5
  rw [expf_unsafe_lane_stages, hc, k6]
  generalize expf_pow2n_lane (Fmt.ofInt32 (expf_n_lane a)) = w at p5 p6 ⊢
  generalize expf_reduce_lane a (expf_kf_lane a) = r at r1 r2 r3 ⊢
  generalize expf_n_lane a = K at k4 k5 p6 r2 r3 ⊢
  have hρ : |binary32.toRat r| ≤ 3466 / 10 ^ 4 := by
    have := abs_sub_abs_le_abs_sub (binary32.toRat r)
      (binary32.toRat a - (K : ℚ) * (355 / 2 ^ 9) - (K : ℚ) * ((-14581891) / 2 ^ 36))
    have e : (34659 : ℚ) / 10 ^ 5 + 4455 / 10 ^ 11 ≤ 3466 / 10 ^ 4 := by norm_num
    linarith
  obtain ⟨y1, y2, y3⟩ := expf_poly_err r r1 hρ
  have hpq : generic.expf_poly (fun a b : ℚ => a * b) (fun a b => a + b)
        (binary32.toRat float_cephes_exp_p0.l0) (binary32.toRat float_cephes_exp_p1.l0)
        (binary32.toRat float_cephes_exp_p2.l0) (binary32.toRat float_cephes_exp_p3.l0)
        (binary32.toRat float_cephes_exp_p4.l0) (binary32.toRat float_cephes_exp_p5.l0)
        (binary32.toRat float_1.l0) (binary32.toRat r)
      = 1 + binary32.toRat r + binary32.toRat r ^ 2 * (13658471 / 2 ^ 36 * binary32.toRat r ^ 5
        + 6005223 / 2 ^ 32 * binary32.toRat r ^ 4 + 1118497 / 2 ^ 27 * binary32.toRat r ^ 3
        + 11184577 / 2 ^ 28 * binary32.toRat r ^ 2 + 5592405 / 2 ^ 25 * binary32.toRat r
        + 1 / 2 ^ 1) := by
    unfold generic.expf_poly
    simp only []
    rw [exp_p0_bits, exp_p1_bits, exp_p2_bits, exp_p3_bits, exp_p4_bits, exp_p5_bits,
      float_1_bits, exp_p0_val, exp_p1_val, exp_p2_val, exp_p3_val, exp_p4_val, exp_p5_val,
      float_1_val]
    ring
  rw [hpq] at y2 y3
  generalize generic.expf_poly binary32.mul binary32.add float_cephes_exp_p0.l0
    float_cephes_exp_p1.l0 float_cephes_exp_p2.l0 float_cephes_exp_p3.l0
    float_cephes_exp_p4.l0 float_cephes_exp_p5.l0 float_1.l0 r = y at y1 y2 y3 ⊢
  generalize hPv : 1 + binary32.toRat r + binary32.toRat r ^ 2 * (13658471 / 2 ^ 36 * binary32.toRat r ^ 5
        + 6005223 / 2 ^ 32 * binary32.toRat r ^ 4 + 1118497 / 2 ^ 27 * binary32.toRat r ^ 3
        + 11184577 / 2 ^ 28 * binary32.toRat r ^ 2 + 5592405 / 2 ^ 25 * binary32.toRat r
        + 1 / 2 ^ 1) = Pv at y2 y3
  have hTpos : (0 : ℚ) < (2 : ℚ) ^ K := zpow_pos (by norm_num) K
  have hT1 : (2 : ℚ) ^ K ≤ 2 ^ (127 : ℤ) := zpow_le_zpow_right₀ (by norm_num) k5
  have hy : |binary32.toRat y| ≤ 14152 / 10 ^ 4 := by
    have := abs_sub_abs_le_abs_sub (binary32.toRat y) Pv
    have e : (1415 : ℚ) / 10 ^ 3 + 1222 / 10 ^ 10 ≤ 14152 / 10 ^ 4 := by norm_num
    linarith
  have hyT : |binary32.toRat y * binary32.toRat w| ≤ 14152 / 10 ^ 4 * (2 : ℚ) ^ K := by
    rw [abs_mul, p6, abs_of_pos hTpos]
    exact mul_le_mul_of_nonneg_right hy hTpos.le
  obtain ⟨m1, m2⟩ := prec32.mul_raw y w y1 p5 (le_trans hyT (by
    have : (2 : ℚ) ^ (127 : ℤ) = 2 ^ 127 := by norm_num
    rw [this] at hT1
    have e : (14152 : ℚ) / 10 ^ 4 * 2 ^ 127 ≤ 3 * 2 ^ 126 := by norm_num
    have := mul_le_mul_of_nonneg_left hT1 (by norm_num : (0 : ℚ) ≤ 14152 / 10 ^ 4)
    linarith))
  rw [p6] at m2 hyT
  refine ⟨m1, K, binary32.toRat r, binary32.toRat y, k4, k5, ?_, by rw [hPv]; exact y2, r2, r3⟩
  refine le_trans m2 ?_
  have := mul_le_mul_of_nonneg_right hyT (by norm_num : (0 : ℚ) ≤ 1 / 2 ^ 24)
  linarith

/-- The analysis behind the accuracy of `sse2_expf_unsafe`, over the real numbers: from
the rounding errors of the stages to the distance from `exp x`. -/
theorem expf_core (X res Y ρ : ℝ) (K : ℤ) (k4 : -126 ≤ K) (k5 : K ≤ 127)
    (hres : |res - Y * 2 ^ K| ≤ 14152 / 10 ^ 4 * (2 : ℝ) ^ K * (1 / 2 ^ 24) + 1 / 2 ^ 150)
    (hY : |Y - (1 + ρ + ρ ^ 2 * (13658471 / 2 ^ 36 * ρ ^ 5 + 6005223 / 2 ^ 32 * ρ ^ 4
        + 1118497 / 2 ^ 27 * ρ ^ 3 + 11184577 / 2 ^ 28 * ρ ^ 2 + 5592405 / 2 ^ 25 * ρ
        + 1 / 2 ^ 1))| ≤ 1222 / 10 ^ 10)
    (hR : |ρ - (X - (K : ℝ) * (355 / 2 ^ 9) - (K : ℝ) * ((-14581891) / 2 ^ 36))|
        ≤ 4455 / 10 ^ 11)
    (hRm : |X - (K : ℝ) * (355 / 2 ^ 9) - (K : ℝ) * ((-14581891) / 2 ^ 36)|
        ≤ 34659 / 10 ^ 5) :
    |res - Real.exp X| ≤ 7 / 10 ^ 7 * Real.exp X := by
  have q4 : (-126 : ℝ) ≤ (K : ℝ) := by exact_mod_cast k4
  have q5 : (K : ℝ) ≤ 127 := by exact_mod_cast k5
  have hρr : |ρ| ≤ 3466 / 10 ^ 4 := by
    have := abs_sub_abs_le_abs_sub ρ
      (X - (K : ℝ) * (355 / 2 ^ 9) - (K : ℝ) * ((-14581891) / 2 ^ 36))
    have e : (34659 : ℝ) / 10 ^ 5 + 4455 / 10 ^ 11 ≤ 3466 / 10 ^ 4 := by norm_num
    linarith
  have hA := expf_poly_approx ρ hρr
  generalize 1 + ρ + ρ ^ 2 * (13658471 / 2 ^ 36 * ρ ^ 5 + 6005223 / 2 ^ 32 * ρ ^ 4
    + 1118497 / 2 ^ 27 * ρ ^ 3 + 11184577 / 2 ^ 28 * ρ ^ 2 + 5592405 / 2 ^ 25 * ρ
    + 1 / 2 ^ 1) = Pv at hY hA
  have hTr : (0 : ℝ) < (2 : ℝ) ^ K := zpow_pos (by norm_num) K
  have hTr2 : (1 : ℝ) / 2 ^ 126 ≤ (2 : ℝ) ^ K := by
    have h := zpow_le_zpow_right₀ (by norm_num : (1 : ℝ) ≤ 2) k4
    have e : (2 : ℝ) ^ (-126 : ℤ) = 1 / 2 ^ 126 := by
      rw [zpow_neg, one_div]
      norm_cast
    rw [e] at h
    exact h
  have hl1 := Real.log_two_gt_d9
  have hl2 := Real.log_two_lt_d9
  have hKabs : |(K : ℝ)| ≤ 127 := abs_le.2 ⟨by linarith, q5⟩
  have hδ : |Real.log 2 - (355 / 2 ^ 9 + (-14581891) / 2 ^ 36)| ≤ 26 / 10 ^ 11 := by
    rw [abs_le]
    constructor <;> norm_num at hl1 hl2 ⊢ <;> linarith
  have hKδ : |(K : ℝ) * (Real.log 2 - (355 / 2 ^ 9 + (-14581891) / 2 ^ 36))|
      ≤ 127 * (26 / 10 ^ 11) := by
    rw [abs_mul]
    exact mul_le_mul hKabs hδ (abs_nonneg _) (by norm_num)
  rw [exp_split X K]
  generalize hrs : X - (K : ℝ) * Real.log 2 = rs
  have e1 : X - (K : ℝ) * (355 / 2 ^ 9) - (K : ℝ) * ((-14581891) / 2 ^ 36)
      = rs + (K : ℝ) * (Real.log 2 - (355 / 2 ^ 9 + (-14581891) / 2 ^ 36)) := by
    rw [← hrs]; ring
  rw [e1] at hR hRm
  generalize (K : ℝ) * (Real.log 2 - (355 / 2 ^ 9 + (-14581891) / 2 ^ 36)) = κ
    at hKδ hR hRm
  have hκ := abs_le.1 hKδ
  have hR' := abs_le.1 hR
  have hRm' := abs_le.1 hRm
  have c1 : (127 : ℝ) * (26 / 10 ^ 11) + 4455 / 10 ^ 11 ≤ 8 / 10 ^ 8 := by norm_num
  have c2 : (34659 : ℝ) / 10 ^ 5 + 127 * (26 / 10 ^ 11) ≤ 3466 / 10 ^ 4 := by norm_num
  have hd : |ρ - rs| ≤ 8 / 10 ^ 8 := by
    rw [abs_le]
    constructor <;> linarith
  have hE : 6534 / 10 ^ 4 ≤ Real.exp rs := by
    have := Real.add_one_le_exp rs
    have c3 : (6534 : ℝ) / 10 ^ 4 = 1 - 3466 / 10 ^ 4 := by norm_num
    linarith
  have hsh := exp_shift ρ rs (le_trans hd (by norm_num))
  have hsh' : |Real.exp ρ - Real.exp rs| ≤ 2 * (8 / 10 ^ 8) * Real.exp rs :=
    le_trans hsh (mul_le_mul_of_nonneg_right (by linarith) (Real.exp_pos rs).le)
  generalize Real.exp rs = E at hE hsh' ⊢
  generalize Real.exp ρ = Eρ at hA hsh'
  generalize (2 : ℝ) ^ K = T at hres hTr hTr2 ⊢
  clear hl1 hl2 hKabs hδ hKδ hκ hR' hRm' hR hRm hd hsh hρr e1 hrs c1 c2
  have hA' := abs_le.1 hA
  have hY' := abs_le.1 hY
  have hs' := abs_le.1 hsh'
  have hyE : |Y - E| ≤ 41 / 10 ^ 8 * E := by
    rw [abs_le]
    constructor <;> norm_num at hA' hY' hs' hE ⊢ <;> linarith
  have hTE : T * (6534 / 10 ^ 4) ≤ T * E := mul_le_mul_of_nonneg_left hE hTr.le
  have h3 : |Y * T - T * E| ≤ 41 / 10 ^ 8 * (T * E) := by
    have e : Y * T - T * E = (Y - E) * T := by ring
    rw [e, abs_mul, abs_of_pos hTr]
    have h5 : |Y - E| * T ≤ 41 / 10 ^ 8 * E * T := mul_le_mul_of_nonneg_right hyE hTr.le
    linarith
  have h4 := abs_sub_le res (Y * T) (T * E)
  norm_num at hres hTr2 hTE h3 h4 ⊢
  linarith

/-- On a lane `a` with `MINLOGF ≤ a ≤ MAXLOGF` the lane of `sse2_expf_unsafe` is finite
and differs from `exp a` by at most `7e-7 * exp a`. -/
theorem expf_lane_accuracy (a : Nat) (h1 : binary32.le MINLOGF a)
    (h2 : binary32.le a MAXLOGF) :
    binary32.isFinite (expf_unsafe_lane a) ∧
    |((binary32.toRat (expf_unsafe_lane a) : ℚ) : ℝ)
        - Real.exp ((binary32.toRat a : ℚ) : ℝ)|
      ≤ 7 / 10 ^ 7 * Real.exp ((binary32.toRat a : ℚ) : ℝ) := by
  obtain ⟨hf, K, r, y, k4, k5, c1, c2, c3, c4⟩ := expf_lane_chain a h1 h2
  refine ⟨hf, ?_⟩
  have d1 := abs_le_cast _ _ c1
  have d2 := abs_le_cast _ _ c2
  have d3 := abs_le_cast _ _ c3
  have d4 := abs_le_cast _ _ c4
  push_cast at d1 d2 d3 d4
  exact expf_core _ _ _ _ K k4 k5 d1 d2 d3 d4


/-! ## The logarithm of two to seventeen digits -/

/-- Bounds on `log 2` from the Taylor sums of `exp`. -/
theorem log_two_d17 :
    (69314718055994530 / 10 ^ 17 : ℝ) < Real.log 2 ∧
    Real.log 2 < 69314718055994531 / 10 ^ 17 := by
  constructor
  · rw [Real.lt_log_iff_exp_lt (by norm_num)]
    have h := Real.exp_bound' (x := (69314718055994530 / 10 ^ 17 : ℝ)) (by norm_num)
      (by norm_num) (n := 20) (by norm_num)
    refine lt_of_le_of_lt h ?_
    simp only [Finset.sum_range_succ, Finset.sum_range_zero, Nat.factorial]
    norm_num
  · rw [Real.log_lt_iff_lt_exp (by norm_num)]
    have h := Real.sum_le_exp_of_nonneg (x := (69314718055994531 / 10 ^ 17 : ℝ))
      (by norm_num) 20
    refine lt_of_lt_of_le ?_ h
    simp only [Finset.sum_range_succ, Finset.sum_range_zero, Nat.factorial]
    norm_num


/-! ## The rational form of `sse2_exp_unsafe` against the exponential -/

/-- Taylor's polynomial of degree 13 is within `5e-18` of `exp` on `[-0.3467, 0.3467]`. -/
theorem exp_taylor13 (r : ℝ) (hr : |r| ≤ 3467 / 10 ^ 4) :
    |Real.exp r - (1 + r + r ^ 2 / 2 + r ^ 3 / 6 + r ^ 4 / 24 + r ^ 5 / 120 + r ^ 6 / 720 + r ^ 7 /
        5040 + r ^ 8 / 40320 + r ^ 9 / 362880 + r ^ 10 / 3628800 + r ^ 11 / 39916800 + r ^ 12 /
        479001600 + r ^ 13 / 6227020800)| ≤ 5 / 10 ^ 18 := by
  have h := Real.exp_bound (le_trans hr (by norm_num)) (by norm_num : 0 < 14)
  have hp : |r| ^ 14 ≤ (3467 / 10 ^ 4) ^ 14 := pow_le_pow_left₀ (abs_nonneg r) hr 14
  have hs : (∑ m ∈ Finset.range 14, r ^ m / (m.factorial : ℝ))
      = 1 + r + r ^ 2 / 2 + r ^ 3 / 6 + r ^ 4 / 24 + r ^ 5 / 120 + r ^ 6 / 720 + r ^ 7 / 5040 + r ^
          8 / 40320 + r ^ 9 / 362880 + r ^ 10 / 3628800 + r ^ 11 / 39916800 + r ^ 12 / 479001600 + r
          ^ 13 / 6227020800 := by
    simp only [Finset.sum_range_succ, Finset.sum_range_zero, Nat.factorial]
    norm_num
  rw [hs] at h
  refine le_trans h ?_
  have hc : (0 : ℝ) ≤ ((14 : ℕ).succ : ℝ) / (((14 : ℕ).factorial : ℝ) * (14 : ℕ)) := by positivity
  refine le_trans (mul_le_mul_of_nonneg_right hp hc) ?_
  simp only [Nat.factorial]
  norm_num

/-- The numerator and denominator of the rational form of `sse2_exp_unsafe`, with the
values of the coefficients `P` and `Q`, against Taylor's polynomial: for `|r| ≤ 0.3467`
the denominator `Q(r^2) - r P(r^2)` lies in `[1.65, 2.38]` and
`(Q(r^2) + r P(r^2)) - T(r) (Q(r^2) - r P(r^2))` is at most `3.7e-17` in magnitude. -/
theorem exp_rational_parts (r : ℝ) (hr : |r| ≤ 3467 / 10 ^ 4) :
    165 / 10 ^ 2 ≤ (((221507399824125 / 2 ^ 66 * (r * r) + 90954100122331 / 2 ^ 55) * (r * r) +
        2047026076448797 / 2 ^ 53) * (r * r) + 2 - r * ((581889597147517 / 2 ^ 62 * (r * r) +
        4366609605269055 / 2 ^ 57) * (r * r) + 1)) ∧
    (((221507399824125 / 2 ^ 66 * (r * r) + 90954100122331 / 2 ^ 55) * (r * r) + 2047026076448797 /
        2 ^ 53) * (r * r) + 2 - r * ((581889597147517 / 2 ^ 62 * (r * r) + 4366609605269055 / 2 ^
        57) * (r * r) + 1)) ≤ 238 / 10 ^ 2 ∧
    |((((221507399824125 / 2 ^ 66 * (r * r) + 90954100122331 / 2 ^ 55) * (r * r) + 2047026076448797
        / 2 ^ 53) * (r * r) + 2 - r * ((581889597147517 / 2 ^ 62 * (r * r) + 4366609605269055 / 2 ^
        57) * (r * r) + 1)) + 2 * (r * ((581889597147517 / 2 ^ 62 * (r * r) + 4366609605269055 / 2 ^
        57) * (r * r) + 1)))
      - (1 + r + r ^ 2 / 2 + r ^ 3 / 6 + r ^ 4 / 24 + r ^ 5 / 120 + r ^ 6 / 720 + r ^ 7 / 5040 + r ^
          8 / 40320 + r ^ 9 / 362880 + r ^ 10 / 3628800 + r ^ 11 / 39916800 + r ^ 12 / 479001600 + r
          ^ 13 / 6227020800) * (((221507399824125 / 2 ^ 66 * (r * r) + 90954100122331 / 2 ^ 55) * (r
          * r) + 2047026076448797 / 2 ^ 53) * (r * r) + 2 - r * ((581889597147517 / 2 ^ 62 * (r * r)
          + 4366609605269055 / 2 ^ 57) * (r * r) + 1))| ≤ 37 / 10 ^ 18 := by
  have b : ∀ i : ℕ, -((3467 / 10 ^ 4 : ℝ) ^ i) ≤ r ^ i ∧ r ^ i ≤ (3467 / 10 ^ 4 : ℝ) ^ i := by
    intro i
    have : |r ^ i| ≤ (3467 / 10 ^ 4 : ℝ) ^ i := by
      rw [abs_pow]; exact pow_le_pow_left₀ (abs_nonneg r) hr i
    exact abs_le.1 this
  obtain ⟨l1, u1⟩ := abs_le.1 hr
  obtain ⟨l2, u2⟩ := b 2
  obtain ⟨l3, u3⟩ := b 3
  obtain ⟨l4, u4⟩ := b 4
  obtain ⟨l5, u5⟩ := b 5
  obtain ⟨l6, u6⟩ := b 6
  obtain ⟨l7, u7⟩ := b 7
  obtain ⟨l8, u8⟩ := b 8
  obtain ⟨l9, u9⟩ := b 9
  obtain ⟨l10, u10⟩ := b 10
  obtain ⟨l11, u11⟩ := b 11
  obtain ⟨l12, u12⟩ := b 12
  obtain ⟨l13, u13⟩ := b 13
  obtain ⟨l14, u14⟩ := b 14
  obtain ⟨l15, u15⟩ := b 15
  obtain ⟨l16, u16⟩ := b 16
  obtain ⟨l17, u17⟩ := b 17
  obtain ⟨l18, u18⟩ := b 18
  obtain ⟨l19, u19⟩ := b 19
  obtain ⟨l20, u20⟩ := b 20
  clear b
  have n2 : 0 ≤ r ^ 2 := by positivity
  have n4 : 0 ≤ r ^ 4 := by positivity
  have n6 : 0 ≤ r ^ 6 := by positivity
  refine ⟨?_, ?_, ?_⟩
  · norm_num at l1 u1 l2 u2 l3 u3 l4 u4 l5 u5 l6 u6 l7 u7 ⊢
    linarith
  · norm_num at l1 u1 l2 u2 l3 u3 l4 u4 l5 u5 l6 u6 l7 u7 ⊢
    linarith
  · rw [abs_le]
    norm_num at l1 u1 l2 u2 l3 u3 l4 u4 l5 u5 l6 u6 l7 u7 l8 u8 l9 u9 l10 u10 ⊢
    norm_num at l11 u11 l12 u12 l13 u13 l14 u14 l15 u15 l16 u16 l17 u17 l18 u18 l19 u19 l20 u20
    constructor <;> linarith


/-! ## The integer `k` and the power of two of `sse2_exp_unsafe` -/

theorem half64_bits : binary64.lit 0 5 10 = 0x3fe0000000000000 := by decide!

theorem half64_val : binary64.toRat 0x3fe0000000000000 = 1 / 2 ^ 1 :=
  Fmt.toRat_of_sval _ _ 1 1073 1 (by decide!) (by decide)

theorem one64_bits : binary64.lit 0 1 1 = 0x3ff0000000000000 := by decide!

/-- Rounding conversion of a finite lane that holds an integer in range. -/
theorem Fmt.cvt2dq_of_int (f : Fmt) (a : Nat) (K : ℤ) (hf : f.isFinite a)
    (hv : f.toRat a = K) (h1 : -(2 ^ 31) ≤ K) (h2 : K < 2 ^ 31) :
    f.cvt2dq a = Fmt.ofInt32 K := by
  have hn := f.cvt2dq_nearest a
  rw [hv] at hn
  have hK : IsNearestEven (K : ℚ) K := by
    unfold IsNearestEven
    left
    simp
  have e := IsNearestEven.unique _ _ _ hn hK
  unfold Fmt.cvt2dq
  simp only []
  rw [if_pos hf, e, fitInt32_of_range _ h1 h2]

/-- The power of two that `sse2_exp_unsafe` multiplies by, for a lane `px` that holds the
integer `-1022 ≤ k ≤ 1023`: the normal double `2 ^ k`. -/
theorem exp_pow2_lane_spec (px : Nat) (K : ℤ) (hf : binary64.isFinite px)
    (hv : binary64.toRat px = K) (h1 : -1022 ≤ K) (h2 : K ≤ 1023) :
    binary64.isFinite (exp_pow2_lane px) ∧ binary64.toRat (exp_pow2_lane px) = (2 : ℚ) ^ K := by
  have hc := binary64.cvt2dq_of_int px K hf hv (by omega) (by omega)
  have hl : exp_pow2_lane px = (K + 1023).toNat * 2 ^ 52 := by
    simp only [exp_pow2_lane, pow2_unsafe, cvtpd2dq, vec_splat2, vec_splat, paddd, unpcklps,
      psllqi128, Vec2.toVec4, Vec4.toVec2, Vec4.map2, Vec2.map, hc, Nat.zero_mod,
      Nat.zero_div]
    exact pow2_unsafe_lane K 0 rfl h1 h2
  obtain ⟨p1, p2, p3, p4⟩ := binary64.pow2_pattern (K + 1023).toNat (by decide) (by omega)
    (by have : (2 : Nat) ^ binary64.eb = 2048 := by decide
        omega)
  have hmb : binary64.mb = 52 := rfl
  rw [hmb] at p1 p2 p3 p4
  rw [hl]
  refine ⟨?_, ?_⟩
  · have hE := p2
    unfold Fmt.expField at hE
    unfold Fmt.isFinite
    have hi : binary64.infMag = 2047 * 2 ^ 52 := by decide
    rw [hi]
    have : binary64.mag ((K + 1023).toNat * 2 ^ 52) / 2 ^ 52 < 2047 := by
      rw [hmb] at hE; rw [hE]; omega
    omega
  · have e : (((K + 1023).toNat : ℕ) : ℤ) - ((binary64.bias : ℕ) : ℤ) = K := by
      rw [bias64]; omega
    rw [p4, e]


set_option exponentiation.threshold 2000 in
/-- The integer `k` of `sse2_exp_unsafe` on a lane `a` with `MINLOG ≤ a ≤ MAXLOG`, for a
scalar `floor` that returns the mathematical floor of every finite double: `px` holds an
integer `-1022 ≤ k ≤ 1022` with `|LOG2E * a - k| ≤ 1/2 + 2.273e-13`, and the power of two
is the double `2 ^ k`. -/
theorem exp_lane_k (floor : Nat → Nat)
    (hfloor : ∀ b, binary64.isFinite b →
      binary64.isFinite (floor b) ∧ binary64.toRat (floor b) = (⌊binary64.toRat b⌋ : ℚ))
    (a : Nat) (h1 : binary64.le MINLOG a) (h2 : binary64.le a MAXLOG) :
    binary64.isFinite a ∧ |binary64.toRat a| ≤ 7084 / 10 ^ 1 ∧
    ∃ K : ℤ, -1022 ≤ K ∧ K ≤ 1022 ∧
      binary64.isFinite (exp_px_lane floor a) ∧
      binary64.toRat (exp_px_lane floor a) = (K : ℚ) ∧
      binary64.isFinite (exp_pow2_lane (exp_px_lane floor a)) ∧
      binary64.toRat (exp_pow2_lane (exp_px_lane floor a)) = (2 : ℚ) ^ K ∧
      (K : ℚ) - 1 / 2 - 2273 / 10 ^ 16 ≤ 3248660424278399 / 2 ^ 51 * binary64.toRat a ∧
      3248660424278399 / 2 ^ 51 * binary64.toRat a ≤ (K : ℚ) + 1 / 2 + 2273 / 10 ^ 16 := by
  have s1 : binary64.sval MINLOG ≤ binary64.sval a := h1.2.2
  have s2 : binary64.sval a ≤ binary64.sval MAXLOG := h2.2.2
  have hf : binary64.isFinite a :=
    binary64.finite_of_between std64 a _ _ (by decide!) (by decide!) s1 s2
  have t1 : (-3115560397004393 : ℚ) / 2 ^ 42 ≤ binary64.toRat a := by
    rw [← MINLOG_val, ← MINLOG_bits]; exact (binary64.toRat_le_iff _ _).2 s1
  have t2 : binary64.toRat a ≤ 3115560397004393 / 2 ^ 42 := by
    rw [← MAXLOG_val, ← MAXLOG_bits]; exact (binary64.toRat_le_iff _ _).2 s2
  have hXb : |binary64.toRat a| ≤ 7084 / 10 ^ 1 := by
    rw [abs_le]; constructor <;> norm_num at t1 t2 ⊢ <;> linarith
  have hX : binary64.Near a (binary64.toRat a) 0 (7084 / 10 ^ 1) := ⟨hf, by simp, hXb⟩
  have hL : binary64.Near LOG2E (3248660424278399 / 2 ^ 51) 0 (14427 / 10 ^ 4) :=
    ⟨by decide!, by rw [LOG2E_bits, LOG2E_val]; simp, by
      rw [abs_le]; constructor <;> norm_num⟩
  have hH : binary64.Near (binary64.lit 0 5 10) (1 / 2 ^ 1) 0 (1 / 2) :=
    ⟨by decide!, by rw [half64_bits, half64_val]; simp, by
      rw [abs_le]; constructor <;> norm_num⟩
  have m1 := Fmt.Near.mul prec64 hL hX (1136 / 10 ^ 16) 1023
    (by norm_num) (by norm_num) (by norm_num)
  have fx := Fmt.Near.add prec64 m1 hH (2273 / 10 ^ 16) 1024
    (abs_add_le_of m1.2.2 hH.2.2 (by norm_num)) (by norm_num) (by norm_num)
  obtain ⟨g1, g2⟩ := hfloor _ fx.1
  have f1 := Int.floor_le (binary64.toRat
    (binary64.add (binary64.mul LOG2E a) (binary64.lit 0 5 10)))
  have f2 := Int.lt_floor_add_one (binary64.toRat
    (binary64.add (binary64.mul LOG2E a) (binary64.lit 0 5 10)))
  have f3 := abs_le.1 fx.2.1
  have hpx : exp_px_lane floor a
      = floor (binary64.add (binary64.mul LOG2E a) (binary64.lit 0 5 10)) := rfl
  rw [hpx]
  generalize floor (binary64.add (binary64.mul LOG2E a) (binary64.lit 0 5 10)) = px
    at g1 g2 ⊢
  generalize binary64.toRat
    (binary64.add (binary64.mul LOG2E a) (binary64.lit 0 5 10)) = F at f1 f2 f3 g2
  have k1 : (-1022 : ℤ) ≤ ⌊F⌋ := by
    apply Int.le_floor.2
    have f4 := f3.1
    norm_num at t1 t2 f4 ⊢
    linarith
  have k2 : ⌊F⌋ ≤ 1022 := by
    have : ⌊F⌋ < 1022 + 1 := by
      apply Int.floor_lt.2
      have f5 := f3.2
      norm_num at t1 t2 f5 ⊢
      linarith
    omega
  obtain ⟨w1, w2⟩ := exp_pow2_lane_spec px ⌊F⌋ g1 g2 k1 (by omega)
  generalize ⌊F⌋ = K at f1 f2 g2 k1 k2 w2
  obtain ⟨f4, f5⟩ := f3
  refine ⟨hf, hXb, K, k1, k2, g1, g2, w1, w2, ?_, ?_⟩
  · norm_num at f4 f5 ⊢
    linarith
  · norm_num at f4 f5 ⊢
    linarith


/-! ## Rounding errors of `sse2_exp_unsafe` -/

set_option exponentiation.threshold 2000 in
/-- The argument reduction of `sse2_exp_unsafe` for a lane `a` and a lane `px` that holds
the integer `k`, with `|LOG2E * a - k| ≤ 1/2 + 2.273e-13`: the reduced argument is finite
and within `7.874e-14` of `a - k * C1 - k * C2` (exact arithmetic on the values of the
constants), which is at most `0.34658` in magnitude. -/
theorem exp_reduce_err (px a : Nat) (K : ℤ) (hf : binary64.isFinite a)
    (hXb : |binary64.toRat a| ≤ 7084 / 10 ^ 1) (k1 : -1022 ≤ K) (k2 : K ≤ 1022)
    (g1 : binary64.isFinite px) (g2 : binary64.toRat px = (K : ℚ))
    (f1 : (K : ℚ) - 1 / 2 - 2273 / 10 ^ 16 ≤ 3248660424278399 / 2 ^ 51 * binary64.toRat a)
    (f2 : 3248660424278399 / 2 ^ 51 * binary64.toRat a ≤ (K : ℚ) + 1 / 2 + 2273 / 10 ^ 16) :
    binary64.Near (exp_reduce_lane px a)
      (binary64.toRat a - (K : ℚ) * (22713 / 2 ^ 15)
        - (K : ℚ) * (3373202482714085 / 2 ^ 71))
      (7874 / 10 ^ 17) (34658 / 10 ^ 5) := by
  have q1 : (-1022 : ℚ) ≤ (K : ℚ) := by exact_mod_cast k1
  have q2 : (K : ℚ) ≤ 1022 := by exact_mod_cast k2
  have hX : binary64.Near a (binary64.toRat a) 0 (7084 / 10 ^ 1) := ⟨hf, by simp, hXb⟩
  have hK : binary64.Near px (K : ℚ) 0 1022 :=
    ⟨g1, by rw [g2]; simp, by rw [abs_le]; constructor <;> linarith⟩
  have hC1 : binary64.Near C1 (22713 / 2 ^ 15) 0 (6932 / 10 ^ 4) :=
    ⟨by decide!, by rw [C1d_bits, C1d_val]; simp, by
      rw [abs_le]; constructor <;> norm_num⟩
  have hC2 : binary64.Near C2 (3373202482714085 / 2 ^ 71) 0 (1429 / 10 ^ 9) :=
    ⟨by decide!, by rw [C2d_bits, C2d_val]; simp, by
      rw [abs_le]; constructor <;> norm_num⟩
  generalize (K : ℚ) = k at *
  have hv1 : |binary64.toRat a - k * (22713 / 2 ^ 15)| ≤ 3481 / 10 ^ 4 := by
    rw [abs_le]
    constructor <;> norm_num at f1 f2 ⊢ <;> linarith
  have hv2 : |binary64.toRat a - k * (22713 / 2 ^ 15) - k * (3373202482714085 / 2 ^ 71)|
      ≤ 34658 / 10 ^ 5 := by
    rw [abs_le]
    constructor <;> norm_num at f1 f2 ⊢ <;> linarith
  have t1 := Fmt.Near.mul prec64 hK hC1 (7866 / 10 ^ 17) (7085 / 10 ^ 1)
    (by norm_num) (by norm_num) (by norm_num)
  have x1 := Fmt.Near.sub prec64 hX t1 (7870 / 10 ^ 17) (3481 / 10 ^ 4)
    hv1 (by norm_num) (by norm_num)
  have t2 := Fmt.Near.mul prec64 hK hC2 (1623 / 10 ^ 22) (1461 / 10 ^ 6)
    (by norm_num) (by norm_num) (by norm_num)
  have x2 := Fmt.Near.sub prec64 x1 t2 (7874 / 10 ^ 17) (34658 / 10 ^ 5)
    hv2 (by norm_num) (by norm_num)
  exact x2

set_option exponentiation.threshold 2000 in
/-- The approximation stage of `sse2_exp_unsafe` on binary64 arithmetic, for a finite
reduced argument `r` with `|r| ≤ 0.3467`: the result is finite and within `4.932e-16` of
`1 + 2v/w`, `v = r P(r^2)`, `w = Q(r^2) - v`, evaluated on `r` in exact arithmetic. -/
theorem exp_approx_err (r : Nat) (hf : binary64.isFinite r)
    (hb : |binary64.toRat r| ≤ 3467 / 10 ^ 4) :
    binary64.Near
      (generic.exp_approx binary64.mul binary64.add binary64.sub binary64.div 0
        (binary64.lit 0 1 1) P Q r)
      (1 + (binary64.toRat r * ((581889597147517 / 2 ^ 62 * (binary64.toRat r * binary64.toRat r) +
          4366609605269055 / 2 ^ 57) * (binary64.toRat r * binary64.toRat r) + 1)
          / (((221507399824125 / 2 ^ 66 * (binary64.toRat r * binary64.toRat r) + 90954100122331 / 2
              ^ 55) * (binary64.toRat r * binary64.toRat r) + 2047026076448797 / 2 ^ 53) *
              (binary64.toRat r * binary64.toRat r) + 2
            - binary64.toRat r * ((581889597147517 / 2 ^ 62 * (binary64.toRat r * binary64.toRat r)
                + 4366609605269055 / 2 ^ 57) * (binary64.toRat r * binary64.toRat r) + 1))
        + binary64.toRat r * ((581889597147517 / 2 ^ 62 * (binary64.toRat r * binary64.toRat r) +
            4366609605269055 / 2 ^ 57) * (binary64.toRat r * binary64.toRat r) + 1)
          / (((221507399824125 / 2 ^ 66 * (binary64.toRat r * binary64.toRat r) + 90954100122331 / 2
              ^ 55) * (binary64.toRat r * binary64.toRat r) + 2047026076448797 / 2 ^ 53) *
              (binary64.toRat r * binary64.toRat r) + 2
            - binary64.toRat r * ((581889597147517 / 2 ^ 62 * (binary64.toRat r * binary64.toRat r)
                + 4366609605269055 / 2 ^ 57) * (binary64.toRat r * binary64.toRat r) + 1))))
      (4932 / 10 ^ 19) (1422 / 10 ^ 3) := by
  have hr : binary64.Near r (binary64.toRat r) 0 (3467 / 10 ^ 4) := ⟨hf, by simp, hb⟩
  have p0 : binary64.Near 0x3f2089cdd5e44be8 (581889597147517 / 2 ^ 62) 0 (1262 / 10 ^ 7) :=
    ⟨by decide!, by rw [P0_val]; norm_num, by rw [abs_le]; constructor <;> norm_num⟩
  have p1 : binary64.Near 0x3f9f06d10cca2c7e (4366609605269055 / 2 ^ 57) 0 (3030 / 10 ^ 5) :=
    ⟨by decide!, by rw [P1_val]; norm_num, by rw [abs_le]; constructor <;> norm_num⟩
  have p2 : binary64.Near 0x3ff0000000000000 (1) 0 (1000 / 10 ^ 3) :=
    ⟨by decide!, by rw [P2_val]; norm_num, by rw [abs_le]; constructor <;> norm_num⟩
  have q0 : binary64.Near 0x3ec92eb6bc365fa0 (221507399824125 / 2 ^ 66) 0 (3002 / 10 ^ 9) :=
    ⟨by decide!, by rw [Q0_val]; norm_num, by rw [abs_le]; constructor <;> norm_num⟩
  have q1 : binary64.Near 0x3f64ae39b508b6c0 (90954100122331 / 2 ^ 55) 0 (2525 / 10 ^ 6) :=
    ⟨by decide!, by rw [Q1_val]; norm_num, by rw [abs_le]; constructor <;> norm_num⟩
  have q2 : binary64.Near 0x3fcd17099887e074 (2047026076448797 / 2 ^ 53) 0 (2273 / 10 ^ 4) :=
    ⟨by decide!, by rw [Q2_val]; norm_num, by rw [abs_le]; constructor <;> norm_num⟩
  have q3 : binary64.Near 0x4000000000000000 (2) 0 (2000 / 10 ^ 3) :=
    ⟨by decide!, by rw [Q3_val]; norm_num, by rw [abs_le]; constructor <;> norm_num⟩
  have one : binary64.Near 0x3ff0000000000000 (1) 0 1 :=
    ⟨by decide!, by rw [P2_val]; norm_num, by rw [abs_le]; constructor <;> norm_num⟩
  have xx := Fmt.Near.mul prec64 hr hr (1336 / 10 ^ 20) (1203 / 10 ^ 4)
    (by norm_num) (by norm_num) (by norm_num)
  have a1 := Fmt.Near.mul prec64 p0 xx (3373 / 10 ^ 24) (1519 / 10 ^ 8)
    (by norm_num) (by norm_num) (by norm_num)
  have a2 := Fmt.Near.add prec64 a1 p1 (3370 / 10 ^ 21) (3032 / 10 ^ 5)
    (abs_add_le_of a1.2.2 p1.2.2 (by norm_num)) (by norm_num) (by norm_num)
  have a3 := Fmt.Near.mul prec64 a2 xx (1216 / 10 ^ 21) (3648 / 10 ^ 6)
    (by norm_num) (by norm_num) (by norm_num)
  have pv := Fmt.Near.add prec64 a3 p2 (1127 / 10 ^ 19) (1004 / 10 ^ 3)
    (abs_add_le_of a3.2.2 p2.2.2 (by norm_num)) (by norm_num) (by norm_num)
  have v := Fmt.Near.mul prec64 hr pv (7772 / 10 ^ 20) (3481 / 10 ^ 4)
    (by norm_num) (by norm_num) (by norm_num)
  have b1 := Fmt.Near.mul prec64 q0 xx (8021 / 10 ^ 26) (3612 / 10 ^ 10)
    (by norm_num) (by norm_num) (by norm_num)
  have b2 := Fmt.Near.add prec64 b1 q1 (2806 / 10 ^ 22) (2526 / 10 ^ 6)
    (abs_add_le_of b1.2.2 q1.2.2 (by norm_num)) (by norm_num) (by norm_num)
  have b3 := Fmt.Near.mul prec64 b2 xx (1013 / 10 ^ 22) (3039 / 10 ^ 7)
    (by norm_num) (by norm_num) (by norm_num)
  have b4 := Fmt.Near.add prec64 b3 q2 (2539 / 10 ^ 20) (2277 / 10 ^ 4)
    (abs_add_le_of b3.2.2 q2.2.2 (by norm_num)) (by norm_num) (by norm_num)
  have b5 := Fmt.Near.mul prec64 b4 xx (9139 / 10 ^ 21) (2740 / 10 ^ 5)
    (by norm_num) (by norm_num) (by norm_num)
  have qv := Fmt.Near.add prec64 b5 q3 (2343 / 10 ^ 19) (2028 / 10 ^ 3)
    (abs_add_le_of b5.2.2 q3.2.2 (by norm_num)) (by norm_num) (by norm_num)
  have w := Fmt.Near.sub prec64 qv v (5760 / 10 ^ 19) (2377 / 10 ^ 3)
    (abs_sub_le_of qv.2.2 v.2.2 (by norm_num)) (by norm_num) (by norm_num)
  have hq2 : 2 ≤ ((221507399824125 / 2 ^ 66 * (binary64.toRat r * binary64.toRat r) + 90954100122331
      / 2 ^ 55) * (binary64.toRat r * binary64.toRat r) + 2047026076448797 / 2 ^ 53) *
      (binary64.toRat r * binary64.toRat r) + 2 := by
    have ht : 0 ≤ binary64.toRat r * binary64.toRat r := mul_self_nonneg _
    generalize binary64.toRat r * binary64.toRat r = t at ht
    have : 0 ≤ ((221507399824125 / 2 ^ 66 * t + 90954100122331 / 2 ^ 55) * t + 2047026076448797 / 2
        ^ 53) * t := by positivity
    linarith
  have hl : (33 : ℚ) / 20 ≤ |((221507399824125 / 2 ^ 66 * (binary64.toRat r * binary64.toRat r) +
      90954100122331 / 2 ^ 55) * (binary64.toRat r * binary64.toRat r) + 2047026076448797 / 2 ^ 53)
      * (binary64.toRat r * binary64.toRat r) + 2 - binary64.toRat r * ((581889597147517 / 2 ^ 62 *
      (binary64.toRat r * binary64.toRat r) + 4366609605269055 / 2 ^ 57) * (binary64.toRat r *
      binary64.toRat r) + 1)| := by
    have hv := abs_le.1 v.2.2
    refine le_trans ?_ (le_abs_self _)
    norm_num at hv ⊢
    linarith
  have q := Fmt.Near.div prec64 v w (1442 / 10 ^ 19) (2110 / 10 ^ 4) (33 / 20)
    hl (by norm_num) (by norm_num) (by norm_num) (by norm_num)
  have s := Fmt.Near.add prec64 q q (3353 / 10 ^ 19) (4220 / 10 ^ 4)
    (abs_add_le_of q.2.2 q.2.2 (by norm_num)) (by norm_num) (by norm_num)
  have y := Fmt.Near.add prec64 one s (4932 / 10 ^ 19) (1422 / 10 ^ 3)
    (abs_add_le_of one.2.2 s.2.2 (by norm_num)) (by norm_num) (by norm_num)
  simp only [generic.exp_approx, generic.polevl, generic.polevl_loop, P_bits, Q_bits,
    List.getD_cons_zero, List.getD_cons_succ, one64_bits]
  exact y


/-! ## Accuracy of `sse2_exp_unsafe` on the safe domain -/

set_option exponentiation.threshold 2000 in
/-- The rounding errors of `sse2_exp_unsafe` on a lane `a` with `MINLOG ≤ a ≤ MAXLOG`,
for a scalar `floor` that returns the mathematical floor: with `k` the integer the
routine derives, `r` the reduced argument and `y` the value of the approximation stage as
the routine holds them, the lane of the result is finite and is `y * 2 ^ k` up to one
rounding, `y` is within `4.932e-16` of the rational form at `r`, and `r` is within
`7.874e-14` of `a - k * C1 - k * C2`. -/
theorem exp_lane_chain (floor : Nat → Nat)
    (hfloor : ∀ b, binary64.isFinite b →
      binary64.isFinite (floor b) ∧ binary64.toRat (floor b) = (⌊binary64.toRat b⌋ : ℚ))
    (a : Nat) (h1 : binary64.le MINLOG a) (h2 : binary64.le a MAXLOG) :
    binary64.isFinite (exp_unsafe_lane floor a) ∧
    ∃ (K : ℤ) (r y : ℚ), -1022 ≤ K ∧ K ≤ 1022 ∧
      |binary64.toRat (exp_unsafe_lane floor a) - y * 2 ^ K|
        ≤ 14221 / 10 ^ 4 * (2 : ℚ) ^ K * (1 / 2 ^ 53) + 1 / 2 ^ 1075 ∧
      |y - (1 + (r * ((581889597147517 / 2 ^ 62 * (r * r) + 4366609605269055 / 2 ^ 57) * (r * r) +
          1)
          / (((221507399824125 / 2 ^ 66 * (r * r) + 90954100122331 / 2 ^ 55) * (r * r) +
              2047026076448797 / 2 ^ 53) * (r * r) + 2 - r * ((581889597147517 / 2 ^ 62 * (r * r) +
              4366609605269055 / 2 ^ 57) * (r * r) + 1))
        + r * ((581889597147517 / 2 ^ 62 * (r * r) + 4366609605269055 / 2 ^ 57) * (r * r) + 1)
          / (((221507399824125 / 2 ^ 66 * (r * r) + 90954100122331 / 2 ^ 55) * (r * r) +
              2047026076448797 / 2 ^ 53) * (r * r) + 2 - r * ((581889597147517 / 2 ^ 62 * (r * r) +
              4366609605269055 / 2 ^ 57) * (r * r) + 1))))| ≤ 4932 / 10 ^ 19 ∧
      |r - (binary64.toRat a - (K : ℚ) * (22713 / 2 ^ 15)
          - (K : ℚ) * (3373202482714085 / 2 ^ 71))| ≤ 7874 / 10 ^ 17 ∧
      |binary64.toRat a - (K : ℚ) * (22713 / 2 ^ 15)
          - (K : ℚ) * (3373202482714085 / 2 ^ 71)| ≤ 34658 / 10 ^ 5 := by
  obtain ⟨hf, hXb, K, k1, k2, g1, g2, p5, p6, f1, f2⟩ := exp_lane_k floor hfloor a h1 h2
  obtain ⟨r1, r2, r3⟩ := exp_reduce_err _ a K hf hXb k1 k2 g1 g2 f1 f2
  rw [exp_unsafe_lane_stages]
  generalize exp_pow2_lane (exp_px_lane floor a) = w at p5 p6 ⊢
  generalize exp_reduce_lane (exp_px_lane floor a) a = r at r1 r2 r3 ⊢
  have hρ : |binary64.toRat r| ≤ 3467 / 10 ^ 4 := by
    have := abs_sub_abs_le_abs_sub (binary64.toRat r)
      (binary64.toRat a - (K : ℚ) * (22713 / 2 ^ 15)
        - (K : ℚ) * (3373202482714085 / 2 ^ 71))
    have e : (34658 : ℚ) / 10 ^ 5 + 7874 / 10 ^ 17 ≤ 3467 / 10 ^ 4 := by norm_num
    linarith
  obtain ⟨y1, y2, y3⟩ := exp_approx_err r r1 hρ
  generalize generic.exp_approx binary64.mul binary64.add binary64.sub binary64.div 0
    (binary64.lit 0 1 1) P Q r = y at y1 y2 y3 ⊢
  generalize hPv : (1 + (binary64.toRat r * ((581889597147517 / 2 ^ 62 * (binary64.toRat r *
      binary64.toRat r) + 4366609605269055 / 2 ^ 57) * (binary64.toRat r * binary64.toRat r) + 1)
          / (((221507399824125 / 2 ^ 66 * (binary64.toRat r * binary64.toRat r) + 90954100122331 / 2
              ^ 55) * (binary64.toRat r * binary64.toRat r) + 2047026076448797 / 2 ^ 53) *
              (binary64.toRat r * binary64.toRat r) + 2 - binary64.toRat r * ((581889597147517 / 2 ^
              62 * (binary64.toRat r * binary64.toRat r) + 4366609605269055 / 2 ^ 57) *
              (binary64.toRat r * binary64.toRat r) + 1))
        + binary64.toRat r * ((581889597147517 / 2 ^ 62 * (binary64.toRat r * binary64.toRat r) +
            4366609605269055 / 2 ^ 57) * (binary64.toRat r * binary64.toRat r) + 1)
          / (((221507399824125 / 2 ^ 66 * (binary64.toRat r * binary64.toRat r) + 90954100122331 / 2
              ^ 55) * (binary64.toRat r * binary64.toRat r) + 2047026076448797 / 2 ^ 53) *
              (binary64.toRat r * binary64.toRat r) + 2 - binary64.toRat r * ((581889597147517 / 2 ^
              62 * (binary64.toRat r * binary64.toRat r) + 4366609605269055 / 2 ^ 57) *
              (binary64.toRat r * binary64.toRat r) + 1)))) = Pv at y2 y3
  have hTpos : (0 : ℚ) < (2 : ℚ) ^ K := zpow_pos (by norm_num) K
  have hT1 : (2 : ℚ) ^ K ≤ 2 ^ (1022 : ℤ) := zpow_le_zpow_right₀ (by norm_num) k2
  have hy : |binary64.toRat y| ≤ 14221 / 10 ^ 4 := by
    have := abs_sub_abs_le_abs_sub (binary64.toRat y) Pv
    have e : (1422 : ℚ) / 10 ^ 3 + 4932 / 10 ^ 19 ≤ 14221 / 10 ^ 4 := by norm_num
    linarith
  have hyT : |binary64.toRat y * binary64.toRat w| ≤ 14221 / 10 ^ 4 * (2 : ℚ) ^ K := by
    rw [abs_mul, p6, abs_of_pos hTpos]
    exact mul_le_mul_of_nonneg_right hy hTpos.le
  obtain ⟨m1, m2⟩ := prec64.mul_raw y w y1 p5 (le_trans hyT (by
    have : (2 : ℚ) ^ (1022 : ℤ) = 2 ^ 1022 := by norm_cast
    rw [this] at hT1
    have e : (14221 : ℚ) / 10 ^ 4 * 2 ^ 1022 ≤ 2 ^ 1023 := by norm_num
    have := mul_le_mul_of_nonneg_left hT1 (by norm_num : (0 : ℚ) ≤ 14221 / 10 ^ 4)
    linarith))
  rw [p6] at m2 hyT
  refine ⟨m1, K, binary64.toRat r, binary64.toRat y, k1, k2, ?_, by rw [hPv]; exact y2,
    r2, r3⟩
  refine le_trans m2 ?_
  have := mul_le_mul_of_nonneg_right hyT (by norm_num : (0 : ℚ) ≤ 1 / 2 ^ 53)
  linarith

/-- The rational form of `sse2_exp_unsafe`, with the values of the coefficients `P` and
`Q`, is within `3e-17` of `exp` on `[-0.3467, 0.3467]`. -/
theorem exp_rational_approx (r : ℝ) (hr : |r| ≤ 3467 / 10 ^ 4) :
    |(1 + (r * ((581889597147517 / 2 ^ 62 * (r * r) + 4366609605269055 / 2 ^ 57) * (r * r) + 1)
          / (((221507399824125 / 2 ^ 66 * (r * r) + 90954100122331 / 2 ^ 55) * (r * r) +
              2047026076448797 / 2 ^ 53) * (r * r) + 2 - r * ((581889597147517 / 2 ^ 62 * (r * r) +
              4366609605269055 / 2 ^ 57) * (r * r) + 1))
        + r * ((581889597147517 / 2 ^ 62 * (r * r) + 4366609605269055 / 2 ^ 57) * (r * r) + 1)
          / (((221507399824125 / 2 ^ 66 * (r * r) + 90954100122331 / 2 ^ 55) * (r * r) +
              2047026076448797 / 2 ^ 53) * (r * r) + 2 - r * ((581889597147517 / 2 ^ 62 * (r * r) +
              4366609605269055 / 2 ^ 57) * (r * r) + 1)))) - Real.exp r| ≤ 3 / 10 ^ 17 := by
  obtain ⟨w1, w2, g⟩ := exp_rational_parts r hr
  have ht := exp_taylor13 r hr
  generalize 1 + r + r ^ 2 / 2 + r ^ 3 / 6 + r ^ 4 / 24 + r ^ 5 / 120 + r ^ 6 / 720 + r ^ 7 / 5040 +
      r ^ 8 / 40320 + r ^ 9 / 362880 + r ^ 10 / 3628800 + r ^ 11 / 39916800 + r ^ 12 / 479001600 + r
      ^ 13 / 6227020800 = Tp at g ht
  generalize ((221507399824125 / 2 ^ 66 * (r * r) + 90954100122331 / 2 ^ 55) * (r * r) +
      2047026076448797 / 2 ^ 53) * (r * r) + 2 = Qv at w1 w2 g ⊢
  generalize r * ((581889597147517 / 2 ^ 62 * (r * r) + 4366609605269055 / 2 ^ 57) * (r * r) + 1) =
      Vv at w1 w2 g ⊢
  generalize Real.exp r = Er at ht ⊢
  have hW : (0 : ℝ) < Qv - Vv := by linarith
  have e : 1 + (Vv / (Qv - Vv) + Vv / (Qv - Vv)) - Er
      = (((Qv - Vv) + 2 * Vv - Tp * (Qv - Vv)) - (Er - Tp) * (Qv - Vv)) / (Qv - Vv) := by
    field_simp
    ring
  rw [e, abs_div, abs_of_pos hW, div_le_iff₀ hW]
  have h3 : |(Er - Tp) * (Qv - Vv)| ≤ 5 / 10 ^ 18 * (238 / 10 ^ 2) := by
    rw [abs_mul, abs_of_pos hW]
    exact mul_le_mul ht w2 hW.le (by norm_num)
  have h4 := abs_sub ((Qv - Vv) + 2 * Vv - Tp * (Qv - Vv)) ((Er - Tp) * (Qv - Vv))
  norm_num at g h3 w1 ⊢
  linarith


set_option exponentiation.threshold 2000 in
/-- The analysis behind the accuracy of `sse2_exp_unsafe`, over the real numbers: from
the rounding errors of the stages to the distance from `exp x`. -/
theorem exp_core (X res Y ρ : ℝ) (K : ℤ) (k4 : -1022 ≤ K) (k5 : K ≤ 1022)
    (hres : |res - Y * 2 ^ K| ≤ 14221 / 10 ^ 4 * (2 : ℝ) ^ K * (1 / 2 ^ 53) + 1 / 2 ^ 1075)
    (hY : |Y - (1 + (ρ * ((581889597147517 / 2 ^ 62 * (ρ * ρ) + 4366609605269055 / 2 ^ 57) * (ρ * ρ)
        + 1)
          / (((221507399824125 / 2 ^ 66 * (ρ * ρ) + 90954100122331 / 2 ^ 55) * (ρ * ρ) +
              2047026076448797 / 2 ^ 53) * (ρ * ρ) + 2 - ρ * ((581889597147517 / 2 ^ 62 * (ρ * ρ) +
              4366609605269055 / 2 ^ 57) * (ρ * ρ) + 1))
        + ρ * ((581889597147517 / 2 ^ 62 * (ρ * ρ) + 4366609605269055 / 2 ^ 57) * (ρ * ρ) + 1)
          / (((221507399824125 / 2 ^ 66 * (ρ * ρ) + 90954100122331 / 2 ^ 55) * (ρ * ρ) +
              2047026076448797 / 2 ^ 53) * (ρ * ρ) + 2 - ρ * ((581889597147517 / 2 ^ 62 * (ρ * ρ) +
              4366609605269055 / 2 ^ 57) * (ρ * ρ) + 1))))| ≤ 4932 / 10 ^ 19)
    (hR : |ρ - (X - (K : ℝ) * (22713 / 2 ^ 15) - (K : ℝ) * (3373202482714085 / 2 ^ 71))|
        ≤ 7874 / 10 ^ 17)
    (hRm : |X - (K : ℝ) * (22713 / 2 ^ 15) - (K : ℝ) * (3373202482714085 / 2 ^ 71)|
        ≤ 34658 / 10 ^ 5) :
    |res - Real.exp X| ≤ 2 / 10 ^ 13 * Real.exp X := by
  have q4 : (-1022 : ℝ) ≤ (K : ℝ) := by exact_mod_cast k4
  have q5 : (K : ℝ) ≤ 1022 := by exact_mod_cast k5
  have hρr : |ρ| ≤ 3467 / 10 ^ 4 := by
    have := abs_sub_abs_le_abs_sub ρ
      (X - (K : ℝ) * (22713 / 2 ^ 15) - (K : ℝ) * (3373202482714085 / 2 ^ 71))
    have e : (34658 : ℝ) / 10 ^ 5 + 7874 / 10 ^ 17 ≤ 3467 / 10 ^ 4 := by norm_num
    linarith
  have hA := exp_rational_approx ρ hρr
  generalize (1 + (ρ * ((581889597147517 / 2 ^ 62 * (ρ * ρ) + 4366609605269055 / 2 ^ 57) * (ρ * ρ) +
      1)
          / (((221507399824125 / 2 ^ 66 * (ρ * ρ) + 90954100122331 / 2 ^ 55) * (ρ * ρ) +
              2047026076448797 / 2 ^ 53) * (ρ * ρ) + 2 - ρ * ((581889597147517 / 2 ^ 62 * (ρ * ρ) +
              4366609605269055 / 2 ^ 57) * (ρ * ρ) + 1))
        + ρ * ((581889597147517 / 2 ^ 62 * (ρ * ρ) + 4366609605269055 / 2 ^ 57) * (ρ * ρ) + 1)
          / (((221507399824125 / 2 ^ 66 * (ρ * ρ) + 90954100122331 / 2 ^ 55) * (ρ * ρ) +
              2047026076448797 / 2 ^ 53) * (ρ * ρ) + 2 - ρ * ((581889597147517 / 2 ^ 62 * (ρ * ρ) +
              4366609605269055 / 2 ^ 57) * (ρ * ρ) + 1)))) = Pv at hY hA
  have hTr : (0 : ℝ) < (2 : ℝ) ^ K := zpow_pos (by norm_num) K
  have hη : (1 : ℝ) / 2 ^ 1075 ≤ 1 / 2 ^ 53 * (2 : ℝ) ^ K := by
    have h := zpow_le_zpow_right₀ (by norm_num : (1 : ℝ) ≤ 2) k4
    have e : (2 : ℝ) ^ (-1022 : ℤ) = 1 / 2 ^ 1022 := by
      rw [zpow_neg, one_div]
      norm_cast
    rw [e] at h
    have e2 : (1 : ℝ) / 2 ^ 1075 = 1 / 2 ^ 53 * (1 / 2 ^ 1022) := by
      rw [one_div_mul_one_div, ← pow_add]
    rw [e2]
    exact mul_le_mul_of_nonneg_left h (by positivity)
  generalize (1 : ℝ) / 2 ^ 1075 = η at hres hη
  obtain ⟨hl1, hl2⟩ := log_two_d17
  have hKabs : |(K : ℝ)| ≤ 1022 := abs_le.2 ⟨by linarith, q5⟩
  have hδ : |Real.log 2 - (22713 / 2 ^ 15 + 3373202482714085 / 2 ^ 71)| ≤ 95 / 10 ^ 19 := by
    rw [abs_le]
    constructor <;> norm_num at hl1 hl2 ⊢ <;> linarith
  have hKδ : |(K : ℝ) * (Real.log 2 - (22713 / 2 ^ 15 + 3373202482714085 / 2 ^ 71))|
      ≤ 1022 * (95 / 10 ^ 19) := by
    rw [abs_mul]
    exact mul_le_mul hKabs hδ (abs_nonneg _) (by norm_num)
  rw [exp_split X K]
  generalize hrs : X - (K : ℝ) * Real.log 2 = rs
  have e1 : X - (K : ℝ) * (22713 / 2 ^ 15) - (K : ℝ) * (3373202482714085 / 2 ^ 71)
      = rs + (K : ℝ) * (Real.log 2 - (22713 / 2 ^ 15 + 3373202482714085 / 2 ^ 71)) := by
    rw [← hrs]; ring
  rw [e1] at hR hRm
  generalize (K : ℝ) * (Real.log 2 - (22713 / 2 ^ 15 + 3373202482714085 / 2 ^ 71)) = κ
    at hKδ hR hRm
  have hκ := abs_le.1 hKδ
  have hR' := abs_le.1 hR
  have hRm' := abs_le.1 hRm
  have c1 : (1022 : ℝ) * (95 / 10 ^ 19) + 7874 / 10 ^ 17 ≤ 9 / 10 ^ 14 := by norm_num
  have c2 : (34658 : ℝ) / 10 ^ 5 + 1022 * (95 / 10 ^ 19) ≤ 3467 / 10 ^ 4 := by norm_num
  have hd : |ρ - rs| ≤ 9 / 10 ^ 14 := by
    rw [abs_le]
    constructor <;> linarith
  have hE : 6533 / 10 ^ 4 ≤ Real.exp rs := by
    have := Real.add_one_le_exp rs
    have c3 : (6533 : ℝ) / 10 ^ 4 = 1 - 3467 / 10 ^ 4 := by norm_num
    linarith
  have hsh := exp_shift ρ rs (le_trans hd (by norm_num))
  have hsh' : |Real.exp ρ - Real.exp rs| ≤ 2 * (9 / 10 ^ 14) * Real.exp rs :=
    le_trans hsh (mul_le_mul_of_nonneg_right (by linarith) (Real.exp_pos rs).le)
  generalize Real.exp rs = E at hE hsh' ⊢
  generalize Real.exp ρ = Eρ at hA hsh'
  generalize (2 : ℝ) ^ K = T at hres hTr hη ⊢
  clear hl1 hl2 hKabs hδ hKδ hκ hR' hRm' hR hRm hd hsh hρr e1 hrs c1 c2
  have hA' := abs_le.1 hA
  have hY' := abs_le.1 hY
  have hs' := abs_le.1 hsh'
  have hyE : |Y - E| ≤ 181 / 10 ^ 15 * E := by
    rw [abs_le]
    constructor <;> norm_num at hA' hY' hs' hE ⊢ <;> linarith
  have hTE : T * (6533 / 10 ^ 4) ≤ T * E := mul_le_mul_of_nonneg_left hE hTr.le
  have h3 : |Y * T - T * E| ≤ 181 / 10 ^ 15 * (T * E) := by
    have e : Y * T - T * E = (Y - E) * T := by ring
    rw [e, abs_mul, abs_of_pos hTr]
    have h5 : |Y - E| * T ≤ 181 / 10 ^ 15 * E * T := mul_le_mul_of_nonneg_right hyE hTr.le
    linarith
  have h4 := abs_sub_le res (Y * T) (T * E)
  norm_num at hres hη hTE h3 h4 ⊢
  linarith

/-- On a lane `a` with `MINLOG ≤ a ≤ MAXLOG`, and for a scalar `floor` that returns the
mathematical floor of every finite double, the lane of `sse2_exp_unsafe` is finite and
differs from `exp a` by at most `2e-13 * exp a`. -/
theorem exp_lane_accuracy (floor : Nat → Nat)
    (hfloor : ∀ b, binary64.isFinite b →
      binary64.isFinite (floor b) ∧ binary64.toRat (floor b) = (⌊binary64.toRat b⌋ : ℚ))
    (a : Nat) (h1 : binary64.le MINLOG a) (h2 : binary64.le a MAXLOG) :
    binary64.isFinite (exp_unsafe_lane floor a) ∧
    |((binary64.toRat (exp_unsafe_lane floor a) : ℚ) : ℝ)
        - Real.exp ((binary64.toRat a : ℚ) : ℝ)|
      ≤ 2 / 10 ^ 13 * Real.exp ((binary64.toRat a : ℚ) : ℝ) := by
  obtain ⟨hf, K, r, y, k4, k5, c1, c2, c3, c4⟩ := exp_lane_chain floor hfloor a h1 h2
  refine ⟨hf, ?_⟩
  have d1 := abs_le_cast _ _ c1
  have d2 := abs_le_cast _ _ c2
  have d3 := abs_le_cast _ _ c3
  have d4 := abs_le_cast _ _ c4
  push_cast at d1 d2 d3 d4
  exact exp_core _ _ _ _ K k4 k5 d1 d2 d3 d4


/-! ## C5: the accuracy bound -/

/-- The model of the C library's `floor` returns the mathematical floor of every finite
double, zeros included. -/
theorem c_floor_floor (b : Nat) (hf : binary64.isFinite b) :
    binary64.isFinite (c_floor b) ∧
    binary64.toRat (c_floor b) = (⌊binary64.toRat b⌋ : ℚ) := by
  by_cases hz : binary64.isZero b
  · have e : c_floor b = b := by
      unfold c_floor
      rw [if_neg (binary64.not_nan_of_finite b hf), if_pos (Or.inr hz)]
    rw [e, binary64.toRat_of_isZero b hz]
    exact ⟨hf, by simp⟩
  · exact c_floor_spec b hf hz

/-- C5: for every float lane with `MINLOGF ≤ x ≤ MAXLOGF` (such a lane is finite) the
lane of `sse2_expf` is finite and its relative distance from `exp x`, the exponential of
the real number `x`, is below `1e-6`; and for every double lane with
`MINLOG ≤ x ≤ MAXLOG` the lane of `sse2_exp` is finite and its relative distance from
`exp x` is below `1e-12`, where the scalar `floor` the routine calls returns 64-bit lanes
and the mathematical floor of every finite double.  The same thresholds hold against
every reference value `s` that is itself within a relative `2.5e-7` (float) or `5e-13`
(double) of `exp x`, as the result of an accurate scalar routine is.  (The bounds proved
on the way are `7e-7` and `2e-13`.) -/
theorem C5_accuracy_bound (expf exp floor : Nat → Nat)
    (hw : ∀ b, b < 2 ^ 64 → floor b < 2 ^ 64)
    (hfloor : ∀ b, binary64.isFinite b →
      binary64.isFinite (floor b) ∧ binary64.toRat (floor b) = (⌊binary64.toRat b⌋ : ℚ)) :
    (∀ (x : v4sf) (i : Fin 4), x.get i < 2 ^ 32 →
      binary32.le MINLOGF (x.get i) → binary32.le (x.get i) MAXLOGF →
      binary32.isFinite ((sse2_expf expf x).get i) ∧
      |((binary32.toRat ((sse2_expf expf x).get i) : ℚ) : ℝ)
          - Real.exp ((binary32.toRat (x.get i) : ℚ) : ℝ)|
        / Real.exp ((binary32.toRat (x.get i) : ℚ) : ℝ) < 1 / 10 ^ 6 ∧
      ∀ s : ℝ, |s - Real.exp ((binary32.toRat (x.get i) : ℚ) : ℝ)|
          ≤ 25 / 10 ^ 8 * Real.exp ((binary32.toRat (x.get i) : ℚ) : ℝ) →
        |((binary32.toRat ((sse2_expf expf x).get i) : ℚ) : ℝ) - s| / s < 1 / 10 ^ 6) ∧
    (∀ (x : v2df) (i : Fin 2), x.get i < 2 ^ 64 →
      binary64.le MINLOG (x.get i) → binary64.le (x.get i) MAXLOG →
      binary64.isFinite ((sse2_exp exp floor x).get i) ∧
      |((binary64.toRat ((sse2_exp exp floor x).get i) : ℚ) : ℝ)
          - Real.exp ((binary64.toRat (x.get i) : ℚ) : ℝ)|
        / Real.exp ((binary64.toRat (x.get i) : ℚ) : ℝ) < 1 / 10 ^ 12 ∧
      ∀ s : ℝ, |s - Real.exp ((binary64.toRat (x.get i) : ℚ) : ℝ)|
          ≤ 5 / 10 ^ 13 * Real.exp ((binary64.toRat (x.get i) : ℚ) : ℝ) →
        |((binary64.toRat ((sse2_exp exp floor x).get i) : ℚ) : ℝ) - s| / s < 1 / 10 ^ 12) := by
  constructor
  · intro x i hx h1 h2
    have e : (sse2_expf expf x).get i = expf_unsafe_lane (x.get i) := by
      rw [sse2_expf_get, sse2_expf_unsafe_get]
      exact expf_sel_inr expf _ _ (expf_unsafe_lane_lt _ hx) h2.1 (not_oorf_of_le _ h1 h2)
    obtain ⟨a1, a2⟩ := expf_lane_accuracy (x.get i) h1 h2
    rw [e]
    have hp := Real.exp_pos ((binary32.toRat (x.get i) : ℚ) : ℝ)
    generalize Real.exp ((binary32.toRat (x.get i) : ℚ) : ℝ) = E at a2 hp ⊢
    generalize ((binary32.toRat (expf_unsafe_lane (x.get i)) : ℚ) : ℝ) = res at a2 ⊢
    refine ⟨a1, ?_, ?_⟩
    · rw [div_lt_iff₀ hp]
      linarith
    · intro s hs
      have hs1 := abs_le.1 hs
      have hsp : 0 < s := by linarith
      rw [div_lt_iff₀ hsp]
      have h4 := abs_sub_le res E s
      rw [abs_sub_comm E s] at h4
      linarith
  · intro x i hx h1 h2
    have e : (sse2_exp exp floor x).get i = exp_unsafe_lane floor (x.get i) := by
      rw [sse2_exp_get, sse2_exp_unsafe_get]
      exact exp_sel_inr exp _ _ (exp_unsafe_lane_lt floor hw _ hx) h2.1
        (not_oord_of_le _ h1 h2)
    obtain ⟨a1, a2⟩ := exp_lane_accuracy floor hfloor (x.get i) h1 h2
    rw [e]
    have hp := Real.exp_pos ((binary64.toRat (x.get i) : ℚ) : ℝ)
    generalize Real.exp ((binary64.toRat (x.get i) : ℚ) : ℝ) = E at a2 hp ⊢
    generalize ((binary64.toRat (exp_unsafe_lane floor (x.get i)) : ℚ) : ℝ) = res at a2 ⊢
    refine ⟨a1, ?_, ?_⟩
    · rw [div_lt_iff₀ hp]
      linarith
    · intro s hs
      have hs1 := abs_le.1 hs
      have hsp : 0 < s := by linarith
      rw [div_lt_iff₀ hsp]
      have h4 := abs_sub_le res E s
      rw [abs_sub_comm E s] at h4
      linarith

/-- C5 at `x = 1.0` in lane 0, for both precisions, with the model of the C library's
`floor`. -/
theorem C5_accuracy_bound_witness :
    (Vec4.get ⟨0x3f800000, 0, 0, 0⟩ 0 < 2 ^ 32 ∧
      binary32.le MINLOGF (Vec4.get ⟨0x3f800000, 0, 0, 0⟩ 0) ∧
      binary32.le (Vec4.get ⟨0x3f800000, 0, 0, 0⟩ 0) MAXLOGF ∧
      binary32.isFinite
        ((sse2_expf (exp_special v4sf.INFINITY) ⟨0x3f800000, 0, 0, 0⟩).get 0) ∧
      |((binary32.toRat
            ((sse2_expf (exp_special v4sf.INFINITY) ⟨0x3f800000, 0, 0, 0⟩).get 0) : ℚ) : ℝ)
          - Real.exp ((binary32.toRat (Vec4.get ⟨0x3f800000, 0, 0, 0⟩ 0) : ℚ) : ℝ)|
        / Real.exp ((binary32.toRat (Vec4.get ⟨0x3f800000, 0, 0, 0⟩ 0) : ℚ) : ℝ)
        < 1 / 10 ^ 6) ∧
    (Vec2.get ⟨0x3ff0000000000000, 0⟩ 0 < 2 ^ 64 ∧
      binary64.le MINLOG (Vec2.get ⟨0x3ff0000000000000, 0⟩ 0) ∧
      binary64.le (Vec2.get ⟨0x3ff0000000000000, 0⟩ 0) MAXLOG ∧
      binary64.isFinite
        ((sse2_exp (exp_special v2df.INFINITY) c_floor ⟨0x3ff0000000000000, 0⟩).get 0) ∧
      |((binary64.toRat
            ((sse2_exp (exp_special v2df.INFINITY) c_floor
              ⟨0x3ff0000000000000, 0⟩).get 0) : ℚ) : ℝ)
          - Real.exp ((binary64.toRat (Vec2.get ⟨0x3ff0000000000000, 0⟩ 0) : ℚ) : ℝ)|
        / Real.exp ((binary64.toRat (Vec2.get ⟨0x3ff0000000000000, 0⟩ 0) : ℚ) : ℝ)
        < 1 / 10 ^ 12) :=
  have hf := (C5_accuracy_bound (exp_special v4sf.INFINITY) (exp_special v2df.INFINITY)
    c_floor c_floor_lt c_floor_floor).1 ⟨0x3f800000, 0, 0, 0⟩ 0
    (by decide) (by decide!) (by decide!)
  have hd := (C5_accuracy_bound (exp_special v4sf.INFINITY) (exp_special v2df.INFINITY)
    c_floor c_floor_lt c_floor_floor).2 ⟨0x3ff0000000000000, 0⟩ 0
    (by decide) (by decide!) (by decide!)
  ⟨⟨by decide, by decide!, by decide!, hf.1, hf.2.1⟩,
    ⟨by decide, by decide!, by decide!, hd.1, hd.2.1⟩⟩



end SIMD
end ML
